import Mathlib

/-! # TraceTuner `mklut`: construction of the quality-value lookup table

A shallow embedding of `src/mklut/lut.c` (TraceTuner 3.0.6beta) and a
verification of its region-counting and greedy-partitioning core.

Conventions of the embedding.

* `double` values are exact rationals (`ℚ`); comparisons agree with the C
  comparisons on finite doubles.
* `unsigned long` counters are natural numbers; every arithmetic expression
  on them is reduced modulo `ULONG_MOD = 2 ^ 64`.
* `int` indices are integers (`ℤ`); loop counters that only run upwards from
  `0` are natural numbers.
* An array reached through a pointer is a function from offsets to values.
  The two rolling cubes take integer offsets, because `number_in_cut` forms
  corner addresses by pointer arithmetic before it checks the boundary.
* `exit(-1)` is the result `none`.
-/

namespace Lut

/-! ## Constants and data types -/

/-- The modulus of the C type `unsigned long` (64 bits). -/
def ULONG_MOD : ℕ := 2 ^ 64

/-- The constant `MIN_INCORRECT_COUNT` of `lut.c`. -/
def MIN_INCORRECT_COUNT : ℕ := 3

/-- Modelled from the spec: the constant `PARAMETER_COUNT` is declared in a
header that is not among the sources; the design is "specified for exactly
four" feature dimensions and `lut.c` says "ASSUMES: 4 parameters". -/
def PARAMETER_COUNT : ℕ := 4

/-- Modelled from the spec: the declaration of `PARAMETER` is in a header that
is not among the sources. A parameter "holds an ordered array of
`threshold_count` threshold values and a `dimension` stride"; only the fields
that the modelled functions of `lut.c` use are kept. -/
structure PARAMETER where
  threshold : ℕ → ℚ
  threshold_count : ℕ
  dimension : ℕ

/-- Modelled from the spec: the declaration of `BIN` (`lut.h`) is not among
the sources. A bin "holds `correct` and `incorrect` counters (unsigned)";
`lut.c` prints them with `%lu`. -/
structure BIN where
  correct : ℕ
  incorrect : ℕ
deriving DecidableEq

/-- Modelled from the spec: the declaration of `CUT` (`lut.h`) is not among
the sources. A region count is the cumulative correct/incorrect count of a
box of bins; `lut.c` prints the two fields with `%lu`. -/
structure CUT where
  correct : ℕ
  incorrect : ℕ
deriving DecidableEq

/-- Modelled from the spec: the declaration of `BASE` is in a header that is
not among the sources. An observation is "correct or incorrect, with four
continuous feature values"; `lut.c` reads `is_match` and `parameter[i]`. -/
structure BASE where
  is_match : ℚ
  parameter : ℕ → ℚ

/-- An array `int index[PARAMETER_COUNT]`, one field per element. -/
structure INDEX where
  i0 : ℤ
  i1 : ℤ
  i2 : ℤ
  i3 : ℤ
deriving DecidableEq

/-- An array `double parameter[PARAMETER_COUNT]`, one field per element. -/
structure THRESHOLDS where
  p0 : ℚ
  p1 : ℚ
  p2 : ℚ
  p3 : ℚ
deriving DecidableEq

/-- Modelled from the spec: the declaration of `HIGHEST_QV_CUT` (`lut.h`) is
not among the sources. The best cut of a pass holds "its index vector,
correct/incorrect/total counts, derived error rate and quality score, and the
sum of its indices"; the fields are those assigned in
`update_highest_qv_cut`. -/
structure HIGHEST_QV_CUT where
  sum_of_indices : ℤ
  index : INDEX
  correct_base_call_count : ℕ
  incorrect_base_call_count : ℕ
  total_base_call_count : ℕ
  error_rate : ℚ
  quality_value : ℤ
  parameter : THRESHOLDS
deriving DecidableEq

/-- Modelled from the spec: the enumeration `TIME` (`lut.h`) is not among the
sources; `get_cut` distinguishes the "current" and the "previous" slice. -/
inductive TIME where
  | CURRENT : TIME
  | PREVIOUS : TIME
deriving DecidableEq

/-- The object a `CUT *` is based on: the boundary sentinel of `INFO` or one
of the two rolling cubes. -/
inductive CUTBASE where
  | boundary_cut : CUTBASE
  | current_cube : CUTBASE
  | previous_cube : CUTBASE
deriving DecidableEq

/-- A value of type `CUT *`: a base object and an element offset from it. -/
structure CUTPTR where
  base : CUTBASE
  off : ℤ
deriving DecidableEq

/-- Pointer addition `p + n` on a `CUT *`. -/
def CUTPTR.add (p : CUTPTR) (n : ℤ) : CUTPTR := ⟨p.base, p.off + n⟩

/-- Pointer subtraction `p - n` on a `CUT *`. -/
def CUTPTR.sub (p : CUTPTR) (n : ℤ) : CUTPTR := ⟨p.base, p.off - n⟩

/-- Modelled from the spec: the declaration of `INFO` (`lut.h`) is not among
the sources. It bundles the parameters, the histogram, the sentinel
"boundary" region count and the two rolling slices ("current" and
"previous"); the fields are those used in `lut.c`. -/
structure INFO where
  parameter : ℕ → PARAMETER
  boundary_cut : CUT
  bin : ℕ → BIN
  previous_cube : ℤ → CUT
  current_cube : ℤ → CUT
  dimension0 : ℕ
  dimension1 : ℕ
  dimension2 : ℕ
  dimension3 : ℕ

/-- Reading `*p` for a `CUT *p`. -/
def INFO.load (info : INFO) (p : CUTPTR) : CUT :=
  match p.base with
  | CUTBASE.boundary_cut => info.boundary_cut
  | CUTBASE.current_cube => info.current_cube p.off
  | CUTBASE.previous_cube => info.previous_cube p.off

/-- Writing `*p = v` for a `CUT *p`. -/
def INFO.store (info : INFO) (p : CUTPTR) (v : CUT) : INFO :=
  match p.base with
  | CUTBASE.boundary_cut => { info with boundary_cut := v }
  | CUTBASE.current_cube =>
      { info with current_cube := fun o => if o = p.off then v else info.current_cube o }
  | CUTBASE.previous_cube =>
      { info with previous_cube := fun o => if o = p.off then v else info.previous_cube o }

/-- Writing `bin[n] = v`. -/
def store_bin (bin : ℕ → BIN) (n : ℕ) (v : BIN) : ℕ → BIN :=
  fun m => if m = n then v else bin m

/-- The array `{a, b, c, d}` of four indices. -/
def index4 (a b c d : ℕ) : ℕ → ℕ :=
  fun m => match m with
    | 0 => a
    | 1 => b
    | 2 => c
    | _ => d

/-! ## `get_threshold_index` -/

/-- The loop `while (i >= 0 && value <= threshold[i]) i--;` of
`get_threshold_index`, started with `i + 1 = m`; the result is the final
value of `i + 1`. -/
def get_threshold_index_loop (value : ℚ) (threshold : ℕ → ℚ) : ℕ → ℕ
  | 0 => 0
  | m + 1 =>
      if value ≤ threshold m then get_threshold_index_loop value threshold m else m + 1

/-- The function `get_threshold_index` of `lut.c`; `none` is the fatal exit.
With `threshold_count = 0` the C code reads `threshold[-1]`, outside the
array; the embedding gives `none` there. -/
def get_threshold_index (value : ℚ) (threshold : ℕ → ℚ) (threshold_count : ℕ) : Option ℕ :=
  match threshold_count with
  | 0 => none
  | n + 1 =>
      if value > threshold n then none
      else some (get_threshold_index_loop value threshold (n + 1))

/-! ## `get_bin` and `get_cut` -/

/-- The function `get_bin` of `lut.c`: the linear offset of the bin with
index vector `index`. -/
def get_bin (parameter : ℕ → PARAMETER) (index : ℕ → ℕ) : ℕ :=
  (List.range PARAMETER_COUNT).foldl
    (fun bin_number i => bin_number + index i * (parameter i).dimension) 0

/-- The function `get_cut` of `lut.c`. -/
def get_cut (i j k l : ℤ) (time : TIME) (info : INFO) : CUTPTR :=
  if i = -1 ∨ j = -1 ∨ k = -1 ∨ l = -1 then ⟨CUTBASE.boundary_cut, 0⟩
  else
    let cut_number : ℤ := i * (info.parameter 0).dimension
      + j * (info.parameter 1).dimension
      + k * (info.parameter 2).dimension
    match time with
    | TIME.CURRENT => ⟨CUTBASE.current_cube, cut_number⟩
    | TIME.PREVIOUS => ⟨CUTBASE.previous_cube, cut_number⟩

/-! ## `initialize_highest_qv_cut` -/

/-- The function `initialize_highest_qv_cut` of `lut.c`; the thresholds
`parameter[]` of the record are not assigned. -/
def initialize_highest_qv_cut (highest_qv_cut : HIGHEST_QV_CUT) : HIGHEST_QV_CUT :=
  { highest_qv_cut with
    sum_of_indices := 0
    index := ⟨-1, -1, -1, -1⟩
    correct_base_call_count := 0
    incorrect_base_call_count := 0
    total_base_call_count := 0
    error_rate := 0
    quality_value := 0 }

/-! ## `number_in_cut` -/

/-- The sixteen local variables `c_0000` ... `c_1111` of `number_in_cut`. -/
structure CORNERS where
  c_0000 : CUTPTR
  c_0001 : CUTPTR
  c_0010 : CUTPTR
  c_0011 : CUTPTR
  c_0100 : CUTPTR
  c_0101 : CUTPTR
  c_0110 : CUTPTR
  c_0111 : CUTPTR
  c_1000 : CUTPTR
  c_1001 : CUTPTR
  c_1010 : CUTPTR
  c_1011 : CUTPTR
  c_1100 : CUTPTR
  c_1101 : CUTPTR
  c_1110 : CUTPTR
  c_1111 : CUTPTR

/-- The corner addresses of `number_in_cut`: the chain of single-stride
pointer additions and subtractions that starts at `c_1111`, followed by the
four blocks that override corners with the address of the boundary cut. -/
def number_in_cut_corners (i j k l : ℕ) (info : INFO) : CORNERS :=
  let boundary : CUTPTR := ⟨CUTBASE.boundary_cut, 0⟩
  let c_1111 := get_cut i j k l TIME.CURRENT info
  let c_1101 := c_1111.sub info.dimension2
  let c_1001 := c_1101.sub info.dimension1
  let c_1011 := c_1001.add info.dimension2
  let c_0011 := c_1011.sub info.dimension0
  let c_0111 := c_0011.add info.dimension1
  let c_0101 := c_0111.sub info.dimension2
  let c_0001 := c_0101.sub info.dimension1
  -- c_0000 = info->previous_cube + (c_0001 - info->current_cube)
  let c_0000 : CUTPTR := ⟨CUTBASE.previous_cube, c_0001.off⟩
  let c_0010 := c_0000.add info.dimension2
  let c_0110 := c_0010.add info.dimension1
  let c_0100 := c_0110.sub info.dimension2
  let c_1100 := c_0100.add info.dimension0
  let c_1110 := c_1100.add info.dimension2
  let c_1010 := c_1110.sub info.dimension1
  let c_1000 := c_1010.sub info.dimension2
  -- if (i == 0)
  let c_0000 := if i = 0 then boundary else c_0000
  let c_0001 := if i = 0 then boundary else c_0001
  let c_0010 := if i = 0 then boundary else c_0010
  let c_0011 := if i = 0 then boundary else c_0011
  let c_0100 := if i = 0 then boundary else c_0100
  let c_0101 := if i = 0 then boundary else c_0101
  let c_0110 := if i = 0 then boundary else c_0110
  let c_0111 := if i = 0 then boundary else c_0111
  -- if (j == 0)
  let c_0000 := if j = 0 then boundary else c_0000
  let c_0001 := if j = 0 then boundary else c_0001
  let c_0010 := if j = 0 then boundary else c_0010
  let c_0011 := if j = 0 then boundary else c_0011
  let c_1000 := if j = 0 then boundary else c_1000
  let c_1001 := if j = 0 then boundary else c_1001
  let c_1010 := if j = 0 then boundary else c_1010
  let c_1011 := if j = 0 then boundary else c_1011
  -- if (k == 0)
  let c_0000 := if k = 0 then boundary else c_0000
  let c_0001 := if k = 0 then boundary else c_0001
  let c_0100 := if k = 0 then boundary else c_0100
  let c_0101 := if k = 0 then boundary else c_0101
  let c_1000 := if k = 0 then boundary else c_1000
  let c_1001 := if k = 0 then boundary else c_1001
  let c_1100 := if k = 0 then boundary else c_1100
  let c_1101 := if k = 0 then boundary else c_1101
  -- if (l == 0)
  let c_0000 := if l = 0 then boundary else c_0000
  let c_0010 := if l = 0 then boundary else c_0010
  let c_0100 := if l = 0 then boundary else c_0100
  let c_0110 := if l = 0 then boundary else c_0110
  let c_1000 := if l = 0 then boundary else c_1000
  let c_1010 := if l = 0 then boundary else c_1010
  let c_1100 := if l = 0 then boundary else c_1100
  let c_1110 := if l = 0 then boundary else c_1110
  {
    c_0000 := c_0000
    c_0001 := c_0001
    c_0010 := c_0010
    c_0011 := c_0011
    c_0100 := c_0100
    c_0101 := c_0101
    c_0110 := c_0110
    c_0111 := c_0111
    c_1000 := c_1000
    c_1001 := c_1001
    c_1010 := c_1010
    c_1011 := c_1011
    c_1100 := c_1100
    c_1101 := c_1101
    c_1110 := c_1110
    c_1111 := c_1111 }

/-- The function `number_in_cut` of `lut.c`. It returns the pointer `c_1111`
and the state after its two writes (the bin that may be zeroed, and the
region count stored through `c_1111`). The sums are `unsigned long`
expressions, hence taken modulo `ULONG_MOD`. -/
def number_in_cut (i j k l : ℕ) (info : INFO)
    (previous_highest_cut_parameter_index : INDEX) : CUTPTR × INFO :=
  let c := number_in_cut_corners i j k l info
  let b := get_bin info.parameter (index4 i j k l)
  let info1 : INFO :=
    if (i : ℤ) ≤ previous_highest_cut_parameter_index.i0 ∧
       (j : ℤ) ≤ previous_highest_cut_parameter_index.i1 ∧
       (k : ℤ) ≤ previous_highest_cut_parameter_index.i2 ∧
       (l : ℤ) ≤ previous_highest_cut_parameter_index.i3
    then { info with bin := store_bin info.bin b ⟨0, 0⟩ }
    else info
  let b_1111 : BIN := info1.bin b
  let correct : ℕ :=
    (((b_1111.correct : ℤ) + (info1.load c.c_0111).correct + (info1.load c.c_1011).correct - (info1.load c.c_0011).correct
      + (info1.load c.c_1101).correct - (info1.load c.c_0101).correct - (info1.load c.c_1001).correct + (info1.load c.c_0001).correct
      + (info1.load c.c_1110).correct - (info1.load c.c_0110).correct - (info1.load c.c_1010).correct + (info1.load c.c_0010).correct
      - (info1.load c.c_1100).correct + (info1.load c.c_0100).correct + (info1.load c.c_1000).correct - (info1.load c.c_0000).correct)
      % (ULONG_MOD : ℤ)).toNat
  let incorrect : ℕ :=
    (((b_1111.incorrect : ℤ) + (info1.load c.c_0111).incorrect + (info1.load c.c_1011).incorrect - (info1.load c.c_0011).incorrect
      + (info1.load c.c_1101).incorrect - (info1.load c.c_0101).incorrect - (info1.load c.c_1001).incorrect + (info1.load c.c_0001).incorrect
      + (info1.load c.c_1110).incorrect - (info1.load c.c_0110).incorrect - (info1.load c.c_1010).incorrect + (info1.load c.c_0010).incorrect
      - (info1.load c.c_1100).incorrect + (info1.load c.c_0100).incorrect + (info1.load c.c_1000).incorrect - (info1.load c.c_0000).incorrect)
      % (ULONG_MOD : ℤ)).toNat
  (c.c_1111, info1.store c.c_1111 ⟨correct, incorrect⟩)

/-! ## `count_number_of_correct_bases_in_each_bin` -/

/-- The first loop of `count_number_of_correct_bases_in_each_bin`: the bins
`0 .. bin_count - 1` are set to zero. -/
def zero_bins (bin_count : ℕ) (bin : ℕ → BIN) : ℕ → BIN :=
  (List.range bin_count).foldl (fun bin n => store_bin bin n ⟨0, 0⟩) bin

/-- The inner loop over `i < PARAMETER_COUNT` of the population loops: the
four calls of `get_threshold_index` for one base; `none` when one of them
exits. -/
def base_index (parameter : ℕ → PARAMETER) (base : BASE) : Option (ℕ → ℕ) :=
  match get_threshold_index (base.parameter 0) (parameter 0).threshold
      (parameter 0).threshold_count with
  | none => none
  | some a =>
  match get_threshold_index (base.parameter 1) (parameter 1).threshold
      (parameter 1).threshold_count with
  | none => none
  | some b =>
  match get_threshold_index (base.parameter 2) (parameter 2).threshold
      (parameter 2).threshold_count with
  | none => none
  | some c =>
  match get_threshold_index (base.parameter 3) (parameter 3).threshold
      (parameter 3).threshold_count with
  | none => none
  | some d => some (index4 a b c d)

/-- The body of the second loop of
`count_number_of_correct_bases_in_each_bin`, for one base. -/
def count_base (parameter : ℕ → PARAMETER) (bin : ℕ → BIN) (base : BASE) :
    Option (ℕ → BIN) :=
  match base_index parameter base with
  | none => none
  | some index =>
      let current_bin := get_bin parameter index
      if base.is_match ≠ 0 then
        some (store_bin bin current_bin
          { bin current_bin with correct := ((bin current_bin).correct + 1) % ULONG_MOD })
      else
        some (store_bin bin current_bin
          { bin current_bin with incorrect := ((bin current_bin).incorrect + 1) % ULONG_MOD })

/-- The function `count_number_of_correct_bases_in_each_bin` of `lut.c`. The
list `base_array` holds the `base_count` elements the C loop visits. -/
def count_number_of_correct_bases_in_each_bin (base_array : List BASE)
    (parameter : ℕ → PARAMETER) (bin : ℕ → BIN) : Option (ℕ → BIN) :=
  let bin_count := (parameter (PARAMETER_COUNT - 1)).threshold_count
    * (parameter (PARAMETER_COUNT - 1)).dimension
  base_array.foldlM (count_base parameter) (zero_bins bin_count bin)

/-- The strides as `main` assigns them before it allocates the bins:
`dimension[0] = 1` and `dimension[i] = dimension[i-1] * threshold_count[i-1]`. -/
def main_dimensions (parameter : ℕ → PARAMETER) : ℕ → PARAMETER :=
  (List.range' 1 (PARAMETER_COUNT - 1)).foldl
    (fun p i m =>
      if m = i then { p i with dimension := (p (i - 1)).dimension * (p (i - 1)).threshold_count }
      else p m)
    (fun m => if m = 0 then { parameter 0 with dimension := 1 } else parameter m)

/-! ## `update_highest_qv_cut` -/

/-- The number of binary digits of `n`, by halving; `fuel` bounds the number
of halvings. -/
def bit_length_aux : ℕ → ℕ → ℕ
  | 0, _ => 0
  | fuel + 1, n => if n = 0 then 0 else bit_length_aux fuel (n / 2) + 1

/-- The number of binary digits of `n`: the least `k` with `n < 2 ^ k`. -/
def bit_length (n : ℕ) : ℕ := bit_length_aux n n

/-- The number of `n ≥ 1` with `n - 1/2 ≤ 10 * log10 (a / b)`, that is with
`10 ^ (2 * n - 1) ≤ (a / b) ^ 20`: the integer nearest to `10 * log10 (a / b)`
when `a ≥ b > 0`. Only `n ≤ 4 * bit_length a` can qualify, since
`10 ^ (2 * n - 1) ≤ a ^ 20 < 2 ^ (20 * bit_length a)`. -/
def decibels (a b : ℕ) : ℕ :=
  ((List.range (4 * bit_length a)).filter
    (fun n => 10 ^ (2 * n + 1) * b ^ 20 ≤ a ^ 20)).length

/-- Modelled from the spec: `rint` and `log10` belong to the C library, not to
the sources: "quality = round(-10 * log10(error_rate))", in exact arithmetic.
A rate that is not positive has no logarithm; the value there is `0`. -/
def quality_of_error_rate (error_rate : ℚ) : ℤ :=
  if error_rate ≤ 0 then 0
  else if error_rate ≤ 1 then (decibels error_rate.den error_rate.num.toNat : ℤ)
  else -(decibels error_rate.num.toNat error_rate.den : ℤ)

/-- The function `update_highest_qv_cut` of `lut.c`. -/
def update_highest_qv_cut (highest_qv_cut : HIGHEST_QV_CUT) (parameter : ℕ → PARAMETER)
    (correct_base_call_count incorrect_base_call_count : ℕ) (i j k l : ℕ)
    (_previous_highest_cut_parameter_index : INDEX) : HIGHEST_QV_CUT :=
  let total_base_call_count : ℕ :=
    (correct_base_call_count + incorrect_base_call_count) % ULONG_MOD
  let error_rate : ℚ :=
    if incorrect_base_call_count = 0 then
      (((1 + incorrect_base_call_count) % ULONG_MOD : ℕ) : ℚ)
        / (((1 + total_base_call_count) % ULONG_MOD : ℕ) : ℚ)
    else
      (incorrect_base_call_count : ℚ) / (total_base_call_count : ℚ)
  let quality_value : ℤ := quality_of_error_rate error_rate
  let sum_of_indices : ℤ := (i : ℤ) + j + k + l
  if (incorrect_base_call_count ≥ MIN_INCORRECT_COUNT ∧
        quality_value > highest_qv_cut.quality_value)
      ∨
     (incorrect_base_call_count ≥ MIN_INCORRECT_COUNT ∧
        quality_value = highest_qv_cut.quality_value ∧
        total_base_call_count > highest_qv_cut.total_base_call_count)
      ∨
     (incorrect_base_call_count ≥ MIN_INCORRECT_COUNT ∧
        quality_value = highest_qv_cut.quality_value ∧
        total_base_call_count = highest_qv_cut.total_base_call_count ∧
        sum_of_indices > highest_qv_cut.sum_of_indices)
  then
    { sum_of_indices := sum_of_indices
      index := ⟨i, j, k, l⟩
      correct_base_call_count := correct_base_call_count
      incorrect_base_call_count := incorrect_base_call_count
      total_base_call_count := total_base_call_count
      error_rate := error_rate
      quality_value := quality_value
      parameter := ⟨(parameter 0).threshold i, (parameter 1).threshold j,
        (parameter 2).threshold k, (parameter 3).threshold l⟩ }
  else highest_qv_cut

/-! ## `create_qv_table_via_dynamic_programming` -/

/-- The function `write_to_qv_table` of `lut.c`: one row
`quality_value index[0] index[1] index[2] index[3]` is appended to the
output. -/
def write_to_qv_table (highest_qv_cut : HIGHEST_QV_CUT) (fout : List (ℤ × INDEX)) :
    List (ℤ × INDEX) :=
  fout ++ [(highest_qv_cut.quality_value, highest_qv_cut.index)]

/-- The body of the innermost loop of the sweep: `number_in_cut` at the cell
`(i, j, k, l)`, then `update_highest_qv_cut` with the counts read through the
returned pointer. -/
def scan_cell (parameter : ℕ → PARAMETER) (previous_highest_cut_parameter_index : INDEX)
    (i j k l : ℕ) (s : INFO × HIGHEST_QV_CUT) : INFO × HIGHEST_QV_CUT :=
  let r := number_in_cut i j k l s.1 previous_highest_cut_parameter_index
  let cut : CUT := r.2.load r.1
  (r.2, update_highest_qv_cut s.2 parameter cut.correct cut.incorrect i j k l
    previous_highest_cut_parameter_index)

/-- The loop `for (i = 0; i < parameter[0].threshold_count; i++)` of the
sweep. -/
def scan_i (parameter : ℕ → PARAMETER) (previous_highest_cut_parameter_index : INDEX)
    (j k l : ℕ) (s : INFO × HIGHEST_QV_CUT) : INFO × HIGHEST_QV_CUT :=
  (List.range (parameter 0).threshold_count).foldl
    (fun s i => scan_cell parameter previous_highest_cut_parameter_index i j k l s) s

/-- The loop `for (j = 0; j < parameter[1].threshold_count; j++)` of the
sweep. -/
def scan_j (parameter : ℕ → PARAMETER) (previous_highest_cut_parameter_index : INDEX)
    (k l : ℕ) (s : INFO × HIGHEST_QV_CUT) : INFO × HIGHEST_QV_CUT :=
  (List.range (parameter 1).threshold_count).foldl
    (fun s j => scan_i parameter previous_highest_cut_parameter_index j k l s) s

/-- The exchange of `info.previous_cube` and `info.current_cube` at the start
of each iteration of the loop over `l`. -/
def swap_cubes (info : INFO) : INFO :=
  { info with previous_cube := info.current_cube, current_cube := info.previous_cube }

/-- The loop `for (k = 0; k < parameter[2].threshold_count; k++)` of the
sweep. -/
def scan_k (parameter : ℕ → PARAMETER) (previous_highest_cut_parameter_index : INDEX)
    (l : ℕ) (s : INFO × HIGHEST_QV_CUT) : INFO × HIGHEST_QV_CUT :=
  (List.range (parameter 2).threshold_count).foldl
    (fun s k => scan_j parameter previous_highest_cut_parameter_index k l s) s

/-- The loop `for (l = 0; l < parameter[3].threshold_count; l++)` of the
sweep: one full pass over the grid. -/
def scan_l (parameter : ℕ → PARAMETER) (previous_highest_cut_parameter_index : INDEX)
    (s : INFO × HIGHEST_QV_CUT) : INFO × HIGHEST_QV_CUT :=
  (List.range (parameter 3).threshold_count).foldl
    (fun s l => scan_k parameter previous_highest_cut_parameter_index l (swap_cubes s.1, s.2)) s

/-- The conversion of an integer to the C type `int` (32 bits). -/
def int_wrap (x : ℤ) : ℤ := (x + 2 ^ 31) % 2 ^ 32 - 2 ^ 31

/-- The local state of `create_qv_table_via_dynamic_programming`. The field
`fout` is the list of rows written by `write_to_qv_table`; the field
`extracted` records, for each of these rows, the best cut it was written
from. -/
structure DP_STATE where
  info : INFO
  highest_qv_cut : HIGHEST_QV_CUT
  previous_highest_cut_parameter_index : INDEX
  countdown : ℕ
  num_entries : ℕ
  qv_counter : ℤ → ℤ
  qv_decade_counter : ℤ → ℤ
  fout : List (ℤ × INDEX)
  extracted : List HIGHEST_QV_CUT

/-- One statement
`if (highest_qv_cut.quality_value >= 10 * d) qv_decade_counter[d] += highest_qv_cut.total_base_call_count;`
of `create_qv_table_via_dynamic_programming`. -/
def add_to_decade (highest_qv_cut : HIGHEST_QV_CUT) (d : ℤ) (qv_decade_counter : ℤ → ℤ) :
    ℤ → ℤ :=
  if highest_qv_cut.quality_value ≥ 10 * d then
    fun m => if m = d then
      int_wrap (qv_decade_counter d + highest_qv_cut.total_base_call_count)
    else qv_decade_counter m
  else qv_decade_counter

/-- One iteration of the body of the `do ... while` loop of
`create_qv_table_via_dynamic_programming`. -/
def dp_iteration (parameter : ℕ → PARAMETER) (s : DP_STATE) : DP_STATE :=
  let r := scan_l parameter s.previous_highest_cut_parameter_index
    (s.info, initialize_highest_qv_cut s.highest_qv_cut)
  let info := r.1
  let highest_qv_cut := r.2
  let found : Bool := highest_qv_cut.total_base_call_count ≠ 0
  let countdown : ℕ :=
    if found then
      (((s.countdown : ℤ) - highest_qv_cut.total_base_call_count) % (ULONG_MOD : ℤ)).toNat
    else s.countdown
  let fout := if found then write_to_qv_table highest_qv_cut s.fout else s.fout
  let extracted := if found then s.extracted ++ [highest_qv_cut] else s.extracted
  let previous_highest_cut_parameter_index :=
    if found then highest_qv_cut.index else s.previous_highest_cut_parameter_index
  let num_entries := if found then s.num_entries + 1 else s.num_entries
  let qv_counter : ℤ → ℤ := fun m =>
    if m = highest_qv_cut.quality_value then
      int_wrap (s.qv_counter m + highest_qv_cut.total_base_call_count)
    else s.qv_counter m
  let qv_decade_counter := s.qv_decade_counter
  let qv_decade_counter := add_to_decade highest_qv_cut 1 qv_decade_counter
  let qv_decade_counter := add_to_decade highest_qv_cut 2 qv_decade_counter
  let qv_decade_counter := add_to_decade highest_qv_cut 3 qv_decade_counter
  let qv_decade_counter := add_to_decade highest_qv_cut 4 qv_decade_counter
  let qv_decade_counter := add_to_decade highest_qv_cut 5 qv_decade_counter
  let qv_decade_counter := add_to_decade highest_qv_cut 6 qv_decade_counter
  let qv_decade_counter := add_to_decade highest_qv_cut 7 qv_decade_counter
  let qv_decade_counter := add_to_decade highest_qv_cut 8 qv_decade_counter
  let qv_decade_counter := add_to_decade highest_qv_cut 9 qv_decade_counter
  { info := info
    highest_qv_cut := highest_qv_cut
    previous_highest_cut_parameter_index := previous_highest_cut_parameter_index
    countdown := countdown
    num_entries := num_entries
    qv_counter := qv_counter
    qv_decade_counter := qv_decade_counter
    fout := fout
    extracted := extracted }

/-- The `do ... while (highest_qv_cut.total_base_call_count != 0)` loop, with
a bound `fuel` on the number of iterations; `none` when the bound is
reached. -/
def dp_loop (parameter : ℕ → PARAMETER) : ℕ → DP_STATE → Option DP_STATE
  | 0, _ => none
  | fuel + 1, s =>
      let s1 := dp_iteration parameter s
      if s1.highest_qv_cut.total_base_call_count ≠ 0 then dp_loop parameter fuel s1
      else some s1

/-- The loop nest of `create_qv_table_via_dynamic_programming` that sets the
elements of both cubes to zero. -/
def zero_cubes (parameter : ℕ → PARAMETER) (info : INFO) : INFO :=
  (List.range (parameter 2).threshold_count).foldl (fun info (k : ℕ) =>
    (List.range (parameter 1).threshold_count).foldl (fun info (j : ℕ) =>
      (List.range (parameter 0).threshold_count).foldl (fun info (i : ℕ) =>
        let info1 := info.store (get_cut i j k 0 TIME.PREVIOUS info) ⟨0, 0⟩
        info1.store (get_cut i j k 0 TIME.CURRENT info1) ⟨0, 0⟩) info) info) info

/-- The state of `create_qv_table_via_dynamic_programming` when it enters the
`do ... while` loop. The arguments `previous_cube`, `current_cube` and
`highest_qv_cut` are the contents of the storage that the function obtains
without a defined value (two `malloc` blocks and a local record). -/
def dp_start (bin : ℕ → BIN) (parameter : ℕ → PARAMETER) (base_count : ℕ)
    (previous_cube current_cube : ℤ → CUT) (highest_qv_cut : HIGHEST_QV_CUT) : DP_STATE :=
  { info := zero_cubes parameter
      { parameter := parameter
        boundary_cut := ⟨0, 0⟩
        bin := bin
        previous_cube := previous_cube
        current_cube := current_cube
        dimension0 := (parameter 0).dimension
        dimension1 := (parameter 1).dimension
        dimension2 := (parameter 2).dimension
        dimension3 := (parameter 3).dimension }
    highest_qv_cut := highest_qv_cut
    previous_highest_cut_parameter_index := ⟨-1, -1, -1, -1⟩
    countdown := base_count
    num_entries := 0
    qv_counter := fun _ => 0
    qv_decade_counter := fun _ => 0
    fout := []
    extracted := [] }

/-- The function `create_qv_table_via_dynamic_programming` of `lut.c`, up to
the end of its `do ... while` loop, run for at most `fuel` passes. The final
`countdown` is the count that the warning "base calls were unaccounted for"
reports. -/
def create_qv_table_via_dynamic_programming (fuel : ℕ) (bin : ℕ → BIN)
    (parameter : ℕ → PARAMETER) (base_count : ℕ)
    (previous_cube current_cube : ℤ → CUT) (highest_qv_cut : HIGHEST_QV_CUT) :
    Option DP_STATE :=
  dp_loop parameter fuel
    (dp_start bin parameter base_count previous_cube current_cube highest_qv_cut)

/-! ## Vocabulary of the specification -/

/-- The index vector `(a, b, c, d)` is component-wise `≤ p`. -/
def dominated (a b c d : ℕ) (p : INDEX) : Prop :=
  (a : ℤ) ≤ p.i0 ∧ (b : ℤ) ≤ p.i1 ∧ (c : ℤ) ≤ p.i2 ∧ (d : ℤ) ≤ p.i3

instance dominated_decidable (a b c d : ℕ) (p : INDEX) : Decidable (dominated a b c d p) := by
  unfold dominated; infer_instance

/-- The bin of the flat array `bin` that `get_bin` addresses with the index
vector `(a, b, c, d)`. -/
def bin_at (parameter : ℕ → PARAMETER) (bin : ℕ → BIN) (a b c d : ℕ) : BIN :=
  bin (get_bin parameter (index4 a b c d))

/-- A histogram with every bin that is component-wise `≤ p` set to zero. -/
def zero_below (p : INDEX) (H : ℕ → ℕ → ℕ → ℕ → BIN) : ℕ → ℕ → ℕ → ℕ → BIN :=
  fun a b c d => if dominated a b c d p then ⟨0, 0⟩ else H a b c d

/-- The sum of `h` over the box `[0, i) × [0, j) × [0, k) × [0, l)`. -/
def box_sum (h : ℕ → ℕ → ℕ → ℕ → ℕ) (i j k l : ℕ) : ℕ :=
  ∑ d ∈ Finset.range l, ∑ c ∈ Finset.range k, ∑ b ∈ Finset.range j, ∑ a ∈ Finset.range i,
    h a b c d

/-- The sum of the `correct` counts of the bins `(a, b, c, d)` of `H` with
`a < i`, `b < j`, `c < k`, `d < l`. -/
def box_correct (H : ℕ → ℕ → ℕ → ℕ → BIN) (i j k l : ℕ) : ℕ :=
  box_sum (fun a b c d => (H a b c d).correct) i j k l

/-- The sum of the `incorrect` counts of the bins `(a, b, c, d)` of `H` with
`a < i`, `b < j`, `c < k`, `d < l`. -/
def box_incorrect (H : ℕ → ℕ → ℕ → ℕ → BIN) (i j k l : ℕ) : ℕ :=
  box_sum (fun a b c d => (H a b c d).incorrect) i j k l

/-- The strides are those that `main` assigns (see `main_dimensions`). -/
def strides_set (parameter : ℕ → PARAMETER) : Prop :=
  (parameter 0).dimension = 1 ∧
  (parameter 1).dimension = (parameter 0).dimension * (parameter 0).threshold_count ∧
  (parameter 2).dimension = (parameter 1).dimension * (parameter 1).threshold_count ∧
  (parameter 3).dimension = (parameter 2).dimension * (parameter 2).threshold_count

/-- The fields of `info` that `create_qv_table_via_dynamic_programming` sets
once, before its loops, have the values it gives them. -/
def info_ready (parameter : ℕ → PARAMETER) (info : INFO) : Prop :=
  info.parameter = parameter ∧ info.boundary_cut = ⟨0, 0⟩ ∧
  info.dimension0 = (parameter 0).dimension ∧ info.dimension1 = (parameter 1).dimension ∧
  info.dimension2 = (parameter 2).dimension ∧ info.dimension3 = (parameter 3).dimension

/-- The cell `(i, j, k, l)` lies in the grid. -/
def in_grid (parameter : ℕ → PARAMETER) (i j k l : ℕ) : Prop :=
  i < (parameter 0).threshold_count ∧ j < (parameter 1).threshold_count ∧
  k < (parameter 2).threshold_count ∧ l < (parameter 3).threshold_count

/-- The sum of all counts, correct and incorrect, of the bins of the grid. -/
def hist_total (parameter : ℕ → PARAMETER) (H : ℕ → ℕ → ℕ → ℕ → BIN) : ℕ :=
  box_sum (fun a b c d => (H a b c d).correct + (H a b c d).incorrect)
    (parameter 0).threshold_count (parameter 1).threshold_count
    (parameter 2).threshold_count (parameter 3).threshold_count

/-- The state in which the sweep of one pass reaches the cell `(i, j, k, l)`:
the loop over `l` has completed the iterations before `l`, the cubes have been
exchanged for `l`, and the loops over `k`, `j` and `i` have completed the
iterations before `k`, `j` and `i`. -/
def sweep_before (parameter : ℕ → PARAMETER) (previous_highest_cut_parameter_index : INDEX)
    (i j k l : ℕ) (s : INFO × HIGHEST_QV_CUT) : INFO × HIGHEST_QV_CUT :=
  let s1 := (List.range l).foldl
    (fun s l => scan_k parameter previous_highest_cut_parameter_index l (swap_cubes s.1, s.2)) s
  let s2 := (List.range k).foldl
    (fun s k => scan_j parameter previous_highest_cut_parameter_index k l s)
    (swap_cubes s1.1, s1.2)
  let s3 := (List.range j).foldl
    (fun s j => scan_i parameter previous_highest_cut_parameter_index j k l s) s2
  (List.range i).foldl
    (fun s i => scan_cell parameter previous_highest_cut_parameter_index i j k l s) s3

/-- The region count that `number_in_cut` returns at the cell `(i, j, k, l)`
during the sweep that starts in the state `s`. -/
def region_count (parameter : ℕ → PARAMETER) (previous_highest_cut_parameter_index : INDEX)
    (s : INFO × HIGHEST_QV_CUT) (i j k l : ℕ) : CUT :=
  let r := number_in_cut i j k l
    (sweep_before parameter previous_highest_cut_parameter_index i j k l s).1
    previous_highest_cut_parameter_index
  r.2.load r.1

/-- The offset of the cell `(i, j, k)` inside a cube. -/
def cell_off (parameter : ℕ → PARAMETER) (i j k : ℕ) : ℕ :=
  i * (parameter 0).dimension + j * (parameter 1).dimension + k * (parameter 2).dimension

/-- Invariant of the sweep on the two cubes, when the slice `l` has been
computed for the cells of offset below `t`: the current cube holds the box
sums of `H` up to level `l` at these cells, and the previous cube holds the
box sums up to level `l - 1`. -/
def cubes_inv (parameter : ℕ → PARAMETER) (H : ℕ → ℕ → ℕ → ℕ → BIN) (l t : ℕ)
    (info : INFO) : Prop :=
  info_ready parameter info ∧
  (∀ a b c, a < (parameter 0).threshold_count → b < (parameter 1).threshold_count →
    c < (parameter 2).threshold_count → cell_off parameter a b c < t →
    info.current_cube (cell_off parameter a b c : ℕ) =
      ⟨box_correct H (a + 1) (b + 1) (c + 1) (l + 1) % ULONG_MOD,
        box_incorrect H (a + 1) (b + 1) (c + 1) (l + 1) % ULONG_MOD⟩) ∧
  (0 < l → ∀ a b c, a < (parameter 0).threshold_count → b < (parameter 1).threshold_count →
    c < (parameter 2).threshold_count →
    info.previous_cube (cell_off parameter a b c : ℕ) =
      ⟨box_correct H (a + 1) (b + 1) (c + 1) l % ULONG_MOD,
        box_incorrect H (a + 1) (b + 1) (c + 1) l % ULONG_MOD⟩)

/-- Invariant of the sweep on the bins, when the cells of bin offset below `T`
have been visited: the visited bins dominated by `p` are zero, every other bin
of the grid is as in `bin0`. -/
def bins_inv (parameter : ℕ → PARAMETER) (bin0 : ℕ → BIN) (p : INDEX) (T : ℕ)
    (info : INFO) : Prop :=
  ∀ a b c d, in_grid parameter a b c d →
    info.bin (get_bin parameter (index4 a b c d)) =
      if get_bin parameter (index4 a b c d) < T then
        zero_below p (bin_at parameter bin0) a b c d
      else bin_at parameter bin0 a b c d

/-- Invariant of the sweep in the slice `l`, before the cell of offset `t`. -/
def sweep_inv (parameter : ℕ → PARAMETER) (bin0 : ℕ → BIN) (p : INDEX) (l t : ℕ)
    (info : INFO) : Prop :=
  cubes_inv parameter (zero_below p (bin_at parameter bin0)) l t info ∧
  bins_inv parameter bin0 p (l * (parameter 3).dimension + t) info

/-- Invariant of a pass before the iteration `l` of its outer loop: the cube
`current_cube` holds the box sums of the zeroed histogram up to level `l - 1`,
and the bins of the slices before `l` have been visited. -/
def pass_inv (parameter : ℕ → PARAMETER) (bin0 : ℕ → BIN) (p : INDEX) (l : ℕ)
    (info : INFO) : Prop :=
  info_ready parameter info ∧
  (0 < l → ∀ a b c, a < (parameter 0).threshold_count → b < (parameter 1).threshold_count →
    c < (parameter 2).threshold_count →
    info.current_cube (cell_off parameter a b c : ℕ) =
      ⟨box_correct (zero_below p (bin_at parameter bin0)) (a + 1) (b + 1) (c + 1) l % ULONG_MOD,
        box_incorrect (zero_below p (bin_at parameter bin0)) (a + 1) (b + 1) (c + 1) l
          % ULONG_MOD⟩) ∧
  bins_inv parameter bin0 p (l * (parameter 3).dimension) info

/-- The region count of the cell `(i, j, k, l)` in a histogram `H`: the sums
of the counts of the bins `(a, b, c, d)` with `a ≤ i`, `b ≤ j`, `c ≤ k`,
`d ≤ l`, as `unsigned long` values. -/
def region_value (H : ℕ → ℕ → ℕ → ℕ → BIN) (i j k l : ℕ) : CUT :=
  ⟨box_correct H (i + 1) (j + 1) (k + 1) (l + 1) % ULONG_MOD,
    box_incorrect H (i + 1) (j + 1) (k + 1) (l + 1) % ULONG_MOD⟩

/-- The call of `update_highest_qv_cut` for the cell `(i, j, k, l)`, when the
region counts are given by `val`. -/
def select_cell (parameter : ℕ → PARAMETER) (prev : INDEX) (val : ℕ → ℕ → ℕ → ℕ → CUT)
    (i j k l : ℕ) (h : HIGHEST_QV_CUT) : HIGHEST_QV_CUT :=
  update_highest_qv_cut h parameter (val i j k l).correct (val i j k l).incorrect i j k l prev

/-- The effect of the loop over `i` on the best cut, for region counts `val`. -/
def select_i (parameter : ℕ → PARAMETER) (prev : INDEX) (val : ℕ → ℕ → ℕ → ℕ → CUT)
    (j k l : ℕ) (h : HIGHEST_QV_CUT) : HIGHEST_QV_CUT :=
  (List.range (parameter 0).threshold_count).foldl
    (fun h i => select_cell parameter prev val i j k l h) h

/-- The effect of the loop over `j` on the best cut, for region counts `val`. -/
def select_j (parameter : ℕ → PARAMETER) (prev : INDEX) (val : ℕ → ℕ → ℕ → ℕ → CUT)
    (k l : ℕ) (h : HIGHEST_QV_CUT) : HIGHEST_QV_CUT :=
  (List.range (parameter 1).threshold_count).foldl
    (fun h j => select_i parameter prev val j k l h) h

/-- The effect of the loop over `k` on the best cut, for region counts `val`. -/
def select_k (parameter : ℕ → PARAMETER) (prev : INDEX) (val : ℕ → ℕ → ℕ → ℕ → CUT)
    (l : ℕ) (h : HIGHEST_QV_CUT) : HIGHEST_QV_CUT :=
  (List.range (parameter 2).threshold_count).foldl
    (fun h k => select_j parameter prev val k l h) h

/-- The effect of the loop over `l` on the best cut, for region counts `val`. -/
def select_l (parameter : ℕ → PARAMETER) (prev : INDEX) (val : ℕ → ℕ → ℕ → ℕ → CUT)
    (h : HIGHEST_QV_CUT) : HIGHEST_QV_CUT :=
  (List.range (parameter 3).threshold_count).foldl
    (fun h l => select_k parameter prev val l h) h


/-- The value `total_base_call_count` that `update_highest_qv_cut` computes
from the two counts of a candidate. -/
def total_of (correct incorrect : ℕ) : ℕ := (correct + incorrect) % ULONG_MOD

/-- The value `error_rate` that `update_highest_qv_cut` computes from the two
counts of a candidate. -/
def error_rate_of (correct incorrect : ℕ) : ℚ :=
  if incorrect = 0 then
    (((1 + incorrect) % ULONG_MOD : ℕ) : ℚ) / (((1 + total_of correct incorrect) % ULONG_MOD : ℕ) : ℚ)
  else (incorrect : ℚ) / (total_of correct incorrect : ℚ)

/-- The value `quality_value` that `update_highest_qv_cut` computes from the
two counts of a candidate. -/
def quality_of (correct incorrect : ℕ) : ℤ :=
  quality_of_error_rate (error_rate_of correct incorrect)

/-- The ranking rule of `update_highest_qv_cut`: a candidate with quality `q`,
total `t` and index sum `s` ranks strictly above the best cut `h`. -/
def ranks_above (q : ℤ) (t : ℕ) (s : ℤ) (h : HIGHEST_QV_CUT) : Prop :=
  q > h.quality_value ∨
  (q = h.quality_value ∧ t > h.total_base_call_count) ∨
  (q = h.quality_value ∧ t = h.total_base_call_count ∧ s > h.sum_of_indices)

instance ranks_above_decidable (q : ℤ) (t : ℕ) (s : ℤ) (h : HIGHEST_QV_CUT) :
    Decidable (ranks_above q t s h) := by
  unfold ranks_above; infer_instance

/-- The record that `update_highest_qv_cut` assigns to the best cut when the
candidate at the cell `(i, j, k, l)` replaces it. -/
def cut_record (parameter : ℕ → PARAMETER) (correct incorrect : ℕ) (i j k l : ℕ) :
    HIGHEST_QV_CUT :=
  { sum_of_indices := (i : ℤ) + j + k + l
    index := ⟨i, j, k, l⟩
    correct_base_call_count := correct
    incorrect_base_call_count := incorrect
    total_base_call_count := total_of correct incorrect
    error_rate := error_rate_of correct incorrect
    quality_value := quality_of correct incorrect
    parameter := ⟨(parameter 0).threshold i, (parameter 1).threshold j,
      (parameter 2).threshold k, (parameter 3).threshold l⟩ }

/-- The cells of the grid, in the order in which a pass visits them. -/
def grid_cells (parameter : ℕ → PARAMETER) : List (ℕ × ℕ × ℕ × ℕ) :=
  (List.range (parameter 3).threshold_count).flatMap fun l =>
    (List.range (parameter 2).threshold_count).flatMap fun k =>
      (List.range (parameter 1).threshold_count).flatMap fun j =>
        (List.range (parameter 0).threshold_count).map fun i => (i, j, k, l)

/-- The best cut with which a pass of the `do ... while` loop ends: the
record `highest_qv_cut` after `initialize_highest_qv_cut` and the sweep. -/
def best_of_pass (parameter : ℕ → PARAMETER) (p : INDEX) (info : INFO) (h : HIGHEST_QV_CUT) :
    HIGHEST_QV_CUT :=
  (scan_l parameter p (info, initialize_highest_qv_cut h)).2

/-- The state of `info` with which a pass of the `do ... while` loop ends. -/
def info_of_pass (parameter : ℕ → PARAMETER) (p : INDEX) (info : INFO) (h : HIGHEST_QV_CUT) :
    INFO :=
  (scan_l parameter p (info, initialize_highest_qv_cut h)).1

instance strides_set_decidable (parameter : ℕ → PARAMETER) : Decidable (strides_set parameter) := by
  unfold strides_set; infer_instance

instance in_grid_decidable (parameter : ℕ → PARAMETER) (i j k l : ℕ) :
    Decidable (in_grid parameter i j k l) := by
  unfold in_grid; infer_instance

/-- A histogram with every bin that is component-wise `≤` one of the index
vectors of `cuts` set to zero. -/
def zeroed (cuts : List INDEX) (H : ℕ → ℕ → ℕ → ℕ → BIN) : ℕ → ℕ → ℕ → ℕ → BIN :=
  fun a b c d => if ∃ q ∈ cuts, dominated a b c d q then ⟨0, 0⟩ else H a b c d

/-- The sum of the incorrect counts of the bins of the grid. -/
def hist_incorrect (parameter : ℕ → PARAMETER) (H : ℕ → ℕ → ℕ → ℕ → BIN) : ℕ :=
  box_incorrect H (parameter 0).threshold_count (parameter 1).threshold_count
    (parameter 2).threshold_count (parameter 3).threshold_count

/-! ## A small grid used to instantiate the theorems -/

/-- Four parameters with two thresholds each, `0` and `1`, and the strides of
`main`: a `2 × 2 × 2 × 2` grid. -/
def demo_parameter : ℕ → PARAMETER := main_dimensions (fun _ => ⟨fun i => i, 2, 0⟩)

/-- A histogram on sixteen bins: the bin of offset `o` holds `o + 1` correct
and `2 * o` incorrect calls, `376` calls in all. -/
def demo_bin : ℕ → BIN := fun o => ⟨o + 1, 2 * o⟩

/-- A record of zeros, for storage without a defined value. -/
def demo_cut : HIGHEST_QV_CUT := ⟨0, ⟨0, 0, 0, 0⟩, 0, 0, 0, 0, 0, ⟨0, 0, 0, 0⟩⟩

/-- The `info` with which `create_qv_table_via_dynamic_programming` enters its
loop on the small grid. -/
def demo_info : INFO :=
  (dp_start demo_bin demo_parameter 376 (fun _ => ⟨0, 0⟩) (fun _ => ⟨0, 0⟩) demo_cut).info

/-! ## Invariants of the `do ... while` loop -/

/-- The index vectors of the cuts extracted so far, in the order of their
extraction. -/
def extracted_indices (s : DP_STATE) : List INDEX := s.extracted.map (fun q => q.index)

/-- The record `q` is the cut of a cell of the grid whose counts are the sums
of the counts of `H0` over the bins that are component-wise `≤` the cell and
not component-wise `≤` any index vector of `earlier`, with at least
`MIN_INCORRECT_COUNT` incorrect calls. -/
def cut_ok (parameter : ℕ → PARAMETER) (H0 : ℕ → ℕ → ℕ → ℕ → BIN) (earlier : List INDEX)
    (q : HIGHEST_QV_CUT) : Prop :=
  ∃ i j k l, in_grid parameter i j k l ∧
    q = cut_record parameter
      (box_correct (zeroed earlier H0) (i + 1) (j + 1) (k + 1) (l + 1))
      (box_incorrect (zeroed earlier H0) (i + 1) (j + 1) (k + 1) (l + 1)) i j k l ∧
    box_incorrect (zeroed earlier H0) (i + 1) (j + 1) (k + 1) (l + 1) ≥ MIN_INCORRECT_COUNT

/-- Invariant of the `do ... while` loop at the start of an iteration, for the
original histogram `H0`: the bins dominated by a cut extracted before the last
one are zero and the others are as in `H0`; every extracted record is the
exact cut of its cell; the counts of the extracted cuts and of the bins that
remain add up to the total of `H0`. -/
def dp_inv (parameter : ℕ → PARAMETER) (H0 : ℕ → ℕ → ℕ → ℕ → BIN) (s : DP_STATE) : Prop :=
  info_ready parameter s.info ∧
  (∃ L : List INDEX,
    L ++ [s.previous_highest_cut_parameter_index] = ⟨-1, -1, -1, -1⟩ :: extracted_indices s ∧
    ∀ a b c d, in_grid parameter a b c d →
      bin_at parameter s.info.bin a b c d = zeroed L H0 a b c d) ∧
  (s.extracted.map
      (fun q => q.correct_base_call_count + q.incorrect_base_call_count)).sum
    + hist_total parameter (zeroed (extracted_indices s) H0) = hist_total parameter H0 ∧
  (∀ n q, s.extracted[n]? = some q →
    cut_ok parameter H0 ((extracted_indices s).take n) q)

/-- The state in which the `do ... while` loop ends, for the original
histogram `H0`: the last pass found no cut, the bins dominated by an extracted
cut are zero and the others are as in `H0`, and the bins that remain hold
fewer than `MIN_INCORRECT_COUNT` incorrect calls. -/
def dp_post (parameter : ℕ → PARAMETER) (H0 : ℕ → ℕ → ℕ → ℕ → BIN) (s : DP_STATE) : Prop :=
  info_ready parameter s.info ∧
  s.highest_qv_cut.total_base_call_count = 0 ∧
  (∀ a b c d, in_grid parameter a b c d →
    bin_at parameter s.info.bin a b c d = zeroed (extracted_indices s) H0 a b c d) ∧
  (s.extracted.map
      (fun q => q.correct_base_call_count + q.incorrect_base_call_count)).sum
    + hist_total parameter (zeroed (extracted_indices s) H0) = hist_total parameter H0 ∧
  (∀ n q, s.extracted[n]? = some q →
    cut_ok parameter H0 ((extracted_indices s).take n) q) ∧
  hist_incorrect parameter (zeroed (extracted_indices s) H0) < MIN_INCORRECT_COUNT

/-- The countdown is the total count of the bins that remain. -/
def countdown_ok (parameter : ℕ → PARAMETER) (H0 : ℕ → ℕ → ℕ → ℕ → BIN) (s : DP_STATE) : Prop :=
  s.countdown = hist_total parameter (zeroed (extracted_indices s) H0)

/-! ## Vocabulary for the population of the histogram -/

/-- The four calls of `get_threshold_index` for `base` return the index vector
`(a, b, c, d)`. -/
def lands_in (parameter : ℕ → PARAMETER) (base : BASE) (a b c d : ℕ) : Prop :=
  get_threshold_index (base.parameter 0) (parameter 0).threshold
      (parameter 0).threshold_count = some a ∧
  get_threshold_index (base.parameter 1) (parameter 1).threshold
      (parameter 1).threshold_count = some b ∧
  get_threshold_index (base.parameter 2) (parameter 2).threshold
      (parameter 2).threshold_count = some c ∧
  get_threshold_index (base.parameter 3) (parameter 3).threshold
      (parameter 3).threshold_count = some d

instance lands_in_decidable (parameter : ℕ → PARAMETER) (base : BASE) (a b c d : ℕ) :
    Decidable (lands_in parameter base a b c d) := by
  unfold lands_in; infer_instance

/-- The values of `base` are within the thresholds: no parameter value exceeds
the last threshold of its (non-empty) threshold array. -/
def within_thresholds (parameter : ℕ → PARAMETER) (base : BASE) : Prop :=
  ∀ m, m < PARAMETER_COUNT → 0 < (parameter m).threshold_count ∧
    base.parameter m ≤ (parameter m).threshold ((parameter m).threshold_count - 1)

/-- The number of elements of the bin array that
`count_number_of_correct_bases_in_each_bin` sets to zero. -/
def bin_count (parameter : ℕ → PARAMETER) : ℕ :=
  (parameter (PARAMETER_COUNT - 1)).threshold_count * (parameter (PARAMETER_COUNT - 1)).dimension

/-- The offset of the bin that receives `base`, when the four calls of
`get_threshold_index` return. -/
def base_offset (parameter : ℕ → PARAMETER) (base : BASE) : Option ℕ :=
  (base_index parameter base).map (get_bin parameter)

/-- The bins after the body of the population loop for `base`; unchanged when
`get_threshold_index` exits. -/
def count_step (parameter : ℕ → PARAMETER) (bin : ℕ → BIN) (base : BASE) : ℕ → BIN :=
  (count_base parameter bin base).getD bin

/-- Three observations on the small grid. -/
def demo_bases : List BASE :=
  [⟨1, fun _ => 0⟩, ⟨0, fun _ => 1⟩, ⟨1, fun m => (m : ℚ) / 4⟩]

/-- A histogram on the small grid whose total count is `2 ^ 64`: each of the
sixteen bins holds `2 ^ 60` correct calls. -/
def wrap_bin : ℕ → BIN := fun _ => ⟨2 ^ 60, 0⟩

/-- The `info` with which `create_qv_table_via_dynamic_programming` enters its
loop on the histogram `wrap_bin`. -/
def wrap_info : INFO :=
  (dp_start wrap_bin demo_parameter 0 (fun _ => ⟨0, 0⟩) (fun _ => ⟨0, 0⟩) demo_cut).info

/-- A histogram on the small grid in which the bins of offset `0` and `1` hold
`2 ^ 63` correct and `2` incorrect calls each, and the other bins are empty. -/
def wrap_pair_bin : ℕ → BIN := fun o => if o < 2 then ⟨2 ^ 63, 2⟩ else ⟨0, 0⟩

/-- A histogram on the small grid whose incorrect counts add up to `2 ^ 64`:
`1` in the bin of offset `0` and `2 ^ 64 - 1` in the bin of offset `1`. -/
def wrap_incorrect_bin : ℕ → BIN :=
  fun o => if o = 0 then ⟨0, 1⟩ else if o = 1 then ⟨0, 2 ^ 64 - 1⟩ else ⟨0, 0⟩

/-- The `info` with which `create_qv_table_via_dynamic_programming` enters its
loop on the histogram `wrap_incorrect_bin`. -/
def wrap_incorrect_info : INFO :=
  (dp_start wrap_incorrect_bin demo_parameter 0 (fun _ => ⟨0, 0⟩) (fun _ => ⟨0, 0⟩)
    demo_cut).info

/-! ## Vocabulary for the inclusion-exclusion step -/

/-- The region count at the corner of the cell `(i, j, k, l)` obtained by
decrementing the indices flagged by `di`, `dj`, `dk`, `dl` (each `0` or `1`):
what `get_cut` addresses there, in the current slice when `l` is kept and in
the previous slice when `l` is decremented. -/
def corner_cut (info : INFO) (i j k l : ℕ) (di dj dk dl : ℕ) : CUT :=
  info.load (get_cut ((i : ℤ) - di) ((j : ℤ) - dj) ((k : ℤ) - dk) ((l : ℤ) - dl)
    (if dl = 0 then TIME.CURRENT else TIME.PREVIOUS) info)

/-- The sign of a corner: `+1` when one or three indices are decremented,
`-1` when two or four are. -/
def corner_sign (di dj dk dl : ℕ) : ℤ :=
  if (di + dj + dk + dl) % 2 = 1 then 1 else -1

/-- The fifteen non-empty subsets of the four indices, as flag vectors
`(di, dj, dk, dl)`. -/
def corner_subsets : List (ℕ × ℕ × ℕ × ℕ) :=
  ((List.range 2).flatMap fun di => (List.range 2).flatMap fun dj =>
    (List.range 2).flatMap fun dk => (List.range 2).map fun dl => (di, dj, dk, dl)).filter
    (fun s => s ≠ (0, 0, 0, 0))

/-- The sum over the fifteen corners of the sign of the corner times the
component `f` of its region count. -/
def signed_corner_sum (f : CUT → ℕ) (info : INFO) (i j k l : ℕ) : ℤ :=
  (corner_subsets.map fun s =>
    corner_sign s.1 s.2.1 s.2.2.1 s.2.2.2 * (f (corner_cut info i j k l s.1 s.2.1 s.2.2.1 s.2.2.2) : ℤ)).sum

/-- A best cut of quality `-3`, below the quality of every candidate of the
examples that use it. -/
def low_cut : HIGHEST_QV_CUT := { demo_cut with quality_value := -3 }

/-- Invariant of the `do ... while` loop that does not depend on the size of
the counts, for the original histogram `H0`: the bins dominated by a cut
extracted before the last one are zero and the others are as in `H0`; each
extracted cut took at least `MIN_INCORRECT_COUNT` incorrect calls from the
bins that remained before it; `num_entries` counts the extracted cuts. -/
def dp_progress (parameter : ℕ → PARAMETER) (H0 : ℕ → ℕ → ℕ → ℕ → BIN) (s : DP_STATE) : Prop :=
  info_ready parameter s.info ∧
  (∃ L : List INDEX,
    L ++ [s.previous_highest_cut_parameter_index] = ⟨-1, -1, -1, -1⟩ :: extracted_indices s ∧
    ∀ a b c d, in_grid parameter a b c d →
      bin_at parameter s.info.bin a b c d = zeroed L H0 a b c d) ∧
  (∀ n, n < s.extracted.length →
    hist_incorrect parameter (zeroed ((extracted_indices s).take (n + 1)) H0)
        + MIN_INCORRECT_COUNT
      ≤ hist_incorrect parameter (zeroed ((extracted_indices s).take n) H0)) ∧
  MIN_INCORRECT_COUNT * s.extracted.length
      + hist_incorrect parameter (zeroed (extracted_indices s) H0)
    ≤ hist_incorrect parameter H0 ∧
  s.num_entries = s.extracted.length

/-- The grid has a single bin: each of the four parameters has one
threshold. -/
def single_bin (parameter : ℕ → PARAMETER) : Prop :=
  ∀ m, m < PARAMETER_COUNT → (parameter m).threshold_count = 1

/-- Four parameters with one threshold each, and the strides of `main`: a grid
of a single bin. -/
def single_parameter : ℕ → PARAMETER := main_dimensions (fun _ => ⟨fun _ => 0, 1, 0⟩)

/-- A bin array for the grid of a single bin: `5` correct and `3` incorrect
calls. -/
def single_demo_bin : ℕ → BIN := fun _ => ⟨5, 3⟩

/-- A bin array for the grid of a single bin, below the floor of
`MIN_INCORRECT_COUNT` incorrect calls: `5` correct calls and no incorrect
call. -/
def single_clean_bin : ℕ → BIN := fun _ => ⟨5, 0⟩

/-! ## Vocabulary for the summary counters -/

/-- The sum of the total counts of the cuts of `cuts` whose quality value is
`m`. -/
def total_at (m : ℤ) (cuts : List HIGHEST_QV_CUT) : ℕ :=
  (cuts.map fun q => if q.quality_value = m then q.total_base_call_count else 0).sum

/-- The sum of the total counts of the cuts of `cuts` whose quality value is
at least `m`. -/
def total_from (m : ℤ) (cuts : List HIGHEST_QV_CUT) : ℕ :=
  (cuts.map fun q => if q.quality_value ≥ m then q.total_base_call_count else 0).sum

/-- Invariant of the `do ... while` loop on the summary counters: each element
of `qv_counter` and each of the elements `1 .. 9` of `qv_decade_counter` is
the sum it accumulates, converted to `int`; the other elements of
`qv_decade_counter` are zero; no extracted cut has a negative quality. -/
def counters_ok (s : DP_STATE) : Prop :=
  (∀ m, s.qv_counter m = int_wrap (total_at m s.extracted)) ∧
  (∀ d, 1 ≤ d → d ≤ 9 → s.qv_decade_counter d = int_wrap (total_from (10 * d) s.extracted)) ∧
  (∀ d, ¬ (1 ≤ d ∧ d ≤ 9) → s.qv_decade_counter d = 0) ∧
  (∀ q ∈ s.extracted, 0 ≤ q.quality_value)

/-- The state in which `create_qv_table_via_dynamic_programming` ends on the
small grid with the histogram `demo_bin`. -/
def demo_final : DP_STATE :=
  (create_qv_table_via_dynamic_programming 20 demo_bin demo_parameter 376
    (fun _ => ⟨0, 0⟩) (fun _ => ⟨0, 0⟩) demo_cut).getD
    (dp_start demo_bin demo_parameter 376 (fun _ => ⟨0, 0⟩) (fun _ => ⟨0, 0⟩) demo_cut)

/-! ## Vocabulary for the order of the extracted cuts -/

/-- No cell of the grid that is eligible in the histogram `H0` with the boxes
of the cuts `earlier` set to zero ranks above the record `q`. -/
def cut_best (parameter : ℕ → PARAMETER) (H0 : ℕ → ℕ → ℕ → ℕ → BIN) (earlier : List INDEX)
    (q : HIGHEST_QV_CUT) : Prop :=
  ∀ i j k l, in_grid parameter i j k l →
    box_incorrect (zeroed earlier H0) (i + 1) (j + 1) (k + 1) (l + 1) ≥ MIN_INCORRECT_COUNT →
    ¬ ranks_above
      (quality_of (box_correct (zeroed earlier H0) (i + 1) (j + 1) (k + 1) (l + 1))
        (box_incorrect (zeroed earlier H0) (i + 1) (j + 1) (k + 1) (l + 1)))
      (total_of (box_correct (zeroed earlier H0) (i + 1) (j + 1) (k + 1) (l + 1))
        (box_incorrect (zeroed earlier H0) (i + 1) (j + 1) (k + 1) (l + 1)))
      ((i : ℤ) + j + k + l) q

/-- A histogram on the small grid with `200113` calls: the bin `(0,0,0,0)`
holds `10` incorrect calls, the bin `(1,0,0,0)` holds `100000` correct calls,
the bin `(0,1,0,0)` holds `100000` correct and `3` incorrect calls, the bin
`(1,1,0,0)` holds `100` incorrect calls, and the other bins are empty. -/
def mono_bin : ℕ → BIN := fun o =>
  if o = 0 then ⟨0, 10⟩ else if o = 1 then ⟨100000, 0⟩ else if o = 2 then ⟨100000, 3⟩
  else if o = 3 then ⟨0, 100⟩ else ⟨0, 0⟩

/-! ## The reference code of the corner addresses -/

/-- The sixteen corner addresses as the reference code that `number_in_cut`
keeps in a comment obtains them: one call of `get_cut` for each corner, in
the current slice when `l` is kept and in the previous slice when `l` is
decremented. -/
def number_in_cut_corners_reference (i j k l : ℕ) (info : INFO) : CORNERS :=
  { c_1111 := get_cut i j k l TIME.CURRENT info
    c_1101 := get_cut i j ((k : ℤ) - 1) l TIME.CURRENT info
    c_1001 := get_cut i ((j : ℤ) - 1) ((k : ℤ) - 1) l TIME.CURRENT info
    c_1011 := get_cut i ((j : ℤ) - 1) k l TIME.CURRENT info
    c_0011 := get_cut ((i : ℤ) - 1) ((j : ℤ) - 1) k l TIME.CURRENT info
    c_0111 := get_cut ((i : ℤ) - 1) j k l TIME.CURRENT info
    c_0101 := get_cut ((i : ℤ) - 1) j ((k : ℤ) - 1) l TIME.CURRENT info
    c_0001 := get_cut ((i : ℤ) - 1) ((j : ℤ) - 1) ((k : ℤ) - 1) l TIME.CURRENT info
    c_0000 := get_cut ((i : ℤ) - 1) ((j : ℤ) - 1) ((k : ℤ) - 1) ((l : ℤ) - 1) TIME.PREVIOUS info
    c_0010 := get_cut ((i : ℤ) - 1) ((j : ℤ) - 1) k ((l : ℤ) - 1) TIME.PREVIOUS info
    c_0110 := get_cut ((i : ℤ) - 1) j k ((l : ℤ) - 1) TIME.PREVIOUS info
    c_0100 := get_cut ((i : ℤ) - 1) j ((k : ℤ) - 1) ((l : ℤ) - 1) TIME.PREVIOUS info
    c_1100 := get_cut i j ((k : ℤ) - 1) ((l : ℤ) - 1) TIME.PREVIOUS info
    c_1110 := get_cut i j k ((l : ℤ) - 1) TIME.PREVIOUS info
    c_1010 := get_cut i ((j : ℤ) - 1) k ((l : ℤ) - 1) TIME.PREVIOUS info
    c_1000 := get_cut i ((j : ℤ) - 1) ((k : ℤ) - 1) ((l : ℤ) - 1) TIME.PREVIOUS info }

/-- The sixteen corner addresses of a `CORNERS` record, as a list. -/
def corner_list (c : CORNERS) : List CUTPTR :=
  [c.c_0000, c.c_0001, c.c_0010, c.c_0011, c.c_0100, c.c_0101, c.c_0110, c.c_0111,
    c.c_1000, c.c_1001, c.c_1010, c.c_1011, c.c_1100, c.c_1101, c.c_1110, c.c_1111]

/-- The address `p` may be dereferenced: it is the boundary cut, or an element
of one of the two cubes at an offset inside the allocated block of
`threshold_count[0] * threshold_count[1] * threshold_count[2]` elements. -/
def valid_cut_address (parameter : ℕ → PARAMETER) (p : CUTPTR) : Prop :=
  p = ⟨CUTBASE.boundary_cut, 0⟩ ∨
  (p.base ≠ CUTBASE.boundary_cut ∧ 0 ≤ p.off ∧
    p.off < ((parameter 0).threshold_count * (parameter 1).threshold_count
      * (parameter 2).threshold_count : ℕ))

/-- The corner addresses of `number_in_cut` before the four blocks that
override corners with the address of the boundary cut: the chain of
single-stride pointer additions and subtractions alone. -/
def number_in_cut_chain (i j k l : ℕ) (info : INFO) : CORNERS :=
  let c_1111 := get_cut i j k l TIME.CURRENT info
  let c_1101 := c_1111.sub info.dimension2
  let c_1001 := c_1101.sub info.dimension1
  let c_1011 := c_1001.add info.dimension2
  let c_0011 := c_1011.sub info.dimension0
  let c_0111 := c_0011.add info.dimension1
  let c_0101 := c_0111.sub info.dimension2
  let c_0001 := c_0101.sub info.dimension1
  let c_0000 : CUTPTR := ⟨CUTBASE.previous_cube, c_0001.off⟩
  let c_0010 := c_0000.add info.dimension2
  let c_0110 := c_0010.add info.dimension1
  let c_0100 := c_0110.sub info.dimension2
  let c_1100 := c_0100.add info.dimension0
  let c_1110 := c_1100.add info.dimension2
  let c_1010 := c_1110.sub info.dimension1
  let c_1000 := c_1010.sub info.dimension2
  {
    c_0000 := c_0000
    c_0001 := c_0001
    c_0010 := c_0010
    c_0011 := c_0011
    c_0100 := c_0100
    c_0101 := c_0101
    c_0110 := c_0110
    c_0111 := c_0111
    c_1000 := c_1000
    c_1001 := c_1001
    c_1010 := c_1010
    c_1011 := c_1011
    c_1100 := c_1100
    c_1101 := c_1101
    c_1110 := c_1110
    c_1111 := c_1111 }

/-! ## Further vocabulary of the specification -/

/-- The bins that a pass may have changed: each bin is as at the start of the
pass, or it is zero and it is the bin of a cell of the grid that `p`
dominates. -/
def bins_frame (parameter : ℕ → PARAMETER) (p : INDEX) (bin0 : ℕ → BIN)
    (s : INFO × HIGHEST_QV_CUT) : Prop :=
  s.1.parameter = parameter ∧
  ∀ o, s.1.bin o = bin0 o ∨
    (s.1.bin o = ⟨0, 0⟩ ∧ ∃ a b c d, in_grid parameter a b c d ∧ dominated a b c d p ∧
      get_bin parameter (index4 a b c d) = o)

/-- A state on the small grid whose two cubes hold values that no pass has
stored. -/
def demo_stale_info : INFO :=
  { parameter := demo_parameter
    boundary_cut := ⟨0, 0⟩
    bin := demo_bin
    previous_cube := fun o => ⟨7, o.toNat⟩
    current_cube := fun _ => ⟨1, 2⟩
    dimension0 := (demo_parameter 0).dimension
    dimension1 := (demo_parameter 1).dimension
    dimension2 := (demo_parameter 2).dimension
    dimension3 := (demo_parameter 3).dimension }

/-- The first operand of the division by which `update_highest_qv_cut`
computes `error_rate`, before its conversion to `double`. -/
def error_rate_dividend (_correct incorrect : ℕ) : ℕ :=
  if incorrect = 0 then (1 + incorrect) % ULONG_MOD else incorrect

/-- The second operand of the division by which `update_highest_qv_cut`
computes `error_rate`, before its conversion to `double`. -/
def error_rate_divisor (correct incorrect : ℕ) : ℕ :=
  if incorrect = 0 then (1 + total_of correct incorrect) % ULONG_MOD
  else total_of correct incorrect

/-- The error rate that the comment in `update_highest_qv_cut` describes: "a
penalty for small sample size by adding 1 in numerator and denominator". -/
def error_rate_of_comment (correct incorrect : ℕ) : ℚ :=
  ((1 + incorrect : ℕ) : ℚ) / ((1 + (correct + incorrect) : ℕ) : ℚ)

/-- The cell `x` is visited before the cell `y` in a sweep: the loop over `l`
is the outermost, then come the loops over `k`, `j` and `i`, each ascending. -/
def sweep_lt (x y : ℕ × ℕ × ℕ × ℕ) : Prop :=
  x.2.2.2 < y.2.2.2 ∨ (x.2.2.2 = y.2.2.2 ∧
    (x.2.2.1 < y.2.2.1 ∨ (x.2.2.1 = y.2.2.1 ∧
      (x.2.1 < y.2.1 ∨ (x.2.1 = y.2.1 ∧ x.1 < y.1)))))

instance sweep_lt_decidable (x y : ℕ × ℕ × ℕ × ℕ) : Decidable (sweep_lt x y) := by
  unfold sweep_lt; infer_instance

/-- The record with which the candidate of the cell `(i, j, k, l)` replaces
the best cut, in the pass that starts in the state `info` with the index
vector `p`: the record of the region count of the cell. -/
def pass_candidate (parameter : ℕ → PARAMETER) (p : INDEX) (info : INFO) (h : HIGHEST_QV_CUT)
    (i j k l : ℕ) : HIGHEST_QV_CUT :=
  cut_record parameter
    (region_count parameter p (info, initialize_highest_qv_cut h) i j k l).correct
    (region_count parameter p (info, initialize_highest_qv_cut h) i j k l).incorrect i j k l

/-- The records `a` and `b` tie on quality, total count and index sum. -/
def same_rank (a b : HIGHEST_QV_CUT) : Prop :=
  a.quality_value = b.quality_value ∧ a.total_base_call_count = b.total_base_call_count ∧
    a.sum_of_indices = b.sum_of_indices

instance same_rank_decidable (a b : HIGHEST_QV_CUT) : Decidable (same_rank a b) := by
  unfold same_rank; infer_instance

/-- The record `a` ranks strictly above the record `b` in the lexicographic
order of quality, total count and index sum. -/
def outranks (a b : HIGHEST_QV_CUT) : Prop :=
  ranks_above a.quality_value a.total_base_call_count a.sum_of_indices b

instance outranks_decidable (a b : HIGHEST_QV_CUT) : Decidable (outranks a b) := by
  unfold outranks; infer_instance

/-- A histogram on the small grid in which the cells `(1, 0, 0, 0)` and
`(0, 1, 0, 0)` tie: their bins hold the same counts, and every bin beyond the
first three holds incorrect calls only. -/
def tie_bin : ℕ → BIN := fun o =>
  if o = 0 then ⟨100, 3⟩ else if o = 1 ∨ o = 2 then ⟨1000, 0⟩ else ⟨0, 100⟩

/-- The state in which a pass over the histogram `tie_bin` starts. -/
def tie_info : INFO :=
  { parameter := demo_parameter
    boundary_cut := ⟨0, 0⟩
    bin := tie_bin
    previous_cube := fun _ => ⟨0, 0⟩
    current_cube := fun _ => ⟨0, 0⟩
    dimension0 := (demo_parameter 0).dimension
    dimension1 := (demo_parameter 1).dimension
    dimension2 := (demo_parameter 2).dimension
    dimension3 := (demo_parameter 3).dimension }

/-! ## `compress_params_array` -/

/-- The constant `MIN_DIST` of `lut.c`, `0.0000001`. -/
def MIN_DIST : ℚ := 1 / 10000000

/-- The local state of the first loop of `compress_params_array`: the array
`*A`, the array `wn`, and the locals `j` and `A_min`. -/
structure COMPRESS_STATE where
  A : ℕ → ℚ
  wn : ℕ → ℤ
  j : ℕ
  A_min : ℚ

/-- The state in which `compress_params_array` enters its first loop: `wn`
is a block of zeros (`calloc`), `j = 0` and `A_min = (*A)[0]`. -/
def compress_start (A : ℕ → ℚ) : COMPRESS_STATE :=
  { A := A, wn := fun _ => 0, j := 0, A_min := A 0 }

/-- The body of the first loop of `compress_params_array`, for the index `i`.
The sum `wn[j] += (*w)[i]` is an `int` expression. -/
def compress_step (w : ℕ → ℤ) (len : ℕ) (s : COMPRESS_STATE) (i : ℕ) : COMPRESS_STATE :=
  let wn : ℕ → ℤ := fun m => if m = s.j then int_wrap (s.wn s.j + w i) else s.wn m
  if (i : ℤ) < (len : ℤ) - 1 ∧ s.A i < s.A (i + 1) - MIN_DIST then
    let A : ℕ → ℚ := fun m => if m = s.j then (s.A_min + s.A i) / 2 else s.A m
    { A := A, wn := wn, j := s.j + 1, A_min := A (i + 1) }
  else if (i : ℤ) = (len : ℤ) - 1 then
    let A : ℕ → ℚ := fun m => if m = s.j then (s.A_min + s.A i) / 2 else s.A m
    { A := A, wn := wn, j := s.j + 1, A_min := s.A_min }
  else
    { A := s.A, wn := wn, j := s.j, A_min := s.A_min }

/-- The state of the first loop of `compress_params_array` after its
iterations `i = 0 .. n - 1`. -/
def compress_loop (A : ℕ → ℚ) (w : ℕ → ℤ) (len : ℕ) (n : ℕ) : COMPRESS_STATE :=
  (List.range n).foldl (compress_step w len) (compress_start A)

/-- The function `compress_params_array` of `lut.c`: the arrays `*A` and `*w`
and the length `*len` with which it returns (it always returns `SUCCESS`). -/
def compress_params_array (A : ℕ → ℚ) (w : ℕ → ℤ) (len : ℕ) : (ℕ → ℚ) × (ℕ → ℤ) × ℕ :=
  let s := compress_loop A w len len
  (s.A, (List.range s.j).foldl (fun w i => fun m => if m = i then s.wn i else w m) w, s.j)

/-- The value `A[i + 1]` exceeds `A[i]` by more than `MIN_DIST`: the test
`(*A)[i] < (*A)[i+1] - MIN_DIST` of `compress_params_array`. -/
def gap_after (A : ℕ → ℚ) (i : ℕ) : Prop := A i < A (i + 1) - MIN_DIST

instance gap_after_decidable (A : ℕ → ℚ) (i : ℕ) : Decidable (gap_after A i) := by
  unfold gap_after; infer_instance

/-- The number of the run to which the element `i` of `A` belongs, when the
array is cut after every element that `gap_after` marks: the number of these
marks before `i`. -/
def run_index (A : ℕ → ℚ) (i : ℕ) : ℕ :=
  ((List.range i).filter (fun m => decide (gap_after A m))).length

/-- The sum of the weights `w[i]`, `i < n`, of the elements of the run `r`. -/
def run_weight (A : ℕ → ℚ) (w : ℕ → ℤ) (n r : ℕ) : ℤ :=
  ∑ i ∈ (Finset.range n).filter (fun i => run_index A i = r), w i

/-- No `int` sum that `compress_params_array` forms in `wn` overflows: the
sums of the weights of the leading elements of each run are values of `int`. -/
def weights_fit (A : ℕ → ℚ) (w : ℕ → ℤ) (len : ℕ) : Prop :=
  ∀ n ≤ len, ∀ r, -2 ^ 31 ≤ run_weight A w n r ∧ run_weight A w n r < 2 ^ 31

/-- An input of five values in three runs, `{1, 1 + 5e-8}`, `{2}` and
`{3, 3}`. -/
def demo_values : ℕ → ℚ := fun i =>
  if i = 0 then 1 else if i = 1 then 1 + 1 / 20000000 else if i = 2 then 2 else 3

/-- The weights `1, 2, 3, 4, 5, ...` of the input `demo_values`. -/
def demo_weights : ℕ → ℤ := fun i => i + 1

/-- Two weights whose sum is not a value of `int`: `2 ^ 31 - 1` and `1`. -/
def overflow_weights : ℕ → ℤ := fun i => if i = 0 then 2 ^ 31 - 1 else 1

/-- The index vector `x` is component-wise `≤` the index vector `y`. -/
def index_le (x y : INDEX) : Prop :=
  x.i0 ≤ y.i0 ∧ x.i1 ≤ y.i1 ∧ x.i2 ≤ y.i2 ∧ x.i3 ≤ y.i3

instance index_le_decidable (x y : INDEX) : Decidable (index_le x y) := by
  unfold index_le; infer_instance

/-! ## The sums of `number_in_cut`, operation by operation -/

/-- One operation of an `unsigned long` expression evaluated from left to
right: the term `t.2` is added to (`t.1 = true`) or subtracted from
(`t.1 = false`) the value `acc` of the expression so far, and the result is
reduced modulo `ULONG_MOD`. -/
def ulong_step (acc : ℕ) (t : Bool × ℕ) : ℕ :=
  (((acc : ℤ) + (if t.1 then (t.2 : ℤ) else -(t.2 : ℤ))) % (ULONG_MOD : ℤ)).toNat

/-- The value of the `unsigned long` expression `first ± t1 ± t2 ...`,
evaluated from left to right. -/
def ulong_eval (first : ℕ) (terms : List (Bool × ℕ)) : ℕ :=
  terms.foldl ulong_step first

/-- The sum `± t1 ± t2 ...` of the signed terms, as an integer. -/
def signed_sum (terms : List (Bool × ℕ)) : ℤ :=
  (terms.map fun t => if t.1 then (t.2 : ℤ) else -(t.2 : ℤ)).sum

/-- The fifteen terms that follow `b_1111->count` in a sum of `number_in_cut`,
in the order and with the signs of the source; `count` reads the component
(`correct` or `incorrect`) through a corner address. -/
def number_in_cut_terms (c : CORNERS) (count : CUTPTR → ℕ) : List (Bool × ℕ) :=
  [(true, count c.c_0111), (true, count c.c_1011), (false, count c.c_0011),
    (true, count c.c_1101), (false, count c.c_0101), (false, count c.c_1001),
    (true, count c.c_0001),
    (true, count c.c_1110), (false, count c.c_0110), (false, count c.c_1010),
    (true, count c.c_0010),
    (false, count c.c_1100), (true, count c.c_0100), (true, count c.c_1000),
    (false, count c.c_0000)]

/-- The state in which `number_in_cut` evaluates its two sums: the bin of the
cell has been set to zero when `previous_highest_cut_parameter_index`
dominates the cell. -/
def number_in_cut_zeroed (i j k l : ℕ) (info : INFO)
    (previous_highest_cut_parameter_index : INDEX) : INFO :=
  if (i : ℤ) ≤ previous_highest_cut_parameter_index.i0 ∧
     (j : ℤ) ≤ previous_highest_cut_parameter_index.i1 ∧
     (k : ℤ) ≤ previous_highest_cut_parameter_index.i2 ∧
     (l : ℤ) ≤ previous_highest_cut_parameter_index.i3
  then { info with bin := store_bin info.bin (get_bin info.parameter (index4 i j k l)) ⟨0, 0⟩ }
  else info

/-- The function `number_in_cut` of `lut.c`, with each of its two sums
evaluated operation by operation from left to right, every intermediate
result being an `unsigned long`. -/
def number_in_cut_stepwise (i j k l : ℕ) (info : INFO)
    (previous_highest_cut_parameter_index : INDEX) : CUTPTR × INFO :=
  let c := number_in_cut_corners i j k l info
  let b := get_bin info.parameter (index4 i j k l)
  let info1 := number_in_cut_zeroed i j k l info previous_highest_cut_parameter_index
  let b_1111 : BIN := info1.bin b
  let correct : ℕ :=
    ulong_eval b_1111.correct (number_in_cut_terms c fun q => (info1.load q).correct)
  let incorrect : ℕ :=
    ulong_eval b_1111.incorrect (number_in_cut_terms c fun q => (info1.load q).incorrect)
  (c.c_1111, info1.store c.c_1111 ⟨correct, incorrect⟩)

/-- A histogram on the small grid whose total is below `2 ^ 64` and in which
the bin `(0, 0, 0, 0)` holds `2 ^ 63` correct calls. -/
def big_bin : ℕ → BIN := fun o => if o = 0 then ⟨2 ^ 63, 0⟩ else ⟨1, 3⟩

/-- The state in which a pass over the histogram `big_bin` starts. -/
def big_info : INFO :=
  { parameter := demo_parameter
    boundary_cut := ⟨0, 0⟩
    bin := big_bin
    previous_cube := fun _ => ⟨0, 0⟩
    current_cube := fun _ => ⟨0, 0⟩
    dimension0 := (demo_parameter 0).dimension
    dimension1 := (demo_parameter 1).dimension
    dimension2 := (demo_parameter 2).dimension
    dimension3 := (demo_parameter 3).dimension }

/-! ## Properties of `get_threshold_index` -/

theorem get_threshold_index_loop_le (value : ℚ) (threshold : ℕ → ℚ) (m : ℕ) :
    get_threshold_index_loop value threshold m ≤ m := by
  induction m with
  | zero => simp [get_threshold_index_loop]
  | succ m ih =>
    simp only [get_threshold_index_loop]
    split_ifs
    · exact Nat.le_succ_of_le ih
    · exact le_rfl

theorem get_threshold_index_loop_above (value : ℚ) (threshold : ℕ → ℚ) (m : ℕ) :
    ∀ j, get_threshold_index_loop value threshold m ≤ j → j < m → value ≤ threshold j := by
  induction m with
  | zero => intro j _ hj; exact absurd hj (Nat.not_lt_zero j)
  | succ m ih =>
    intro j hle hj
    simp only [get_threshold_index_loop] at hle
    split_ifs at hle with h
    · rcases Nat.lt_succ_iff_lt_or_eq.mp hj with h1 | h1
      · exact ih j hle h1
      · rw [h1]; exact h
    · omega

theorem get_threshold_index_loop_below (value : ℚ) (threshold : ℕ → ℚ) (m : ℕ) :
    0 < get_threshold_index_loop value threshold m →
      ¬ value ≤ threshold (get_threshold_index_loop value threshold m - 1) := by
  induction m with
  | zero => simp [get_threshold_index_loop]
  | succ m ih =>
    simp only [get_threshold_index_loop]
    split_ifs with h
    · exact ih
    · intro _; simpa using h

theorem get_threshold_index_eq_some (value : ℚ) (threshold : ℕ → ℚ) (n : ℕ) (hn : 0 < n)
    (hv : value ≤ threshold (n - 1)) :
    get_threshold_index value threshold n
      = some (get_threshold_index_loop value threshold (n - 1)) := by
  obtain ⟨m, rfl⟩ : ∃ m, n = m + 1 := ⟨n - 1, by omega⟩
  simp only [get_threshold_index, Nat.add_sub_cancel] at hv ⊢
  rw [if_neg (not_lt.mpr hv)]
  simp [get_threshold_index_loop, hv]

/-- C3: for a non-empty ascending threshold array of length `n` and a value
not above the last threshold, `get_threshold_index` returns the smallest index
`i < n` with `value ≤ threshold[i]`. -/
theorem C3_get_threshold_index_smallest (value : ℚ) (threshold : ℕ → ℚ) (n : ℕ)
    (hn : 0 < n) (hasc : ∀ a b, a ≤ b → b < n → threshold a ≤ threshold b)
    (hv : value ≤ threshold (n - 1)) :
    ∃ i, get_threshold_index value threshold n = some i ∧ i < n ∧
      value ≤ threshold i ∧ ∀ j, j < n → value ≤ threshold j → i ≤ j := by
  refine ⟨get_threshold_index_loop value threshold (n - 1),
    get_threshold_index_eq_some value threshold n hn hv, ?_, ?_, ?_⟩
  · have := get_threshold_index_loop_le value threshold (n - 1); omega
  · have hle := get_threshold_index_loop_le value threshold (n - 1)
    rcases Nat.lt_or_ge (get_threshold_index_loop value threshold (n - 1)) (n - 1) with h | h
    · exact get_threshold_index_loop_above value threshold (n - 1) _ le_rfl h
    · have : get_threshold_index_loop value threshold (n - 1) = n - 1 := le_antisymm hle h
      rw [this]; exact hv
  · intro j hj hvj
    by_contra hlt
    have hpos : 0 < get_threshold_index_loop value threshold (n - 1) := by omega
    have hle := get_threshold_index_loop_le value threshold (n - 1)
    apply get_threshold_index_loop_below value threshold (n - 1) hpos
    exact le_trans hvj (hasc j _ (by omega) (by omega))

theorem C3_get_threshold_index_smallest_witness :
    ∃ i, get_threshold_index 3 (fun m => 2 * (m : ℚ)) 4 = some i ∧ i < 4 ∧
      (3 : ℚ) ≤ (fun m : ℕ => 2 * (m : ℚ)) i ∧
      ∀ j, j < 4 → (3 : ℚ) ≤ (fun m : ℕ => 2 * (m : ℚ)) j → i ≤ j :=
  C3_get_threshold_index_smallest 3 (fun m => 2 * (m : ℚ)) 4 (by decide)
    (by intro a b hab _; simp only; exact_mod_cast Nat.mul_le_mul_left 2 hab)
    (by norm_num)

/-- C4: for a non-empty threshold array of length `n`, `get_threshold_index`
takes the fatal exit exactly when the value exceeds `threshold[n-1]` (an
out-of-range value is never clamped to the last bin), and every index it
returns lies in `[0, n)`. -/
theorem C4_get_threshold_index_fails_iff (value : ℚ) (threshold : ℕ → ℚ) (n : ℕ)
    (hn : 0 < n) :
    (get_threshold_index value threshold n = none ↔ value > threshold (n - 1)) ∧
      ∀ i, get_threshold_index value threshold n = some i → i < n := by
  by_cases hv : value ≤ threshold (n - 1)
  · have h := get_threshold_index_eq_some value threshold n hn hv
    constructor
    · rw [h]; simp [hv]
    · intro i hi
      rw [h] at hi
      have := get_threshold_index_loop_le value threshold (n - 1)
      have : get_threshold_index_loop value threshold (n - 1) = i := by simpa using hi
      omega
  · obtain ⟨m, rfl⟩ : ∃ m, n = m + 1 := ⟨n - 1, by omega⟩
    have hv2 : threshold m < value := by simpa using hv
    have : get_threshold_index value threshold (m + 1) = none := by
      simp [get_threshold_index, hv2]
    constructor
    · rw [this]; simpa using hv2
    · intro i hi; rw [this] at hi; exact absurd hi (by simp)

theorem C4_get_threshold_index_fails_iff_witness :
    (get_threshold_index 7 (fun m => 2 * (m : ℚ)) 4 = none ↔
        (7 : ℚ) > (fun m : ℕ => 2 * (m : ℚ)) (4 - 1)) ∧
      ∀ i, get_threshold_index 7 (fun m => 2 * (m : ℚ)) 4 = some i → i < 4 :=
  C4_get_threshold_index_fails_iff 7 (fun m => 2 * (m : ℚ)) 4 (by decide)


theorem foldl_range_pair {σ τ : Type} (f : σ × τ → ℕ → σ × τ) (g : τ → ℕ → τ)
    (I : ℕ → σ → Prop) (n : ℕ)
    (hstep : ∀ i, i < n → ∀ s h, I i s → (f (s, h) i).2 = g h i ∧ I (i + 1) (f (s, h) i).1) :
    ∀ m, m ≤ n → ∀ s h, I 0 s →
      ((List.range m).foldl f (s, h)).2 = (List.range m).foldl g h ∧
        I m ((List.range m).foldl f (s, h)).1 := by
  intro m
  induction m with
  | zero => intro _ s h h0; exact ⟨rfl, h0⟩
  | succ m ih =>
    intro hm s h h0
    obtain ⟨e, hI⟩ := ih (Nat.le_of_succ_le hm) s h h0
    rw [List.range_succ, List.foldl_append, List.foldl_append]
    simp only [List.foldl_cons, List.foldl_nil]
    have := hstep m hm ((List.range m).foldl f (s, h)).1 ((List.range m).foldl f (s, h)).2 hI
    rw [← e]
    exact this
theorem box_sum_incl_excl (h : ℕ → ℕ → ℕ → ℕ → ℕ) (i j k l : ℕ) :
    box_sum h i j k l
      + box_sum h i j (k + 1) (l + 1)
      + box_sum h i (j + 1) k (l + 1)
      + box_sum h i (j + 1) (k + 1) l
      + box_sum h (i + 1) j k (l + 1)
      + box_sum h (i + 1) j (k + 1) l
      + box_sum h (i + 1) (j + 1) k l
      + box_sum h (i + 1) (j + 1) (k + 1) (l + 1)
    = h i j k l
      + box_sum h i j k (l + 1)
      + box_sum h i j (k + 1) l
      + box_sum h i (j + 1) k l
      + box_sum h i (j + 1) (k + 1) (l + 1)
      + box_sum h (i + 1) j k l
      + box_sum h (i + 1) j (k + 1) (l + 1)
      + box_sum h (i + 1) (j + 1) k (l + 1)
      + box_sum h (i + 1) (j + 1) (k + 1) l := by
  simp only [box_sum, Finset.sum_range_succ, Finset.sum_add_distrib]
  ring

set_option maxHeartbeats 1000000 in
theorem number_in_cut_corners_eq (parameter : ℕ → PARAMETER) (info : INFO)
    (hr : info_ready parameter info) (i j k l : ℕ) :
    (number_in_cut_corners i j k l info).c_0000 = get_cut ((i : ℤ) - 1) ((j : ℤ) - 1) ((k : ℤ) - 1) ((l : ℤ) - 1) TIME.PREVIOUS info ∧
    (number_in_cut_corners i j k l info).c_0001 = get_cut ((i : ℤ) - 1) ((j : ℤ) - 1) ((k : ℤ) - 1) (l : ℤ) TIME.CURRENT info ∧
    (number_in_cut_corners i j k l info).c_0010 = get_cut ((i : ℤ) - 1) ((j : ℤ) - 1) (k : ℤ) ((l : ℤ) - 1) TIME.PREVIOUS info ∧
    (number_in_cut_corners i j k l info).c_0011 = get_cut ((i : ℤ) - 1) ((j : ℤ) - 1) (k : ℤ) (l : ℤ) TIME.CURRENT info ∧
    (number_in_cut_corners i j k l info).c_0100 = get_cut ((i : ℤ) - 1) (j : ℤ) ((k : ℤ) - 1) ((l : ℤ) - 1) TIME.PREVIOUS info ∧
    (number_in_cut_corners i j k l info).c_0101 = get_cut ((i : ℤ) - 1) (j : ℤ) ((k : ℤ) - 1) (l : ℤ) TIME.CURRENT info ∧
    (number_in_cut_corners i j k l info).c_0110 = get_cut ((i : ℤ) - 1) (j : ℤ) (k : ℤ) ((l : ℤ) - 1) TIME.PREVIOUS info ∧
    (number_in_cut_corners i j k l info).c_0111 = get_cut ((i : ℤ) - 1) (j : ℤ) (k : ℤ) (l : ℤ) TIME.CURRENT info ∧
    (number_in_cut_corners i j k l info).c_1000 = get_cut (i : ℤ) ((j : ℤ) - 1) ((k : ℤ) - 1) ((l : ℤ) - 1) TIME.PREVIOUS info ∧
    (number_in_cut_corners i j k l info).c_1001 = get_cut (i : ℤ) ((j : ℤ) - 1) ((k : ℤ) - 1) (l : ℤ) TIME.CURRENT info ∧
    (number_in_cut_corners i j k l info).c_1010 = get_cut (i : ℤ) ((j : ℤ) - 1) (k : ℤ) ((l : ℤ) - 1) TIME.PREVIOUS info ∧
    (number_in_cut_corners i j k l info).c_1011 = get_cut (i : ℤ) ((j : ℤ) - 1) (k : ℤ) (l : ℤ) TIME.CURRENT info ∧
    (number_in_cut_corners i j k l info).c_1100 = get_cut (i : ℤ) (j : ℤ) ((k : ℤ) - 1) ((l : ℤ) - 1) TIME.PREVIOUS info ∧
    (number_in_cut_corners i j k l info).c_1101 = get_cut (i : ℤ) (j : ℤ) ((k : ℤ) - 1) (l : ℤ) TIME.CURRENT info ∧
    (number_in_cut_corners i j k l info).c_1110 = get_cut (i : ℤ) (j : ℤ) (k : ℤ) ((l : ℤ) - 1) TIME.PREVIOUS info ∧
    (number_in_cut_corners i j k l info).c_1111 = get_cut (i : ℤ) (j : ℤ) (k : ℤ) (l : ℤ) TIME.CURRENT info := by
  obtain ⟨hp, _, h0, h1, h2, _⟩ := hr
  have e0 : ((0 : ℕ) : ℤ) - 1 = -1 := by norm_num
  have ei : ∀ n : ℕ, ((n : ℤ) - 1 = -1) ↔ n = 0 := fun n => by omega
  have ni : ∀ n : ℕ, ¬ ((n : ℤ) = -1) := fun n => by omega
  simp only [number_in_cut_corners, get_cut, CUTPTR.add, CUTPTR.sub, ei, ni, or_false,
    false_or, if_false, h0, h1, h2, hp]
  refine ⟨?_, ?_, ?_, ?_, ?_, ?_, ?_, ?_, ?_, ?_, ?_, ?_, ?_, ?_, ?_, ?_⟩ <;>
    (try split_ifs) <;>
    first
      | trivial
      | rfl
      | (exfalso; omega)
      | (simp only [CUTPTR.mk.injEq, true_and]; ring)

/-! ## Arithmetic of the offsets -/

theorem radix_lt {a b n m : ℕ} (ha : a < n) (hb : b < m) : a + b * n < n * m := by
  have h1 : (b + 1) * n ≤ m * n := Nat.mul_le_mul_right n hb
  rw [Nat.succ_mul] at h1
  rw [Nat.mul_comm n m]
  omega

theorem radix_inj {a b a' b' n : ℕ} (ha : a < n) (ha' : a' < n)
    (h : a + b * n = a' + b' * n) : a = a' ∧ b = b' := by
  have h1 : (a + b * n) % n = (a' + b' * n) % n := by rw [h]
  rw [Nat.add_mul_mod_self_right, Nat.add_mul_mod_self_right, Nat.mod_eq_of_lt ha,
    Nat.mod_eq_of_lt ha'] at h1
  subst h1
  have h2 : b * n = b' * n := Nat.add_left_cancel h
  exact ⟨rfl, Nat.eq_of_mul_eq_mul_right (Nat.lt_of_le_of_lt (Nat.zero_le a) ha) h2⟩

theorem get_bin_eq (parameter : ℕ → PARAMETER) (a b c d : ℕ) :
    get_bin parameter (index4 a b c d)
      = cell_off parameter a b c + d * (parameter 3).dimension := by
  simp [get_bin, PARAMETER_COUNT, List.range_succ, index4, cell_off]

theorem cell_off_eq {parameter : ℕ → PARAMETER} (hs : strides_set parameter) (a b c : ℕ) :
    cell_off parameter a b c
      = (a + b * (parameter 0).threshold_count)
        + c * ((parameter 0).threshold_count * (parameter 1).threshold_count) := by
  obtain ⟨h0, h1, h2, _⟩ := hs
  simp only [cell_off, h2, h1, h0, Nat.mul_one, Nat.one_mul]

theorem dimension3_eq {parameter : ℕ → PARAMETER} (hs : strides_set parameter) :
    (parameter 3).dimension
      = (parameter 0).threshold_count * (parameter 1).threshold_count
        * (parameter 2).threshold_count := by
  obtain ⟨h0, h1, h2, h3⟩ := hs
  simp only [h3, h2, h1, h0, Nat.one_mul]

theorem cell_off_lt {parameter : ℕ → PARAMETER} (hs : strides_set parameter) {a b c : ℕ}
    (ha : a < (parameter 0).threshold_count) (hb : b < (parameter 1).threshold_count)
    (hc : c < (parameter 2).threshold_count) :
    cell_off parameter a b c < (parameter 3).dimension := by
  rw [cell_off_eq hs, dimension3_eq hs]
  exact radix_lt (radix_lt ha hb) hc

theorem cell_off_inj {parameter : ℕ → PARAMETER} (hs : strides_set parameter)
    {a b c a' b' c' : ℕ}
    (ha : a < (parameter 0).threshold_count) (hb : b < (parameter 1).threshold_count)
    (ha' : a' < (parameter 0).threshold_count) (hb' : b' < (parameter 1).threshold_count)
    (h : cell_off parameter a b c = cell_off parameter a' b' c') :
    a = a' ∧ b = b' ∧ c = c' := by
  rw [cell_off_eq hs, cell_off_eq hs] at h
  obtain ⟨h1, h2⟩ := radix_inj (radix_lt ha hb) (radix_lt ha' hb') h
  obtain ⟨h3, h4⟩ := radix_inj ha ha' h1
  exact ⟨h3, h4, h2⟩

theorem get_bin_inj {parameter : ℕ → PARAMETER} (hs : strides_set parameter)
    {a b c d a' b' c' d' : ℕ} (h : in_grid parameter a b c d) (h' : in_grid parameter a' b' c' d')
    (e : get_bin parameter (index4 a b c d) = get_bin parameter (index4 a' b' c' d')) :
    a = a' ∧ b = b' ∧ c = c' ∧ d = d' := by
  rw [get_bin_eq, get_bin_eq] at e
  obtain ⟨h1, h2⟩ := radix_inj (cell_off_lt hs h.1 h.2.1 h.2.2.1)
    (cell_off_lt hs h'.1 h'.2.1 h'.2.2.1) e
  obtain ⟨h3, h4, h5⟩ := cell_off_inj hs h.1 h.2.1 h'.1 h'.2.1 h1
  exact ⟨h3, h4, h5, h2⟩

theorem cell_off_sub {parameter : ℕ → PARAMETER} {i j k di dj dk : ℕ}
    (hi : di ≤ i) (hj : dj ≤ j) (hk : dk ≤ k) :
    cell_off parameter (i - di) (j - dj) (k - dk)
      + (di * (parameter 0).dimension + dj * (parameter 1).dimension
        + dk * (parameter 2).dimension)
      = cell_off parameter i j k := by
  obtain ⟨i', rfl⟩ := Nat.exists_eq_add_of_le hi
  obtain ⟨j', rfl⟩ := Nat.exists_eq_add_of_le hj
  obtain ⟨k', rfl⟩ := Nat.exists_eq_add_of_le hk
  simp only [cell_off, Nat.add_sub_cancel_left]
  ring

theorem strides_pos {parameter : ℕ → PARAMETER} (hs : strides_set parameter) {a b c : ℕ}
    (ha : a < (parameter 0).threshold_count) (hb : b < (parameter 1).threshold_count)
    (_hc : c < (parameter 2).threshold_count) :
    0 < (parameter 0).dimension ∧ 0 < (parameter 1).dimension ∧
      0 < (parameter 2).dimension := by
  obtain ⟨h0, h1, h2, _⟩ := hs
  have p0 : 0 < (parameter 0).dimension := by omega
  have p1 : 0 < (parameter 1).dimension := by
    rw [h1]; exact Nat.mul_pos p0 (by omega)
  exact ⟨p0, p1, by rw [h2]; exact Nat.mul_pos p1 (by omega)⟩

theorem box_sum_zero (h : ℕ → ℕ → ℕ → ℕ → ℕ) (i j k l : ℕ)
    (hz : i = 0 ∨ j = 0 ∨ k = 0 ∨ l = 0) : box_sum h i j k l = 0 := by
  rcases hz with rfl | rfl | rfl | rfl <;> simp [box_sum]

/-! ## The corners of `number_in_cut` under the invariant of the sweep -/

theorem get_cut_nat {parameter : ℕ → PARAMETER} {info : INFO} (hr : info_ready parameter info)
    (a b c l : ℕ) (time : TIME) :
    get_cut a b c l time info =
      ⟨match time with
        | TIME.CURRENT => CUTBASE.current_cube
        | TIME.PREVIOUS => CUTBASE.previous_cube, (cell_off parameter a b c : ℕ)⟩ := by
  have ni : ∀ n : ℕ, ¬ ((n : ℤ) = -1) := fun n => by omega
  cases time <;>
    simp only [get_cut, ni, or_false, if_false, hr.1, cell_off, Nat.cast_add, Nat.cast_mul]

theorem dec_cases {i di : ℕ} (hdi : di ≤ 1) : di ≤ i ∨ (di = 1 ∧ i = 0) := by omega

theorem load_get_cut_current {parameter : ℕ → PARAMETER} {H : ℕ → ℕ → ℕ → ℕ → BIN}
    {l i j k : ℕ} {info : INFO} (hs : strides_set parameter)
    (hinv : cubes_inv parameter H l (cell_off parameter i j k) info)
    (hi : i < (parameter 0).threshold_count) (hj : j < (parameter 1).threshold_count)
    (hk : k < (parameter 2).threshold_count) (di dj dk : ℕ)
    (hdi : di ≤ 1) (hdj : dj ≤ 1) (hdk : dk ≤ 1) (hpos : 0 < di + dj + dk) :
    info.load (get_cut ((i : ℤ) - di) ((j : ℤ) - dj) ((k : ℤ) - dk) l TIME.CURRENT info) =
      ⟨box_correct H (i + 1 - di) (j + 1 - dj) (k + 1 - dk) (l + 1) % ULONG_MOD,
        box_incorrect H (i + 1 - di) (j + 1 - dj) (k + 1 - dk) (l + 1) % ULONG_MOD⟩ := by
  obtain ⟨hr, hcur, _⟩ := hinv
  by_cases hb : di ≤ i ∧ dj ≤ j ∧ dk ≤ k
  · obtain ⟨h1, h2, h3⟩ := hb
    have e1 : ((i : ℤ) - di) = ((i - di : ℕ) : ℤ) := by omega
    have e2 : ((j : ℤ) - dj) = ((j - dj : ℕ) : ℤ) := by omega
    have e3 : ((k : ℤ) - dk) = ((k - dk : ℕ) : ℤ) := by omega
    rw [e1, e2, e3, get_cut_nat hr]
    obtain ⟨p0, p1, p2⟩ := strides_pos hs hi hj hk
    have hsum := @cell_off_sub parameter _ _ _ _ _ _ h1 h2 h3
    have hlt : cell_off parameter (i - di) (j - dj) (k - dk) < cell_off parameter i j k := by
      have : 0 < di * (parameter 0).dimension + dj * (parameter 1).dimension
          + dk * (parameter 2).dimension := by
        rcases Nat.eq_zero_or_pos di with h | h
        · rcases Nat.eq_zero_or_pos dj with h' | h'
          · have : dk = 1 := by omega
            subst this; omega
          · have : dj = 1 := by omega
            subst this; omega
        · have : di = 1 := by omega
          subst this; omega
      omega
    have := hcur (i - di) (j - dj) (k - dk) (by omega) (by omega) (by omega) hlt
    simp only [INFO.load]
    rw [this]
    have a1 : i - di + 1 = i + 1 - di := by omega
    have a2 : j - dj + 1 = j + 1 - dj := by omega
    have a3 : k - dk + 1 = k + 1 - dk := by omega
    rw [a1, a2, a3]
  · have hz : i + 1 - di = 0 ∨ j + 1 - dj = 0 ∨ k + 1 - dk = 0 ∨ l + 1 = 0 := by omega
    have hc : ((i : ℤ) - di = -1 ∨ (j : ℤ) - dj = -1 ∨ (k : ℤ) - dk = -1 ∨ (l : ℤ) = -1) := by
      omega
    simp only [get_cut, hc, if_true, INFO.load, hr.2.1, box_correct, box_incorrect,
      box_sum_zero _ _ _ _ _ hz, Nat.zero_mod]

theorem load_get_cut_previous {parameter : ℕ → PARAMETER} {H : ℕ → ℕ → ℕ → ℕ → BIN}
    {l t i j k : ℕ} {info : INFO}
    (hinv : cubes_inv parameter H l t info)
    (hi : i < (parameter 0).threshold_count) (hj : j < (parameter 1).threshold_count)
    (hk : k < (parameter 2).threshold_count) (di dj dk : ℕ)
    (hdi : di ≤ 1) (hdj : dj ≤ 1) (hdk : dk ≤ 1) :
    info.load (get_cut ((i : ℤ) - di) ((j : ℤ) - dj) ((k : ℤ) - dk) ((l : ℤ) - 1)
        TIME.PREVIOUS info) =
      ⟨box_correct H (i + 1 - di) (j + 1 - dj) (k + 1 - dk) l % ULONG_MOD,
        box_incorrect H (i + 1 - di) (j + 1 - dj) (k + 1 - dk) l % ULONG_MOD⟩ := by
  obtain ⟨hr, _, hprev⟩ := hinv
  by_cases hb : di ≤ i ∧ dj ≤ j ∧ dk ≤ k ∧ 0 < l
  · obtain ⟨h1, h2, h3, h4⟩ := hb
    have e1 : ((i : ℤ) - di) = ((i - di : ℕ) : ℤ) := by omega
    have e2 : ((j : ℤ) - dj) = ((j - dj : ℕ) : ℤ) := by omega
    have e3 : ((k : ℤ) - dk) = ((k - dk : ℕ) : ℤ) := by omega
    have e4 : ((l : ℤ) - 1) = ((l - 1 : ℕ) : ℤ) := by omega
    rw [e1, e2, e3, e4, get_cut_nat hr]
    have := hprev h4 (i - di) (j - dj) (k - dk) (by omega) (by omega) (by omega)
    simp only [INFO.load]
    rw [this]
    have a1 : i - di + 1 = i + 1 - di := by omega
    have a2 : j - dj + 1 = j + 1 - dj := by omega
    have a3 : k - dk + 1 = k + 1 - dk := by omega
    rw [a1, a2, a3]
  · have hz : i + 1 - di = 0 ∨ j + 1 - dj = 0 ∨ k + 1 - dk = 0 ∨ l = 0 := by omega
    have hc : ((i : ℤ) - di = -1 ∨ (j : ℤ) - dj = -1 ∨ (k : ℤ) - dk = -1
        ∨ (l : ℤ) - 1 = -1) := by
      omega
    simp only [get_cut, hc, if_true, INFO.load, hr.2.1, box_correct, box_incorrect,
      box_sum_zero _ _ _ _ _ hz, Nat.zero_mod]


/-! ## One call of `number_in_cut` -/

theorem incl_excl_mod (h : ℕ → ℕ → ℕ → ℕ → ℕ) (i j k l b : ℕ) (hb : b = h i j k l) :
    (((b : ℤ)
      + (((box_sum h i (j + 1) (k + 1) (l + 1)) % ULONG_MOD : ℕ) : ℤ)
      + (((box_sum h (i + 1) j (k + 1) (l + 1)) % ULONG_MOD : ℕ) : ℤ)
      - (((box_sum h i j (k + 1) (l + 1)) % ULONG_MOD : ℕ) : ℤ)
      + (((box_sum h (i + 1) (j + 1) k (l + 1)) % ULONG_MOD : ℕ) : ℤ)
      - (((box_sum h i (j + 1) k (l + 1)) % ULONG_MOD : ℕ) : ℤ)
      - (((box_sum h (i + 1) j k (l + 1)) % ULONG_MOD : ℕ) : ℤ)
      + (((box_sum h i j k (l + 1)) % ULONG_MOD : ℕ) : ℤ)
      + (((box_sum h (i + 1) (j + 1) (k + 1) l) % ULONG_MOD : ℕ) : ℤ)
      - (((box_sum h i (j + 1) (k + 1) l) % ULONG_MOD : ℕ) : ℤ)
      - (((box_sum h (i + 1) j (k + 1) l) % ULONG_MOD : ℕ) : ℤ)
      + (((box_sum h i j (k + 1) l) % ULONG_MOD : ℕ) : ℤ)
      - (((box_sum h (i + 1) (j + 1) k l) % ULONG_MOD : ℕ) : ℤ)
      + (((box_sum h i (j + 1) k l) % ULONG_MOD : ℕ) : ℤ)
      + (((box_sum h (i + 1) j k l) % ULONG_MOD : ℕ) : ℤ)
      - (((box_sum h i j k l) % ULONG_MOD : ℕ) : ℤ))
      % (ULONG_MOD : ℤ)).toNat = box_sum h (i + 1) (j + 1) (k + 1) (l + 1) % ULONG_MOD := by
  have hid := box_sum_incl_excl h i j k l
  rw [← hb] at hid
  generalize box_sum h i j k l = P0000 at hid ⊢
  generalize box_sum h i j k (l + 1) = P0001 at hid ⊢
  generalize box_sum h i j (k + 1) l = P0010 at hid ⊢
  generalize box_sum h i j (k + 1) (l + 1) = P0011 at hid ⊢
  generalize box_sum h i (j + 1) k l = P0100 at hid ⊢
  generalize box_sum h i (j + 1) k (l + 1) = P0101 at hid ⊢
  generalize box_sum h i (j + 1) (k + 1) l = P0110 at hid ⊢
  generalize box_sum h i (j + 1) (k + 1) (l + 1) = P0111 at hid ⊢
  generalize box_sum h (i + 1) j k l = P1000 at hid ⊢
  generalize box_sum h (i + 1) j k (l + 1) = P1001 at hid ⊢
  generalize box_sum h (i + 1) j (k + 1) l = P1010 at hid ⊢
  generalize box_sum h (i + 1) j (k + 1) (l + 1) = P1011 at hid ⊢
  generalize box_sum h (i + 1) (j + 1) k l = P1100 at hid ⊢
  generalize box_sum h (i + 1) (j + 1) k (l + 1) = P1101 at hid ⊢
  generalize box_sum h (i + 1) (j + 1) (k + 1) l = P1110 at hid ⊢
  generalize box_sum h (i + 1) (j + 1) (k + 1) (l + 1) = P1111 at hid ⊢
  simp only [ULONG_MOD]
  omega

theorem load_bin_irrelevant (info : INFO) (b : ℕ → BIN) (p : CUTPTR) :
    ({ info with bin := b } : INFO).load p = info.load p := by
  simp only [INFO.load]

/-- The state after the statement of `number_in_cut` that may set the bin of
the cell to zero. -/
theorem number_in_cut_value {parameter : ℕ → PARAMETER} {bin0 : ℕ → BIN} {p : INDEX}
    {i j k l : ℕ} {info : INFO} (hs : strides_set parameter)
    (hin : in_grid parameter i j k l)
    (hinv : sweep_inv parameter bin0 p l (cell_off parameter i j k) info) :
    number_in_cut i j k l info p =
      (⟨CUTBASE.current_cube, (cell_off parameter i j k : ℕ)⟩,
        (if dominated i j k l p then
            { info with bin := store_bin info.bin (get_bin parameter (index4 i j k l)) ⟨0, 0⟩ }
          else info).store ⟨CUTBASE.current_cube, (cell_off parameter i j k : ℕ)⟩
          ⟨box_correct (zero_below p (bin_at parameter bin0)) (i + 1) (j + 1) (k + 1) (l + 1)
              % ULONG_MOD,
            box_incorrect (zero_below p (bin_at parameter bin0)) (i + 1) (j + 1) (k + 1) (l + 1)
              % ULONG_MOD⟩) := by
  obtain ⟨hi, hj, hk, hl⟩ := hin
  obtain ⟨hcub, hbin⟩ := hinv
  have hr := hcub.1
  obtain ⟨c0000, c0001, c0010, c0011, c0100, c0101, c0110, c0111, c1000, c1001, c1010, c1011,
    c1100, c1101, c1110, c1111⟩ := number_in_cut_corners_eq parameter info hr i j k l
  have l0000 := load_get_cut_previous hcub hi hj hk 1 1 1 (by omega) (by omega) (by omega)
  have l0001 := load_get_cut_current hs hcub hi hj hk 1 1 1 (by omega) (by omega) (by omega) (by omega)
  have l0010 := load_get_cut_previous hcub hi hj hk 1 1 0 (by omega) (by omega) (by omega)
  have l0011 := load_get_cut_current hs hcub hi hj hk 1 1 0 (by omega) (by omega) (by omega) (by omega)
  have l0100 := load_get_cut_previous hcub hi hj hk 1 0 1 (by omega) (by omega) (by omega)
  have l0101 := load_get_cut_current hs hcub hi hj hk 1 0 1 (by omega) (by omega) (by omega) (by omega)
  have l0110 := load_get_cut_previous hcub hi hj hk 1 0 0 (by omega) (by omega) (by omega)
  have l0111 := load_get_cut_current hs hcub hi hj hk 1 0 0 (by omega) (by omega) (by omega) (by omega)
  have l1000 := load_get_cut_previous hcub hi hj hk 0 1 1 (by omega) (by omega) (by omega)
  have l1001 := load_get_cut_current hs hcub hi hj hk 0 1 1 (by omega) (by omega) (by omega) (by omega)
  have l1010 := load_get_cut_previous hcub hi hj hk 0 1 0 (by omega) (by omega) (by omega)
  have l1011 := load_get_cut_current hs hcub hi hj hk 0 1 0 (by omega) (by omega) (by omega) (by omega)
  have l1100 := load_get_cut_previous hcub hi hj hk 0 0 1 (by omega) (by omega) (by omega)
  have l1101 := load_get_cut_current hs hcub hi hj hk 0 0 1 (by omega) (by omega) (by omega) (by omega)
  have l1110 := load_get_cut_previous hcub hi hj hk 0 0 0 (by omega) (by omega) (by omega)
  simp only [Nat.cast_one, Nat.cast_zero, sub_zero, Nat.add_sub_cancel, Nat.sub_zero] at l0000 l0001 l0010 l0011 l0100 l0101 l0110 l0111 l1000 l1001 l1010 l1011 l1100 l1101 l1110
  rw [get_cut_nat hr] at c1111
  have hload : ∀ q : CUTPTR,
      (if (i : ℤ) ≤ p.i0 ∧ (j : ℤ) ≤ p.i1 ∧ (k : ℤ) ≤ p.i2 ∧ (l : ℤ) ≤ p.i3 then
        { info with bin := store_bin info.bin (get_bin info.parameter (index4 i j k l)) ⟨0, 0⟩ }
      else info).load q = info.load q := by
    intro q; split_ifs
    · exact load_bin_irrelevant _ _ _
    · rfl
  have hT : ¬ get_bin parameter (index4 i j k l)
      < l * (parameter 3).dimension + cell_off parameter i j k := by
    rw [get_bin_eq]; omega
  have hb0 := hbin i j k l ⟨hi, hj, hk, hl⟩
  rw [if_neg hT] at hb0
  have hb : (if (i : ℤ) ≤ p.i0 ∧ (j : ℤ) ≤ p.i1 ∧ (k : ℤ) ≤ p.i2 ∧ (l : ℤ) ≤ p.i3 then
        { info with bin := store_bin info.bin (get_bin info.parameter (index4 i j k l)) ⟨0, 0⟩ }
      else info).bin (get_bin info.parameter (index4 i j k l))
      = zero_below p (bin_at parameter bin0) i j k l := by
    rw [hr.1]
    simp only [zero_below, dominated]
    split_ifs
    · simp [store_bin]
    · exact hb0
  simp only [number_in_cut, c0000, c0001, c0010, c0011, c0100, c0101, c0110, c0111, c1000,
    c1001, c1010, c1011, c1100, c1101, c1110, c1111, hload, l0000, l0001, l0010, l0011, l0100,
    l0101, l0110, l0111, l1000, l1001, l1010, l1011, l1100, l1101, l1110, hb]
  have vc := incl_excl_mod
    (fun a b c d => (zero_below p (bin_at parameter bin0) a b c d).correct) i j k l _ rfl
  have vi := incl_excl_mod
    (fun a b c d => (zero_below p (bin_at parameter bin0) a b c d).incorrect) i j k l _ rfl
  simp only [box_correct, box_incorrect]
  rw [vc, vi, hr.1]
  rfl
theorem number_in_cut_step {parameter : ℕ → PARAMETER} {bin0 : ℕ → BIN} {p : INDEX}
    {i j k l : ℕ} {info : INFO} (hs : strides_set parameter)
    (hin : in_grid parameter i j k l)
    (hinv : sweep_inv parameter bin0 p l (cell_off parameter i j k) info) :
    (number_in_cut i j k l info p).2.load (number_in_cut i j k l info p).1 =
      ⟨box_correct (zero_below p (bin_at parameter bin0)) (i + 1) (j + 1) (k + 1) (l + 1)
          % ULONG_MOD,
        box_incorrect (zero_below p (bin_at parameter bin0)) (i + 1) (j + 1) (k + 1) (l + 1)
          % ULONG_MOD⟩ ∧
      sweep_inv parameter bin0 p l (cell_off parameter i j k + 1)
        (number_in_cut i j k l info p).2 := by
  rw [number_in_cut_value hs hin hinv]
  obtain ⟨hi, hj, hk, hl⟩ := hin
  obtain ⟨⟨hr, hcur, hprev⟩, hbin⟩ := hinv
  refine ⟨?_, ⟨?_, ?_, ?_⟩, ?_⟩
  · simp [INFO.load, INFO.store]
  · obtain ⟨h1, h2, h3, h4, h5, h6⟩ := hr
    split_ifs <;> exact ⟨h1, h2, h3, h4, h5, h6⟩
  · intro a b c ha hb hc hlt
    have hcur' := hcur a b c ha hb hc
    by_cases he : cell_off parameter a b c = cell_off parameter i j k
    · obtain ⟨rfl, rfl, rfl⟩ := cell_off_inj hs ha hb hi hj he
      split_ifs <;> simp [INFO.store]
    · have hne : ((cell_off parameter a b c : ℕ) : ℤ) ≠ (cell_off parameter i j k : ℕ) := by
        exact_mod_cast he
      have hlt' : cell_off parameter a b c < cell_off parameter i j k := by omega
      split_ifs <;> simp [INFO.store, hne, hcur' hlt']
  · intro hl0 a b c ha hb hc
    have := hprev hl0 a b c ha hb hc
    split_ifs <;> simpa [INFO.store] using this
  · intro a b c d hg
    have hb0 := hbin a b c d hg
    have hT : get_bin parameter (index4 i j k l)
        = l * (parameter 3).dimension + cell_off parameter i j k := by
      rw [get_bin_eq]; omega
    have hbin_store : ∀ (q : CUTPTR) (v : CUT) (o : ℕ) (x : INFO), (x.store q v).bin o = x.bin o := by
      intro q v o x
      simp only [INFO.store]; split <;> rfl
    rw [hbin_store]
    by_cases he : get_bin parameter (index4 a b c d) = get_bin parameter (index4 i j k l)
    · obtain ⟨rfl, rfl, rfl, rfl⟩ := get_bin_inj hs hg ⟨hi, hj, hk, hl⟩ he
      have hlt : get_bin parameter (index4 a b c d)
          < d * (parameter 3).dimension + (cell_off parameter a b c + 1) := by omega
      have hnlt : ¬ get_bin parameter (index4 a b c d)
          < d * (parameter 3).dimension + cell_off parameter a b c := by omega
      rw [if_pos hlt]
      rw [if_neg hnlt] at hb0
      by_cases hd : dominated a b c d p
      · simp [hd, store_bin, zero_below]
      · simp only [hd, if_false, zero_below]
        exact hb0
    · have hiff : (get_bin parameter (index4 a b c d)
          < l * (parameter 3).dimension + (cell_off parameter i j k + 1)) ↔
          (get_bin parameter (index4 a b c d)
            < l * (parameter 3).dimension + cell_off parameter i j k) := by omega
      simp only [hiff]
      rw [← hb0]
      split_ifs
      · simp [store_bin, he]
      · rfl

/-! ## The loops of the sweep -/

theorem cell_off_succ_i {parameter : ℕ → PARAMETER} (hs : strides_set parameter) (i j k : ℕ) :
    cell_off parameter (i + 1) j k = cell_off parameter i j k + 1 := by
  simp only [cell_off, hs.1]; ring

theorem cell_off_row_end {parameter : ℕ → PARAMETER} (hs : strides_set parameter) (j k : ℕ) :
    cell_off parameter (parameter 0).threshold_count j k = cell_off parameter 0 (j + 1) k := by
  simp only [cell_off, hs.2.1, hs.1]; ring

theorem cell_off_plane_end {parameter : ℕ → PARAMETER} (hs : strides_set parameter) (k : ℕ) :
    cell_off parameter 0 (parameter 1).threshold_count k = cell_off parameter 0 0 (k + 1) := by
  simp only [cell_off, hs.2.2.1]; ring

theorem cell_off_cube_end {parameter : ℕ → PARAMETER} (hs : strides_set parameter) :
    cell_off parameter 0 0 (parameter 2).threshold_count = (parameter 3).dimension := by
  simp only [cell_off, hs.2.2.2]; ring

theorem scan_cell_spec {parameter : ℕ → PARAMETER} {bin0 : ℕ → BIN} {p : INDEX}
    {i j k l : ℕ} (hs : strides_set parameter) (hin : in_grid parameter i j k l)
    (info : INFO) (h : HIGHEST_QV_CUT)
    (hinv : sweep_inv parameter bin0 p l (cell_off parameter i j k) info) :
    (scan_cell parameter p i j k l (info, h)).2
        = select_cell parameter p (region_value (zero_below p (bin_at parameter bin0))) i j k l h ∧
      sweep_inv parameter bin0 p l (cell_off parameter (i + 1) j k)
        (scan_cell parameter p i j k l (info, h)).1 := by
  obtain ⟨h1, h2⟩ := number_in_cut_step hs hin hinv
  rw [cell_off_succ_i hs]
  refine ⟨?_, h2⟩
  simp only [scan_cell, select_cell, h1, region_value]

theorem scan_i_spec {parameter : ℕ → PARAMETER} {bin0 : ℕ → BIN} {p : INDEX}
    {j k l : ℕ} (hs : strides_set parameter) (hj : j < (parameter 1).threshold_count)
    (hk : k < (parameter 2).threshold_count) (hl : l < (parameter 3).threshold_count)
    (m : ℕ) (hm : m ≤ (parameter 0).threshold_count) (info : INFO) (h : HIGHEST_QV_CUT)
    (hinv : sweep_inv parameter bin0 p l (cell_off parameter 0 j k) info) :
    ((List.range m).foldl (fun s i => scan_cell parameter p i j k l s) (info, h)).2
        = (List.range m).foldl
            (fun h i => select_cell parameter p
              (region_value (zero_below p (bin_at parameter bin0))) i j k l h) h ∧
      sweep_inv parameter bin0 p l (cell_off parameter m j k)
        ((List.range m).foldl (fun s i => scan_cell parameter p i j k l s) (info, h)).1 :=
  foldl_range_pair (fun s i => scan_cell parameter p i j k l s)
    (fun h i => select_cell parameter p (region_value (zero_below p (bin_at parameter bin0)))
      i j k l h)
    (fun i s => sweep_inv parameter bin0 p l (cell_off parameter i j k) s)
    (parameter 0).threshold_count
    (fun _ hi s h hI => scan_cell_spec hs ⟨hi, hj, hk, hl⟩ s h hI) m hm info h hinv

theorem scan_j_spec {parameter : ℕ → PARAMETER} {bin0 : ℕ → BIN} {p : INDEX}
    {k l : ℕ} (hs : strides_set parameter)
    (hk : k < (parameter 2).threshold_count) (hl : l < (parameter 3).threshold_count)
    (m : ℕ) (hm : m ≤ (parameter 1).threshold_count) (info : INFO) (h : HIGHEST_QV_CUT)
    (hinv : sweep_inv parameter bin0 p l (cell_off parameter 0 0 k) info) :
    ((List.range m).foldl (fun s j => scan_i parameter p j k l s) (info, h)).2
        = (List.range m).foldl
            (fun h j => select_i parameter p
              (region_value (zero_below p (bin_at parameter bin0))) j k l h) h ∧
      sweep_inv parameter bin0 p l (cell_off parameter 0 m k)
        ((List.range m).foldl (fun s j => scan_i parameter p j k l s) (info, h)).1 :=
  foldl_range_pair (fun s j => scan_i parameter p j k l s)
    (fun h j => select_i parameter p (region_value (zero_below p (bin_at parameter bin0)))
      j k l h)
    (fun j s => sweep_inv parameter bin0 p l (cell_off parameter 0 j k) s)
    (parameter 1).threshold_count
    (fun j hj s h hI => by
      have := scan_i_spec hs hj hk hl _ le_rfl s h hI
      rw [cell_off_row_end hs] at this
      exact this) m hm info h hinv

theorem scan_k_spec {parameter : ℕ → PARAMETER} {bin0 : ℕ → BIN} {p : INDEX}
    {l : ℕ} (hs : strides_set parameter) (hl : l < (parameter 3).threshold_count)
    (m : ℕ) (hm : m ≤ (parameter 2).threshold_count) (info : INFO) (h : HIGHEST_QV_CUT)
    (hinv : sweep_inv parameter bin0 p l (cell_off parameter 0 0 0) info) :
    ((List.range m).foldl (fun s k => scan_j parameter p k l s) (info, h)).2
        = (List.range m).foldl
            (fun h k => select_j parameter p
              (region_value (zero_below p (bin_at parameter bin0))) k l h) h ∧
      sweep_inv parameter bin0 p l (cell_off parameter 0 0 m)
        ((List.range m).foldl (fun s k => scan_j parameter p k l s) (info, h)).1 :=
  foldl_range_pair (fun s k => scan_j parameter p k l s)
    (fun h k => select_j parameter p (region_value (zero_below p (bin_at parameter bin0)))
      k l h)
    (fun k s => sweep_inv parameter bin0 p l (cell_off parameter 0 0 k) s)
    (parameter 2).threshold_count
    (fun k hk s h hI => by
      have := scan_j_spec hs hk hl _ le_rfl s h hI
      rw [cell_off_plane_end hs] at this
      exact this) m hm info h hinv

theorem pass_inv_swap {parameter : ℕ → PARAMETER} {bin0 : ℕ → BIN} {p : INDEX} {l : ℕ}
    {info : INFO} (hinv : pass_inv parameter bin0 p l info) :
    sweep_inv parameter bin0 p l (cell_off parameter 0 0 0) (swap_cubes info) := by
  obtain ⟨hr, hcur, hbin⟩ := hinv
  have h0 : cell_off parameter 0 0 0 = 0 := by simp [cell_off]
  rw [h0]
  refine ⟨⟨hr, ?_, ?_⟩, ?_⟩
  · intro a b c _ _ _ hlt; exact absurd hlt (Nat.not_lt_zero _)
  · intro hl a b c ha hb hc; exact hcur hl a b c ha hb hc
  · simpa using hbin

theorem sweep_inv_end {parameter : ℕ → PARAMETER} {bin0 : ℕ → BIN} {p : INDEX} {l : ℕ}
    {info : INFO} (hs : strides_set parameter)
    (hinv : sweep_inv parameter bin0 p l (parameter 3).dimension info) :
    pass_inv parameter bin0 p (l + 1) info := by
  obtain ⟨⟨hr, hcur, _⟩, hbin⟩ := hinv
  refine ⟨hr, ?_, ?_⟩
  · intro _ a b c ha hb hc
    exact hcur a b c ha hb hc (cell_off_lt hs ha hb hc)
  · have : (l + 1) * (parameter 3).dimension
        = l * (parameter 3).dimension + (parameter 3).dimension := by ring
    rw [this]; exact hbin

theorem scan_l_spec {parameter : ℕ → PARAMETER} {bin0 : ℕ → BIN} {p : INDEX}
    (hs : strides_set parameter)
    (m : ℕ) (hm : m ≤ (parameter 3).threshold_count) (info : INFO) (h : HIGHEST_QV_CUT)
    (hinv : pass_inv parameter bin0 p 0 info) :
    ((List.range m).foldl (fun s l => scan_k parameter p l (swap_cubes s.1, s.2)) (info, h)).2
        = (List.range m).foldl
            (fun h l => select_k parameter p
              (region_value (zero_below p (bin_at parameter bin0))) l h) h ∧
      pass_inv parameter bin0 p m
        ((List.range m).foldl (fun s l => scan_k parameter p l (swap_cubes s.1, s.2))
          (info, h)).1 :=
  foldl_range_pair (fun s l => scan_k parameter p l (swap_cubes s.1, s.2))
    (fun h l => select_k parameter p (region_value (zero_below p (bin_at parameter bin0))) l h)
    (fun l s => pass_inv parameter bin0 p l s)
    (parameter 3).threshold_count
    (fun l hl s h hI => by
      have := scan_k_spec hs hl _ le_rfl (swap_cubes s) h (pass_inv_swap hI)
      rw [cell_off_cube_end hs] at this
      exact ⟨this.1, sweep_inv_end hs this.2⟩) m hm info h hinv

theorem pass_inv_start {parameter : ℕ → PARAMETER} (p : INDEX) {info : INFO}
    (hr : info_ready parameter info) : pass_inv parameter info.bin p 0 info := by
  refine ⟨hr, fun h => absurd h (Nat.lt_irrefl 0), ?_⟩
  intro a b c d _
  simp [bin_at]

/-- The region count returned at a cell of the grid is the box sum of the
histogram in which the bins dominated by `p` are zero, modulo `ULONG_MOD`. -/
theorem region_count_eq {parameter : ℕ → PARAMETER} {p : INDEX} {info : INFO}
    (hs : strides_set parameter) (hr : info_ready parameter info) (h : HIGHEST_QV_CUT)
    {i j k l : ℕ} (hin : in_grid parameter i j k l) :
    region_count parameter p (info, h) i j k l
      = region_value (zero_below p (bin_at parameter info.bin)) i j k l := by
  obtain ⟨hi, hj, hk, hl⟩ := hin
  have h1 := scan_l_spec hs l (Nat.le_of_lt hl) info h (pass_inv_start p hr)
  have h2 := scan_k_spec hs hl k (Nat.le_of_lt hk) _
    ((List.range l).foldl (fun s l => scan_k parameter p l (swap_cubes s.1, s.2)) (info, h)).2
    (pass_inv_swap h1.2)
  have h3 := scan_j_spec hs hk hl j (Nat.le_of_lt hj) _
    ((List.range k).foldl (fun s k => scan_j parameter p k l s)
      (swap_cubes ((List.range l).foldl
          (fun s l => scan_k parameter p l (swap_cubes s.1, s.2)) (info, h)).1,
        ((List.range l).foldl
          (fun s l => scan_k parameter p l (swap_cubes s.1, s.2)) (info, h)).2)).2 h2.2
  have h4 := scan_i_spec hs hj hk hl i (Nat.le_of_lt hi) _
    ((List.range j).foldl (fun s j => scan_i parameter p j k l s)
      ((List.range k).foldl (fun s k => scan_j parameter p k l s)
      (swap_cubes ((List.range l).foldl
          (fun s l => scan_k parameter p l (swap_cubes s.1, s.2)) (info, h)).1,
        ((List.range l).foldl
          (fun s l => scan_k parameter p l (swap_cubes s.1, s.2)) (info, h)).2))).2 h3.2
  exact (number_in_cut_step hs ⟨hi, hj, hk, hl⟩ h4.2).1

/-! ## The ranking rule and the best cut of a pass -/

theorem update_highest_qv_cut_eq (h : HIGHEST_QV_CUT) (parameter : ℕ → PARAMETER)
    (correct incorrect i j k l : ℕ) (p : INDEX) :
    update_highest_qv_cut h parameter correct incorrect i j k l p =
      if incorrect ≥ MIN_INCORRECT_COUNT ∧
          ranks_above (quality_of correct incorrect) (total_of correct incorrect)
            ((i : ℤ) + j + k + l) h
      then cut_record parameter correct incorrect i j k l else h := by
  have hc : ∀ (A B C D : Prop), ((A ∧ B) ∨ (A ∧ C) ∨ (A ∧ D)) ↔ (A ∧ (B ∨ C ∨ D)) := by
    intro A B C D; tauto
  simp only [update_highest_qv_cut, hc]
  rfl

theorem foldl_flatMap_eq {α β γ : Type} (f : β → α → β) (g : γ → List α) (L : List γ) (b : β) :
    (L.flatMap g).foldl f b = L.foldl (fun b c => (g c).foldl f b) b := by
  induction L generalizing b with
  | nil => rfl
  | cons x xs ih => simp only [List.flatMap_cons, List.foldl_append, List.foldl_cons, ih]

theorem select_l_eq_foldl (parameter : ℕ → PARAMETER) (p : INDEX) (val : ℕ → ℕ → ℕ → ℕ → CUT)
    (h : HIGHEST_QV_CUT) :
    select_l parameter p val h =
      (grid_cells parameter).foldl
        (fun h x => select_cell parameter p val x.1 x.2.1 x.2.2.1 x.2.2.2 h) h := by
  simp only [grid_cells, foldl_flatMap_eq, List.foldl_map, select_l, select_k, select_j, select_i]

theorem mem_grid_cells (parameter : ℕ → PARAMETER) (i j k l : ℕ) :
    (i, j, k, l) ∈ grid_cells parameter ↔ in_grid parameter i j k l := by
  simp only [grid_cells, List.mem_flatMap, List.mem_map, List.mem_range, Prod.mk.injEq, in_grid]
  constructor
  · rintro ⟨l', hl, k', hk, j', hj, i', hi, rfl, rfl, rfl, rfl⟩
    exact ⟨hi, hj, hk, hl⟩
  · rintro ⟨hi, hj, hk, hl⟩
    exact ⟨l, hl, k, hk, j, hj, i, hi, rfl, rfl, rfl, rfl⟩
/-- The fold of the ranking rule over a list of cells, where `val` gives the
region counts: the result is the start value or the record of an eligible
cell of the list, and no eligible cell of the list ranks above it. -/
theorem select_foldl_spec (parameter : ℕ → PARAMETER) (p : INDEX) (val : ℕ → ℕ → ℕ → ℕ → CUT)
    (L : List (ℕ × ℕ × ℕ × ℕ)) :
    ∀ h0 : HIGHEST_QV_CUT,
      let r := L.foldl (fun h x => select_cell parameter p val x.1 x.2.1 x.2.2.1 x.2.2.2 h) h0
      (r = h0 ∨ ∃ x ∈ L, (val x.1 x.2.1 x.2.2.1 x.2.2.2).incorrect ≥ MIN_INCORRECT_COUNT ∧
          r = cut_record parameter (val x.1 x.2.1 x.2.2.1 x.2.2.2).correct
            (val x.1 x.2.1 x.2.2.1 x.2.2.2).incorrect x.1 x.2.1 x.2.2.1 x.2.2.2) ∧
      (∀ q t s, ¬ ranks_above q t s h0 → ¬ ranks_above q t s r) ∧
      (∀ x ∈ L, (val x.1 x.2.1 x.2.2.1 x.2.2.2).incorrect ≥ MIN_INCORRECT_COUNT →
          ¬ ranks_above
            (quality_of (val x.1 x.2.1 x.2.2.1 x.2.2.2).correct
              (val x.1 x.2.1 x.2.2.1 x.2.2.2).incorrect)
            (total_of (val x.1 x.2.1 x.2.2.1 x.2.2.2).correct
              (val x.1 x.2.1 x.2.2.1 x.2.2.2).incorrect)
            ((x.1 : ℤ) + x.2.1 + x.2.2.1 + x.2.2.2) r) := by
  induction L with
  | nil =>
    intro h0
    exact ⟨Or.inl rfl, fun _ _ _ h => h, fun x hx => absurd hx (List.not_mem_nil x)⟩
  | cons y ys ih =>
    intro h0
    simp only [List.foldl_cons]
    obtain ⟨ha, hb, hc⟩ := ih (select_cell parameter p val y.1 y.2.1 y.2.2.1 y.2.2.2 h0)
    have hstep := update_highest_qv_cut_eq h0 parameter (val y.1 y.2.1 y.2.2.1 y.2.2.2).correct
      (val y.1 y.2.1 y.2.2.1 y.2.2.2).incorrect y.1 y.2.1 y.2.2.1 y.2.2.2 p
    have hsel : select_cell parameter p val y.1 y.2.1 y.2.2.1 y.2.2.2 h0 =
        update_highest_qv_cut h0 parameter (val y.1 y.2.1 y.2.2.1 y.2.2.2).correct
          (val y.1 y.2.1 y.2.2.1 y.2.2.2).incorrect y.1 y.2.1 y.2.2.1 y.2.2.2 p := rfl
    rw [← hsel] at hstep
    refine ⟨?_, ?_, ?_⟩
    · rcases ha with ha | ⟨x, hx, he, hr⟩
      · rw [ha, hstep]
        split_ifs with hcond
        · exact Or.inr ⟨y, List.mem_cons_self _ _, hcond.1, rfl⟩
        · exact Or.inl rfl
      · exact Or.inr ⟨x, List.mem_cons_of_mem _ hx, he, hr⟩
    · intro q t s hn
      apply hb
      rw [hstep]
      split_ifs with hcond
      · obtain ⟨_, hra⟩ := hcond
        simp only [ranks_above, cut_record] at hn hra ⊢
        omega
      · exact hn
    · intro x hx he
      rcases List.mem_cons.mp hx with rfl | hx
      · apply hb
        rw [hstep]
        split_ifs with hcond
        · simp only [ranks_above, cut_record]
          omega
        · intro hra
          exact hcond ⟨he, hra⟩
      · exact hc x hx he
/-- The result of a pass, in terms of the box sums of the histogram. -/
theorem scan_l_result {parameter : ℕ → PARAMETER} (hs : strides_set parameter) (p : INDEX)
    {info : INFO} (hr : info_ready parameter info) (h : HIGHEST_QV_CUT) :
    (scan_l parameter p (info, h)).2
        = select_l parameter p (region_value (zero_below p (bin_at parameter info.bin))) h ∧
      info_ready parameter (scan_l parameter p (info, h)).1 ∧
      ∀ a b c d, in_grid parameter a b c d →
        bin_at parameter (scan_l parameter p (info, h)).1.bin a b c d
          = zero_below p (bin_at parameter info.bin) a b c d := by
  obtain ⟨h1, h2, _, h3⟩ := scan_l_spec hs _ le_rfl info h (pass_inv_start p hr)
  refine ⟨h1, h2, ?_⟩
  intro a b c d hg
  have := h3 a b c d hg
  have hlt : get_bin parameter (index4 a b c d)
      < (parameter 3).threshold_count * (parameter 3).dimension := by
    rw [get_bin_eq]
    have h4 := cell_off_lt hs hg.1 hg.2.1 hg.2.2.1
    have h5 : (d + 1) * (parameter 3).dimension
        ≤ (parameter 3).threshold_count * (parameter 3).dimension :=
      Nat.mul_le_mul_right _ hg.2.2.2
    rw [Nat.succ_mul] at h5
    omega
  rw [if_pos hlt] at this
  exact this

theorem best_of_pass_spec {parameter : ℕ → PARAMETER} (hs : strides_set parameter) (p : INDEX)
    {info : INFO} (hr : info_ready parameter info) (h : HIGHEST_QV_CUT) :
    (best_of_pass parameter p info h = initialize_highest_qv_cut h ∨
      ∃ i j k l, in_grid parameter i j k l ∧
        (region_count parameter p (info, initialize_highest_qv_cut h) i j k l).incorrect
          ≥ MIN_INCORRECT_COUNT ∧
        best_of_pass parameter p info h = cut_record parameter
          (region_count parameter p (info, initialize_highest_qv_cut h) i j k l).correct
          (region_count parameter p (info, initialize_highest_qv_cut h) i j k l).incorrect
          i j k l) ∧
    (∀ i j k l, in_grid parameter i j k l →
      (region_count parameter p (info, initialize_highest_qv_cut h) i j k l).incorrect
        ≥ MIN_INCORRECT_COUNT →
      ¬ ranks_above
        (quality_of
          (region_count parameter p (info, initialize_highest_qv_cut h) i j k l).correct
          (region_count parameter p (info, initialize_highest_qv_cut h) i j k l).incorrect)
        (total_of
          (region_count parameter p (info, initialize_highest_qv_cut h) i j k l).correct
          (region_count parameter p (info, initialize_highest_qv_cut h) i j k l).incorrect)
        ((i : ℤ) + j + k + l) (best_of_pass parameter p info h)) := by
  have hsel := (scan_l_result hs p hr (initialize_highest_qv_cut h)).1
  rw [select_l_eq_foldl] at hsel
  obtain ⟨ha, _, hc⟩ := select_foldl_spec parameter p
    (region_value (zero_below p (bin_at parameter info.bin))) (grid_cells parameter)
    (initialize_highest_qv_cut h)
  rw [← hsel] at ha hc
  constructor
  · rcases ha with ha | ⟨⟨i, j, k, l⟩, hx, he, hrec⟩
    · exact Or.inl ha
    · right
      have hg := (mem_grid_cells parameter i j k l).mp hx
      refine ⟨i, j, k, l, hg, ?_, ?_⟩
      · rw [region_count_eq hs hr _ hg]; exact he
      · rw [region_count_eq hs hr _ hg]; exact hrec
  · intro i j k l hg he
    rw [region_count_eq hs hr _ hg] at he ⊢
    exact hc (i, j, k, l) ((mem_grid_cells parameter i j k l).mpr hg) he

/-- C7: when a pass ends with a cut `B` (its total count is not zero), `B` is
the record of a cell of the grid whose region count has
`incorrect ≥ MIN_INCORRECT_COUNT`, and no such cell ranks above `B`: none has
a strictly greater quality, or an equal quality and a strictly greater total,
or equal quality and total and a strictly greater index sum. -/
theorem C7_best_cut_is_maximum (parameter : ℕ → PARAMETER) (hs : strides_set parameter)
    (p : INDEX) (info : INFO) (hr : info_ready parameter info) (h : HIGHEST_QV_CUT)
    (hB : (best_of_pass parameter p info h).total_base_call_count ≠ 0) :
    (∃ i j k l, in_grid parameter i j k l ∧
        (region_count parameter p (info, initialize_highest_qv_cut h) i j k l).incorrect
          ≥ MIN_INCORRECT_COUNT ∧
        best_of_pass parameter p info h = cut_record parameter
          (region_count parameter p (info, initialize_highest_qv_cut h) i j k l).correct
          (region_count parameter p (info, initialize_highest_qv_cut h) i j k l).incorrect
          i j k l) ∧
    (∀ i j k l, in_grid parameter i j k l →
      (region_count parameter p (info, initialize_highest_qv_cut h) i j k l).incorrect
        ≥ MIN_INCORRECT_COUNT →
      ¬ ((quality_of
            (region_count parameter p (info, initialize_highest_qv_cut h) i j k l).correct
            (region_count parameter p (info, initialize_highest_qv_cut h) i j k l).incorrect
            > (best_of_pass parameter p info h).quality_value) ∨
         (quality_of
            (region_count parameter p (info, initialize_highest_qv_cut h) i j k l).correct
            (region_count parameter p (info, initialize_highest_qv_cut h) i j k l).incorrect
            = (best_of_pass parameter p info h).quality_value ∧
          total_of
            (region_count parameter p (info, initialize_highest_qv_cut h) i j k l).correct
            (region_count parameter p (info, initialize_highest_qv_cut h) i j k l).incorrect
            > (best_of_pass parameter p info h).total_base_call_count) ∨
         (quality_of
            (region_count parameter p (info, initialize_highest_qv_cut h) i j k l).correct
            (region_count parameter p (info, initialize_highest_qv_cut h) i j k l).incorrect
            = (best_of_pass parameter p info h).quality_value ∧
          total_of
            (region_count parameter p (info, initialize_highest_qv_cut h) i j k l).correct
            (region_count parameter p (info, initialize_highest_qv_cut h) i j k l).incorrect
            = (best_of_pass parameter p info h).total_base_call_count ∧
          (i : ℤ) + j + k + l > (best_of_pass parameter p info h).sum_of_indices))) := by
  obtain ⟨ha, hc⟩ := best_of_pass_spec hs p hr h
  refine ⟨?_, hc⟩
  rcases ha with ha | ha
  · exact absurd (by rw [ha]; rfl) hB
  · exact ha

/-! ## Sums over boxes -/

theorem box_sum_congr {h h' : ℕ → ℕ → ℕ → ℕ → ℕ} {i j k l : ℕ}
    (e : ∀ a b c d, a < i → b < j → c < k → d < l → h a b c d = h' a b c d) :
    box_sum h i j k l = box_sum h' i j k l := by
  unfold box_sum
  refine Finset.sum_congr rfl fun d hd => Finset.sum_congr rfl fun c hc =>
    Finset.sum_congr rfl fun b hb => Finset.sum_congr rfl fun a ha => ?_
  exact e a b c d (Finset.mem_range.mp ha) (Finset.mem_range.mp hb) (Finset.mem_range.mp hc)
    (Finset.mem_range.mp hd)

theorem box_sum_add (h h' : ℕ → ℕ → ℕ → ℕ → ℕ) (i j k l : ℕ) :
    box_sum (fun a b c d => h a b c d + h' a b c d) i j k l
      = box_sum h i j k l + box_sum h' i j k l := by
  simp only [box_sum, Finset.sum_add_distrib]

theorem sum_range_ite_le (f : ℕ → ℕ) (i n : ℕ) (hin : i < n) :
    ∑ a ∈ Finset.range n, (if a ≤ i then f a else 0) = ∑ a ∈ Finset.range (i + 1), f a := by
  induction n, (Nat.succ_le_of_lt hin) using Nat.le_induction with
  | base =>
    refine Finset.sum_congr rfl fun a ha => ?_
    rw [if_pos (Nat.lt_succ_iff.mp (Finset.mem_range.mp ha))]
  | succ n hn ih =>
    rw [Finset.sum_range_succ, ih, if_neg (by omega), add_zero]

theorem box_sum_restrict (h : ℕ → ℕ → ℕ → ℕ → ℕ) {i j k l n0 n1 n2 n3 : ℕ}
    (hi : i < n0) (hj : j < n1) (hk : k < n2) (hl : l < n3) :
    box_sum (fun a b c d => if a ≤ i ∧ b ≤ j ∧ c ≤ k ∧ d ≤ l then h a b c d else 0) n0 n1 n2 n3
      = box_sum h (i + 1) (j + 1) (k + 1) (l + 1) := by
  have e : ∀ a b c d, (if a ≤ i ∧ b ≤ j ∧ c ≤ k ∧ d ≤ l then h a b c d else 0)
      = if d ≤ l then (if c ≤ k then (if b ≤ j then (if a ≤ i then h a b c d else 0) else 0)
          else 0) else 0 := by
    intro a b c d
    split_ifs <;> first | rfl | (exfalso; tauto)
  simp only [box_sum, e]
  have z : ∀ (P : Prop) [Decidable P] (s : Finset ℕ) (g : ℕ → ℕ),
      (∑ a ∈ s, if P then g a else 0) = if P then ∑ a ∈ s, g a else 0 := by
    intro P _ s g; split_ifs <;> simp
  simp only [z, sum_range_ite_le _ _ _ hi, sum_range_ite_le _ _ _ hj,
    sum_range_ite_le _ _ _ hk, sum_range_ite_le _ _ _ hl]

/-- The sum over the grid splits into the sum over a box and the sum of the
function that is set to zero on the box. -/
theorem box_sum_split (h : ℕ → ℕ → ℕ → ℕ → ℕ) {i j k l n0 n1 n2 n3 : ℕ}
    (hi : i < n0) (hj : j < n1) (hk : k < n2) (hl : l < n3) :
    box_sum h n0 n1 n2 n3
      = box_sum (fun a b c d => if a ≤ i ∧ b ≤ j ∧ c ≤ k ∧ d ≤ l then 0 else h a b c d)
          n0 n1 n2 n3
        + box_sum h (i + 1) (j + 1) (k + 1) (l + 1) := by
  rw [← box_sum_restrict h hi hj hk hl, ← box_sum_add]
  refine box_sum_congr fun a b c d _ _ _ _ => ?_
  split_ifs <;> simp

theorem dominated_nat (a b c d i j k l : ℕ) :
    dominated a b c d ⟨i, j, k, l⟩ ↔ (a ≤ i ∧ b ≤ j ∧ c ≤ k ∧ d ≤ l) := by
  simp only [dominated, Nat.cast_le]

theorem not_dominated_neg (a b c d : ℕ) : ¬ dominated a b c d ⟨-1, -1, -1, -1⟩ := by
  simp only [dominated]; omega

theorem zero_below_neg (H : ℕ → ℕ → ℕ → ℕ → BIN) : zero_below ⟨-1, -1, -1, -1⟩ H = H := by
  funext a b c d
  simp only [zero_below, not_dominated_neg, if_false]

theorem zeroed_nil (H : ℕ → ℕ → ℕ → ℕ → BIN) : zeroed [] H = H := by
  funext a b c d
  simp [zeroed]

theorem zeroed_snoc (L : List INDEX) (q : INDEX) (H : ℕ → ℕ → ℕ → ℕ → BIN) :
    zeroed (L ++ [q]) H = zero_below q (zeroed L H) := by
  funext a b c d
  simp only [zeroed, zero_below, List.mem_append, List.mem_singleton]
  by_cases hq : dominated a b c d q
  · have : ∃ q', (q' ∈ L ∨ q' = q) ∧ dominated a b c d q' := ⟨q, Or.inr rfl, hq⟩
    simp [hq, this]
  · by_cases hL : ∃ q' ∈ L, dominated a b c d q'
    · obtain ⟨q', h1, h2⟩ := hL
      have : ∃ q', (q' ∈ L ∨ q' = q) ∧ dominated a b c d q' := ⟨q', Or.inl h1, h2⟩
      have hL' : ∃ q' ∈ L, dominated a b c d q' := ⟨q', h1, h2⟩
      simp [hq, this, hL']
    · have : ¬ ∃ q', (q' ∈ L ∨ q' = q) ∧ dominated a b c d q' := by
        rintro ⟨q', h1 | h1, h2⟩
        · exact hL ⟨q', h1, h2⟩
        · subst h1; exact hq h2
      simp [hq, this, hL]

theorem zeroed_cons_neg (L : List INDEX) (H : ℕ → ℕ → ℕ → ℕ → BIN) :
    zeroed (⟨-1, -1, -1, -1⟩ :: L) H = zeroed L H := by
  funext a b c d
  have : (∃ q ∈ (⟨-1, -1, -1, -1⟩ : INDEX) :: L, dominated a b c d q)
      ↔ ∃ q ∈ L, dominated a b c d q := by
    constructor
    · rintro ⟨q, h1, h2⟩
      rcases List.mem_cons.mp h1 with h1 | h1
      · subst h1; exact absurd h2 (not_dominated_neg a b c d)
      · exact ⟨q, h1, h2⟩
    · rintro ⟨q, h1, h2⟩; exact ⟨q, List.mem_cons_of_mem _ h1, h2⟩
  simp only [zeroed]
  by_cases hL : ∃ q ∈ L, dominated a b c d q
  · rw [if_pos (this.mpr hL), if_pos hL]
  · rw [if_neg (fun h => hL (this.mp h)), if_neg hL]

/-- The counts of a grid cell's box, as part of the totals of the histogram
in which the box is zero. -/
theorem hist_split (parameter : ℕ → PARAMETER) (Z : ℕ → ℕ → ℕ → ℕ → BIN) {i j k l : ℕ}
    (hg : in_grid parameter i j k l) :
    hist_total parameter Z
        = hist_total parameter (zero_below ⟨i, j, k, l⟩ Z)
          + (box_correct Z (i + 1) (j + 1) (k + 1) (l + 1)
            + box_incorrect Z (i + 1) (j + 1) (k + 1) (l + 1)) ∧
      hist_incorrect parameter Z
        = hist_incorrect parameter (zero_below ⟨i, j, k, l⟩ Z)
          + box_incorrect Z (i + 1) (j + 1) (k + 1) (l + 1) := by
  obtain ⟨hi, hj, hk, hl⟩ := hg
  constructor
  · simp only [hist_total, box_correct, box_incorrect, ← box_sum_add]
    rw [box_sum_split _ hi hj hk hl]
    congr 1
    refine box_sum_congr fun a b c d _ _ _ _ => ?_
    simp only [zero_below, dominated_nat]
    split_ifs <;> rfl
  · simp only [hist_incorrect, box_incorrect]
    rw [box_sum_split _ hi hj hk hl]
    congr 1
    refine box_sum_congr fun a b c d _ _ _ _ => ?_
    simp only [zero_below, dominated_nat]
    split_ifs <;> rfl

theorem box_le_hist (parameter : ℕ → PARAMETER) (Z : ℕ → ℕ → ℕ → ℕ → BIN) {i j k l : ℕ}
    (hg : in_grid parameter i j k l) :
    box_correct Z (i + 1) (j + 1) (k + 1) (l + 1)
        + box_incorrect Z (i + 1) (j + 1) (k + 1) (l + 1) ≤ hist_total parameter Z ∧
      box_incorrect Z (i + 1) (j + 1) (k + 1) (l + 1) ≤ hist_incorrect parameter Z := by
  obtain ⟨h1, h2⟩ := hist_split parameter Z hg
  omega

theorem box_sum_mono {h h' : ℕ → ℕ → ℕ → ℕ → ℕ} (i j k l : ℕ)
    (e : ∀ a b c d, h a b c d ≤ h' a b c d) : box_sum h i j k l ≤ box_sum h' i j k l := by
  unfold box_sum
  exact Finset.sum_le_sum fun d _ => Finset.sum_le_sum fun c _ =>
    Finset.sum_le_sum fun b _ => Finset.sum_le_sum fun a _ => e a b c d

theorem hist_total_zero_below_le (parameter : ℕ → PARAMETER) (p : INDEX)
    (H : ℕ → ℕ → ℕ → ℕ → BIN) :
    hist_total parameter (zero_below p H) ≤ hist_total parameter H := by
  unfold hist_total
  refine box_sum_mono _ _ _ _ fun a b c d => ?_
  simp only [zero_below]
  split_ifs <;> simp

theorem demo_info_ready : info_ready demo_parameter demo_info := by
  refine ⟨?_, ?_, ?_, ?_, ?_, ?_⟩ <;> rfl

/-- The region count of a cell of the grid, when the total count of the
histogram is below `ULONG_MOD`: the exact box sums. -/
theorem region_count_exact {parameter : ℕ → PARAMETER} (hs : strides_set parameter)
    {info : INFO} (hr : info_ready parameter info) (p : INDEX) (h : HIGHEST_QV_CUT)
    {i j k l : ℕ} (hin : in_grid parameter i j k l)
    (hW : hist_total parameter (bin_at parameter info.bin) < ULONG_MOD) :
    (region_count parameter p (info, h) i j k l).correct
        = box_correct (zero_below p (bin_at parameter info.bin)) (i + 1) (j + 1) (k + 1) (l + 1) ∧
      (region_count parameter p (info, h) i j k l).incorrect
        = box_incorrect (zero_below p (bin_at parameter info.bin))
            (i + 1) (j + 1) (k + 1) (l + 1) := by
  have h1 := (box_le_hist parameter (zero_below p (bin_at parameter info.bin)) hin).1
  have h2 := hist_total_zero_below_le parameter p (bin_at parameter info.bin)
  rw [region_count_eq hs hr h hin]
  exact ⟨Nat.mod_eq_of_lt (by omega), Nat.mod_eq_of_lt (by omega)⟩

/-- C1, amended: in a sweep over a grid whose strides are those of `main`,
for every histogram whose total count is below `2 ^ 64` (the range of the
`unsigned long` counters), every previously extracted index `p` and every cell
`(i, j, k, l)` of the grid, the `CUT` that `number_in_cut` returns at the cell
holds the sums of the correct and of the incorrect counts of all bins
`(a, b, c, d)` with `a ≤ i`, `b ≤ j`, `c ≤ k`, `d ≤ l` that are not
component-wise `≤ p`; with `p = (-1,-1,-1,-1)` no bin is excluded. -/
theorem C1_region_count_is_box_sum (parameter : ℕ → PARAMETER) (hs : strides_set parameter)
    (info : INFO) (hr : info_ready parameter info) (p : INDEX) (h : HIGHEST_QV_CUT)
    (i j k l : ℕ) (hin : in_grid parameter i j k l)
    (hW : hist_total parameter (bin_at parameter info.bin) < ULONG_MOD) :
    (region_count parameter p (info, h) i j k l).correct
        = box_correct (zero_below p (bin_at parameter info.bin)) (i + 1) (j + 1) (k + 1) (l + 1) ∧
      (region_count parameter p (info, h) i j k l).incorrect
        = box_incorrect (zero_below p (bin_at parameter info.bin))
            (i + 1) (j + 1) (k + 1) (l + 1) ∧
      zero_below ⟨-1, -1, -1, -1⟩ (bin_at parameter info.bin) = bin_at parameter info.bin := by
  obtain ⟨h1, h2⟩ := region_count_exact hs hr p h hin hW
  exact ⟨h1, h2, zero_below_neg _⟩

theorem C1_region_count_is_box_sum_witness :
    (region_count demo_parameter ⟨-1, -1, -1, -1⟩ (demo_info, demo_cut) 1 1 1 1).correct = 136 ∧
      (region_count demo_parameter ⟨-1, -1, -1, -1⟩ (demo_info, demo_cut) 1 1 1 1).incorrect
        = 240 := by
  have h := C1_region_count_is_box_sum demo_parameter (by decide) demo_info demo_info_ready
    ⟨-1, -1, -1, -1⟩ demo_cut 1 1 1 1 (by decide) (by decide!)
  have e1 : box_correct (zero_below ⟨-1, -1, -1, -1⟩ (bin_at demo_parameter demo_info.bin))
      (1 + 1) (1 + 1) (1 + 1) (1 + 1) = 136 := by decide!
  have e2 : box_incorrect (zero_below ⟨-1, -1, -1, -1⟩ (bin_at demo_parameter demo_info.bin))
      (1 + 1) (1 + 1) (1 + 1) (1 + 1) = 240 := by decide!
  rw [e1, e2] at h
  exact ⟨h.1, h.2.1⟩

/-! ## The fields of the state after one iteration of the `do ... while` loop -/

theorem dp_iteration_highest (parameter : ℕ → PARAMETER) (s : DP_STATE) :
    (dp_iteration parameter s).highest_qv_cut
      = best_of_pass parameter s.previous_highest_cut_parameter_index s.info s.highest_qv_cut :=
  rfl

theorem dp_iteration_info (parameter : ℕ → PARAMETER) (s : DP_STATE) :
    (dp_iteration parameter s).info
      = info_of_pass parameter s.previous_highest_cut_parameter_index s.info s.highest_qv_cut :=
  rfl

theorem dp_iteration_extracted (parameter : ℕ → PARAMETER) (s : DP_STATE) :
    (dp_iteration parameter s).extracted
      = if (best_of_pass parameter s.previous_highest_cut_parameter_index s.info
            s.highest_qv_cut).total_base_call_count ≠ 0
        then s.extracted ++ [best_of_pass parameter s.previous_highest_cut_parameter_index
          s.info s.highest_qv_cut]
        else s.extracted := by
  simp only [dp_iteration, best_of_pass, decide_eq_true_eq]

theorem dp_iteration_fout (parameter : ℕ → PARAMETER) (s : DP_STATE) :
    (dp_iteration parameter s).fout
      = if (best_of_pass parameter s.previous_highest_cut_parameter_index s.info
            s.highest_qv_cut).total_base_call_count ≠ 0
        then s.fout ++ [((best_of_pass parameter s.previous_highest_cut_parameter_index
            s.info s.highest_qv_cut).quality_value,
          (best_of_pass parameter s.previous_highest_cut_parameter_index
            s.info s.highest_qv_cut).index)]
        else s.fout := by
  simp only [dp_iteration, best_of_pass, decide_eq_true_eq, write_to_qv_table]

theorem dp_iteration_previous (parameter : ℕ → PARAMETER) (s : DP_STATE) :
    (dp_iteration parameter s).previous_highest_cut_parameter_index
      = if (best_of_pass parameter s.previous_highest_cut_parameter_index s.info
            s.highest_qv_cut).total_base_call_count ≠ 0
        then (best_of_pass parameter s.previous_highest_cut_parameter_index
          s.info s.highest_qv_cut).index
        else s.previous_highest_cut_parameter_index := by
  simp only [dp_iteration, best_of_pass, decide_eq_true_eq]

theorem dp_iteration_countdown (parameter : ℕ → PARAMETER) (s : DP_STATE) :
    (dp_iteration parameter s).countdown
      = if (best_of_pass parameter s.previous_highest_cut_parameter_index s.info
            s.highest_qv_cut).total_base_call_count ≠ 0
        then (((s.countdown : ℤ)
          - (best_of_pass parameter s.previous_highest_cut_parameter_index
            s.info s.highest_qv_cut).total_base_call_count) % (ULONG_MOD : ℤ)).toNat
        else s.countdown := by
  simp only [dp_iteration, best_of_pass, decide_eq_true_eq]

/-! ## The minimum-sample floor -/

theorem update_keeps_floor (h : HIGHEST_QV_CUT) (parameter : ℕ → PARAMETER)
    (correct incorrect i j k l : ℕ) (p : INDEX)
    (hq : h.total_base_call_count ≠ 0 → h.incorrect_base_call_count ≥ MIN_INCORRECT_COUNT) :
    (update_highest_qv_cut h parameter correct incorrect i j k l p).total_base_call_count ≠ 0 →
      (update_highest_qv_cut h parameter correct incorrect i j k l p).incorrect_base_call_count
        ≥ MIN_INCORRECT_COUNT := by
  rw [update_highest_qv_cut_eq]
  split_ifs with hc
  · intro _; exact hc.1
  · exact hq

theorem foldl_snd_pred {σ τ : Type} (Q : τ → Prop) (f : σ × τ → ℕ → σ × τ)
    (hf : ∀ s i, Q s.2 → Q (f s i).2) (L : List ℕ) (s : σ × τ) (hs : Q s.2) :
    Q (L.foldl f s).2 := by
  induction L generalizing s with
  | nil => exact hs
  | cons x xs ih => exact ih (f s x) (hf s x hs)

theorem scan_l_keeps_floor (parameter : ℕ → PARAMETER) (p : INDEX) (s : INFO × HIGHEST_QV_CUT)
    (hq : s.2.total_base_call_count ≠ 0 → s.2.incorrect_base_call_count ≥ MIN_INCORRECT_COUNT) :
    (scan_l parameter p s).2.total_base_call_count ≠ 0 →
      (scan_l parameter p s).2.incorrect_base_call_count ≥ MIN_INCORRECT_COUNT := by
  unfold scan_l
  refine foldl_snd_pred (fun h : HIGHEST_QV_CUT =>
    h.total_base_call_count ≠ 0 → h.incorrect_base_call_count ≥ MIN_INCORRECT_COUNT) _ ?_ _ s hq
  intro s l hs
  unfold scan_k
  refine foldl_snd_pred (fun h : HIGHEST_QV_CUT =>
    h.total_base_call_count ≠ 0 → h.incorrect_base_call_count ≥ MIN_INCORRECT_COUNT) _ ?_ _ _ hs
  intro s k hs
  unfold scan_j
  refine foldl_snd_pred (fun h : HIGHEST_QV_CUT =>
    h.total_base_call_count ≠ 0 → h.incorrect_base_call_count ≥ MIN_INCORRECT_COUNT) _ ?_ _ _ hs
  intro s j hs
  unfold scan_i
  refine foldl_snd_pred (fun h : HIGHEST_QV_CUT =>
    h.total_base_call_count ≠ 0 → h.incorrect_base_call_count ≥ MIN_INCORRECT_COUNT) _ ?_ _ _ hs
  intro s i hs
  simp only [scan_cell]
  exact update_keeps_floor _ _ _ _ _ _ _ _ p hs

theorem best_of_pass_floor (parameter : ℕ → PARAMETER) (p : INDEX) (info : INFO)
    (h : HIGHEST_QV_CUT) :
    (best_of_pass parameter p info h).total_base_call_count ≠ 0 →
      (best_of_pass parameter p info h).incorrect_base_call_count ≥ MIN_INCORRECT_COUNT :=
  scan_l_keeps_floor parameter p _ (fun hne => absurd rfl hne)

theorem dp_loop_floor (parameter : ℕ → PARAMETER) (fuel : ℕ) :
    ∀ s s' : DP_STATE, dp_loop parameter fuel s = some s' →
      ((∀ q ∈ s.extracted, q.incorrect_base_call_count ≥ MIN_INCORRECT_COUNT) ∧
        s.fout = s.extracted.map (fun q => (q.quality_value, q.index))) →
      ((∀ q ∈ s'.extracted, q.incorrect_base_call_count ≥ MIN_INCORRECT_COUNT) ∧
        s'.fout = s'.extracted.map (fun q => (q.quality_value, q.index))) := by
  induction fuel with
  | zero => intro s s' h; simp [dp_loop] at h
  | succ fuel ih =>
    intro s s' h ⟨h1, h2⟩
    simp only [dp_loop] at h
    have hstep : (∀ q ∈ (dp_iteration parameter s).extracted,
          q.incorrect_base_call_count ≥ MIN_INCORRECT_COUNT) ∧
        (dp_iteration parameter s).fout
          = (dp_iteration parameter s).extracted.map (fun q => (q.quality_value, q.index)) := by
      rw [dp_iteration_extracted, dp_iteration_fout]
      split_ifs with hne
      · constructor
        · intro q hq
          rcases List.mem_append.mp hq with hq | hq
          · exact h1 q hq
          · rw [List.mem_singleton.mp hq]
            exact best_of_pass_floor parameter _ _ _ hne
        · simp [h2]
      · exact ⟨h1, h2⟩
    split_ifs at h with hne
    · exact ih _ _ h hstep
    · cases h; exact hstep

/-- C8: a candidate with `incorrect_base_call_count < MIN_INCORRECT_COUNT`
leaves the best cut unchanged in every field, whatever the current best cut
(the initial sentinel included) and whatever the candidate's counts and
indices; consequently every cut that
`create_qv_table_via_dynamic_programming` writes to the table has
`incorrect ≥ MIN_INCORRECT_COUNT = 3`. -/
theorem C8_floor_leaves_best_unchanged :
    MIN_INCORRECT_COUNT = 3 ∧
    (∀ (h : HIGHEST_QV_CUT) (parameter : ℕ → PARAMETER) (correct incorrect i j k l : ℕ)
        (p : INDEX), incorrect < MIN_INCORRECT_COUNT →
        update_highest_qv_cut h parameter correct incorrect i j k l p = h) ∧
    (∀ (fuel : ℕ) (bin : ℕ → BIN) (parameter : ℕ → PARAMETER) (base_count : ℕ)
        (previous_cube current_cube : ℤ → CUT) (h : HIGHEST_QV_CUT) (s : DP_STATE),
        create_qv_table_via_dynamic_programming fuel bin parameter base_count previous_cube
          current_cube h = some s →
        (∀ q ∈ s.extracted, q.incorrect_base_call_count ≥ 3) ∧
          s.fout = s.extracted.map (fun q => (q.quality_value, q.index))) := by
  refine ⟨rfl, ?_, ?_⟩
  · intro h parameter correct incorrect i j k l p hlt
    rw [update_highest_qv_cut_eq, if_neg]
    rintro ⟨hge, _⟩
    omega
  · intro fuel bin parameter base_count pc cc h s hs
    exact dp_loop_floor parameter fuel _ s hs ⟨fun q hq => absurd hq (List.not_mem_nil q), rfl⟩

/-! ## When a pass ends with a cut -/

theorem quality_of_error_rate_nonneg {e : ℚ} (he : e ≤ 1) : 0 ≤ quality_of_error_rate e := by
  unfold quality_of_error_rate
  split_ifs
  · exact le_rfl
  · exact Int.natCast_nonneg _

theorem quality_of_nonneg {correct incorrect : ℕ} (hpos : 0 < incorrect)
    (hlt : correct + incorrect < ULONG_MOD) : 0 ≤ quality_of correct incorrect := by
  apply quality_of_error_rate_nonneg
  have ht : total_of correct incorrect = correct + incorrect := Nat.mod_eq_of_lt hlt
  have hne : incorrect ≠ 0 := by omega
  simp only [error_rate_of, hne, if_false, ht]
  have hpos' : (0 : ℚ) < ((correct + incorrect : ℕ) : ℚ) := by exact_mod_cast (by omega)
  rw [div_le_one hpos']
  exact_mod_cast (by omega)

theorem hist_incorrect_grid {parameter : ℕ → PARAMETER} {Z : ℕ → ℕ → ℕ → ℕ → BIN}
    (hpos : 0 < hist_incorrect parameter Z) :
    in_grid parameter ((parameter 0).threshold_count - 1) ((parameter 1).threshold_count - 1)
        ((parameter 2).threshold_count - 1) ((parameter 3).threshold_count - 1) ∧
      box_incorrect Z ((parameter 0).threshold_count - 1 + 1)
        ((parameter 1).threshold_count - 1 + 1) ((parameter 2).threshold_count - 1 + 1)
        ((parameter 3).threshold_count - 1 + 1) = hist_incorrect parameter Z := by
  have hz : ¬ ((parameter 0).threshold_count = 0 ∨ (parameter 1).threshold_count = 0 ∨
      (parameter 2).threshold_count = 0 ∨ (parameter 3).threshold_count = 0) := by
    intro hz
    have := box_sum_zero (fun a b c d => (Z a b c d).incorrect) _ _ _ _ hz
    simp only [hist_incorrect, box_incorrect] at hpos
    omega
  have h0 : (parameter 0).threshold_count - 1 + 1 = (parameter 0).threshold_count := by omega
  have h1 : (parameter 1).threshold_count - 1 + 1 = (parameter 1).threshold_count := by omega
  have h2 : (parameter 2).threshold_count - 1 + 1 = (parameter 2).threshold_count := by omega
  have h3 : (parameter 3).threshold_count - 1 + 1 = (parameter 3).threshold_count := by omega
  refine ⟨⟨by omega, by omega, by omega, by omega⟩, ?_⟩
  rw [h0, h1, h2, h3]
  rfl

/-- A pass over a histogram whose total fits the counters: it ends with a cut
exactly when a cell of the grid has a region count with
`incorrect ≥ MIN_INCORRECT_COUNT`, and exactly when the bins that remain hold
at least `MIN_INCORRECT_COUNT` incorrect calls. -/
theorem pass_found_iff {parameter : ℕ → PARAMETER} (hs : strides_set parameter)
    {info : INFO} (hr : info_ready parameter info) (p : INDEX) (h : HIGHEST_QV_CUT)
    (hW : hist_total parameter (bin_at parameter info.bin) < ULONG_MOD) :
    ((best_of_pass parameter p info h).total_base_call_count ≠ 0 ↔
      ∃ i j k l, in_grid parameter i j k l ∧
        (region_count parameter p (info, initialize_highest_qv_cut h) i j k l).incorrect
          ≥ MIN_INCORRECT_COUNT) ∧
    ((∃ i j k l, in_grid parameter i j k l ∧
        (region_count parameter p (info, initialize_highest_qv_cut h) i j k l).incorrect
          ≥ MIN_INCORRECT_COUNT) ↔
      hist_incorrect parameter (zero_below p (bin_at parameter info.bin))
        ≥ MIN_INCORRECT_COUNT) := by
  obtain ⟨ha, hc⟩ := best_of_pass_spec hs p hr h
  have hbound : ∀ i j k l, in_grid parameter i j k l →
      (region_count parameter p (info, initialize_highest_qv_cut h) i j k l).correct
        + (region_count parameter p (info, initialize_highest_qv_cut h) i j k l).incorrect
        < ULONG_MOD := by
    intro i j k l hg
    obtain ⟨e1, e2⟩ := region_count_exact hs hr p (initialize_highest_qv_cut h) hg hW
    rw [e1, e2]
    have h1 := (box_le_hist parameter (zero_below p (bin_at parameter info.bin)) hg).1
    have h2 := hist_total_zero_below_le parameter p (bin_at parameter info.bin)
    omega
  refine ⟨⟨?_, ?_⟩, ⟨?_, ?_⟩⟩
  · intro hne
    rcases ha with ha | ⟨i, j, k, l, hg, he, _⟩
    · exact absurd (by rw [ha]; rfl) hne
    · exact ⟨i, j, k, l, hg, he⟩
  · rintro ⟨i, j, k, l, hg, he⟩ hzero
    have hb := hbound i j k l hg
    have hn := hc i j k l hg he
    have hq := quality_of_nonneg (by simp only [MIN_INCORRECT_COUNT] at he; omega) hb
    have ht : total_of
        (region_count parameter p (info, initialize_highest_qv_cut h) i j k l).correct
        (region_count parameter p (info, initialize_highest_qv_cut h) i j k l).incorrect
        = (region_count parameter p (info, initialize_highest_qv_cut h) i j k l).correct
          + (region_count parameter p (info, initialize_highest_qv_cut h) i j k l).incorrect :=
      Nat.mod_eq_of_lt hb
    rcases ha with ha | ⟨i', j', k', l', hg', he', hrec⟩
    · apply hn
      rw [ha]
      have hi0 : (initialize_highest_qv_cut h).quality_value = 0 := rfl
      have hi1 : (initialize_highest_qv_cut h).total_base_call_count = 0 := rfl
      have hi2 : (initialize_highest_qv_cut h).sum_of_indices = 0 := rfl
      simp only [ranks_above, hi0, hi1, hi2, ht]
      simp only [MIN_INCORRECT_COUNT] at he
      omega
    · have hb' := hbound i' j' k' l' hg'
      rw [hrec] at hzero
      simp only [cut_record, total_of, Nat.mod_eq_of_lt hb'] at hzero
      simp only [MIN_INCORRECT_COUNT] at he'
      omega
  · rintro ⟨i, j, k, l, hg, he⟩
    obtain ⟨_, e2⟩ := region_count_exact hs hr p (initialize_highest_qv_cut h) hg hW
    rw [e2] at he
    have := (box_le_hist parameter (zero_below p (bin_at parameter info.bin)) hg).2
    omega
  · intro hge
    have hpos : 0 < hist_incorrect parameter (zero_below p (bin_at parameter info.bin)) := by
      simp only [MIN_INCORRECT_COUNT] at hge; omega
    obtain ⟨hg, e⟩ := hist_incorrect_grid hpos
    refine ⟨_, _, _, _, hg, ?_⟩
    obtain ⟨_, e2⟩ := region_count_exact hs hr p (initialize_highest_qv_cut h) hg hW
    rw [e2, e]
    exact hge

/-! ## One iteration of the `do ... while` loop -/

theorem hist_total_congr {parameter : ℕ → PARAMETER} {H H' : ℕ → ℕ → ℕ → ℕ → BIN}
    (e : ∀ a b c d, in_grid parameter a b c d → H a b c d = H' a b c d) :
    hist_total parameter H = hist_total parameter H' := by
  unfold hist_total
  exact box_sum_congr fun a b c d ha hb hc hd => by rw [e a b c d ⟨ha, hb, hc, hd⟩]

theorem hist_incorrect_congr {parameter : ℕ → PARAMETER} {H H' : ℕ → ℕ → ℕ → ℕ → BIN}
    (e : ∀ a b c d, in_grid parameter a b c d → H a b c d = H' a b c d) :
    hist_incorrect parameter H = hist_incorrect parameter H' := by
  unfold hist_incorrect box_incorrect
  exact box_sum_congr fun a b c d ha hb hc hd => by rw [e a b c d ⟨ha, hb, hc, hd⟩]

theorem box_congr_grid {parameter : ℕ → PARAMETER} {H H' : ℕ → ℕ → ℕ → ℕ → BIN}
    (e : ∀ a b c d, in_grid parameter a b c d → H a b c d = H' a b c d)
    {i j k l : ℕ} (hg : in_grid parameter i j k l) :
    box_correct H (i + 1) (j + 1) (k + 1) (l + 1) = box_correct H' (i + 1) (j + 1) (k + 1) (l + 1) ∧
      box_incorrect H (i + 1) (j + 1) (k + 1) (l + 1)
        = box_incorrect H' (i + 1) (j + 1) (k + 1) (l + 1) := by
  obtain ⟨hi, hj, hk, hl⟩ := hg
  unfold box_correct box_incorrect
  constructor <;>
    exact box_sum_congr fun a b c d ha hb hc hd => by
      rw [e a b c d ⟨by omega, by omega, by omega, by omega⟩]

theorem hist_total_zeroed_le (parameter : ℕ → PARAMETER) (L : List INDEX)
    (H : ℕ → ℕ → ℕ → ℕ → BIN) :
    hist_total parameter (zeroed L H) ≤ hist_total parameter H := by
  unfold hist_total
  refine box_sum_mono _ _ _ _ fun a b c d => ?_
  simp only [zeroed]
  split_ifs <;> simp

/-- The facts about one pass that starts in a state of the loop invariant. -/
theorem dp_pass_facts {parameter : ℕ → PARAMETER} (hs : strides_set parameter)
    {H0 : ℕ → ℕ → ℕ → ℕ → BIN} (hW : hist_total parameter H0 < ULONG_MOD)
    {s : DP_STATE} (hinv : dp_inv parameter H0 s) :
    info_ready parameter (dp_iteration parameter s).info ∧
    (∀ a b c d, in_grid parameter a b c d →
      bin_at parameter (dp_iteration parameter s).info.bin a b c d
        = zeroed (extracted_indices s) H0 a b c d) ∧
    ((dp_iteration parameter s).highest_qv_cut.total_base_call_count ≠ 0 ↔
      hist_incorrect parameter (zeroed (extracted_indices s) H0) ≥ MIN_INCORRECT_COUNT) ∧
    ((dp_iteration parameter s).highest_qv_cut.total_base_call_count ≠ 0 →
      cut_ok parameter H0 (extracted_indices s) (dp_iteration parameter s).highest_qv_cut) := by
  obtain ⟨hr, ⟨L, hL, hbin⟩, hcons, _⟩ := hinv
  have hZ : zeroed (L ++ [s.previous_highest_cut_parameter_index]) H0
      = zeroed (extracted_indices s) H0 := by rw [hL, zeroed_cons_neg]
  have F1 : ∀ a b c d, in_grid parameter a b c d →
      zero_below s.previous_highest_cut_parameter_index (bin_at parameter s.info.bin) a b c d
        = zeroed (extracted_indices s) H0 a b c d := by
    intro a b c d hg
    rw [← hZ, zeroed_snoc]
    simp only [zero_below, hbin a b c d hg]
  have F2 : hist_total parameter (bin_at parameter s.info.bin) < ULONG_MOD := by
    rw [hist_total_congr hbin]
    exact lt_of_le_of_lt (hist_total_zeroed_le parameter L H0) hW
  obtain ⟨_, hr', hbin'⟩ := scan_l_result hs s.previous_highest_cut_parameter_index hr
    (initialize_highest_qv_cut s.highest_qv_cut)
  obtain ⟨hf1, hf2⟩ := pass_found_iff hs hr s.previous_highest_cut_parameter_index
    s.highest_qv_cut F2
  obtain ⟨ha, _⟩ := best_of_pass_spec hs s.previous_highest_cut_parameter_index hr
    s.highest_qv_cut
  rw [dp_iteration_info, dp_iteration_highest]
  refine ⟨hr', ?_, ?_, ?_⟩
  · intro a b c d hg
    rw [← F1 a b c d hg]
    exact hbin' a b c d hg
  · rw [hf1, hf2, hist_incorrect_congr F1]
  · intro hne
    rcases ha with ha | ⟨i, j, k, l, hg, he, hrec⟩
    · exact absurd (by rw [ha]; rfl) hne
    · obtain ⟨e1, e2⟩ := region_count_exact hs hr s.previous_highest_cut_parameter_index
        (initialize_highest_qv_cut s.highest_qv_cut) hg F2
      obtain ⟨c1, c2⟩ := box_congr_grid F1 hg
      rw [e1, e2, c1, c2] at hrec
      rw [e2, c2] at he
      exact ⟨i, j, k, l, hg, hrec, he⟩

theorem cut_ok_fields {parameter : ℕ → PARAMETER} {H0 : ℕ → ℕ → ℕ → ℕ → BIN}
    {earlier : List INDEX} {q : HIGHEST_QV_CUT} (hq : cut_ok parameter H0 earlier q) :
    ∃ i j k l, in_grid parameter i j k l ∧ q.index = ⟨i, j, k, l⟩ ∧
      q.correct_base_call_count
        = box_correct (zeroed earlier H0) (i + 1) (j + 1) (k + 1) (l + 1) ∧
      q.incorrect_base_call_count
        = box_incorrect (zeroed earlier H0) (i + 1) (j + 1) (k + 1) (l + 1) ∧
      q.total_base_call_count = total_of q.correct_base_call_count q.incorrect_base_call_count ∧
      q.incorrect_base_call_count ≥ MIN_INCORRECT_COUNT := by
  obtain ⟨i, j, k, l, hg, hrec, he⟩ := hq
  refine ⟨i, j, k, l, hg, ?_, ?_, ?_, ?_, ?_⟩ <;> rw [hrec] <;> first | rfl | exact he

/-- A pass of the loop that ends with a cut: the invariant holds again, the
countdown stays the total of the remaining bins, and the remaining bins lose
at least `MIN_INCORRECT_COUNT` incorrect calls. -/
theorem dp_step_found {parameter : ℕ → PARAMETER} (hs : strides_set parameter)
    {H0 : ℕ → ℕ → ℕ → ℕ → BIN} (hW : hist_total parameter H0 < ULONG_MOD)
    {s : DP_STATE} (hinv : dp_inv parameter H0 s)
    (hne : (dp_iteration parameter s).highest_qv_cut.total_base_call_count ≠ 0) :
    dp_inv parameter H0 (dp_iteration parameter s) ∧
    (countdown_ok parameter H0 s → countdown_ok parameter H0 (dp_iteration parameter s)) ∧
    hist_incorrect parameter (zeroed (extracted_indices (dp_iteration parameter s)) H0)
        + MIN_INCORRECT_COUNT
      ≤ hist_incorrect parameter (zeroed (extracted_indices s) H0) := by
  obtain ⟨hr', hbin', _, hok⟩ := dp_pass_facts hs hW hinv
  have hok := hok hne
  obtain ⟨hr, ⟨L, hL, hbin⟩, hcons, hrec⟩ := hinv
  obtain ⟨i, j, k, l, hg, hidx, hc, hi, ht, he⟩ := cut_ok_fields hok
  rw [dp_iteration_highest] at hne hidx hc hi ht he
  have hext : (dp_iteration parameter s).extracted = s.extracted ++
      [best_of_pass parameter s.previous_highest_cut_parameter_index s.info
        s.highest_qv_cut] := by
    rw [dp_iteration_extracted, if_pos hne]
  have hprev : (dp_iteration parameter s).previous_highest_cut_parameter_index
      = ⟨i, j, k, l⟩ := by
    rw [dp_iteration_previous, if_pos hne, hidx]
  have hidxs : extracted_indices (dp_iteration parameter s)
      = extracted_indices s ++ [⟨i, j, k, l⟩] := by
    simp only [extracted_indices, hext, List.map_append, List.map_cons, List.map_nil, hidx]
  obtain ⟨hsplit1, hsplit2⟩ := hist_split parameter (zeroed (extracted_indices s) H0) hg
  rw [← zeroed_snoc] at hsplit1 hsplit2
  have hsum : ((dp_iteration parameter s).extracted.map
      (fun q => q.correct_base_call_count + q.incorrect_base_call_count)).sum
      = (s.extracted.map
          (fun q => q.correct_base_call_count + q.incorrect_base_call_count)).sum
        + (box_correct (zeroed (extracted_indices s) H0) (i + 1) (j + 1) (k + 1) (l + 1)
          + box_incorrect (zeroed (extracted_indices s) H0) (i + 1) (j + 1) (k + 1) (l + 1)) := by
    rw [hext, List.map_append, List.sum_append]
    simp only [List.map_cons, List.map_nil, List.sum_cons, List.sum_nil, add_zero, hc, hi]
  refine ⟨⟨hr', ⟨L ++ [s.previous_highest_cut_parameter_index], ?_, ?_⟩, ?_, ?_⟩, ?_, ?_⟩
  · rw [hprev, hL, hidxs]; rfl
  · intro a b c d hgr
    rw [hbin' a b c d hgr, hL, zeroed_cons_neg]
  · rw [hsum, hidxs]; omega
  · intro n q hq
    rw [hext] at hq
    rw [hidxs]
    rcases Nat.lt_or_ge n s.extracted.length with hlt | hge
    · rw [List.getElem?_append_left hlt] at hq
      have hlen : n ≤ (extracted_indices s).length := by
        simp only [extracted_indices, List.length_map]; omega
      rw [List.take_append_of_le_length hlen]
      exact hrec n q hq
    · rw [List.getElem?_append_right hge] at hq
      have hn : n = s.extracted.length := by
        by_contra hcon
        have : n - s.extracted.length ≠ 0 := by omega
        obtain ⟨m, hm⟩ := Nat.exists_eq_succ_of_ne_zero this
        rw [hm] at hq
        simp at hq
      subst hn
      simp only [Nat.sub_self, List.getElem?_cons_zero, Option.some.injEq] at hq
      subst hq
      have hlen : (extracted_indices s).length = s.extracted.length := by
        simp only [extracted_indices, List.length_map]
      rw [← hlen, List.take_left']
      · exact hok
      · rfl
  · intro hcd
    simp only [countdown_ok] at hcd ⊢
    rw [dp_iteration_countdown, if_pos hne, hidxs, hcd, ht, hc, hi]
    have hlt : box_correct (zeroed (extracted_indices s) H0) (i + 1) (j + 1) (k + 1) (l + 1)
        + box_incorrect (zeroed (extracted_indices s) H0) (i + 1) (j + 1) (k + 1) (l + 1)
        < ULONG_MOD := by omega
    simp only [total_of, Nat.mod_eq_of_lt hlt]
    simp only [ULONG_MOD] at hW hlt ⊢
    omega
  · rw [hidxs]
    simp only [MIN_INCORRECT_COUNT] at he ⊢
    omega

/-- A pass of the loop that ends without a cut: the loop ends in a state of
`dp_post`. -/
theorem dp_step_done {parameter : ℕ → PARAMETER} (hs : strides_set parameter)
    {H0 : ℕ → ℕ → ℕ → ℕ → BIN} (hW : hist_total parameter H0 < ULONG_MOD)
    {s : DP_STATE} (hinv : dp_inv parameter H0 s)
    (hz : ¬ (dp_iteration parameter s).highest_qv_cut.total_base_call_count ≠ 0) :
    dp_post parameter H0 (dp_iteration parameter s) ∧
    (countdown_ok parameter H0 s → countdown_ok parameter H0 (dp_iteration parameter s)) := by
  obtain ⟨hr', hbin', hiff, _⟩ := dp_pass_facts hs hW hinv
  obtain ⟨hr, _, hcons, hrec⟩ := hinv
  have hz' := hz
  rw [dp_iteration_highest] at hz'
  have hext : (dp_iteration parameter s).extracted = s.extracted := by
    rw [dp_iteration_extracted, if_neg hz']
  have hidxs : extracted_indices (dp_iteration parameter s) = extracted_indices s := by
    simp only [extracted_indices, hext]
  refine ⟨⟨hr', by simpa using hz, ?_, ?_, ?_, ?_⟩, ?_⟩
  · rw [hidxs]; exact hbin'
  · rw [hext, hidxs]; exact hcons
  · rw [hext, hidxs]; exact hrec
  · rw [hidxs]
    have := mt hiff.mpr hz
    omega
  · intro hcd
    simp only [countdown_ok] at hcd ⊢
    rw [dp_iteration_countdown, if_neg hz', hidxs, hcd]

/-! ## The `do ... while` loop -/

theorem dp_loop_spec {parameter : ℕ → PARAMETER} (hs : strides_set parameter)
    {H0 : ℕ → ℕ → ℕ → ℕ → BIN} (hW : hist_total parameter H0 < ULONG_MOD) (fuel : ℕ) :
    ∀ s : DP_STATE, dp_inv parameter H0 s →
      hist_incorrect parameter (zeroed (extracted_indices s) H0) < MIN_INCORRECT_COUNT * fuel →
      ∃ s', dp_loop parameter fuel s = some s' ∧ dp_post parameter H0 s' ∧
        (countdown_ok parameter H0 s → countdown_ok parameter H0 s') := by
  induction fuel with
  | zero => intro s _ hlt; exact absurd hlt (Nat.not_lt_zero _)
  | succ fuel ih =>
    intro s hinv hlt
    simp only [dp_loop]
    by_cases hne : (dp_iteration parameter s).highest_qv_cut.total_base_call_count ≠ 0
    · rw [if_pos hne]
      obtain ⟨hinv', hcd, hdec⟩ := dp_step_found hs hW hinv hne
      obtain ⟨s', h1, h2, h3⟩ := ih (dp_iteration parameter s) hinv' (by
        rw [Nat.mul_succ] at hlt; omega)
      exact ⟨s', h1, h2, fun h => h3 (hcd h)⟩
    · rw [if_neg hne]
      obtain ⟨hp, hcd⟩ := dp_step_done hs hW hinv hne
      exact ⟨_, rfl, hp, hcd⟩

theorem dp_loop_mono (parameter : ℕ → PARAMETER) (fuel : ℕ) :
    ∀ (s s' : DP_STATE), dp_loop parameter fuel s = some s' →
      ∀ fuel', fuel ≤ fuel' → dp_loop parameter fuel' s = some s' := by
  induction fuel with
  | zero => intro s s' h; simp [dp_loop] at h
  | succ fuel ih =>
    intro s s' h fuel' hle
    obtain ⟨m, rfl⟩ : ∃ m, fuel' = m + 1 := ⟨fuel' - 1, by omega⟩
    simp only [dp_loop] at h ⊢
    split_ifs at h ⊢ with hne
    · exact ih _ _ h m (by omega)
    · exact h

theorem foldl_pred {σ : Type} (Q : σ → Prop) (f : σ → ℕ → σ)
    (hf : ∀ s i, Q s → Q (f s i)) (L : List ℕ) (s : σ) (hs : Q s) : Q (L.foldl f s) := by
  induction L generalizing s with
  | nil => exact hs
  | cons x xs ih => exact ih (f s x) (hf s x hs)

theorem store_get_cut_keeps {parameter : ℕ → PARAMETER} {bin : ℕ → BIN} (info : INFO)
    (a b c : ℕ) (time : TIME) (v : CUT)
    (h : info_ready parameter info ∧ info.bin = bin) :
    info_ready parameter (info.store (get_cut a b c 0 time info) v) ∧
      (info.store (get_cut a b c 0 time info) v).bin = bin := by
  obtain ⟨hr, hb⟩ := h
  have := get_cut_nat hr a b c 0 time
  simp only [Nat.cast_zero] at this
  rw [this]
  obtain ⟨h1, h2, h3, h4, h5, h6⟩ := hr
  cases time <;> exact ⟨⟨h1, h2, h3, h4, h5, h6⟩, hb⟩

theorem zero_cubes_keeps {parameter : ℕ → PARAMETER} (info : INFO)
    (hr : info_ready parameter info) :
    info_ready parameter (zero_cubes parameter info) ∧
      (zero_cubes parameter info).bin = info.bin := by
  unfold zero_cubes
  refine foldl_pred (fun x : INFO => info_ready parameter x ∧ x.bin = info.bin) _ ?_ _ _
    ⟨hr, rfl⟩
  intro x k hx
  refine foldl_pred (fun x : INFO => info_ready parameter x ∧ x.bin = info.bin) _ ?_ _ _ hx
  intro x j hx
  refine foldl_pred (fun x : INFO => info_ready parameter x ∧ x.bin = info.bin) _ ?_ _ _ hx
  intro x i hx
  exact store_get_cut_keeps _ i j k TIME.CURRENT _
    (store_get_cut_keeps x i j k TIME.PREVIOUS _ hx)

theorem dp_start_inv (bin : ℕ → BIN) (parameter : ℕ → PARAMETER) (base_count : ℕ)
    (previous_cube current_cube : ℤ → CUT) (h : HIGHEST_QV_CUT) :
    dp_inv parameter (bin_at parameter bin)
        (dp_start bin parameter base_count previous_cube current_cube h) ∧
      (hist_total parameter (bin_at parameter bin) = base_count →
        countdown_ok parameter (bin_at parameter bin)
          (dp_start bin parameter base_count previous_cube current_cube h)) := by
  obtain ⟨hr, hb⟩ := @zero_cubes_keeps parameter
    { parameter := parameter
      boundary_cut := ⟨0, 0⟩
      bin := bin
      previous_cube := previous_cube
      current_cube := current_cube
      dimension0 := (parameter 0).dimension
      dimension1 := (parameter 1).dimension
      dimension2 := (parameter 2).dimension
      dimension3 := (parameter 3).dimension } ⟨rfl, rfl, rfl, rfl, rfl, rfl⟩
  refine ⟨⟨hr, ⟨[], rfl, ?_⟩, ?_, ?_⟩, ?_⟩
  · intro a b c d _
    rw [zeroed_nil]
    simp only [bin_at, dp_start, hb]
  · simp only [dp_start, extracted_indices, List.map_nil, List.sum_nil, zeroed_nil, zero_add]
  · intro n q hq
    simp [dp_start] at hq
  · intro hbc
    simp only [countdown_ok, dp_start, extracted_indices, List.map_nil, zeroed_nil, hbc]

/-- The function `create_qv_table_via_dynamic_programming` returns: with any
bound on the number of passes above a third of the incorrect calls of the
histogram, the loop ends, in a state of `dp_post`. -/
theorem create_qv_table_returns {parameter : ℕ → PARAMETER} (hs : strides_set parameter)
    (bin : ℕ → BIN) (base_count : ℕ) (previous_cube current_cube : ℤ → CUT)
    (h : HIGHEST_QV_CUT)
    (hW : hist_total parameter (bin_at parameter bin) < ULONG_MOD) :
    ∃ s, (∀ fuel, hist_incorrect parameter (bin_at parameter bin) / MIN_INCORRECT_COUNT < fuel →
        create_qv_table_via_dynamic_programming fuel bin parameter base_count previous_cube
          current_cube h = some s) ∧
      dp_post parameter (bin_at parameter bin) s ∧
      (hist_total parameter (bin_at parameter bin) = base_count →
        countdown_ok parameter (bin_at parameter bin) s) := by
  obtain ⟨hinv, hcd⟩ := dp_start_inv bin parameter base_count previous_cube current_cube h
  have hlt : hist_incorrect parameter
      (zeroed (extracted_indices
        (dp_start bin parameter base_count previous_cube current_cube h))
        (bin_at parameter bin))
      < MIN_INCORRECT_COUNT
        * (hist_incorrect parameter (bin_at parameter bin) / MIN_INCORRECT_COUNT + 1) := by
    have e : extracted_indices
        (dp_start bin parameter base_count previous_cube current_cube h) = [] := rfl
    rw [e, zeroed_nil]
    simp only [MIN_INCORRECT_COUNT]
    omega
  obtain ⟨s, h1, h2, h3⟩ := dp_loop_spec hs hW _ _ hinv hlt
  refine ⟨s, ?_, h2, fun hbc => h3 (hcd hbc)⟩
  intro fuel hf
  exact dp_loop_mono parameter _ _ _ h1 fuel hf

/-! ## The extracted cuts -/

/-- C2, amended: for every histogram whose total count is below `2 ^ 64` (the
range of the `unsigned long` counters)
`create_qv_table_via_dynamic_programming` returns, and the correct and
incorrect counts recorded for its `n`-th extracted cut are the sums of the
original counts over exactly the bins whose index vector is component-wise
`≤` the index vector of that cut and not component-wise `≤` the index vector
of any cut extracted earlier. -/
theorem C2_extracted_cut_counts (parameter : ℕ → PARAMETER) (hs : strides_set parameter)
    (bin : ℕ → BIN) (base_count : ℕ) (previous_cube current_cube : ℤ → CUT)
    (h : HIGHEST_QV_CUT)
    (hW : hist_total parameter (bin_at parameter bin) < ULONG_MOD) :
    ∃ s, (∀ fuel, hist_incorrect parameter (bin_at parameter bin) / MIN_INCORRECT_COUNT < fuel →
        create_qv_table_via_dynamic_programming fuel bin parameter base_count previous_cube
          current_cube h = some s) ∧
      ∀ n q, s.extracted[n]? = some q →
        ∃ i j k l, in_grid parameter i j k l ∧ q.index = ⟨i, j, k, l⟩ ∧
          q.correct_base_call_count
            = box_correct (zeroed ((extracted_indices s).take n) (bin_at parameter bin))
                (i + 1) (j + 1) (k + 1) (l + 1) ∧
          q.incorrect_base_call_count
            = box_incorrect (zeroed ((extracted_indices s).take n) (bin_at parameter bin))
                (i + 1) (j + 1) (k + 1) (l + 1) := by
  obtain ⟨s, h1, ⟨_, _, _, _, hrec, _⟩, _⟩ :=
    create_qv_table_returns hs bin base_count previous_cube current_cube h hW
  refine ⟨s, h1, ?_⟩
  intro n q hq
  obtain ⟨i, j, k, l, hg, hidx, hc, hi, _, _⟩ := cut_ok_fields (hrec n q hq)
  exact ⟨i, j, k, l, hg, hidx, hc, hi⟩

theorem C2_extracted_cut_counts_witness :
    strides_set demo_parameter ∧
    hist_total demo_parameter (bin_at demo_parameter demo_bin) < ULONG_MOD ∧
    ∃ s, (∀ fuel,
        hist_incorrect demo_parameter (bin_at demo_parameter demo_bin) / MIN_INCORRECT_COUNT
          < fuel →
        create_qv_table_via_dynamic_programming fuel demo_bin demo_parameter 376
          (fun _ => ⟨0, 0⟩) (fun _ => ⟨0, 0⟩) demo_cut = some s) ∧
      ∀ n q, s.extracted[n]? = some q →
        ∃ i j k l, in_grid demo_parameter i j k l ∧ q.index = ⟨i, j, k, l⟩ ∧
          q.correct_base_call_count
            = box_correct (zeroed ((extracted_indices s).take n)
                (bin_at demo_parameter demo_bin)) (i + 1) (j + 1) (k + 1) (l + 1) ∧
          q.incorrect_base_call_count
            = box_incorrect (zeroed ((extracted_indices s).take n)
                (bin_at demo_parameter demo_bin)) (i + 1) (j + 1) (k + 1) (l + 1) :=
  ⟨by decide, by decide!,
    C2_extracted_cut_counts demo_parameter (by decide) demo_bin 376 (fun _ => ⟨0, 0⟩)
      (fun _ => ⟨0, 0⟩) demo_cut (by decide!)⟩

/-! ## The end of a pass and of the loop -/

theorem quality_of_zero_three : quality_of 0 3 = 0 := by decide!

/-- C9, amended: a pass over a histogram whose total count is below `2 ^ 64`
(the range of the `unsigned long` counters) ends with a cut
(`highest_qv_cut.total_base_call_count != 0`) if and only if a cell of the
grid has a region count with `incorrect ≥ MIN_INCORRECT_COUNT`, and if and
only if the bins not yet extracted hold at least `3` incorrect calls; the loop
runs another pass exactly when the pass ended with a cut; and a candidate of
quality `0` with three incorrect calls is selected over the initial
sentinel. -/
theorem C9_pass_ends_with_cut_iff (parameter : ℕ → PARAMETER) (hs : strides_set parameter)
    (info : INFO) (hr : info_ready parameter info) (p : INDEX) (h : HIGHEST_QV_CUT)
    (hW : hist_total parameter (bin_at parameter info.bin) < ULONG_MOD) :
    ((best_of_pass parameter p info h).total_base_call_count ≠ 0 ↔
      ∃ i j k l, in_grid parameter i j k l ∧
        (region_count parameter p (info, initialize_highest_qv_cut h) i j k l).incorrect
          ≥ MIN_INCORRECT_COUNT) ∧
    ((best_of_pass parameter p info h).total_base_call_count ≠ 0 ↔
      hist_incorrect parameter (zero_below p (bin_at parameter info.bin)) ≥ 3) ∧
    (∀ (fuel : ℕ) (s : DP_STATE), dp_loop parameter (fuel + 1) s =
      if (best_of_pass parameter s.previous_highest_cut_parameter_index s.info
          s.highest_qv_cut).total_base_call_count ≠ 0
      then dp_loop parameter fuel (dp_iteration parameter s)
      else some (dp_iteration parameter s)) ∧
    (∀ (h' : HIGHEST_QV_CUT) (i j k l : ℕ),
      quality_of 0 3 = 0 ∧
      update_highest_qv_cut (initialize_highest_qv_cut h') parameter 0 3 i j k l p
        = cut_record parameter 0 3 i j k l) := by
  obtain ⟨h1, h2⟩ := pass_found_iff hs hr p h hW
  refine ⟨h1, h1.trans h2, fun fuel s => rfl, ?_⟩
  intro h' i j k l
  refine ⟨quality_of_zero_three, ?_⟩
  rw [update_highest_qv_cut_eq, if_pos]
  refine ⟨le_rfl, Or.inr (Or.inl ⟨?_, ?_⟩)⟩
  · rw [quality_of_zero_three]; rfl
  · show total_of 0 3 > 0
    decide

theorem C9_pass_ends_with_cut_iff_witness :
    strides_set demo_parameter ∧ info_ready demo_parameter demo_info ∧
    hist_total demo_parameter (bin_at demo_parameter demo_info.bin) < ULONG_MOD ∧
    ((best_of_pass demo_parameter ⟨-1, -1, -1, -1⟩ demo_info demo_cut).total_base_call_count
        ≠ 0 ↔
      hist_incorrect demo_parameter
        (zero_below ⟨-1, -1, -1, -1⟩ (bin_at demo_parameter demo_info.bin)) ≥ 3) :=
  ⟨by decide, demo_info_ready, by decide!,
    (C9_pass_ends_with_cut_iff demo_parameter (by decide) demo_info demo_info_ready
      ⟨-1, -1, -1, -1⟩ demo_cut (by decide!)).2.1⟩

/-! ## Conservation -/

theorem sum_take_le (L : List ℕ) (n : ℕ) : (L.take n).sum ≤ L.sum := by
  induction L generalizing n with
  | nil => simp
  | cons x xs ih =>
    cases n with
    | zero => simp
    | succ n => simp only [List.take_succ_cons, List.sum_cons]; have := ih n; omega

/-- C10: for a histogram whose total count equals `base_count` (an `unsigned
long`), `create_qv_table_via_dynamic_programming` returns, the counts
`correct + incorrect` of all extracted cuts plus the final countdown (the
"unaccounted" count) equal the total count of the original histogram, and the
countdown never underflows: the totals of the cuts extracted up to any point
never exceed `base_count`. -/
theorem C10_conservation (parameter : ℕ → PARAMETER) (hs : strides_set parameter)
    (bin : ℕ → BIN) (base_count : ℕ) (previous_cube current_cube : ℤ → CUT)
    (h : HIGHEST_QV_CUT)
    (hbc : hist_total parameter (bin_at parameter bin) = base_count)
    (hW : base_count < ULONG_MOD) :
    ∃ s, (∀ fuel, hist_incorrect parameter (bin_at parameter bin) / MIN_INCORRECT_COUNT < fuel →
        create_qv_table_via_dynamic_programming fuel bin parameter base_count previous_cube
          current_cube h = some s) ∧
      (s.extracted.map
          (fun q => q.correct_base_call_count + q.incorrect_base_call_count)).sum
        + s.countdown = hist_total parameter (bin_at parameter bin) ∧
      (∀ q ∈ s.extracted, q.total_base_call_count
        = q.correct_base_call_count + q.incorrect_base_call_count) ∧
      ∀ n, ((s.extracted.take n).map (fun q => q.total_base_call_count)).sum ≤ base_count := by
  obtain ⟨s, h1, ⟨_, _, _, hcons, hrec, _⟩, hcd⟩ :=
    create_qv_table_returns hs bin base_count previous_cube current_cube h (by omega)
  have hcd := hcd hbc
  simp only [countdown_ok] at hcd
  have htot : ∀ q ∈ s.extracted, q.total_base_call_count
      = q.correct_base_call_count + q.incorrect_base_call_count := by
    intro q hq
    obtain ⟨n, hn, rfl⟩ := List.getElem_of_mem hq
    have hq' : s.extracted[n]? = some s.extracted[n] := List.getElem?_eq_getElem hn
    obtain ⟨i, j, k, l, hg, _, hc, hi, ht, _⟩ := cut_ok_fields (hrec n _ hq')
    rw [ht, hc, hi]
    have h2 := (box_le_hist parameter
      (zeroed ((extracted_indices s).take n) (bin_at parameter bin)) hg).1
    have h3 := hist_total_zeroed_le parameter ((extracted_indices s).take n)
      (bin_at parameter bin)
    exact Nat.mod_eq_of_lt (by omega)
  refine ⟨s, h1, ?_, htot, ?_⟩
  · rw [hcd]; exact hcons
  · intro n
    have e : s.extracted.map (fun q => q.total_base_call_count)
        = s.extracted.map
            (fun q => q.correct_base_call_count + q.incorrect_base_call_count) :=
      List.map_congr_left htot
    have := sum_take_le (s.extracted.map (fun q => q.total_base_call_count)) n
    rw [← List.map_take] at this
    rw [e] at this
    omega

theorem C10_conservation_witness :
    hist_total demo_parameter (bin_at demo_parameter demo_bin) = 376 ∧
    ∃ s, (∀ fuel,
        hist_incorrect demo_parameter (bin_at demo_parameter demo_bin) / MIN_INCORRECT_COUNT
          < fuel →
        create_qv_table_via_dynamic_programming fuel demo_bin demo_parameter 376
          (fun _ => ⟨0, 0⟩) (fun _ => ⟨0, 0⟩) demo_cut = some s) ∧
      (s.extracted.map
          (fun q => q.correct_base_call_count + q.incorrect_base_call_count)).sum
        + s.countdown = hist_total demo_parameter (bin_at demo_parameter demo_bin) ∧
      (∀ q ∈ s.extracted, q.total_base_call_count
        = q.correct_base_call_count + q.incorrect_base_call_count) ∧
      ∀ n, ((s.extracted.take n).map (fun q => q.total_base_call_count)).sum ≤ 376 :=
  ⟨by decide!,
    C10_conservation demo_parameter (by decide) demo_bin 376 (fun _ => ⟨0, 0⟩)
      (fun _ => ⟨0, 0⟩) demo_cut (by decide!) (by decide)⟩

/-! ## The population of the histogram -/

theorem zero_bins_eq (n : ℕ) (bin : ℕ → BIN) :
    zero_bins n bin = fun o => if o < n then ⟨0, 0⟩ else bin o := by
  unfold zero_bins
  induction n with
  | zero => funext o; simp
  | succ n ih =>
    rw [List.range_succ, List.foldl_append, ih]
    funext o
    simp only [List.foldl_cons, List.foldl_nil, store_bin]
    by_cases h1 : o = n
    · subst h1; simp
    · have : (o < n + 1) ↔ (o < n) := by omega
      simp only [h1, if_false, this]

theorem count_base_eq (parameter : ℕ → PARAMETER) (bin : ℕ → BIN) (base : BASE) :
    count_base parameter bin base =
      match base_offset parameter base with
      | none => none
      | some o =>
          if base.is_match ≠ 0 then
            some (store_bin bin o { bin o with correct := ((bin o).correct + 1) % ULONG_MOD })
          else
            some (store_bin bin o
              { bin o with incorrect := ((bin o).incorrect + 1) % ULONG_MOD }) := by
  unfold count_base base_offset
  cases base_index parameter base <;> rfl

theorem count_base_none_iff (parameter : ℕ → PARAMETER) (bin : ℕ → BIN) (base : BASE) :
    count_base parameter bin base = none ↔ base_offset parameter base = none := by
  rw [count_base_eq]
  cases base_offset parameter base with
  | none => simp
  | some o => simp only [reduceCtorEq, iff_false]; split_ifs <;> simp

theorem foldlM_count_base (parameter : ℕ → PARAMETER) (P : List BASE) :
    ∀ bin : ℕ → BIN, P.foldlM (count_base parameter) bin =
      if ∀ b ∈ P, base_offset parameter b ≠ none
      then some (P.foldl (count_step parameter) bin) else none := by
  induction P with
  | nil => intro bin; simp
  | cons x xs ih =>
    intro bin
    simp only [List.foldlM_cons, List.foldl_cons, List.mem_cons, forall_eq_or_imp]
    by_cases hx : base_offset parameter x = none
    · have := (count_base_none_iff parameter bin x).mpr hx
      rw [this]
      simp [hx]
    · have hne : count_base parameter bin x ≠ none :=
        fun h => hx ((count_base_none_iff parameter bin x).mp h)
      obtain ⟨bin', hb⟩ := Option.ne_none_iff_exists'.mp hne
      have hstep : count_step parameter bin x = bin' := by
        simp only [count_step, hb, Option.getD_some]
      rw [hb, hstep]
      simp only [Option.bind_eq_bind, Option.some_bind, ih, hx, not_false_eq_true, true_and, ne_eq]
theorem count_step_eq (parameter : ℕ → PARAMETER) (bin : ℕ → BIN) (base : BASE) :
    count_step parameter bin base = fun m =>
      if base_offset parameter base = some m then
        (if base.is_match ≠ 0 then
          ({ bin m with correct := ((bin m).correct + 1) % ULONG_MOD } : BIN)
        else { bin m with incorrect := ((bin m).incorrect + 1) % ULONG_MOD })
      else bin m := by
  funext m
  simp only [count_step, count_base_eq]
  cases h : base_offset parameter base with
  | none => simp
  | some o =>
    by_cases hm : o = m
    · subst hm
      by_cases hq : base.is_match = 0 <;> simp [hq, store_bin]
    · have hm' : m ≠ o := fun e => hm e.symm
      by_cases hq : base.is_match = 0 <;> simp [hq, store_bin, hm, hm']

theorem count_step_comm (parameter : ℕ → PARAMETER) (bin : ℕ → BIN) (x y : BASE) :
    count_step parameter (count_step parameter bin x) y
      = count_step parameter (count_step parameter bin y) x := by
  funext m
  simp only [count_step_eq]
  by_cases hx : base_offset parameter x = some m <;>
    by_cases hy : base_offset parameter y = some m <;>
    by_cases qx : x.is_match = 0 <;> by_cases qy : y.is_match = 0 <;>
    simp [hx, hy, qx, qy]

theorem count_fold_closed (parameter : ℕ → PARAMETER) (P : List BASE) :
    ∀ (bin : ℕ → BIN) (o : ℕ),
      ((P.foldl (count_step parameter) bin) o).correct % ULONG_MOD
          = ((bin o).correct
            + P.countP (fun b => decide (b.is_match ≠ 0 ∧ base_offset parameter b = some o)))
            % ULONG_MOD ∧
      ((P.foldl (count_step parameter) bin) o).incorrect % ULONG_MOD
          = ((bin o).incorrect
            + P.countP (fun b => decide (b.is_match = 0 ∧ base_offset parameter b = some o)))
            % ULONG_MOD ∧
      ((bin o).correct < ULONG_MOD →
        ((P.foldl (count_step parameter) bin) o).correct < ULONG_MOD) ∧
      ((bin o).incorrect < ULONG_MOD →
        ((P.foldl (count_step parameter) bin) o).incorrect < ULONG_MOD) := by
  induction P with
  | nil => intro bin o; simp
  | cons x xs ih =>
    intro bin o
    obtain ⟨h1, h2, h3, h4⟩ := ih (count_step parameter bin x) o
    have hpos : 0 < ULONG_MOD := by decide
    simp only [List.foldl_cons, List.countP_cons]
    rw [h1, h2]
    have e := congrFun (count_step_eq parameter bin x) o
    by_cases hx : base_offset parameter x = some o <;> by_cases qx : x.is_match = 0
    · simp only [hx, qx, if_true, ne_eq, not_true_eq_false, if_false] at e
      rw [e] at h3 h4 ⊢
      simp only [hx, qx, ne_eq, not_true_eq_false, false_and, decide_False, and_self,
        decide_True, if_true, Bool.false_eq_true, if_false, add_zero, Nat.mod_add_mod]
      refine ⟨trivial, (by congr 1; omega), h3, fun _ => h4 (Nat.mod_lt _ hpos)⟩
    · simp only [hx, qx, if_true, ne_eq, not_false_eq_true] at e
      rw [e] at h3 h4 ⊢
      simp only [hx, qx, ne_eq, not_false_eq_true, and_self, decide_True, if_true, false_and,
        decide_False, Bool.false_eq_true, if_false, add_zero, Nat.mod_add_mod]
      refine ⟨(by congr 1; omega), trivial, fun _ => h3 (Nat.mod_lt _ hpos), h4⟩
    · simp only [hx, if_false] at e
      rw [e] at h3 h4 ⊢
      simp only [hx, and_false, decide_False, Bool.false_eq_true, if_false, add_zero]
      exact ⟨trivial, trivial, h3, h4⟩
    · simp only [hx, if_false] at e
      rw [e] at h3 h4 ⊢
      simp only [hx, and_false, decide_False, Bool.false_eq_true, if_false, add_zero]
      exact ⟨trivial, trivial, h3, h4⟩
/-! ## The histogram of an observation list -/

theorem get_threshold_index_lt {value : ℚ} {threshold : ℕ → ℚ} {n i : ℕ}
    (h : get_threshold_index value threshold n = some i) : i < n := by
  cases n with
  | zero => simp [get_threshold_index] at h
  | succ m =>
    simp only [get_threshold_index] at h
    split_ifs at h with hv
    have hv' : value ≤ threshold m := not_lt.mp hv
    simp only [get_threshold_index_loop, hv', if_true, Option.some.injEq] at h
    have := get_threshold_index_loop_le value threshold m
    omega

theorem base_offset_iff {parameter : ℕ → PARAMETER} (hs : strides_set parameter) (base : BASE)
    {a b c d : ℕ} (hg : in_grid parameter a b c d) :
    base_offset parameter base = some (get_bin parameter (index4 a b c d))
      ↔ lands_in parameter base a b c d := by
  unfold base_offset base_index lands_in
  cases h0 : get_threshold_index (base.parameter 0) (parameter 0).threshold
      (parameter 0).threshold_count with
  | none => simp
  | some a' =>
  cases h1 : get_threshold_index (base.parameter 1) (parameter 1).threshold
      (parameter 1).threshold_count with
  | none => simp
  | some b' =>
  cases h2 : get_threshold_index (base.parameter 2) (parameter 2).threshold
      (parameter 2).threshold_count with
  | none => simp
  | some c' =>
  cases h3 : get_threshold_index (base.parameter 3) (parameter 3).threshold
      (parameter 3).threshold_count with
  | none => simp
  | some d' =>
    have hg' : in_grid parameter a' b' c' d' :=
      ⟨get_threshold_index_lt h0, get_threshold_index_lt h1, get_threshold_index_lt h2,
        get_threshold_index_lt h3⟩
    simp only [Option.map_some', Option.some.injEq]
    constructor
    · intro e
      obtain ⟨e1, e2, e3, e4⟩ := get_bin_inj hs hg' hg e
      exact ⟨e1, e2, e3, e4⟩
    · rintro ⟨rfl, rfl, rfl, rfl⟩; rfl

theorem within_thresholds_lands {parameter : ℕ → PARAMETER} {base : BASE}
    (h : within_thresholds parameter base) :
    ∃ a b c d, in_grid parameter a b c d ∧ lands_in parameter base a b c d := by
  obtain ⟨p0, v0⟩ := h 0 (by decide)
  obtain ⟨p1, v1⟩ := h 1 (by decide)
  obtain ⟨p2, v2⟩ := h 2 (by decide)
  obtain ⟨p3, v3⟩ := h 3 (by decide)
  have e0 := get_threshold_index_eq_some _ _ _ p0 v0
  have e1 := get_threshold_index_eq_some _ _ _ p1 v1
  have e2 := get_threshold_index_eq_some _ _ _ p2 v2
  have e3 := get_threshold_index_eq_some _ _ _ p3 v3
  exact ⟨_, _, _, _, ⟨get_threshold_index_lt e0, get_threshold_index_lt e1,
    get_threshold_index_lt e2, get_threshold_index_lt e3⟩, e0, e1, e2, e3⟩

theorem lands_in_unique {parameter : ℕ → PARAMETER} {base : BASE} {a b c d a' b' c' d' : ℕ}
    (h : lands_in parameter base a b c d) :
    lands_in parameter base a' b' c' d' ↔ (a' = a ∧ b' = b ∧ c' = c ∧ d' = d) := by
  obtain ⟨h0, h1, h2, h3⟩ := h
  simp only [lands_in, h0, h1, h2, h3, Option.some.injEq]
  constructor
  · rintro ⟨rfl, rfl, rfl, rfl⟩; exact ⟨rfl, rfl, rfl, rfl⟩
  · rintro ⟨rfl, rfl, rfl, rfl⟩; exact ⟨rfl, rfl, rfl, rfl⟩

theorem box_sum_indicator {a0 b0 c0 d0 n0 n1 n2 n3 : ℕ} (ha : a0 < n0) (hb : b0 < n1)
    (hc : c0 < n2) (hd : d0 < n3) :
    box_sum (fun a b c d => if a = a0 ∧ b = b0 ∧ c = c0 ∧ d = d0 then 1 else 0) n0 n1 n2 n3
      = 1 := by
  have e : ∀ a b c d, (if a = a0 ∧ b = b0 ∧ c = c0 ∧ d = d0 then 1 else 0)
      = if d = d0 then (if c = c0 then (if b = b0 then (if a = a0 then 1 else 0) else 0)
          else 0) else 0 := by
    intro a b c d
    split_ifs <;> first | rfl | (exfalso; tauto)
  have z : ∀ (P : Prop) [Decidable P] (s : Finset ℕ) (g : ℕ → ℕ),
      (∑ a ∈ s, if P then g a else 0) = if P then ∑ a ∈ s, g a else 0 := by
    intro P _ s g; split_ifs <;> simp
  simp only [box_sum, e, z, Finset.sum_ite_eq', Finset.mem_range, ha, hb, hc, hd, if_true]

theorem box_sum_count_lands {parameter : ℕ → PARAMETER} (P : List BASE)
    (hP : ∀ base ∈ P, within_thresholds parameter base) :
    box_sum (fun a b c d =>
        P.countP (fun base => decide (base.is_match ≠ 0 ∧ lands_in parameter base a b c d))
        + P.countP (fun base => decide (base.is_match = 0 ∧ lands_in parameter base a b c d)))
      (parameter 0).threshold_count (parameter 1).threshold_count
      (parameter 2).threshold_count (parameter 3).threshold_count = P.length := by
  induction P with
  | nil => simp [box_sum]
  | cons x xs ih =>
    obtain ⟨a0, b0, c0, d0, hg, hl⟩ := within_thresholds_lands (hP x (List.mem_cons_self _ _))
    have ih' := ih (fun base hb => hP base (List.mem_cons_of_mem _ hb))
    have e : ∀ a b c d,
        (x :: xs).countP (fun base =>
            decide (base.is_match ≠ 0 ∧ lands_in parameter base a b c d))
          + (x :: xs).countP (fun base =>
            decide (base.is_match = 0 ∧ lands_in parameter base a b c d))
        = (xs.countP (fun base =>
            decide (base.is_match ≠ 0 ∧ lands_in parameter base a b c d))
          + xs.countP (fun base =>
            decide (base.is_match = 0 ∧ lands_in parameter base a b c d)))
          + (if a = a0 ∧ b = b0 ∧ c = c0 ∧ d = d0 then 1 else 0) := by
      intro a b c d
      simp only [List.countP_cons, lands_in_unique hl]
      by_cases hq : x.is_match = 0 <;>
        by_cases hc : a = a0 ∧ b = b0 ∧ c = c0 ∧ d = d0 <;> simp [hq, hc] <;> omega
    simp only [e]
    rw [box_sum_add, ih', box_sum_indicator hg.1 hg.2.1 hg.2.2.1 hg.2.2.2]
    simp
theorem get_bin_lt {parameter : ℕ → PARAMETER} (hs : strides_set parameter) {a b c d : ℕ}
    (hg : in_grid parameter a b c d) :
    get_bin parameter (index4 a b c d) < bin_count parameter := by
  rw [get_bin_eq]
  have h4 := cell_off_lt hs hg.1 hg.2.1 hg.2.2.1
  have h5 : (d + 1) * (parameter 3).dimension
      ≤ (parameter 3).threshold_count * (parameter 3).dimension :=
    Nat.mul_le_mul_right _ hg.2.2.2
  rw [Nat.succ_mul] at h5
  have e : bin_count parameter
      = (parameter 3).threshold_count * (parameter 3).dimension := rfl
  rw [e]
  omega

theorem count_eq_foldl (base_array : List BASE) (parameter : ℕ → PARAMETER) (bin : ℕ → BIN) :
    count_number_of_correct_bases_in_each_bin base_array parameter bin =
      if ∀ b ∈ base_array, base_offset parameter b ≠ none
      then some (base_array.foldl (count_step parameter)
        (fun o => if o < bin_count parameter then ⟨0, 0⟩ else bin o))
      else none := by
  unfold count_number_of_correct_bases_in_each_bin
  simp only [foldlM_count_base, zero_bins_eq, bin_count]

theorem countP_le_length_lt {P : List BASE} (p : BASE → Bool) (h : P.length < ULONG_MOD) :
    P.countP p < ULONG_MOD :=
  lt_of_le_of_lt (List.countP_le_length p) h

/-- The bins inside the array after the population of the histogram: the
numbers of matching and of non-matching observations that address them. -/
theorem count_fold_array (parameter : ℕ → PARAMETER) (P : List BASE) (bin : ℕ → BIN)
    (hlen : P.length < ULONG_MOD) {o : ℕ} (ho : o < bin_count parameter) :
    (P.foldl (count_step parameter)
        (fun o => if o < bin_count parameter then ⟨0, 0⟩ else bin o)) o
      = ⟨P.countP (fun b => decide (b.is_match ≠ 0 ∧ base_offset parameter b = some o)),
          P.countP (fun b => decide (b.is_match = 0 ∧ base_offset parameter b = some o))⟩ := by
  obtain ⟨h1, h2, h3, h4⟩ := count_fold_closed parameter P
    (fun o => if o < bin_count parameter then ⟨0, 0⟩ else bin o) o
  simp only [ho, if_true, zero_add] at h1 h2 h3 h4
  have hpos : 0 < ULONG_MOD := by decide
  have h3 := h3 hpos
  have h4 := h4 hpos
  rw [Nat.mod_eq_of_lt h3, Nat.mod_eq_of_lt (countP_le_length_lt _ hlen)] at h1
  rw [Nat.mod_eq_of_lt h4, Nat.mod_eq_of_lt (countP_le_length_lt _ hlen)] at h2
  cases hv : (P.foldl (count_step parameter)
      (fun o => if o < bin_count parameter then ⟨0, 0⟩ else bin o)) o with
  | mk c i =>
    rw [hv] at h1 h2
    simp only at h1 h2
    rw [h1, h2]

/-- C5: for every observation list (of `base_count < 2 ^ 64` elements) whose
values are all within the thresholds, and whatever the bins held before,
`count_number_of_correct_bases_in_each_bin` returns; in its result the
`correct` counter of every bin of the grid is the number of observations with
`is_match != 0` whose four `get_threshold_index` results are the index vector
of the bin, the `incorrect` counter is the number of those with
`is_match == 0`, and the counters of all bins add up to `base_count`. -/
theorem C5_histogram_counts (parameter : ℕ → PARAMETER) (hs : strides_set parameter)
    (base_array : List BASE) (bin : ℕ → BIN)
    (hin : ∀ base ∈ base_array, within_thresholds parameter base)
    (hlen : base_array.length < ULONG_MOD) :
    ∃ out, count_number_of_correct_bases_in_each_bin base_array parameter bin = some out ∧
      (∀ a b c d, in_grid parameter a b c d →
        (bin_at parameter out a b c d).correct
            = base_array.countP
                (fun base => decide (base.is_match ≠ 0 ∧ lands_in parameter base a b c d)) ∧
          (bin_at parameter out a b c d).incorrect
            = base_array.countP
                (fun base => decide (base.is_match = 0 ∧ lands_in parameter base a b c d))) ∧
      hist_total parameter (bin_at parameter out) = base_array.length := by
  have hok : ∀ b ∈ base_array, base_offset parameter b ≠ none := by
    intro b hb
    obtain ⟨a0, b0, c0, d0, hg, hl⟩ := within_thresholds_lands (hin b hb)
    rw [(base_offset_iff hs b hg).mpr hl]
    simp
  have hcells : ∀ a b c d, in_grid parameter a b c d →
      bin_at parameter (base_array.foldl (count_step parameter)
        (fun o => if o < bin_count parameter then ⟨0, 0⟩ else bin o)) a b c d
      = ⟨base_array.countP
            (fun base => decide (base.is_match ≠ 0 ∧ lands_in parameter base a b c d)),
          base_array.countP
            (fun base => decide (base.is_match = 0 ∧ lands_in parameter base a b c d))⟩ := by
    intro a b c d hg
    simp only [bin_at]
    rw [count_fold_array parameter base_array bin hlen (get_bin_lt hs hg)]
    simp only [base_offset_iff hs _ hg]
  refine ⟨_, by rw [count_eq_foldl, if_pos hok], ?_, ?_⟩
  · intro a b c d hg
    rw [hcells a b c d hg]
    exact ⟨rfl, rfl⟩
  · rw [← box_sum_count_lands base_array hin]
    unfold hist_total
    refine box_sum_congr fun a b c d ha hb hc hd => ?_
    rw [hcells a b c d ⟨ha, hb, hc, hd⟩]

theorem demo_bases_within : ∀ base ∈ demo_bases, within_thresholds demo_parameter base := by
  intro base hb
  simp only [demo_bases, List.mem_cons, List.mem_singleton, List.not_mem_nil, or_false] at hb
  intro m hm
  simp only [PARAMETER_COUNT] at hm
  rcases hb with rfl | rfl | rfl <;> interval_cases m <;> decide!

theorem C5_histogram_counts_witness :
    strides_set demo_parameter ∧ demo_bases.length < ULONG_MOD ∧
    ∃ out, count_number_of_correct_bases_in_each_bin demo_bases demo_parameter demo_bin
        = some out ∧
      (∀ a b c d, in_grid demo_parameter a b c d →
        (bin_at demo_parameter out a b c d).correct
            = demo_bases.countP
                (fun base => decide (base.is_match ≠ 0 ∧
                  lands_in demo_parameter base a b c d)) ∧
          (bin_at demo_parameter out a b c d).incorrect
            = demo_bases.countP
                (fun base => decide (base.is_match = 0 ∧
                  lands_in demo_parameter base a b c d))) ∧
      hist_total demo_parameter (bin_at demo_parameter out) = demo_bases.length :=
  ⟨by decide, by decide,
    C5_histogram_counts demo_parameter (by decide) demo_bases demo_bin demo_bases_within
      (by decide)⟩
/-- C6: the population of the histogram does not depend on the order of the
observations: a permutation of the observation list gives the same result
(the same bin array, or the same fatal exit), and the histogram of the
concatenation of two lists (of fewer than `2 ^ 64` observations in all) is
the bin-wise sum of the histograms of the two lists. -/
theorem C6_histogram_order_independent (parameter : ℕ → PARAMETER) (bin : ℕ → BIN) :
    (∀ A B : List BASE, A.Perm B →
      count_number_of_correct_bases_in_each_bin A parameter bin
        = count_number_of_correct_bases_in_each_bin B parameter bin) ∧
    (∀ (A B : List BASE) (outA outB : ℕ → BIN), (A ++ B).length < ULONG_MOD →
      count_number_of_correct_bases_in_each_bin A parameter bin = some outA →
      count_number_of_correct_bases_in_each_bin B parameter bin = some outB →
      ∃ out, count_number_of_correct_bases_in_each_bin (A ++ B) parameter bin = some out ∧
        ∀ o, o < bin_count parameter →
          out o = ⟨(outA o).correct + (outB o).correct,
            (outA o).incorrect + (outB o).incorrect⟩) := by
  constructor
  · intro A B hperm
    rw [count_eq_foldl, count_eq_foldl]
    have hiff : (∀ b ∈ A, base_offset parameter b ≠ none)
        ↔ (∀ b ∈ B, base_offset parameter b ≠ none) :=
      ⟨fun h b hb => h b (hperm.mem_iff.mpr hb), fun h b hb => h b (hperm.mem_iff.mp hb)⟩
    have hfold := hperm.foldl_eq' (f := count_step parameter)
      (fun x _ y _ z => count_step_comm parameter z x y)
      (fun o => if o < bin_count parameter then ⟨0, 0⟩ else bin o)
    by_cases hA : ∀ b ∈ A, base_offset parameter b ≠ none
    · rw [if_pos hA, if_pos (hiff.mp hA), hfold]
    · rw [if_neg hA, if_neg (fun h => hA (hiff.mpr h))]
  · intro A B outA outB hlen hA hB
    rw [count_eq_foldl] at hA hB
    have hlenA : A.length < ULONG_MOD := by
      rw [List.length_append] at hlen; omega
    have hlenB : B.length < ULONG_MOD := by
      rw [List.length_append] at hlen; omega
    split_ifs at hA with hokA
    split_ifs at hB with hokB
    simp only [Option.some.injEq] at hA hB
    have hok : ∀ b ∈ A ++ B, base_offset parameter b ≠ none := by
      intro b hb
      rcases List.mem_append.mp hb with h | h
      · exact hokA b h
      · exact hokB b h
    refine ⟨_, by rw [count_eq_foldl, if_pos hok], ?_⟩
    intro o ho
    rw [count_fold_array parameter (A ++ B) bin hlen ho, ← hA, ← hB,
      count_fold_array parameter A bin hlenA ho, count_fold_array parameter B bin hlenB ho]
    simp only [List.countP_append]

/-- The strides that `main` assigns satisfy `strides_set`, and `main` leaves
the threshold counts as they are. -/
theorem main_dimensions_strides (parameter : ℕ → PARAMETER) :
    strides_set (main_dimensions parameter) ∧
      ∀ m, ((main_dimensions parameter) m).threshold_count = (parameter m).threshold_count := by
  constructor
  · simp [strides_set, main_dimensions, PARAMETER_COUNT, List.range']
  · intro m
    simp only [main_dimensions, PARAMETER_COUNT, List.range', List.foldl_cons, List.foldl_nil]
    split_ifs <;> simp_all

theorem C7_best_cut_is_maximum_witness :
    strides_set demo_parameter ∧ info_ready demo_parameter demo_info ∧
    (best_of_pass demo_parameter ⟨-1, -1, -1, -1⟩ demo_info demo_cut).total_base_call_count ≠ 0 ∧
    (∃ i j k l, in_grid demo_parameter i j k l ∧
        (region_count demo_parameter ⟨-1, -1, -1, -1⟩ (demo_info, initialize_highest_qv_cut demo_cut) i j k l).incorrect
          ≥ MIN_INCORRECT_COUNT ∧
        best_of_pass demo_parameter ⟨-1, -1, -1, -1⟩ demo_info demo_cut = cut_record demo_parameter
          (region_count demo_parameter ⟨-1, -1, -1, -1⟩ (demo_info, initialize_highest_qv_cut demo_cut) i j k l).correct
          (region_count demo_parameter ⟨-1, -1, -1, -1⟩ (demo_info, initialize_highest_qv_cut demo_cut) i j k l).incorrect
          i j k l) :=
  ⟨by decide, demo_info_ready, by decide!,
    (C7_best_cut_is_maximum demo_parameter (by decide) ⟨-1, -1, -1, -1⟩ demo_info
      demo_info_ready demo_cut (by decide!)).1⟩

/-! ## Histograms beyond the range of the counters

The counters are `unsigned long`: a region count is the sum of its bins modulo
`2 ^ 64` (`region_count_eq`). The three histograms below hold a total of
`2 ^ 64` or more. -/

theorem wrap_info_ready : info_ready demo_parameter wrap_info := by
  refine ⟨?_, ?_, ?_, ?_, ?_, ?_⟩ <;> rfl

theorem wrap_incorrect_info_ready : info_ready demo_parameter wrap_incorrect_info := by
  refine ⟨?_, ?_, ?_, ?_, ?_, ?_⟩ <;> rfl

/-- C1 as stated fails on the 2x2x2x2 grid with `2 ^ 60` correct calls in each of
the sixteen bins: with no bin excluded, the `CUT` of the top cell `(1,1,1,1)`
holds `correct = 0`, and the sum of the correct counts of the sixteen bins is
`2 ^ 64`. -/
theorem C1_region_count_wraps :
    strides_set demo_parameter ∧ info_ready demo_parameter wrap_info ∧
    in_grid demo_parameter 1 1 1 1 ∧
    (region_count demo_parameter ⟨-1, -1, -1, -1⟩ (wrap_info, demo_cut) 1 1 1 1).correct = 0 ∧
    box_correct (zero_below ⟨-1, -1, -1, -1⟩ (bin_at demo_parameter wrap_info.bin))
      (1 + 1) (1 + 1) (1 + 1) (1 + 1) = 2 ^ 64 ∧
    (region_count demo_parameter ⟨-1, -1, -1, -1⟩ (wrap_info, demo_cut) 1 1 1 1).correct
      ≠ box_correct (zero_below ⟨-1, -1, -1, -1⟩ (bin_at demo_parameter wrap_info.bin))
          (1 + 1) (1 + 1) (1 + 1) (1 + 1) :=
  ⟨by decide, wrap_info_ready, by decide, by decide!, by decide!, by decide!⟩

/-- C2 as stated fails on the 2x2x2x2 grid whose bins `(0,0,0,0)` and `(1,0,0,0)`
hold `2 ^ 63` correct and `2` incorrect calls each: the only cut extracted is
at `(1,1,1,1)` and records `correct = 0`, `incorrect = 4`, and the sum of the
correct counts of the bins `≤ (1,1,1,1)` is `2 ^ 64`. -/
theorem C2_extracted_cut_wraps :
    strides_set demo_parameter ∧
    (create_qv_table_via_dynamic_programming 2 wrap_pair_bin demo_parameter 4
        (fun _ => ⟨0, 0⟩) (fun _ => ⟨0, 0⟩) demo_cut).map
      (fun s => s.extracted.map
        (fun q => (q.index, q.correct_base_call_count, q.incorrect_base_call_count)))
      = some [(⟨1, 1, 1, 1⟩, 0, 4)] ∧
    box_correct (zeroed [] (bin_at demo_parameter wrap_pair_bin))
      (1 + 1) (1 + 1) (1 + 1) (1 + 1) = 2 ^ 64 :=
  ⟨by decide, by decide!, by decide!⟩

/-- C9 as stated fails on the 2x2x2x2 grid whose bin `(0,0,0,0)` holds `1` and
whose bin `(1,0,0,0)` holds `2 ^ 64 - 1` incorrect calls: the first pass ends
without a cut, and the bins hold `2 ^ 64 ≥ 3` incorrect calls. -/
theorem C9_pass_without_cut_wraps :
    strides_set demo_parameter ∧ info_ready demo_parameter wrap_incorrect_info ∧
    (best_of_pass demo_parameter ⟨-1, -1, -1, -1⟩ wrap_incorrect_info
      demo_cut).total_base_call_count = 0 ∧
    hist_incorrect demo_parameter
      (zero_below ⟨-1, -1, -1, -1⟩ (bin_at demo_parameter wrap_incorrect_info.bin)) = 2 ^ 64 ∧
    ¬ ((best_of_pass demo_parameter ⟨-1, -1, -1, -1⟩ wrap_incorrect_info
        demo_cut).total_base_call_count ≠ 0 ↔
      hist_incorrect demo_parameter
        (zero_below ⟨-1, -1, -1, -1⟩ (bin_at demo_parameter wrap_incorrect_info.bin)) ≥ 3) :=
  ⟨by decide, wrap_incorrect_info_ready, by decide!, by decide!, by decide!⟩

theorem radix_surj {n m o : ℕ} (h : o < n * m) : o % n < n ∧ o / n < m ∧ o % n + o / n * n = o := by
  have hn : 0 < n := by
    rcases Nat.eq_zero_or_pos n with h0 | h0
    · subst h0; simp at h
    · exact h0
  refine ⟨Nat.mod_lt _ hn, ?_, ?_⟩
  · exact Nat.div_lt_of_lt_mul h
  · rw [Nat.mul_comm]; exact Nat.mod_add_div o n

theorem get_bin_surj {parameter : ℕ → PARAMETER} (hs : strides_set parameter) {o : ℕ}
    (h : o < (parameter 0).threshold_count * (parameter 1).threshold_count
      * (parameter 2).threshold_count * (parameter 3).threshold_count) :
    ∃ a b c d, in_grid parameter a b c d ∧ get_bin parameter (index4 a b c d) = o := by
  obtain ⟨h1, h2, h3⟩ := radix_surj h
  obtain ⟨h4, h5, h6⟩ := radix_surj h1
  obtain ⟨h7, h8, h9⟩ := radix_surj h4
  refine ⟨_, _, _, _, ⟨h7, h8, h5, h2⟩, ?_⟩
  rw [get_bin_eq, cell_off_eq hs, dimension3_eq hs, h9, h6, h3]

/-- C19: with the strides that `main` sets, the linear offset
`sum_m index[m] * dimension[m]` of `get_bin` is a bijection from the in-range
index vectors onto the offsets below the product of the four threshold
counts: distinct index vectors address distinct bins, every offset is below
the product, every offset below the product is addressed, and the product is
the size `threshold_count[3] * dimension[3]` that
`count_number_of_correct_bases_in_each_bin` uses. -/
theorem C19_get_bin_bijection (parameter : ℕ → PARAMETER) (hs : strides_set parameter) :
    (∀ index : ℕ → ℕ, get_bin parameter index
      = index 0 * (parameter 0).dimension + index 1 * (parameter 1).dimension
        + index 2 * (parameter 2).dimension + index 3 * (parameter 3).dimension) ∧
    (∀ a b c d a' b' c' d', in_grid parameter a b c d → in_grid parameter a' b' c' d' →
      get_bin parameter (index4 a b c d) = get_bin parameter (index4 a' b' c' d') →
      a = a' ∧ b = b' ∧ c = c' ∧ d = d') ∧
    (∀ a b c d, in_grid parameter a b c d →
      get_bin parameter (index4 a b c d)
        < (parameter 0).threshold_count * (parameter 1).threshold_count
          * (parameter 2).threshold_count * (parameter 3).threshold_count) ∧
    (∀ o, o < (parameter 0).threshold_count * (parameter 1).threshold_count
        * (parameter 2).threshold_count * (parameter 3).threshold_count →
      ∃ a b c d, in_grid parameter a b c d ∧ get_bin parameter (index4 a b c d) = o) ∧
    (parameter 0).threshold_count * (parameter 1).threshold_count
        * (parameter 2).threshold_count * (parameter 3).threshold_count
      = bin_count parameter := by
  have hsize : (parameter 0).threshold_count * (parameter 1).threshold_count
      * (parameter 2).threshold_count * (parameter 3).threshold_count
      = bin_count parameter := by
    have e : bin_count parameter
        = (parameter 3).threshold_count * (parameter 3).dimension := rfl
    rw [e, dimension3_eq hs, Nat.mul_comm]
  refine ⟨?_, ?_, ?_, ?_, hsize⟩
  · intro index
    simp [get_bin, PARAMETER_COUNT, List.range_succ]
  · intro a b c d a' b' c' d' h h' e
    exact get_bin_inj hs h h' e
  · intro a b c d hg
    rw [hsize]
    exact get_bin_lt hs hg
  · intro o ho
    exact get_bin_surj hs ho

theorem C19_get_bin_bijection_witness :
    strides_set (main_dimensions (fun _ => ⟨fun i => i, 2, 0⟩)) ∧
    (∀ o, o < 2 * 2 * 2 * 2 →
      ∃ a b c d, in_grid demo_parameter a b c d ∧ get_bin demo_parameter (index4 a b c d) = o) ∧
    2 * 2 * 2 * 2 = bin_count demo_parameter :=
  ⟨(main_dimensions_strides _).1,
    (C19_get_bin_bijection demo_parameter (main_dimensions_strides _).1).2.2.2.1,
    (C19_get_bin_bijection demo_parameter (main_dimensions_strides _).1).2.2.2.2⟩

theorem load_store_same (info : INFO) (p : CUTPTR) (v : CUT) : (info.store p v).load p = v := by
  obtain ⟨base, off⟩ := p
  cases base <;> simp [INFO.load, INFO.store]

theorem store_bin_field (info : INFO) (p : CUTPTR) (v : CUT) : (info.store p v).bin = info.bin := by
  obtain ⟨base, off⟩ := p
  cases base <;> rfl

theorem corner_subsets_eq : corner_subsets =
    [(0, 0, 0, 1), (0, 0, 1, 0), (0, 0, 1, 1), (0, 1, 0, 0), (0, 1, 0, 1), (0, 1, 1, 0),
      (0, 1, 1, 1), (1, 0, 0, 0), (1, 0, 0, 1), (1, 0, 1, 0), (1, 0, 1, 1), (1, 1, 0, 0),
      (1, 1, 0, 1), (1, 1, 1, 0), (1, 1, 1, 1)] := by decide

/-- C20: `number_in_cut` stores, through the pointer to the current cell that
it returns, the bin's own count plus the sum over the fifteen non-empty
subsets of the four indices of the sign of the subset (`+1` for one or three
decrements, `-1` for two or four) times the count at the corner with exactly
these indices decremented, for the correct and for the incorrect component
alike. The sum is an `unsigned long` expression: its value modulo `2 ^ 64`,
which is the value itself when that lies in `[0, 2 ^ 64)`. -/
theorem C20_number_in_cut_inclusion_exclusion (parameter : ℕ → PARAMETER) (info : INFO)
    (hr : info_ready parameter info) (i j k l : ℕ) (p : INDEX) :
    (number_in_cut i j k l info p).1 = get_cut i j k l TIME.CURRENT info ∧
    (((number_in_cut i j k l info p).2.load (number_in_cut i j k l info p).1).correct : ℤ)
      = ((((number_in_cut i j k l info p).2.bin (get_bin parameter (index4 i j k l))).correct : ℤ)
          + signed_corner_sum CUT.correct info i j k l) % (ULONG_MOD : ℤ) ∧
    (((number_in_cut i j k l info p).2.load (number_in_cut i j k l info p).1).incorrect : ℤ)
      = ((((number_in_cut i j k l info p).2.bin (get_bin parameter (index4 i j k l))).incorrect : ℤ)
          + signed_corner_sum CUT.incorrect info i j k l) % (ULONG_MOD : ℤ) ∧
    (number_in_cut i j k l info p).2.bin (get_bin parameter (index4 i j k l))
      = (if dominated i j k l p then ⟨0, 0⟩ else info.bin (get_bin parameter (index4 i j k l))) ∧
    (∀ di dj dk dl, (di + dj + dk + dl = 1 ∨ di + dj + dk + dl = 3 →
        corner_sign di dj dk dl = 1) ∧
      (di + dj + dk + dl = 2 ∨ di + dj + dk + dl = 4 → corner_sign di dj dk dl = -1)) ∧
    corner_subsets.length = 15 := by
  obtain ⟨c0000, c0001, c0010, c0011, c0100, c0101, c0110, c0111, c1000, c1001, c1010, c1011,
    c1100, c1101, c1110, c1111⟩ := number_in_cut_corners_eq parameter info hr i j k l
  have hpar : info.parameter = parameter := hr.1
  have hM : (0 : ℤ) < (ULONG_MOD : ℤ) := by simp [ULONG_MOD]
  have hsum : ∀ f : CUT → ℕ, signed_corner_sum f info i j k l
      = (f (info.load (number_in_cut_corners i j k l info).c_0111) : ℤ)
        + f (info.load (number_in_cut_corners i j k l info).c_1011)
        - f (info.load (number_in_cut_corners i j k l info).c_0011)
        + f (info.load (number_in_cut_corners i j k l info).c_1101)
        - f (info.load (number_in_cut_corners i j k l info).c_0101)
        - f (info.load (number_in_cut_corners i j k l info).c_1001)
        + f (info.load (number_in_cut_corners i j k l info).c_0001)
        + f (info.load (number_in_cut_corners i j k l info).c_1110)
        - f (info.load (number_in_cut_corners i j k l info).c_0110)
        - f (info.load (number_in_cut_corners i j k l info).c_1010)
        + f (info.load (number_in_cut_corners i j k l info).c_0010)
        - f (info.load (number_in_cut_corners i j k l info).c_1100)
        + f (info.load (number_in_cut_corners i j k l info).c_0100)
        + f (info.load (number_in_cut_corners i j k l info).c_1000)
        - f (info.load (number_in_cut_corners i j k l info).c_0000) := by
    intro f
    rw [c0000, c0001, c0010, c0011, c0100, c0101, c0110, c0111, c1000, c1001, c1010, c1011,
      c1100, c1101, c1110]
    simp only [signed_corner_sum, corner_subsets_eq, corner_cut, corner_sign, List.map_cons,
      List.map_nil, List.sum_cons, List.sum_nil]
    norm_num
    ring
  have hload : ∀ q : CUTPTR,
      INFO.load (if (i : ℤ) ≤ p.i0 ∧ (j : ℤ) ≤ p.i1 ∧ (k : ℤ) ≤ p.i2 ∧ (l : ℤ) ≤ p.i3
        then ({ info with
          bin := store_bin info.bin (get_bin info.parameter (index4 i j k l)) ⟨0, 0⟩ } : INFO)
        else info) q = info.load q := by
    intro q; split_ifs <;> rfl
  refine ⟨c1111, ?_, ?_, ?_, ?_, by decide⟩
  · simp only [number_in_cut, load_store_same, store_bin_field, hload, hsum]
    rw [Int.toNat_of_nonneg (Int.emod_nonneg _ (ne_of_gt hM)), hpar]
    congr 1
    ring
  · simp only [number_in_cut, load_store_same, store_bin_field, hload, hsum]
    rw [Int.toNat_of_nonneg (Int.emod_nonneg _ (ne_of_gt hM)), hpar]
    congr 1
    ring
  · simp only [number_in_cut, store_bin_field, hpar, dominated]
    split_ifs <;> simp [store_bin]
  · intro di dj dk dl
    simp only [corner_sign]
    constructor <;> intro h <;> split_ifs <;> first | rfl | omega

theorem C20_number_in_cut_inclusion_exclusion_witness :
    info_ready demo_parameter demo_info ∧
    (((number_in_cut 1 1 1 1 demo_info ⟨-1, -1, -1, -1⟩).2.load
        (number_in_cut 1 1 1 1 demo_info ⟨-1, -1, -1, -1⟩).1).correct : ℤ)
      = ((((number_in_cut 1 1 1 1 demo_info ⟨-1, -1, -1, -1⟩).2.bin
            (get_bin demo_parameter (index4 1 1 1 1))).correct : ℤ)
          + signed_corner_sum CUT.correct demo_info 1 1 1 1) % (ULONG_MOD : ℤ) :=
  ⟨demo_info_ready,
    (C20_number_in_cut_inclusion_exclusion demo_parameter demo_info demo_info_ready 1 1 1 1
      ⟨-1, -1, -1, -1⟩).2.1⟩

/-! ## The error rate -/

theorem error_rate_of_exact {correct incorrect : ℕ} (hW : correct + incorrect + 1 < ULONG_MOD) :
    error_rate_of correct incorrect
      = if incorrect = 0 then 1 / (1 + ((correct + incorrect : ℕ) : ℚ))
        else (incorrect : ℚ) / ((correct + incorrect : ℕ) : ℚ) := by
  have ht : total_of correct incorrect = correct + incorrect :=
    Nat.mod_eq_of_lt (by omega)
  unfold error_rate_of
  rw [ht]
  split_ifs with h0
  · subst h0
    rw [Nat.mod_eq_of_lt (by simp [ULONG_MOD]), Nat.mod_eq_of_lt (by omega)]
    push_cast
    ring
  · rfl

/-- C12, amended: for all counts `correct`, `incorrect` whose total
`correct + incorrect` is below `2 ^ 64 - 1`, the error rate that
`update_highest_qv_cut` computes, ranks the candidate by and records is
exactly `1 / (1 + total)` when `incorrect = 0` and exactly
`incorrect / total` otherwise, as rationals: the `+1` is added only for a
region without incorrect calls. -/
theorem C12_error_rate (h : HIGHEST_QV_CUT) (parameter : ℕ → PARAMETER)
    (correct incorrect i j k l : ℕ) (p : INDEX)
    (hW : correct + incorrect + 1 < ULONG_MOD) :
    update_highest_qv_cut h parameter correct incorrect i j k l p
      = (if incorrect ≥ MIN_INCORRECT_COUNT ∧
            ranks_above
              (quality_of_error_rate
                (if incorrect = 0 then 1 / (1 + ((correct + incorrect : ℕ) : ℚ))
                  else (incorrect : ℚ) / ((correct + incorrect : ℕ) : ℚ)))
              (correct + incorrect) ((i : ℤ) + j + k + l) h
          then cut_record parameter correct incorrect i j k l else h) ∧
    (cut_record parameter correct incorrect i j k l).error_rate
      = (if incorrect = 0 then 1 / (1 + ((correct + incorrect : ℕ) : ℚ))
          else (incorrect : ℚ) / ((correct + incorrect : ℕ) : ℚ)) ∧
    (cut_record parameter correct incorrect i j k l).quality_value
      = quality_of_error_rate
          (if incorrect = 0 then 1 / (1 + ((correct + incorrect : ℕ) : ℚ))
            else (incorrect : ℚ) / ((correct + incorrect : ℕ) : ℚ)) := by
  have he := error_rate_of_exact hW
  have ht : total_of correct incorrect = correct + incorrect :=
    Nat.mod_eq_of_lt (by omega)
  refine ⟨?_, he, ?_⟩
  · rw [update_highest_qv_cut_eq, ← he, ← ht]
    rfl
  · rw [← he]
    rfl

theorem C12_error_rate_witness :
    5 + 0 + 1 < ULONG_MOD ∧
    (cut_record demo_parameter 5 0 0 0 0 0).error_rate = 1 / 6 ∧
    (cut_record demo_parameter 1 2 0 0 0 0).error_rate = 2 / 3 :=
  ⟨by decide,
    by
      have := (C12_error_rate demo_cut demo_parameter 5 0 0 0 0 0 ⟨-1, -1, -1, -1⟩
        (by decide)).2.1
      rw [this]; norm_num,
    by
      have := (C12_error_rate demo_cut demo_parameter 1 2 0 0 0 0 ⟨-1, -1, -1, -1⟩
        (by decide)).2.1
      rw [this]; norm_num⟩

/-- C12 as stated fails for `correct = 2 ^ 64 - 1`, `incorrect = 3`: the total
is the `unsigned long` sum `2`, the error rate that `update_highest_qv_cut`
computes and records is `3 / 2`, and `incorrect / (correct + incorrect)` is
`3 / (2 ^ 64 + 2)`. -/
theorem C12_error_rate_wraps :
    (update_highest_qv_cut low_cut demo_parameter (2 ^ 64 - 1) 3 0 0 0 0
      ⟨-1, -1, -1, -1⟩).error_rate = 3 / 2 ∧
    (update_highest_qv_cut low_cut demo_parameter (2 ^ 64 - 1) 3 0 0 0 0
      ⟨-1, -1, -1, -1⟩).total_base_call_count = 2 ∧
    (update_highest_qv_cut low_cut demo_parameter (2 ^ 64 - 1) 3 0 0 0 0
      ⟨-1, -1, -1, -1⟩).error_rate ≠ (3 : ℚ) / (((2 ^ 64 - 1 + 3 : ℕ)) : ℚ) := by
  refine ⟨by decide!, by decide!, by decide!⟩

/-! ## The quality value as a rounded logarithm -/

/-- The number of elements below `B` that satisfy a downward closed predicate
is its threshold: the predicate holds below this number, and fails at it when
it is below `B`. -/
theorem count_downward (P : ℕ → Bool) (hP : ∀ n, P (n + 1) = true → P n = true) (B : ℕ) :
    (∀ n, n < ((List.range B).filter P).length → P n = true) ∧
      (((List.range B).filter P).length < B →
        P ((List.range B).filter P).length = false) := by
  have hle : ∀ m n, n ≤ m → P m = true → P n = true := by
    intro m
    induction m with
    | zero => intro n hn h; rwa [Nat.le_zero.mp hn]
    | succ m ih =>
      intro n hn h
      rcases Nat.lt_or_ge n (m + 1) with hlt | hge
      · exact ih n (by omega) (hP m h)
      · rwa [show n = m + 1 by omega]
  induction B with
  | zero => simp
  | succ B ih =>
    obtain ⟨ih1, ih2⟩ := ih
    rw [List.range_succ, List.filter_append, List.length_append]
    cases hB : P B
    · simp only [List.filter_cons, hB, List.filter_nil, List.length_nil, Nat.add_zero]
      refine ⟨ih1, fun _ => ?_⟩
      rcases Nat.lt_or_ge ((List.range B).filter P).length B with hlt | hge
      · exact ih2 hlt
      · have hle' : ((List.range B).filter P).length ≤ B := by
          have := List.length_filter_le P (List.range B)
          simpa using this
        rw [show ((List.range B).filter P).length = B by omega]
        exact hB
    · have hfull : ((List.range B).filter P).length = B := by
        by_contra hne
        have hle' : ((List.range B).filter P).length ≤ B := by
          have := List.length_filter_le P (List.range B)
          simpa using this
        have := ih2 (by omega)
        rw [hle B _ hle' hB] at this
        exact absurd this (by simp)
      simp only [List.filter_cons, hB, List.filter_nil, List.length_cons, List.length_nil,
        hfull, if_true]
      refine ⟨fun n hn => hle B n (by omega) hB, fun h => absurd h (by omega)⟩

theorem lt_two_pow_bit_length_aux (fuel : ℕ) :
    ∀ n, n ≤ fuel → n < 2 ^ bit_length_aux fuel n := by
  induction fuel with
  | zero => intro n hn; simp [bit_length_aux]; omega
  | succ fuel ih =>
    intro n hn
    simp only [bit_length_aux]
    split_ifs with h0
    · subst h0; simp
    · have := ih (n / 2) (by omega)
      rw [pow_succ]
      omega

theorem lt_two_pow_bit_length (n : ℕ) : n < 2 ^ bit_length n :=
  lt_two_pow_bit_length_aux n n (le_refl n)

theorem decibels_bound {a b n : ℕ} (hb : 1 ≤ b) (h : 10 ^ (2 * n + 1) * b ^ 20 ≤ a ^ 20) :
    n < 4 * bit_length a := by
  have h1 : 10 ^ (2 * n + 1) ≤ a ^ 20 := by
    have : 10 ^ (2 * n + 1) * 1 ≤ 10 ^ (2 * n + 1) * b ^ 20 :=
      Nat.mul_le_mul_left _ (Nat.one_le_pow _ _ hb)
    omega
  have h2 : a ^ 20 < (2 ^ bit_length a) ^ 20 :=
    Nat.pow_lt_pow_left (lt_two_pow_bit_length a) (by norm_num)
  have h3 : (2 : ℕ) ^ (3 * (2 * n + 1)) ≤ 10 ^ (2 * n + 1) := by
    rw [pow_mul]
    exact Nat.pow_le_pow_left (by norm_num) _
  rw [← pow_mul] at h2
  have h4 : (2 : ℕ) ^ (3 * (2 * n + 1)) < 2 ^ (bit_length a * 20) := by omega
  have h5 := (Nat.pow_lt_pow_iff_right (by norm_num : 1 < 2)).mp h4
  omega

/-- The number `decibels a b` is the threshold of the test
`10 ^ (2 * n + 1) * b ^ 20 ≤ a ^ 20`. -/
theorem decibels_spec {a b : ℕ} (hb : 1 ≤ b) :
    (∀ n, n < decibels a b → 10 ^ (2 * n + 1) * b ^ 20 ≤ a ^ 20) ∧
      ¬ (10 ^ (2 * decibels a b + 1) * b ^ 20 ≤ a ^ 20) := by
  have hP : ∀ n, (decide (10 ^ (2 * (n + 1) + 1) * b ^ 20 ≤ a ^ 20)) = true →
      (decide (10 ^ (2 * n + 1) * b ^ 20 ≤ a ^ 20)) = true := by
    intro n h
    rw [decide_eq_true_eq] at h ⊢
    have : 10 ^ (2 * n + 1) ≤ 10 ^ (2 * (n + 1) + 1) :=
      Nat.pow_le_pow_right (by norm_num) (by omega)
    exact le_trans (Nat.mul_le_mul_right _ this) h
  obtain ⟨h1, h2⟩ := count_downward
    (fun n => decide (10 ^ (2 * n + 1) * b ^ 20 ≤ a ^ 20)) hP (4 * bit_length a)
  refine ⟨fun n hn => ?_, fun hcon => ?_⟩
  · have := h1 n hn
    simpa using this
  · have hlt := decibels_bound hb hcon
    have := h2 hlt
    simp only [decide_eq_false_iff_not] at this
    exact this hcon

/-- For `a ≥ b ≥ 1` the number `decibels a b` is within `1/2` of
`10 * log10 (a / b)`. -/
theorem decibels_nearest {a b : ℕ} (hb : 1 ≤ b) (hab : b ≤ a) :
    |(decibels a b : ℝ) - 10 * Real.logb 10 ((a : ℝ) / (b : ℝ))| ≤ 1 / 2 := by
  obtain ⟨h1, h2⟩ := @decibels_spec a b hb
  have ha : 1 ≤ a := le_trans hb hab
  have hbR : (0 : ℝ) < b := by exact_mod_cast hb
  have haR : (0 : ℝ) < a := by exact_mod_cast ha
  have hL : 0 < Real.log 10 := Real.log_pos (by norm_num)
  have hlog : Real.logb 10 ((a : ℝ) / b) = (Real.log a - Real.log b) / Real.log 10 := by
    rw [Real.logb, Real.log_div (ne_of_gt haR) (ne_of_gt hbR)]
  have hnn : 0 ≤ Real.log a - Real.log b := by
    have : Real.log b ≤ Real.log a := Real.log_le_log hbR (by exact_mod_cast hab)
    linarith
  -- the test, in logarithms
  have key : ∀ n : ℕ, (10 ^ (2 * n + 1) * b ^ 20 ≤ a ^ 20) ↔
      ((2 * n + 1 : ℝ)) * Real.log 10 ≤ 20 * (Real.log a - Real.log b) := by
    intro n
    have e1 : (10 ^ (2 * n + 1) * b ^ 20 ≤ a ^ 20) ↔
        ((10 : ℝ) ^ (2 * n + 1) * (b : ℝ) ^ 20 ≤ (a : ℝ) ^ 20) := by
      constructor
      · intro h; exact_mod_cast h
      · intro h; exact_mod_cast h
    rw [e1, ← Real.log_le_log_iff (by positivity) (by positivity),
      Real.log_mul (by positivity) (by positivity), Real.log_pow, Real.log_pow, Real.log_pow]
    push_cast
    constructor <;> intro h <;> linarith
  rw [hlog, abs_le]
  have hupper := (key (decibels a b)).not.mp h2
  push_neg at hupper
  constructor
  · -- 10 * logb < D + 1/2
    have : 10 * ((Real.log a - Real.log b) / Real.log 10) < decibels a b + 1 / 2 := by
      rw [mul_div_assoc', div_lt_iff₀ hL]
      linarith
    linarith
  · rcases Nat.eq_zero_or_pos (decibels a b) with h0 | hpos
    · rw [h0]
      have : 0 ≤ 10 * ((Real.log a - Real.log b) / Real.log 10) := by positivity
      simp only [Nat.cast_zero]
      linarith
    · have hlow := (key (decibels a b - 1)).mp (h1 _ (by omega))
      have hc : ((decibels a b - 1 : ℕ) : ℝ) = (decibels a b : ℝ) - 1 := by
        rw [Nat.cast_sub hpos]; simp
      rw [hc] at hlow
      have : (decibels a b : ℝ) - 1 / 2 ≤ 10 * ((Real.log a - Real.log b) / Real.log 10) := by
        rw [mul_div_assoc', le_div_iff₀ hL]
        linarith
      linarith


theorem rat_cast_eq (r : ℚ) (hr : 0 < r) :
    (r : ℝ) = ((r.num.toNat : ℕ) : ℝ) / ((r.den : ℕ) : ℝ) ∧ 1 ≤ r.num.toNat ∧ 1 ≤ r.den := by
  have hnum : 0 < r.num := Rat.num_pos.mpr hr
  have hden : 1 ≤ r.den := r.den_pos
  have e : ((r.num.toNat : ℕ) : ℤ) = r.num := Int.toNat_of_nonneg (le_of_lt hnum)
  refine ⟨?_, by omega, hden⟩
  have h1 : (r : ℝ) = ((r.num : ℤ) : ℝ) / ((r.den : ℕ) : ℝ) := by
    conv_lhs => rw [← Rat.num_div_den r]
    push_cast
    rfl
  rw [h1, ← e]
  push_cast
  rfl

/-- The value `quality_of_error_rate r` is within `1/2` of `-10 * log10 r`:
it is this number rounded to the nearest integer. -/
theorem quality_of_error_rate_nearest (r : ℚ) (hr : 0 < r) :
    |(quality_of_error_rate r : ℝ) - (-10 * Real.logb 10 (r : ℝ))| ≤ 1 / 2 := by
  obtain ⟨hcast, hn, hd⟩ := rat_cast_eq r hr
  have hnR : (0 : ℝ) < (r.num.toNat : ℕ) := by exact_mod_cast hn
  have hdR : (0 : ℝ) < (r.den : ℕ) := by exact_mod_cast hd
  unfold quality_of_error_rate
  rw [if_neg (not_le.mpr hr)]
  split_ifs with h1
  · -- r ≤ 1
    have hle : r.num.toNat ≤ r.den := by
      have : (r : ℝ) ≤ 1 := by exact_mod_cast h1
      rw [hcast, div_le_one hdR] at this
      exact_mod_cast this
    have := decibels_nearest hn hle
    have e : Real.logb 10 ((r.den : ℝ) / (r.num.toNat : ℝ)) = - Real.logb 10 (r : ℝ) := by
      rw [hcast, ← Real.logb_inv, inv_div]
    rw [e] at this
    push_cast
    have e2 : (10 : ℝ) * -Real.logb 10 (r : ℝ) = -10 * Real.logb 10 (r : ℝ) := by ring
    rw [e2] at this
    exact this
  · -- 1 < r
    have hle : r.den ≤ r.num.toNat := by
      have : (1 : ℝ) < (r : ℝ) := by exact_mod_cast (not_le.mp h1)
      rw [hcast, one_lt_div hdR] at this
      exact_mod_cast (le_of_lt this)
    have := decibels_nearest hd hle
    rw [← hcast] at this
    push_cast
    rw [abs_sub_comm] at this
    have e2 : -(decibels r.num.toNat r.den : ℝ) - -10 * Real.logb 10 (r : ℝ)
        = 10 * Real.logb 10 (r : ℝ) - (decibels r.num.toNat r.den : ℝ) := by ring
    rw [e2]
    exact this

/-- No clamping: the quality value of the error rate `10 ^ (-k)` is `10 * k`,
for every `k`. -/
theorem quality_of_error_rate_pow (k : ℕ) :
    quality_of_error_rate (1 / 10 ^ k) = 10 * (k : ℤ) := by
  have hr : (0 : ℚ) < 1 / 10 ^ k := by positivity
  have h := quality_of_error_rate_nearest _ hr
  have e : Real.logb 10 (((1 / 10 ^ k : ℚ)) : ℝ) = -(k : ℝ) := by
    push_cast
    rw [one_div, Real.logb_inv, Real.logb_pow, Real.logb_self_eq_one (by norm_num)]
    ring
  rw [e] at h
  have h' : |((quality_of_error_rate (1 / 10 ^ k) - 10 * (k : ℤ) : ℤ) : ℝ)| ≤ 1 / 2 := by
    push_cast
    have e2 : (quality_of_error_rate (1 / 10 ^ k) : ℝ) - 10 * (k : ℝ)
        = (quality_of_error_rate (1 / 10 ^ k) : ℝ) - -10 * -(k : ℝ) := by ring
    rw [e2]
    exact h
  have h'' : |quality_of_error_rate (1 / 10 ^ k) - 10 * (k : ℤ)| < 1 := by
    have : ((|quality_of_error_rate (1 / 10 ^ k) - 10 * (k : ℤ)| : ℤ) : ℝ) < 1 := by
      rw [Int.cast_abs]
      linarith
    exact_mod_cast this
  have := Int.abs_lt_one_iff.mp h''
  omega

/-- C13: the quality value that `update_highest_qv_cut` derives from an error
rate `r > 0` is `-10 * log10 r` rounded to the nearest integer (it differs
from this number by at most `1/2`), with no clamping (the error rate
`10 ^ (-k)` has the quality `10 * k`, for every `k`); the counts
`correct = 5`, `incorrect = 0` have the error rate `1/6` and the quality `8`,
and the counts `correct = 1`, `incorrect = 1` have the error rate `1/2` and
the quality `3`. -/
theorem C13_quality_is_rounded_log (r : ℚ) (hr : 0 < r) :
    |(quality_of_error_rate r : ℝ) - (-10 * Real.logb 10 (r : ℝ))| ≤ 1 / 2 ∧
    (∀ (parameter : ℕ → PARAMETER) (correct incorrect i j k l : ℕ),
      (cut_record parameter correct incorrect i j k l).quality_value
        = quality_of_error_rate (error_rate_of correct incorrect)) ∧
    (error_rate_of 5 0 = 1 / 6 ∧ quality_of 5 0 = 8) ∧
    (error_rate_of 1 1 = 1 / 2 ∧ quality_of 1 1 = 3) ∧
    ∀ k : ℕ, quality_of_error_rate (1 / 10 ^ k) = 10 * (k : ℤ) :=
  ⟨quality_of_error_rate_nearest r hr, fun _ _ _ _ _ _ _ => rfl,
    ⟨by decide!, by decide!⟩, ⟨by decide!, by decide!⟩, quality_of_error_rate_pow⟩

theorem C13_quality_is_rounded_log_witness :
    (0 : ℚ) < 1 / 6 ∧
    |(quality_of_error_rate (1 / 6) : ℝ) - (-10 * Real.logb 10 (((1 / 6 : ℚ)) : ℝ))| ≤ 1 / 2 :=
  ⟨by norm_num, (C13_quality_is_rounded_log (1 / 6) (by norm_num)).1⟩

/-! ## Termination of the `do ... while` loop -/

theorem dp_iteration_num_entries (parameter : ℕ → PARAMETER) (s : DP_STATE) :
    (dp_iteration parameter s).num_entries
      = if (best_of_pass parameter s.previous_highest_cut_parameter_index s.info
            s.highest_qv_cut).total_base_call_count ≠ 0
        then s.num_entries + 1 else s.num_entries := by
  simp only [dp_iteration, best_of_pass, decide_eq_true_eq]

/-- One pass from a state whose bins are the original histogram with the
boxes of the earlier cuts set to zero: the bins after the pass, and the cell
and the counts of the cut with which the pass ends, if it ends with one. -/
theorem dp_pass_general {parameter : ℕ → PARAMETER} (hs : strides_set parameter)
    {H0 : ℕ → ℕ → ℕ → ℕ → BIN} {s : DP_STATE} (hr : info_ready parameter s.info)
    {L : List INDEX}
    (hL : L ++ [s.previous_highest_cut_parameter_index]
      = ⟨-1, -1, -1, -1⟩ :: extracted_indices s)
    (hbin : ∀ a b c d, in_grid parameter a b c d →
      bin_at parameter s.info.bin a b c d = zeroed L H0 a b c d) :
    info_ready parameter (dp_iteration parameter s).info ∧
    (∀ a b c d, in_grid parameter a b c d →
      bin_at parameter (dp_iteration parameter s).info.bin a b c d
        = zeroed (extracted_indices s) H0 a b c d) ∧
    ((dp_iteration parameter s).highest_qv_cut.total_base_call_count ≠ 0 →
      ∃ i j k l, in_grid parameter i j k l ∧
        (dp_iteration parameter s).highest_qv_cut = cut_record parameter
          (region_value (zeroed (extracted_indices s) H0) i j k l).correct
          (region_value (zeroed (extracted_indices s) H0) i j k l).incorrect i j k l ∧
        (region_value (zeroed (extracted_indices s) H0) i j k l).incorrect
          ≥ MIN_INCORRECT_COUNT) := by
  have hZ : zeroed (L ++ [s.previous_highest_cut_parameter_index]) H0
      = zeroed (extracted_indices s) H0 := by rw [hL, zeroed_cons_neg]
  have F1 : ∀ a b c d, in_grid parameter a b c d →
      zero_below s.previous_highest_cut_parameter_index (bin_at parameter s.info.bin) a b c d
        = zeroed (extracted_indices s) H0 a b c d := by
    intro a b c d hg
    rw [← hZ, zeroed_snoc]
    simp only [zero_below, hbin a b c d hg]
  obtain ⟨_, hr', hbin'⟩ := scan_l_result hs s.previous_highest_cut_parameter_index hr
    (initialize_highest_qv_cut s.highest_qv_cut)
  obtain ⟨ha, _⟩ := best_of_pass_spec hs s.previous_highest_cut_parameter_index hr
    s.highest_qv_cut
  rw [dp_iteration_info, dp_iteration_highest]
  refine ⟨hr', ?_, ?_⟩
  · intro a b c d hg
    rw [← F1 a b c d hg]
    exact hbin' a b c d hg
  · intro hne
    rcases ha with ha | ⟨i, j, k, l, hg, he, hrec⟩
    · exact absurd (by rw [ha]; rfl) hne
    · obtain ⟨c1, c2⟩ := box_congr_grid F1 hg
      rw [region_count_eq hs hr _ hg] at he hrec
      simp only [region_value] at he hrec ⊢
      rw [c1, c2] at hrec
      rw [c2] at he
      exact ⟨i, j, k, l, hg, hrec, he⟩

theorem dp_progress_found {parameter : ℕ → PARAMETER} (hs : strides_set parameter)
    {H0 : ℕ → ℕ → ℕ → ℕ → BIN} {s : DP_STATE} (hinv : dp_progress parameter H0 s)
    (hne : (dp_iteration parameter s).highest_qv_cut.total_base_call_count ≠ 0) :
    dp_progress parameter H0 (dp_iteration parameter s) ∧
      (dp_iteration parameter s).extracted.length = s.extracted.length + 1 := by
  obtain ⟨hr, ⟨L, hL, hbin⟩, hper, hagg, hnum⟩ := hinv
  obtain ⟨hr', hbin', hcut⟩ := dp_pass_general hs hr hL hbin
  obtain ⟨i, j, k, l, hg, hrec, he⟩ := hcut hne
  have hidx : (dp_iteration parameter s).highest_qv_cut.index = ⟨i, j, k, l⟩ := by
    rw [hrec]; rfl
  rw [dp_iteration_highest] at hne hidx
  have hext : (dp_iteration parameter s).extracted = s.extracted ++
      [best_of_pass parameter s.previous_highest_cut_parameter_index s.info
        s.highest_qv_cut] := by
    rw [dp_iteration_extracted, if_pos hne]
  have hprev : (dp_iteration parameter s).previous_highest_cut_parameter_index
      = ⟨i, j, k, l⟩ := by
    rw [dp_iteration_previous, if_pos hne, hidx]
  have hidxs : extracted_indices (dp_iteration parameter s)
      = extracted_indices s ++ [⟨i, j, k, l⟩] := by
    simp only [extracted_indices, hext, List.map_append, List.map_cons, List.map_nil, hidx]
  have hlen : (extracted_indices s).length = s.extracted.length := by
    simp only [extracted_indices, List.length_map]
  obtain ⟨_, hsplit⟩ := hist_split parameter (zeroed (extracted_indices s) H0) hg
  rw [← zeroed_snoc] at hsplit
  have hbox : box_incorrect (zeroed (extracted_indices s) H0) (i + 1) (j + 1) (k + 1) (l + 1)
      ≥ MIN_INCORRECT_COUNT := by
    simp only [region_value] at he
    exact le_trans he (Nat.mod_le _ _)
  have hlen' : (dp_iteration parameter s).extracted.length = s.extracted.length + 1 := by
    rw [hext, List.length_append]; rfl
  refine ⟨⟨hr', ⟨L ++ [s.previous_highest_cut_parameter_index], ?_, ?_⟩, ?_, ?_, ?_⟩, hlen'⟩
  · rw [hprev, hL, hidxs]; rfl
  · intro a b c d hgr
    rw [hbin' a b c d hgr, hL, zeroed_cons_neg]
  · intro n hn
    rw [hlen'] at hn
    rw [hidxs]
    rcases Nat.lt_or_ge n s.extracted.length with hlt | hge
    · rw [List.take_append_of_le_length (by omega), List.take_append_of_le_length (by omega)]
      exact hper n hlt
    · have hn' : n = s.extracted.length := by omega
      subst hn'
      have t1 : (extracted_indices s ++ [(⟨i, j, k, l⟩ : INDEX)]).take (s.extracted.length + 1)
          = extracted_indices s ++ [⟨i, j, k, l⟩] :=
        List.take_of_length_le (by simp [hlen])
      have t2 : (extracted_indices s ++ [(⟨i, j, k, l⟩ : INDEX)]).take s.extracted.length
          = extracted_indices s := List.take_left' hlen
      rw [t1, t2]
      omega
  · rw [hlen', hidxs]
    simp only [MIN_INCORRECT_COUNT] at hagg hbox ⊢
    omega
  · rw [dp_iteration_num_entries, if_pos hne, hnum, hlen']

theorem dp_progress_start (bin : ℕ → BIN) (parameter : ℕ → PARAMETER) (base_count : ℕ)
    (previous_cube current_cube : ℤ → CUT) (h : HIGHEST_QV_CUT) :
    dp_progress parameter (bin_at parameter bin)
      (dp_start bin parameter base_count previous_cube current_cube h) := by
  obtain ⟨⟨hr, hL, _, _⟩, _⟩ :=
    dp_start_inv bin parameter base_count previous_cube current_cube h
  refine ⟨hr, hL, ?_, ?_, rfl⟩
  · intro n hn
    simp [dp_start] at hn
  · simp only [dp_start, extracted_indices, List.map_nil, List.length_nil, Nat.mul_zero,
      zeroed_nil, Nat.zero_add, le_refl]

theorem dp_loop_terminates {parameter : ℕ → PARAMETER} (hs : strides_set parameter)
    {H0 : ℕ → ℕ → ℕ → ℕ → BIN} (fuel : ℕ) :
    ∀ s : DP_STATE, dp_progress parameter H0 s →
      hist_incorrect parameter (zeroed (extracted_indices s) H0) < MIN_INCORRECT_COUNT * fuel →
      ∃ s', dp_loop parameter fuel s = some s' ∧
        (∀ a b c d, in_grid parameter a b c d →
          bin_at parameter s'.info.bin a b c d = zeroed (extracted_indices s') H0 a b c d) ∧
        (∀ n, n < s'.extracted.length →
          hist_incorrect parameter (zeroed ((extracted_indices s').take (n + 1)) H0)
              + MIN_INCORRECT_COUNT
            ≤ hist_incorrect parameter (zeroed ((extracted_indices s').take n) H0)) ∧
        MIN_INCORRECT_COUNT * s'.extracted.length
            + hist_incorrect parameter (zeroed (extracted_indices s') H0)
          ≤ hist_incorrect parameter H0 ∧
        s'.num_entries = s'.extracted.length := by
  induction fuel with
  | zero => intro s _ hlt; exact absurd hlt (Nat.not_lt_zero _)
  | succ fuel ih =>
    intro s hinv hlt
    simp only [dp_loop]
    by_cases hne : (dp_iteration parameter s).highest_qv_cut.total_base_call_count ≠ 0
    · rw [if_pos hne]
      obtain ⟨hinv', hlen'⟩ := dp_progress_found hs hinv hne
      have hper := hinv'.2.2.1 s.extracted.length (by omega)
      have e1 : (extracted_indices (dp_iteration parameter s)).take (s.extracted.length + 1)
          = extracted_indices (dp_iteration parameter s) :=
        List.take_of_length_le (by simp [extracted_indices, hlen'])
      have e2 : (extracted_indices (dp_iteration parameter s)).take s.extracted.length
          = extracted_indices s := by
        have hne' := hne
        rw [dp_iteration_highest] at hne'
        simp only [extracted_indices, dp_iteration_extracted, if_pos hne', List.map_append]
        exact List.take_left' (by simp)
      rw [e1, e2] at hper
      exact ih (dp_iteration parameter s) hinv' (by
        rw [Nat.mul_succ] at hlt; omega)
    · rw [if_neg hne]
      obtain ⟨hr, ⟨L, hL, hbin⟩, hper, hagg, hnum⟩ := hinv
      obtain ⟨_, hbin', _⟩ := dp_pass_general hs hr hL hbin
      have hz := hne
      rw [dp_iteration_highest] at hz
      have hext : (dp_iteration parameter s).extracted = s.extracted := by
        rw [dp_iteration_extracted, if_neg hz]
      have hidxs : extracted_indices (dp_iteration parameter s) = extracted_indices s := by
        simp only [extracted_indices, hext]
      refine ⟨_, rfl, ?_, ?_, ?_, ?_⟩
      · rw [hidxs]; exact hbin'
      · rw [hext, hidxs]; exact hper
      · rw [hext, hidxs]; exact hagg
      · rw [dp_iteration_num_entries, if_neg hz, hext]; exact hnum

/-- The number of passes of a run of the loop: the loop returns `s'` from `s`
exactly when it is given more passes than it extracts cuts, and its last pass
ends without a cut. -/
theorem dp_loop_passes (parameter : ℕ → PARAMETER) (fuel : ℕ) :
    ∀ (s s' : DP_STATE), dp_loop parameter fuel s = some s' →
      s'.highest_qv_cut.total_base_call_count = 0 ∧
      s.extracted.length ≤ s'.extracted.length ∧
      s'.extracted.length - s.extracted.length < fuel ∧
      dp_loop parameter (s'.extracted.length - s.extracted.length + 1) s = some s' := by
  induction fuel with
  | zero => intro s s' h; simp [dp_loop] at h
  | succ fuel ih =>
    intro s s' h
    simp only [dp_loop] at h
    split_ifs at h with hne
    · obtain ⟨h1, h2, h3, h4⟩ := ih _ _ h
      have hne' := hne
      rw [dp_iteration_highest] at hne'
      have hlen : (dp_iteration parameter s).extracted.length = s.extracted.length + 1 := by
        rw [dp_iteration_extracted, if_pos hne', List.length_append]; rfl
      refine ⟨h1, by omega, by omega, ?_⟩
      have e : s'.extracted.length - s.extracted.length + 1
          = (s'.extracted.length - (dp_iteration parameter s).extracted.length + 1) + 1 := by
        omega
      rw [e]
      simp only [dp_loop]
      rw [if_pos hne]
      exact h4
    · have hs' : s' = dp_iteration parameter s := (Option.some.inj h).symm
      subst hs'
      have hz := hne
      rw [dp_iteration_highest] at hz
      have hext : (dp_iteration parameter s).extracted = s.extracted := by
        rw [dp_iteration_extracted, if_neg hz]
      refine ⟨by simpa using hne, by rw [hext], by rw [hext]; omega, ?_⟩
      rw [hext, Nat.sub_self]
      simp only [dp_loop]
      rw [if_neg hne]

theorem dp_loop_some_iff (parameter : ℕ → PARAMETER) {fuel : ℕ} {s s' : DP_STATE}
    (h : dp_loop parameter fuel s = some s') (fuel' : ℕ) :
    dp_loop parameter fuel' s = some s' ↔ s'.extracted.length - s.extracted.length < fuel' := by
  obtain ⟨_, _, _, h4⟩ := dp_loop_passes parameter fuel s s' h
  constructor
  · intro h'
    exact (dp_loop_passes parameter fuel' s s' h').2.2.1
  · intro hlt
    exact dp_loop_mono parameter _ _ _ h4 fuel' (by omega)

/-- The function `create_qv_table_via_dynamic_programming` returns for every
histogram: its loop makes one pass for each cut it extracts and one more. -/
theorem create_qv_table_terminates {parameter : ℕ → PARAMETER} (hs : strides_set parameter)
    (bin : ℕ → BIN) (base_count : ℕ) (previous_cube current_cube : ℤ → CUT)
    (h : HIGHEST_QV_CUT) :
    ∃ s, (∀ fuel, create_qv_table_via_dynamic_programming fuel bin parameter base_count
          previous_cube current_cube h = some s ↔ s.extracted.length < fuel) ∧
      (∀ fuel, fuel ≤ s.extracted.length →
        create_qv_table_via_dynamic_programming fuel bin parameter base_count
          previous_cube current_cube h = none) ∧
      s.highest_qv_cut.total_base_call_count = 0 ∧
      (∀ a b c d, in_grid parameter a b c d →
        bin_at parameter s.info.bin a b c d
          = zeroed (extracted_indices s) (bin_at parameter bin) a b c d) ∧
      (∀ n, n < s.extracted.length →
        hist_incorrect parameter
            (zeroed ((extracted_indices s).take (n + 1)) (bin_at parameter bin))
            + MIN_INCORRECT_COUNT
          ≤ hist_incorrect parameter
            (zeroed ((extracted_indices s).take n) (bin_at parameter bin))) ∧
      MIN_INCORRECT_COUNT * s.extracted.length
          + hist_incorrect parameter (zeroed (extracted_indices s) (bin_at parameter bin))
        ≤ hist_incorrect parameter (bin_at parameter bin) ∧
      s.num_entries = s.extracted.length := by
  have hinv := dp_progress_start bin parameter base_count previous_cube current_cube h
  have hlt : hist_incorrect parameter
      (zeroed (extracted_indices
        (dp_start bin parameter base_count previous_cube current_cube h))
        (bin_at parameter bin))
      < MIN_INCORRECT_COUNT
        * (hist_incorrect parameter (bin_at parameter bin) / MIN_INCORRECT_COUNT + 1) := by
    have e : extracted_indices
        (dp_start bin parameter base_count previous_cube current_cube h) = [] := rfl
    rw [e, zeroed_nil]
    simp only [MIN_INCORRECT_COUNT]
    omega
  obtain ⟨s, h1, h2, h3, h4, h5⟩ := dp_loop_terminates hs _ _ hinv hlt
  have hiff : ∀ fuel, create_qv_table_via_dynamic_programming fuel bin parameter base_count
      previous_cube current_cube h = some s ↔ s.extracted.length < fuel := by
    intro fuel
    have := dp_loop_some_iff parameter h1 fuel
    simpa [create_qv_table_via_dynamic_programming, dp_start] using this
  refine ⟨s, hiff, ?_, (dp_loop_passes parameter _ _ _ h1).1, h2, h3, h4, h5⟩
  intro fuel hle
  cases hc : create_qv_table_via_dynamic_programming fuel bin parameter base_count
      previous_cube current_cube h with
  | none => rfl
  | some t =>
    exfalso
    have ht := dp_loop_mono parameter _ _ _ hc (fuel + (s.extracted.length + 1)) (by omega)
    have hs' := (hiff (fuel + (s.extracted.length + 1))).mpr (by omega)
    simp only [create_qv_table_via_dynamic_programming] at hs'
    rw [ht] at hs'
    have e : t = s := Option.some.inj hs'
    subst e
    have := (hiff fuel).mp hc
    omega

/-- C16: for every histogram the `do ... while` loop of
`create_qv_table_via_dynamic_programming` terminates. Each pass that extracts
a cut takes at least `MIN_INCORRECT_COUNT` incorrect calls from the bins that
remain, so the number of extracted cuts is at most `I / 3` (rounded down),
where `I` is the number of incorrect calls of the original histogram; the
loop makes one pass for each extracted cut, followed by exactly one pass that
ends without a cut. -/
theorem C16_loop_terminates (parameter : ℕ → PARAMETER) (hs : strides_set parameter)
    (bin : ℕ → BIN) (base_count : ℕ) (previous_cube current_cube : ℤ → CUT)
    (h : HIGHEST_QV_CUT) :
    ∃ s, (∀ fuel, create_qv_table_via_dynamic_programming fuel bin parameter base_count
          previous_cube current_cube h = some s ↔ s.extracted.length + 1 ≤ fuel) ∧
      (∀ fuel, fuel < s.extracted.length + 1 →
        create_qv_table_via_dynamic_programming fuel bin parameter base_count
          previous_cube current_cube h = none) ∧
      s.highest_qv_cut.total_base_call_count = 0 ∧
      (∀ n, n < s.extracted.length →
        hist_incorrect parameter
            (zeroed ((extracted_indices s).take (n + 1)) (bin_at parameter bin))
            + MIN_INCORRECT_COUNT
          ≤ hist_incorrect parameter
            (zeroed ((extracted_indices s).take n) (bin_at parameter bin))) ∧
      s.extracted.length
        ≤ hist_incorrect parameter (bin_at parameter bin) / MIN_INCORRECT_COUNT ∧
      s.num_entries = s.extracted.length := by
  obtain ⟨s, h1, h2, h3, _, h5, h6, h7⟩ :=
    create_qv_table_terminates hs bin base_count previous_cube current_cube h
  refine ⟨s, fun fuel => (h1 fuel).trans Nat.lt_iff_add_one_le, fun fuel hf => h2 fuel (by omega),
    h3, h5, ?_, h7⟩
  rw [Nat.le_div_iff_mul_le (by decide)]
  simp only [MIN_INCORRECT_COUNT] at h6 ⊢
  omega

theorem C16_loop_terminates_witness :
    strides_set demo_parameter ∧
    ∃ s, (∀ fuel, create_qv_table_via_dynamic_programming fuel demo_bin demo_parameter 376
          (fun _ => ⟨0, 0⟩) (fun _ => ⟨0, 0⟩) demo_cut = some s ↔ s.extracted.length + 1 ≤ fuel) ∧
      s.extracted.length
        ≤ hist_incorrect demo_parameter (bin_at demo_parameter demo_bin) / MIN_INCORRECT_COUNT :=
  ⟨by decide,
    (C16_loop_terminates demo_parameter (by decide) demo_bin 376 (fun _ => ⟨0, 0⟩)
      (fun _ => ⟨0, 0⟩) demo_cut).imp fun _ hx => ⟨hx.1, hx.2.2.2.2.1⟩⟩

/-! ## The grid of a single bin -/

theorem single_bin_grid {parameter : ℕ → PARAMETER} (h1 : single_bin parameter)
    (a b c d : ℕ) : in_grid parameter a b c d ↔ (a = 0 ∧ b = 0 ∧ c = 0 ∧ d = 0) := by
  have e0 := h1 0 (by decide)
  have e1 := h1 1 (by decide)
  have e2 := h1 2 (by decide)
  have e3 := h1 3 (by decide)
  simp only [in_grid, e0, e1, e2, e3, Nat.lt_one_iff]

theorem get_bin_zero (parameter : ℕ → PARAMETER) : get_bin parameter (index4 0 0 0 0) = 0 := by
  rw [get_bin_eq]; simp [cell_off]

theorem box_sum_one (h : ℕ → ℕ → ℕ → ℕ → ℕ) : box_sum h 1 1 1 1 = h 0 0 0 0 := by
  simp [box_sum]

theorem single_bin_totals {parameter : ℕ → PARAMETER} (h1 : single_bin parameter)
    (H : ℕ → ℕ → ℕ → ℕ → BIN) :
    hist_total parameter H = (H 0 0 0 0).correct + (H 0 0 0 0).incorrect ∧
      hist_incorrect parameter H = (H 0 0 0 0).incorrect := by
  have e0 := h1 0 (by decide)
  have e1 := h1 1 (by decide)
  have e2 := h1 2 (by decide)
  have e3 := h1 3 (by decide)
  simp only [hist_total, hist_incorrect, box_incorrect, e0, e1, e2, e3, box_sum_one, and_self]

theorem create_fout {fuel : ℕ} {bin : ℕ → BIN} {parameter : ℕ → PARAMETER} {base_count : ℕ}
    {previous_cube current_cube : ℤ → CUT} {h : HIGHEST_QV_CUT} {s : DP_STATE}
    (hs : create_qv_table_via_dynamic_programming fuel bin parameter base_count previous_cube
      current_cube h = some s) :
    s.fout = s.extracted.map (fun q => (q.quality_value, q.index)) :=
  (dp_loop_floor parameter fuel _ s hs ⟨fun q hq => absurd hq (List.not_mem_nil q), rfl⟩).2

/-- The run of `create_qv_table_via_dynamic_programming` on a grid of a single
bin that holds `base_count` calls: one cut with the counts of the bin when the
bin has at least `MIN_INCORRECT_COUNT` incorrect calls, and no cut
otherwise. -/
theorem single_bin_run {parameter : ℕ → PARAMETER} (hs : strides_set parameter)
    (h1 : single_bin parameter) (bin : ℕ → BIN) (base_count : ℕ)
    (previous_cube current_cube : ℤ → CUT) (h : HIGHEST_QV_CUT)
    (hbc : hist_total parameter (bin_at parameter bin) = base_count)
    (hW : base_count < ULONG_MOD) :
    ∃ s, (∀ fuel, create_qv_table_via_dynamic_programming fuel bin parameter base_count
          previous_cube current_cube h = some s ↔ s.extracted.length + 1 ≤ fuel) ∧
      s.extracted = (if (bin 0).incorrect ≥ MIN_INCORRECT_COUNT
        then [cut_record parameter (bin 0).correct (bin 0).incorrect 0 0 0 0] else []) ∧
      s.fout = s.extracted.map (fun q => (q.quality_value, q.index)) ∧
      s.countdown = (if (bin 0).incorrect ≥ MIN_INCORRECT_COUNT then 0 else base_count) := by
  obtain ⟨s, hret, ⟨_, _, _, _, hrec, hleft⟩, hcd⟩ :=
    create_qv_table_returns hs bin base_count previous_cube current_cube h (by omega)
  have hcd := hcd hbc
  simp only [countdown_ok] at hcd
  have hrun := hret _ (Nat.lt_succ_self _)
  have hH0 : bin_at parameter bin 0 0 0 0 = bin 0 := by
    simp only [bin_at, get_bin_zero]
  have hfirst : ∀ q, s.extracted[0]? = some q →
      q = cut_record parameter (bin 0).correct (bin 0).incorrect 0 0 0 0 ∧
        (bin 0).incorrect ≥ MIN_INCORRECT_COUNT := by
    intro q hq
    obtain ⟨i, j, k, l, hg, hrec', he⟩ := hrec 0 q hq
    obtain ⟨rfl, rfl, rfl, rfl⟩ := (single_bin_grid h1 i j k l).mp hg
    simp only [List.take_zero, zeroed_nil, box_correct, box_incorrect, box_sum_one, hH0,
      Nat.zero_add] at hrec' he
    exact ⟨by rw [hrec'], he⟩
  have hsecond : ∀ q, s.extracted[1]? = some q → False := by
    intro q hq
    obtain ⟨i, j, k, l, hg, _, he⟩ := hrec 1 q hq
    obtain ⟨rfl, rfl, rfl, rfl⟩ := (single_bin_grid h1 i j k l).mp hg
    have h0 : ∃ q0, s.extracted[0]? = some q0 := by
      have hlen : 1 < s.extracted.length := by
        by_contra hcon
        rw [List.getElem?_eq_none (by omega)] at hq
        exact absurd hq (by simp)
      exact ⟨s.extracted[0], List.getElem?_eq_getElem (by omega)⟩
    obtain ⟨q0, hq0⟩ := h0
    have hidx : q0.index = ⟨0, 0, 0, 0⟩ := by rw [(hfirst q0 hq0).1]; rfl
    have hmem : ∃ p ∈ (extracted_indices s).take 1, dominated 0 0 0 0 p := by
      refine ⟨⟨0, 0, 0, 0⟩, ?_, by simp [dominated]⟩
      have : (extracted_indices s)[0]? = some ⟨0, 0, 0, 0⟩ := by
        simp only [extracted_indices, List.getElem?_map, hq0, Option.map_some', hidx]
      have t : ((extracted_indices s).take 1)[0]? = some (⟨0, 0, 0, 0⟩ : INDEX) := by
        rw [List.getElem?_take_of_lt (by decide : 0 < 1)]; exact this
      exact List.getElem?_mem t
    simp only [box_incorrect, box_sum_one, Nat.zero_add, zeroed, hmem, if_true,
      MIN_INCORRECT_COUNT] at he
    omega
  have hshape : s.extracted = (if (bin 0).incorrect ≥ MIN_INCORRECT_COUNT
      then [cut_record parameter (bin 0).correct (bin 0).incorrect 0 0 0 0] else []) := by
    rcases hse : s.extracted with _ | ⟨q0, rest⟩
    · -- no cut: the bin is below the floor
      have hext : extracted_indices s = [] := by simp [extracted_indices, hse]
      rw [hext, zeroed_nil, (single_bin_totals h1 _).2, hH0] at hleft
      rw [if_neg (by omega)]
    · have hq0 : s.extracted[0]? = some q0 := by rw [hse]; simp
      obtain ⟨e, hge⟩ := hfirst q0 hq0
      rcases rest with _ | ⟨q1, rest'⟩
      · rw [if_pos hge, e]
      · exact absurd (hsecond q1 (by rw [hse]; simp)) id
  refine ⟨s, ?_, hshape, create_fout hrun, ?_⟩
  · intro fuel
    have := dp_loop_some_iff parameter hrun fuel
    simpa [create_qv_table_via_dynamic_programming, dp_start, Nat.lt_iff_add_one_le] using this
  · rw [hcd]
    split_ifs with hge
    · have hext : extracted_indices s = [⟨0, 0, 0, 0⟩] := by
        simp only [extracted_indices, hshape, if_pos hge, List.map_cons, List.map_nil]
        rfl
      rw [hext, (single_bin_totals h1 _).1]
      simp [zeroed, dominated]
    · have hext : extracted_indices s = [] := by
        simp only [extracted_indices, hshape, if_neg hge, List.map_nil]
      rw [hext, zeroed_nil, hbc]

/-- C14: on a grid of a single bin (`threshold_count = 1` for each of the four
parameters), `create_qv_table_via_dynamic_programming`, called as `main` calls
it (strides set, `base_count` the number of calls in the histogram), extracts
exactly one cut, with the index vector `(0,0,0,0)` and the counts of the bin,
when the bin has at least `MIN_INCORRECT_COUNT` incorrect calls, and extracts
no cut when it has fewer. -/
theorem C14_single_bin_cuts (parameter : ℕ → PARAMETER) (hs : strides_set parameter)
    (h1 : single_bin parameter) (bin : ℕ → BIN) (base_count : ℕ)
    (previous_cube current_cube : ℤ → CUT) (h : HIGHEST_QV_CUT)
    (hbc : hist_total parameter (bin_at parameter bin) = base_count)
    (hW : base_count < ULONG_MOD) :
    ∃ s, (∀ fuel, create_qv_table_via_dynamic_programming fuel bin parameter base_count
          previous_cube current_cube h = some s ↔ s.extracted.length + 1 ≤ fuel) ∧
      ((bin 0).incorrect ≥ MIN_INCORRECT_COUNT →
        s.extracted = [cut_record parameter (bin 0).correct (bin 0).incorrect 0 0 0 0] ∧
        s.fout = [(quality_of (bin 0).correct (bin 0).incorrect, ⟨0, 0, 0, 0⟩)]) ∧
      ((bin 0).incorrect < MIN_INCORRECT_COUNT → s.extracted = [] ∧ s.fout = []) := by
  obtain ⟨s, h2, h3, h4, _⟩ :=
    single_bin_run hs h1 bin base_count previous_cube current_cube h hbc hW
  refine ⟨s, h2, ?_, ?_⟩
  · intro hge
    rw [if_pos hge] at h3
    rw [h4, h3]
    exact ⟨rfl, rfl⟩
  · intro hlt
    rw [if_neg (by omega)] at h3
    rw [h4, h3]
    exact ⟨rfl, rfl⟩

theorem single_parameter_facts :
    strides_set single_parameter ∧ single_bin single_parameter := by
  refine ⟨by decide, ?_⟩
  intro m hm
  simp only [PARAMETER_COUNT] at hm
  interval_cases m <;> rfl

theorem C14_single_bin_cuts_witness :
    strides_set single_parameter ∧ single_bin single_parameter ∧
    hist_total single_parameter (bin_at single_parameter single_demo_bin) = 8 ∧
    ∃ s, (∀ fuel, create_qv_table_via_dynamic_programming fuel single_demo_bin single_parameter 8
          (fun _ => ⟨0, 0⟩) (fun _ => ⟨0, 0⟩) demo_cut = some s ↔ s.extracted.length + 1 ≤ fuel) ∧
      ((single_demo_bin 0).incorrect ≥ MIN_INCORRECT_COUNT →
        s.extracted = [cut_record single_parameter (single_demo_bin 0).correct
          (single_demo_bin 0).incorrect 0 0 0 0] ∧
        s.fout = [(quality_of (single_demo_bin 0).correct (single_demo_bin 0).incorrect,
          ⟨0, 0, 0, 0⟩)]) ∧
      ((single_demo_bin 0).incorrect < MIN_INCORRECT_COUNT → s.extracted = [] ∧ s.fout = []) :=
  ⟨single_parameter_facts.1, single_parameter_facts.2, by decide!,
    C14_single_bin_cuts single_parameter single_parameter_facts.1 single_parameter_facts.2
      single_demo_bin 8 (fun _ => ⟨0, 0⟩) (fun _ => ⟨0, 0⟩) demo_cut (by decide!) (by decide)⟩

/-- C15, amended: on a grid of a single bin that holds `base_count` calls, the
count that `create_qv_table_via_dynamic_programming` reports as unaccounted
for is zero when the bin has at least `MIN_INCORRECT_COUNT` incorrect calls,
and is `base_count`, the whole content of the bin, when it has fewer. -/
theorem C15_single_bin_leftover (parameter : ℕ → PARAMETER) (hs : strides_set parameter)
    (h1 : single_bin parameter) (bin : ℕ → BIN) (base_count : ℕ)
    (previous_cube current_cube : ℤ → CUT) (h : HIGHEST_QV_CUT)
    (hbc : hist_total parameter (bin_at parameter bin) = base_count)
    (hW : base_count < ULONG_MOD) :
    ∃ s, (∀ fuel, create_qv_table_via_dynamic_programming fuel bin parameter base_count
          previous_cube current_cube h = some s ↔ s.extracted.length + 1 ≤ fuel) ∧
      ((bin 0).incorrect ≥ MIN_INCORRECT_COUNT → s.countdown = 0) ∧
      ((bin 0).incorrect < MIN_INCORRECT_COUNT →
        s.countdown = base_count ∧ s.countdown = (bin 0).correct + (bin 0).incorrect) := by
  obtain ⟨s, h2, _, _, h5⟩ :=
    single_bin_run hs h1 bin base_count previous_cube current_cube h hbc hW
  have ht : (bin 0).correct + (bin 0).incorrect = base_count := by
    rw [← hbc, (single_bin_totals h1 _).1]
    simp only [bin_at, get_bin_zero]
  refine ⟨s, h2, ?_, ?_⟩
  · intro hge
    rw [h5, if_pos hge]
  · intro hlt
    rw [h5, if_neg (by omega)]
    exact ⟨rfl, ht.symm⟩

theorem C15_single_bin_leftover_witness :
    strides_set single_parameter ∧ single_bin single_parameter ∧
    hist_total single_parameter (bin_at single_parameter single_demo_bin) = 8 ∧
    ∃ s, (∀ fuel, create_qv_table_via_dynamic_programming fuel single_demo_bin single_parameter 8
          (fun _ => ⟨0, 0⟩) (fun _ => ⟨0, 0⟩) demo_cut = some s ↔ s.extracted.length + 1 ≤ fuel) ∧
      ((single_demo_bin 0).incorrect ≥ MIN_INCORRECT_COUNT → s.countdown = 0) ∧
      ((single_demo_bin 0).incorrect < MIN_INCORRECT_COUNT →
        s.countdown = 8 ∧
          s.countdown = (single_demo_bin 0).correct + (single_demo_bin 0).incorrect) :=
  ⟨single_parameter_facts.1, single_parameter_facts.2, by decide!,
    C15_single_bin_leftover single_parameter single_parameter_facts.1 single_parameter_facts.2
      single_demo_bin 8 (fun _ => ⟨0, 0⟩) (fun _ => ⟨0, 0⟩) demo_cut (by decide!) (by decide)⟩

/-- C15 as stated fails on the grid of a single bin with `5` correct calls and
no incorrect call, and `base_count = 5`: the first pass ends without a cut,
the loop ends, and the count reported as unaccounted for is `5`. -/
theorem C15_leftover_below_floor :
    strides_set single_parameter ∧ single_bin single_parameter ∧
    hist_total single_parameter (bin_at single_parameter single_clean_bin) = 5 ∧
    (create_qv_table_via_dynamic_programming 1 single_clean_bin single_parameter 5
        (fun _ => ⟨0, 0⟩) (fun _ => ⟨0, 0⟩) demo_cut).map
      (fun s => (s.extracted.length, s.countdown)) = some (0, 5) :=
  ⟨single_parameter_facts.1, single_parameter_facts.2, by decide!, by decide!⟩

/-! ## The leftover count -/

/-- C17: when the loop of `create_qv_table_via_dynamic_programming` ends,
called as `main` calls it (strides set, `base_count` the number of calls in
the histogram), the leftover `countdown` is the sum of the original
`correct + incorrect` counts over the bins whose index vector is not
component-wise `≤` the index vector of any extracted cut, which is also the
sum of all counts left in the bin array: every bin that is component-wise
`≤` an extracted cut, the last one included, is zero, and every other bin is
unchanged. -/
theorem C17_leftover_countdown (parameter : ℕ → PARAMETER) (hs : strides_set parameter)
    (bin : ℕ → BIN) (base_count : ℕ) (previous_cube current_cube : ℤ → CUT)
    (h : HIGHEST_QV_CUT)
    (hbc : hist_total parameter (bin_at parameter bin) = base_count)
    (hW : base_count < ULONG_MOD) :
    ∃ s, (∀ fuel, create_qv_table_via_dynamic_programming fuel bin parameter base_count
          previous_cube current_cube h = some s ↔ s.extracted.length + 1 ≤ fuel) ∧
      s.countdown
        = box_sum (fun a b c d =>
            if ∃ q ∈ s.extracted, dominated a b c d q.index then 0
            else (bin_at parameter bin a b c d).correct + (bin_at parameter bin a b c d).incorrect)
          (parameter 0).threshold_count (parameter 1).threshold_count
          (parameter 2).threshold_count (parameter 3).threshold_count ∧
      s.countdown = hist_total parameter (bin_at parameter s.info.bin) ∧
      (∀ a b c d, in_grid parameter a b c d →
        bin_at parameter s.info.bin a b c d
          = if ∃ q ∈ s.extracted, dominated a b c d q.index then ⟨0, 0⟩
            else bin_at parameter bin a b c d) := by
  obtain ⟨s, hret, ⟨_, _, hbin, _, _, _⟩, hcd⟩ :=
    create_qv_table_returns hs bin base_count previous_cube current_cube h (by omega)
  have hcd := hcd hbc
  simp only [countdown_ok] at hcd
  have hrun := hret _ (Nat.lt_succ_self _)
  have hex : ∀ a b c d, (∃ q ∈ extracted_indices s, dominated a b c d q)
      ↔ ∃ q ∈ s.extracted, dominated a b c d q.index := by
    intro a b c d
    simp only [extracted_indices, List.mem_map]
    constructor
    · rintro ⟨p, ⟨q, hq, rfl⟩, hd⟩
      exact ⟨q, hq, hd⟩
    · rintro ⟨q, hq, hd⟩
      exact ⟨q.index, ⟨q, hq, rfl⟩, hd⟩
  refine ⟨s, ?_, ?_, ?_, ?_⟩
  · intro fuel
    have := dp_loop_some_iff parameter hrun fuel
    simpa [create_qv_table_via_dynamic_programming, dp_start, Nat.lt_iff_add_one_le] using this
  · rw [hcd]
    unfold hist_total
    refine box_sum_congr fun a b c d _ _ _ _ => ?_
    simp only [zeroed, hex]
    split_ifs <;> rfl
  · rw [hcd]
    exact (hist_total_congr hbin).symm
  · intro a b c d hg
    rw [hbin a b c d hg]
    simp only [zeroed, hex]

theorem C17_leftover_countdown_witness :
    strides_set demo_parameter ∧
    hist_total demo_parameter (bin_at demo_parameter demo_bin) = 376 ∧
    ∃ s, (∀ fuel, create_qv_table_via_dynamic_programming fuel demo_bin demo_parameter 376
          (fun _ => ⟨0, 0⟩) (fun _ => ⟨0, 0⟩) demo_cut = some s ↔ s.extracted.length + 1 ≤ fuel) ∧
      s.countdown = hist_total demo_parameter (bin_at demo_parameter s.info.bin) :=
  ⟨by decide, by decide!,
    (C17_leftover_countdown demo_parameter (by decide) demo_bin 376 (fun _ => ⟨0, 0⟩)
      (fun _ => ⟨0, 0⟩) demo_cut (by decide!) (by decide)).imp
      fun _ hx => ⟨hx.1, hx.2.2.1⟩⟩

/-! ## The summary counters -/

theorem int_wrap_add (x : ℤ) (t : ℤ) : int_wrap (int_wrap x + t) = int_wrap (x + t) := by
  unfold int_wrap
  omega

theorem int_wrap_of_lt {x : ℕ} (h : x < 2 ^ 31) : int_wrap (x : ℤ) = x := by
  unfold int_wrap
  omega

theorem add_to_decade_apply (hq : HIGHEST_QV_CUT) (d : ℤ) (f : ℤ → ℤ) (m : ℤ) :
    add_to_decade hq d f m
      = if m = d ∧ hq.quality_value ≥ 10 * d
        then int_wrap (f d + hq.total_base_call_count) else f m := by
  unfold add_to_decade
  by_cases h1 : hq.quality_value ≥ 10 * d
  · by_cases h2 : m = d
    · simp [h1, h2]
    · simp [h1, h2]
  · simp [h1]

theorem dp_iteration_qv_counter (parameter : ℕ → PARAMETER) (s : DP_STATE) (m : ℤ) :
    (dp_iteration parameter s).qv_counter m
      = if m = (best_of_pass parameter s.previous_highest_cut_parameter_index s.info
            s.highest_qv_cut).quality_value
        then int_wrap (s.qv_counter m
          + (best_of_pass parameter s.previous_highest_cut_parameter_index s.info
            s.highest_qv_cut).total_base_call_count)
        else s.qv_counter m := rfl

theorem dp_iteration_decade (parameter : ℕ → PARAMETER) (s : DP_STATE) (m : ℤ) :
    (dp_iteration parameter s).qv_decade_counter m
      = if (1 ≤ m ∧ m ≤ 9) ∧
          (best_of_pass parameter s.previous_highest_cut_parameter_index s.info
            s.highest_qv_cut).quality_value ≥ 10 * m
        then int_wrap (s.qv_decade_counter m
          + (best_of_pass parameter s.previous_highest_cut_parameter_index s.info
            s.highest_qv_cut).total_base_call_count)
        else s.qv_decade_counter m := by
  have e : (dp_iteration parameter s).qv_decade_counter
      = add_to_decade (dp_iteration parameter s).highest_qv_cut 9
        (add_to_decade (dp_iteration parameter s).highest_qv_cut 8
        (add_to_decade (dp_iteration parameter s).highest_qv_cut 7
        (add_to_decade (dp_iteration parameter s).highest_qv_cut 6
        (add_to_decade (dp_iteration parameter s).highest_qv_cut 5
        (add_to_decade (dp_iteration parameter s).highest_qv_cut 4
        (add_to_decade (dp_iteration parameter s).highest_qv_cut 3
        (add_to_decade (dp_iteration parameter s).highest_qv_cut 2
        (add_to_decade (dp_iteration parameter s).highest_qv_cut 1
          s.qv_decade_counter)))))))) := rfl
  rw [e, dp_iteration_highest]
  by_cases hm : 1 ≤ m ∧ m ≤ 9
  · obtain ⟨h1, h9⟩ := hm
    interval_cases m <;> simp [add_to_decade_apply]
  · have n1 : m ≠ 1 := by omega
    have n2 : m ≠ 2 := by omega
    have n3 : m ≠ 3 := by omega
    have n4 : m ≠ 4 := by omega
    have n5 : m ≠ 5 := by omega
    have n6 : m ≠ 6 := by omega
    have n7 : m ≠ 7 := by omega
    have n8 : m ≠ 8 := by omega
    have n9 : m ≠ 9 := by omega
    simp [add_to_decade_apply, hm, n1, n2, n3, n4, n5, n6, n7, n8, n9]

/-- A property of the best cut that every call of `update_highest_qv_cut`
keeps is kept by a whole pass. -/
theorem scan_l_keeps (Q : HIGHEST_QV_CUT → Prop) (parameter : ℕ → PARAMETER) (p : INDEX)
    (hQ : ∀ (h : HIGHEST_QV_CUT) (correct incorrect i j k l : ℕ), Q h →
      Q (update_highest_qv_cut h parameter correct incorrect i j k l p))
    (s : INFO × HIGHEST_QV_CUT) (hq : Q s.2) : Q (scan_l parameter p s).2 := by
  unfold scan_l
  refine foldl_snd_pred Q _ ?_ _ s hq
  intro s l hs
  unfold scan_k
  refine foldl_snd_pred Q _ ?_ _ _ hs
  intro s k hs
  unfold scan_j
  refine foldl_snd_pred Q _ ?_ _ _ hs
  intro s j hs
  unfold scan_i
  refine foldl_snd_pred Q _ ?_ _ _ hs
  intro s i hs
  simp only [scan_cell]
  exact hQ _ _ _ _ _ _ _ hs

theorem best_of_pass_quality_nonneg (parameter : ℕ → PARAMETER) (p : INDEX) (info : INFO)
    (h : HIGHEST_QV_CUT) : 0 ≤ (best_of_pass parameter p info h).quality_value := by
  refine scan_l_keeps (fun h => 0 ≤ h.quality_value) parameter p ?_ _ (le_refl _)
  intro h correct incorrect i j k l hq
  rw [update_highest_qv_cut_eq]
  split_ifs with hc
  · obtain ⟨_, hr⟩ := hc
    have e : (cut_record parameter correct incorrect i j k l).quality_value
        = quality_of correct incorrect := rfl
    rw [e]
    rcases hr with hr | ⟨hr, _⟩ | ⟨hr, _⟩ <;> omega
  · exact hq

theorem total_at_append (m : ℤ) (L : List HIGHEST_QV_CUT) (q : HIGHEST_QV_CUT) :
    total_at m (L ++ [q])
      = total_at m L + (if q.quality_value = m then q.total_base_call_count else 0) := by
  simp [total_at]

theorem total_from_append (m : ℤ) (L : List HIGHEST_QV_CUT) (q : HIGHEST_QV_CUT) :
    total_from m (L ++ [q])
      = total_from m L + (if q.quality_value ≥ m then q.total_base_call_count else 0) := by
  simp [total_from]

theorem int_wrap_idem (x : ℤ) : int_wrap (int_wrap x) = int_wrap x := by
  have := int_wrap_add x 0
  simpa using this

theorem counters_ok_step (parameter : ℕ → PARAMETER) (s : DP_STATE) (hc : counters_ok s) :
    counters_ok (dp_iteration parameter s) := by
  obtain ⟨h1, h2, h3, h4⟩ := hc
  have hq := best_of_pass_quality_nonneg parameter s.previous_highest_cut_parameter_index
    s.info s.highest_qv_cut
  by_cases hne : (best_of_pass parameter s.previous_highest_cut_parameter_index s.info
      s.highest_qv_cut).total_base_call_count ≠ 0
  · have hext : (dp_iteration parameter s).extracted = s.extracted ++
        [best_of_pass parameter s.previous_highest_cut_parameter_index s.info
          s.highest_qv_cut] := by
      rw [dp_iteration_extracted, if_pos hne]
    refine ⟨?_, ?_, ?_, ?_⟩
    · intro m
      rw [dp_iteration_qv_counter, hext, total_at_append, h1 m]
      split_ifs with e1 e2 e2
      · rw [int_wrap_add]; push_cast; rfl
      · exact absurd e1.symm e2
      · exact absurd e2.symm e1
      · simp
    · intro d hd1 hd9
      rw [dp_iteration_decade, hext, total_from_append, h2 d hd1 hd9]
      split_ifs with e1 e2 e2
      · rw [int_wrap_add]; push_cast; rfl
      · exact absurd e1.2 e2
      · exact absurd ⟨⟨hd1, hd9⟩, e2⟩ e1
      · simp
    · intro d hd
      rw [dp_iteration_decade, if_neg (fun hcon => hd hcon.1)]
      exact h3 d hd
    · intro q hq'
      rw [hext] at hq'
      rcases List.mem_append.mp hq' with hq' | hq'
      · exact h4 q hq'
      · rw [List.mem_singleton.mp hq']; exact hq
  · have hz : (best_of_pass parameter s.previous_highest_cut_parameter_index s.info
        s.highest_qv_cut).total_base_call_count = 0 := by
      by_contra hcon; exact hne hcon
    have hext : (dp_iteration parameter s).extracted = s.extracted := by
      rw [dp_iteration_extracted, if_neg hne]
    refine ⟨?_, ?_, ?_, ?_⟩
    · intro m
      rw [dp_iteration_qv_counter, hext, hz, h1 m]
      split_ifs
      · simp [int_wrap_idem]
      · rfl
    · intro d hd1 hd9
      rw [dp_iteration_decade, hext, hz, h2 d hd1 hd9]
      split_ifs
      · simp [int_wrap_idem]
      · rfl
    · intro d hd
      rw [dp_iteration_decade, if_neg (fun hcon => hd hcon.1)]
      exact h3 d hd
    · rw [hext]; exact h4

theorem dp_loop_counters (parameter : ℕ → PARAMETER) (fuel : ℕ) :
    ∀ s s' : DP_STATE, dp_loop parameter fuel s = some s' → counters_ok s → counters_ok s' := by
  induction fuel with
  | zero => intro s s' h; simp [dp_loop] at h
  | succ fuel ih =>
    intro s s' h hc
    simp only [dp_loop] at h
    have hstep := counters_ok_step parameter s hc
    split_ifs at h with hne
    · exact ih _ _ h hstep
    · cases h; exact hstep

theorem create_counters {fuel : ℕ} {bin : ℕ → BIN} {parameter : ℕ → PARAMETER}
    {base_count : ℕ} {previous_cube current_cube : ℤ → CUT} {h : HIGHEST_QV_CUT} {s : DP_STATE}
    (hs : create_qv_table_via_dynamic_programming fuel bin parameter base_count previous_cube
      current_cube h = some s) : counters_ok s := by
  refine dp_loop_counters parameter fuel _ s hs ⟨?_, ?_, ?_, ?_⟩
  · intro m; simp [dp_start, total_at, int_wrap]
  · intro d _ _; simp [dp_start, total_from, int_wrap]
  · intro d _; rfl
  · intro q hq; simp [dp_start] at hq

theorem total_at_le (m : ℤ) (L : List HIGHEST_QV_CUT) :
    total_at m L ≤ (L.map fun q => q.total_base_call_count).sum := by
  induction L with
  | nil => simp [total_at]
  | cons x xs ih =>
    simp only [total_at, List.map_cons, List.sum_cons] at ih ⊢
    split_ifs <;> omega

theorem total_from_le (m : ℤ) (L : List HIGHEST_QV_CUT) :
    total_from m L ≤ (L.map fun q => q.total_base_call_count).sum := by
  induction L with
  | nil => simp [total_from]
  | cons x xs ih =>
    simp only [total_from, List.map_cons, List.sum_cons] at ih ⊢
    split_ifs <;> omega

theorem total_from_anti {m m' : ℤ} (hm : m ≤ m') (L : List HIGHEST_QV_CUT) :
    total_from m' L ≤ total_from m L := by
  induction L with
  | nil => simp [total_from]
  | cons x xs ih =>
    simp only [total_from, List.map_cons, List.sum_cons] at ih ⊢
    split_ifs <;> omega

/-- The sum of the per-quality sums over the qualities `a ≤ q < b` is the sum
over the cuts of quality at least `a`, when every cut has a quality below
`b`. -/
theorem sum_total_at (a b : ℤ) (L : List HIGHEST_QV_CUT)
    (hb : ∀ q ∈ L, q.quality_value < b) :
    ∑ q ∈ Finset.Ico a b, total_at q L = total_from a L := by
  induction L with
  | nil => simp [total_at, total_from]
  | cons x xs ih =>
    have ih' := ih (fun q hq => hb q (List.mem_cons_of_mem _ hq))
    have hx := hb x (List.mem_cons_self _ _)
    have e1 : ∀ q, total_at q (x :: xs)
        = (if x.quality_value = q then x.total_base_call_count else 0) + total_at q xs := by
      intro q; simp [total_at]
    have e2 : total_from a (x :: xs)
        = (if x.quality_value ≥ a then x.total_base_call_count else 0) + total_from a xs := by
      simp [total_from]
    simp only [e1, e2, Finset.sum_add_distrib, ih', Finset.sum_ite_eq, Finset.mem_Ico]
    congr 1
    split_ifs with h1 h2 h2
    · rfl
    · exact absurd h1.1 h2
    · exact absurd ⟨h2, hx⟩ h1
    · rfl

theorem total_from_zero (L : List HIGHEST_QV_CUT) (h0 : ∀ q ∈ L, 0 ≤ q.quality_value) :
    total_from 0 L = (L.map fun q => q.total_base_call_count).sum := by
  induction L with
  | nil => simp [total_from]
  | cons x xs ih =>
    have ih' := ih (fun q hq => h0 q (List.mem_cons_of_mem _ hq))
    have hx := h0 x (List.mem_cons_self _ _)
    simp only [total_from, List.map_cons, List.sum_cons] at ih' ⊢
    rw [if_pos hx, ih']

/-- C18: after `create_qv_table_via_dynamic_programming`, provided every
extracted quality value is below `MAX_QV` and no `int` counter overflows (each
sum that a counter accumulates is below `2 ^ 31`), for each `d` in `1 .. 9`
the counter `qv_decade_counter[d]` is the sum of `qv_counter[q]` over the
`q ≥ 10 * d`, which is the total count of the extracted cuts with a quality of
at least `10 * d`; hence the decade counters do not increase with `d`, and the
sum of all elements of `qv_counter` is the sum of the total counts of the
extracted cuts. -/
theorem C18_decade_counters (parameter : ℕ → PARAMETER) (fuel : ℕ) (bin : ℕ → BIN)
    (base_count : ℕ) (previous_cube current_cube : ℤ → CUT) (h : HIGHEST_QV_CUT)
    (s : DP_STATE) (MAX_QV : ℕ)
    (hrun : create_qv_table_via_dynamic_programming fuel bin parameter base_count
      previous_cube current_cube h = some s)
    (hq : ∀ q ∈ s.extracted, q.quality_value < MAX_QV)
    (hfit : ∀ m, total_at m s.extracted < 2 ^ 31)
    (hfitd : ∀ d : ℤ, 1 ≤ d → d ≤ 9 → total_from (10 * d) s.extracted < 2 ^ 31) :
    (∀ d : ℤ, 1 ≤ d → d ≤ 9 →
      s.qv_decade_counter d = ∑ q ∈ Finset.Ico (10 * d) (MAX_QV : ℤ), s.qv_counter q ∧
      s.qv_decade_counter d = (total_from (10 * d) s.extracted : ℤ)) ∧
    (∀ d : ℤ, 1 ≤ d → d < 9 → s.qv_decade_counter (d + 1) ≤ s.qv_decade_counter d) ∧
    ∑ q ∈ Finset.Ico (0 : ℤ) (MAX_QV : ℤ), s.qv_counter q
      = ((s.extracted.map fun q => q.total_base_call_count).sum : ℕ) := by
  obtain ⟨h1, h2, _, h4⟩ := create_counters hrun
  have hcnt : ∀ m, s.qv_counter m = (total_at m s.extracted : ℤ) := by
    intro m; rw [h1 m, int_wrap_of_lt (hfit m)]
  have hdec : ∀ d : ℤ, 1 ≤ d → d ≤ 9 →
      s.qv_decade_counter d = (total_from (10 * d) s.extracted : ℤ) := by
    intro d hd1 hd9; rw [h2 d hd1 hd9, int_wrap_of_lt (hfitd d hd1 hd9)]
  have hsum : ∀ a : ℤ, ∑ q ∈ Finset.Ico a (MAX_QV : ℤ), s.qv_counter q
      = (total_from a s.extracted : ℤ) := by
    intro a
    simp only [hcnt]
    rw [← sum_total_at a (MAX_QV : ℤ) s.extracted hq]
    push_cast
    rfl
  refine ⟨?_, ?_, ?_⟩
  · intro d hd1 hd9
    exact ⟨by rw [hsum, hdec d hd1 hd9], hdec d hd1 hd9⟩
  · intro d hd1 hd9
    rw [hdec d hd1 (by omega), hdec (d + 1) (by omega) (by omega)]
    exact_mod_cast total_from_anti (by omega) s.extracted
  · rw [hsum, total_from_zero s.extracted h4]

theorem demo_final_run :
    create_qv_table_via_dynamic_programming 20 demo_bin demo_parameter 376
      (fun _ => ⟨0, 0⟩) (fun _ => ⟨0, 0⟩) demo_cut = some demo_final := by
  have hsome : (create_qv_table_via_dynamic_programming 20 demo_bin demo_parameter 376
      (fun _ => ⟨0, 0⟩) (fun _ => ⟨0, 0⟩) demo_cut).isSome = true := by decide!
  unfold demo_final
  cases hc : create_qv_table_via_dynamic_programming 20 demo_bin demo_parameter 376
      (fun _ => ⟨0, 0⟩) (fun _ => ⟨0, 0⟩) demo_cut with
  | none => rw [hc] at hsome; exact absurd hsome (by simp)
  | some t => rfl

theorem demo_final_facts :
    (∀ q ∈ demo_final.extracted, q.quality_value < ((100 : ℕ) : ℤ)) ∧
    (demo_final.extracted.map fun q => q.total_base_call_count).sum < 2 ^ 31 := by
  refine ⟨by decide!, by decide!⟩

theorem C18_decade_counters_witness :
    create_qv_table_via_dynamic_programming 20 demo_bin demo_parameter 376
      (fun _ => ⟨0, 0⟩) (fun _ => ⟨0, 0⟩) demo_cut = some demo_final ∧
    (∀ q ∈ demo_final.extracted, q.quality_value < ((100 : ℕ) : ℤ)) ∧
    (∀ d : ℤ, 1 ≤ d → d ≤ 9 →
      demo_final.qv_decade_counter d
        = ∑ q ∈ Finset.Ico (10 * d) ((100 : ℕ) : ℤ), demo_final.qv_counter q ∧
      demo_final.qv_decade_counter d = (total_from (10 * d) demo_final.extracted : ℤ)) ∧
    ∑ q ∈ Finset.Ico (0 : ℤ) ((100 : ℕ) : ℤ), demo_final.qv_counter q
      = ((demo_final.extracted.map fun q => q.total_base_call_count).sum : ℕ) :=
  ⟨demo_final_run, demo_final_facts.1,
    (C18_decade_counters demo_parameter 20 demo_bin 376 (fun _ => ⟨0, 0⟩) (fun _ => ⟨0, 0⟩)
      demo_cut demo_final 100 demo_final_run demo_final_facts.1
      (fun m => lt_of_le_of_lt (total_at_le m _) demo_final_facts.2)
      (fun _ _ _ => lt_of_le_of_lt (total_from_le _ _) demo_final_facts.2)).1,
    (C18_decade_counters demo_parameter 20 demo_bin 376 (fun _ => ⟨0, 0⟩) (fun _ => ⟨0, 0⟩)
      demo_cut demo_final 100 demo_final_run demo_final_facts.1
      (fun m => lt_of_le_of_lt (total_at_le m _) demo_final_facts.2)
      (fun _ _ _ => lt_of_le_of_lt (total_from_le _ _) demo_final_facts.2)).2.2⟩

/-! ## The quality value decreases with the error rate -/

/-- The test of `decibels` for the denominator and the numerator of a positive
rate `r`, in terms of `r`. -/
theorem decibels_test_rat (r : ℚ) (hr : 0 < r) (n : ℕ) :
    10 ^ (2 * n + 1) * r.num.toNat ^ 20 ≤ r.den ^ 20 ↔ (10 : ℚ) ^ (2 * n + 1) * r ^ 20 ≤ 1 := by
  have hnum : 0 < r.num := Rat.num_pos.mpr hr
  have hden : (0 : ℚ) < (r.den : ℚ) := by exact_mod_cast r.den_pos
  have e : ((r.num.toNat : ℕ) : ℚ) = (r.num : ℚ) := by
    have : ((r.num.toNat : ℕ) : ℤ) = r.num := Int.toNat_of_nonneg (le_of_lt hnum)
    exact_mod_cast this
  have hr' : r = (r.num.toNat : ℚ) / (r.den : ℚ) := by
    rw [e]; exact (Rat.num_div_den r).symm
  have hpow : (0 : ℚ) < (r.den : ℚ) ^ 20 := by positivity
  constructor
  · intro h
    have h' : (10 : ℚ) ^ (2 * n + 1) * (r.num.toNat : ℚ) ^ 20 ≤ (r.den : ℚ) ^ 20 := by
      exact_mod_cast h
    rw [hr', div_pow, mul_div_assoc', div_le_one hpow]
    exact h'
  · intro h
    rw [hr', div_pow, mul_div_assoc', div_le_one hpow] at h
    exact_mod_cast h

/-- On the rates in `(0, 1]` the quality value does not increase with the
rate. -/
theorem quality_of_error_rate_anti {x y : ℚ} (hx : 0 < x) (hxy : x ≤ y) (hy : y ≤ 1) :
    quality_of_error_rate y ≤ quality_of_error_rate x := by
  have hy0 : 0 < y := lt_of_lt_of_le hx hxy
  have hx1 : x ≤ 1 := le_trans hxy hy
  unfold quality_of_error_rate
  rw [if_neg (not_le.mpr hx), if_neg (not_le.mpr hy0), if_pos hx1, if_pos hy]
  have hnx : 1 ≤ x.num.toNat := by
    have := Rat.num_pos.mpr hx; omega
  have hny : 1 ≤ y.num.toNat := by
    have := Rat.num_pos.mpr hy0; omega
  obtain ⟨_, hx2⟩ := @decibels_spec x.den x.num.toNat hnx
  obtain ⟨hy1', _⟩ := @decibels_spec y.den y.num.toNat hny
  by_contra hcon
  have hlt : decibels x.den x.num.toNat < decibels y.den y.num.toNat := by
    have := not_le.mp hcon
    exact_mod_cast this
  have h1 := (decibels_test_rat y hy0 _).mp (hy1' _ hlt)
  apply hx2
  rw [decibels_test_rat x hx]
  have hpow : x ^ 20 ≤ y ^ 20 := pow_le_pow_left₀ (le_of_lt hx) hxy 20
  calc (10 : ℚ) ^ (2 * decibels x.den x.num.toNat + 1) * x ^ 20
      ≤ (10 : ℚ) ^ (2 * decibels x.den x.num.toNat + 1) * y ^ 20 :=
        mul_le_mul_of_nonneg_left hpow (by positivity)
    _ ≤ 1 := h1

/-- The rate of a union of two disjoint regions lies between the rates of the
two: when it is above the rate of the first, the rate of the second is above
it. -/
theorem mediant_rate {i1 t1 i2 t2 : ℚ} (ht1 : 0 < t1) (ht2 : 0 < t2)
    (h : i1 / t1 < (i1 + i2) / (t1 + t2)) : (i1 + i2) / (t1 + t2) ≤ i2 / t2 := by
  have ht : 0 < t1 + t2 := by linarith
  rw [div_lt_div_iff₀ ht1 ht] at h
  rw [div_le_div_iff₀ ht ht2]
  nlinarith

/-! ## The order of the extracted cuts -/

theorem dp_pass_best {parameter : ℕ → PARAMETER} (hs : strides_set parameter)
    {H0 : ℕ → ℕ → ℕ → ℕ → BIN} (hW : hist_total parameter H0 < ULONG_MOD)
    {s : DP_STATE} (hinv : dp_inv parameter H0 s) :
    cut_best parameter H0 (extracted_indices s) (dp_iteration parameter s).highest_qv_cut := by
  obtain ⟨hr, ⟨L, hL, hbin⟩, _, _⟩ := hinv
  have hZ : zeroed (L ++ [s.previous_highest_cut_parameter_index]) H0
      = zeroed (extracted_indices s) H0 := by rw [hL, zeroed_cons_neg]
  have F1 : ∀ a b c d, in_grid parameter a b c d →
      zero_below s.previous_highest_cut_parameter_index (bin_at parameter s.info.bin) a b c d
        = zeroed (extracted_indices s) H0 a b c d := by
    intro a b c d hg
    rw [← hZ, zeroed_snoc]
    simp only [zero_below, hbin a b c d hg]
  have F2 : hist_total parameter (bin_at parameter s.info.bin) < ULONG_MOD := by
    rw [hist_total_congr hbin]
    exact lt_of_le_of_lt (hist_total_zeroed_le parameter L H0) hW
  obtain ⟨_, hc⟩ := best_of_pass_spec hs s.previous_highest_cut_parameter_index hr
    s.highest_qv_cut
  rw [dp_iteration_highest]
  intro i j k l hg he
  obtain ⟨e1, e2⟩ := region_count_exact hs hr s.previous_highest_cut_parameter_index
    (initialize_highest_qv_cut s.highest_qv_cut) hg F2
  obtain ⟨c1, c2⟩ := box_congr_grid F1 hg
  have := hc i j k l hg (by rw [e2, c2]; exact he)
  rw [e1, e2, c1, c2] at this
  exact this

theorem dp_loop_best {parameter : ℕ → PARAMETER} (hs : strides_set parameter)
    {H0 : ℕ → ℕ → ℕ → ℕ → BIN} (hW : hist_total parameter H0 < ULONG_MOD) (fuel : ℕ) :
    ∀ s s' : DP_STATE, dp_loop parameter fuel s = some s' → dp_inv parameter H0 s →
      (∀ n q, s.extracted[n]? = some q →
        cut_best parameter H0 ((extracted_indices s).take n) q) →
      (∀ n q, s'.extracted[n]? = some q →
        cut_best parameter H0 ((extracted_indices s').take n) q) := by
  induction fuel with
  | zero => intro s s' h; simp [dp_loop] at h
  | succ fuel ih =>
    intro s s' h hinv hb
    simp only [dp_loop] at h
    split_ifs at h with hne
    · have hbest := dp_pass_best hs hW hinv
      obtain ⟨hinv', _, _⟩ := dp_step_found hs hW hinv hne
      refine ih _ _ h hinv' ?_
      have hne' := hne
      rw [dp_iteration_highest] at hne'
      have hext : (dp_iteration parameter s).extracted = s.extracted ++
          [(dp_iteration parameter s).highest_qv_cut] := by
        rw [dp_iteration_extracted, if_pos hne']; rfl
      have hidxs : extracted_indices (dp_iteration parameter s)
          = extracted_indices s ++ [(dp_iteration parameter s).highest_qv_cut.index] := by
        simp only [extracted_indices, hext, List.map_append, List.map_cons, List.map_nil]
      have hlen : (extracted_indices s).length = s.extracted.length := by
        simp only [extracted_indices, List.length_map]
      intro n q hq
      rw [hext] at hq
      rw [hidxs]
      rcases Nat.lt_or_ge n s.extracted.length with hlt | hge
      · rw [List.getElem?_append_left hlt] at hq
        rw [List.take_append_of_le_length (by omega)]
        exact hb n q hq
      · rw [List.getElem?_append_right hge] at hq
        have hn : n = s.extracted.length := by
          by_contra hcon
          have : n - s.extracted.length ≠ 0 := by omega
          obtain ⟨m, hm⟩ := Nat.exists_eq_succ_of_ne_zero this
          rw [hm] at hq
          simp at hq
        subst hn
        simp only [Nat.sub_self, List.getElem?_cons_zero, Option.some.injEq] at hq
        subst hq
        rw [List.take_left' hlen]
        exact hbest
    · have hs' : s' = dp_iteration parameter s := (Option.some.inj h).symm
      subst hs'
      have hz := hne
      rw [dp_iteration_highest] at hz
      have hext : (dp_iteration parameter s).extracted = s.extracted := by
        rw [dp_iteration_extracted, if_neg hz]
      have hidxs : extracted_indices (dp_iteration parameter s) = extracted_indices s := by
        simp only [extracted_indices, hext]
      rw [hext, hidxs]
      exact hb

theorem box_split_nested (Z : ℕ → ℕ → ℕ → ℕ → BIN) {i j k l i' j' k' l' : ℕ}
    (hi : i ≤ i') (hj : j ≤ j') (hk : k ≤ k') (hl : l ≤ l') :
    box_correct Z (i' + 1) (j' + 1) (k' + 1) (l' + 1)
        = box_correct (zero_below ⟨i, j, k, l⟩ Z) (i' + 1) (j' + 1) (k' + 1) (l' + 1)
          + box_correct Z (i + 1) (j + 1) (k + 1) (l + 1) ∧
      box_incorrect Z (i' + 1) (j' + 1) (k' + 1) (l' + 1)
        = box_incorrect (zero_below ⟨i, j, k, l⟩ Z) (i' + 1) (j' + 1) (k' + 1) (l' + 1)
          + box_incorrect Z (i + 1) (j + 1) (k + 1) (l + 1) := by
  have hi' : i < i' + 1 := by omega
  have hj' : j < j' + 1 := by omega
  have hk' : k < k' + 1 := by omega
  have hl' : l < l' + 1 := by omega
  constructor
  · simp only [box_correct]
    rw [box_sum_split _ hi' hj' hk' hl']
    congr 1
    refine box_sum_congr fun a b c d _ _ _ _ => ?_
    simp only [zero_below, dominated_nat]
    split_ifs <;> rfl
  · simp only [box_incorrect]
    rw [box_sum_split _ hi' hj' hk' hl']
    congr 1
    refine box_sum_congr fun a b c d _ _ _ _ => ?_
    simp only [zero_below, dominated_nat]
    split_ifs <;> rfl

theorem quality_of_pos {correct incorrect : ℕ} (hpos : 0 < incorrect)
    (hlt : correct + incorrect < ULONG_MOD) :
    quality_of correct incorrect
      = quality_of_error_rate ((incorrect : ℚ) / ((correct + incorrect : ℕ) : ℚ)) := by
  have ht : total_of correct incorrect = correct + incorrect := Nat.mod_eq_of_lt hlt
  have hne : incorrect ≠ 0 := by omega
  simp only [quality_of, error_rate_of, hne, if_false, ht]

/-- After a cut at the cell `(i, j, k, l)` that no eligible cell ranks above,
an eligible region of a cell `(i', j', k', l')` that is component-wise `≥`
it has a strictly smaller quality than the cut. -/
theorem nested_cut_decreases {parameter : ℕ → PARAMETER} (Z : ℕ → ℕ → ℕ → ℕ → BIN)
    (hW : hist_total parameter Z < ULONG_MOD) {i j k l i' j' k' l' : ℕ}
    (hg' : in_grid parameter i' j' k' l')
    (hi : i ≤ i') (hj : j ≤ j') (hk : k ≤ k') (hl : l ≤ l')
    (he : box_incorrect Z (i + 1) (j + 1) (k + 1) (l + 1) ≥ MIN_INCORRECT_COUNT)
    (he' : box_incorrect (zero_below ⟨i, j, k, l⟩ Z) (i' + 1) (j' + 1) (k' + 1) (l' + 1)
      ≥ MIN_INCORRECT_COUNT)
    (hbest : ¬ ranks_above
      (quality_of (box_correct Z (i' + 1) (j' + 1) (k' + 1) (l' + 1))
        (box_incorrect Z (i' + 1) (j' + 1) (k' + 1) (l' + 1)))
      (total_of (box_correct Z (i' + 1) (j' + 1) (k' + 1) (l' + 1))
        (box_incorrect Z (i' + 1) (j' + 1) (k' + 1) (l' + 1)))
      ((i' : ℤ) + j' + k' + l')
      (cut_record parameter (box_correct Z (i + 1) (j + 1) (k + 1) (l + 1))
        (box_incorrect Z (i + 1) (j + 1) (k + 1) (l + 1)) i j k l)) :
    quality_of (box_correct (zero_below ⟨i, j, k, l⟩ Z) (i' + 1) (j' + 1) (k' + 1) (l' + 1))
        (box_incorrect (zero_below ⟨i, j, k, l⟩ Z) (i' + 1) (j' + 1) (k' + 1) (l' + 1))
      < quality_of (box_correct Z (i + 1) (j + 1) (k + 1) (l + 1))
          (box_incorrect Z (i + 1) (j + 1) (k + 1) (l + 1)) := by
  obtain ⟨sc, si⟩ := box_split_nested Z hi hj hk hl
  have hb := (box_le_hist parameter Z hg').1
  rw [sc, si] at hb hbest
  generalize box_correct Z (i + 1) (j + 1) (k + 1) (l + 1) = C1 at *
  generalize box_incorrect Z (i + 1) (j + 1) (k + 1) (l + 1) = I1 at *
  generalize box_correct (zero_below ⟨i, j, k, l⟩ Z) (i' + 1) (j' + 1) (k' + 1) (l' + 1)
    = C2 at *
  generalize box_incorrect (zero_below ⟨i, j, k, l⟩ Z) (i' + 1) (j' + 1) (k' + 1) (l' + 1)
    = I2 at *
  simp only [MIN_INCORRECT_COUNT] at he he'
  have t1 : total_of C1 I1 = C1 + I1 := Nat.mod_eq_of_lt (by omega)
  have t12 : total_of (C2 + C1) (I2 + I1) = C2 + C1 + (I2 + I1) := Nat.mod_eq_of_lt (by omega)
  have hQ : quality_of (C2 + C1) (I2 + I1) < quality_of C1 I1 := by
    have e1 : (cut_record parameter C1 I1 i j k l).quality_value = quality_of C1 I1 := rfl
    have e2 : (cut_record parameter C1 I1 i j k l).total_base_call_count = total_of C1 I1 :=
      rfl
    simp only [ranks_above, e1, e2, t1, t12] at hbest
    by_contra hcon
    apply hbest
    rcases lt_or_eq_of_le (not_lt.mp hcon) with h1 | h1
    · exact Or.inl h1
    · exact Or.inr (Or.inl ⟨h1.symm, by omega⟩)
  have q1 := @quality_of_pos C1 I1 (by omega) (by omega)
  have q2 := @quality_of_pos C2 I2 (by omega) (by omega)
  have q12 := @quality_of_pos (C2 + C1) (I2 + I1) (by omega) (by omega)
  rw [q12, q1] at hQ
  rw [q2, q1]
  have hT1 : (0 : ℚ) < ((C1 + I1 : ℕ) : ℚ) := by exact_mod_cast (by omega : 0 < C1 + I1)
  have hT2 : (0 : ℚ) < ((C2 + I2 : ℕ) : ℚ) := by exact_mod_cast (by omega : 0 < C2 + I2)
  have hI1 : (0 : ℚ) < (I1 : ℚ) := by exact_mod_cast (by omega : 0 < I1)
  have hI2 : (0 : ℚ) < (I2 : ℚ) := by exact_mod_cast (by omega : 0 < I2)
  have hsum : ((I2 + I1 : ℕ) : ℚ) / ((C2 + C1 + (I2 + I1) : ℕ) : ℚ)
      = ((I1 : ℚ) + I2) / (((C1 + I1 : ℕ) : ℚ) + ((C2 + I2 : ℕ) : ℚ)) := by
    push_cast; ring_nf
  rw [hsum] at hQ
  have hr1 : (I1 : ℚ) / ((C1 + I1 : ℕ) : ℚ) ≤ 1 := by
    rw [div_le_one hT1]; exact_mod_cast (by omega : I1 ≤ C1 + I1)
  have hr2 : (I2 : ℚ) / ((C2 + I2 : ℕ) : ℚ) ≤ 1 := by
    rw [div_le_one hT2]; exact_mod_cast (by omega : I2 ≤ C2 + I2)
  have hrpos : (0 : ℚ) < ((I1 : ℚ) + I2) / (((C1 + I1 : ℕ) : ℚ) + ((C2 + I2 : ℕ) : ℚ)) := by
    positivity
  have hlt : (I1 : ℚ) / ((C1 + I1 : ℕ) : ℚ)
      < ((I1 : ℚ) + I2) / (((C1 + I1 : ℕ) : ℚ) + ((C2 + I2 : ℕ) : ℚ)) := by
    by_contra hcon
    have := quality_of_error_rate_anti hrpos (not_lt.mp hcon) hr1
    omega
  have hmed := mediant_rate hT1 hT2 hlt
  have := quality_of_error_rate_anti hrpos hmed hr2
  omega

/-- C11, amended: in the sequence of cuts that
`create_qv_table_via_dynamic_programming` extracts (called as `main` calls it:
strides set, `base_count` the number of calls in the histogram), a cut whose
index vector is component-wise `≥` the index vector of the cut extracted just
before it has a strictly smaller quality value than that cut; so between such
cuts the quality does not increase and no tie arises. -/
theorem C11_nested_cuts_decrease (parameter : ℕ → PARAMETER) (hs : strides_set parameter)
    (bin : ℕ → BIN) (base_count : ℕ) (previous_cube current_cube : ℤ → CUT)
    (h : HIGHEST_QV_CUT)
    (hbc : hist_total parameter (bin_at parameter bin) = base_count)
    (hW : base_count < ULONG_MOD) :
    ∃ s, (∀ fuel, create_qv_table_via_dynamic_programming fuel bin parameter base_count
          previous_cube current_cube h = some s ↔ s.extracted.length + 1 ≤ fuel) ∧
      ∀ n q q', s.extracted[n]? = some q → s.extracted[n + 1]? = some q' →
        q.index.i0 ≤ q'.index.i0 → q.index.i1 ≤ q'.index.i1 →
        q.index.i2 ≤ q'.index.i2 → q.index.i3 ≤ q'.index.i3 →
        q'.quality_value < q.quality_value := by
  have hW' : hist_total parameter (bin_at parameter bin) < ULONG_MOD := by omega
  obtain ⟨s, hret, ⟨_, _, _, _, hrec, _⟩, _⟩ :=
    create_qv_table_returns hs bin base_count previous_cube current_cube h hW'
  have hrun := hret _ (Nat.lt_succ_self _)
  have hbest := dp_loop_best hs hW' _ _ s hrun
    (dp_start_inv bin parameter base_count previous_cube current_cube h).1
    (fun n q hq => by simp [dp_start] at hq)
  refine ⟨s, ?_, ?_⟩
  · intro fuel
    have := dp_loop_some_iff parameter hrun fuel
    simpa [create_qv_table_via_dynamic_programming, dp_start, Nat.lt_iff_add_one_le] using this
  · intro n q q' hq hq' h0 h1 h2 h3
    obtain ⟨i, j, k, l, hg, hrec1, he⟩ := hrec n q hq
    obtain ⟨i', j', k', l', hg', hrec2, he'⟩ := hrec (n + 1) q' hq'
    have hb := hbest n q hq i' j' k' l' hg'
    have hidx : q.index = ⟨i, j, k, l⟩ := by rw [hrec1]; rfl
    have hidx' : q'.index = ⟨i', j', k', l'⟩ := by rw [hrec2]; rfl
    rw [hidx, hidx'] at h0 h1 h2 h3
    simp only at h0 h1 h2 h3
    have hi : i ≤ i' := by exact_mod_cast h0
    have hj : j ≤ j' := by exact_mod_cast h1
    have hk : k ≤ k' := by exact_mod_cast h2
    have hl : l ≤ l' := by exact_mod_cast h3
    have hmem : (extracted_indices s)[n]? = some ⟨i, j, k, l⟩ := by
      simp only [extracted_indices, List.getElem?_map, hq, Option.map_some', hidx]
    have htake : (extracted_indices s).take (n + 1)
        = (extracted_indices s).take n ++ [⟨i, j, k, l⟩] := by
      rw [List.take_succ, hmem]; rfl
    rw [htake, zeroed_snoc] at hrec2 he'
    have hZ : hist_total parameter (zeroed ((extracted_indices s).take n) (bin_at parameter bin))
        < ULONG_MOD :=
      lt_of_le_of_lt (hist_total_zeroed_le parameter _ _) hW'
    have hsplit := (box_split_nested
      (zeroed ((extracted_indices s).take n) (bin_at parameter bin)) hi hj hk hl).2
    have helig : box_incorrect (zeroed ((extracted_indices s).take n) (bin_at parameter bin))
        (i' + 1) (j' + 1) (k' + 1) (l' + 1) ≥ MIN_INCORRECT_COUNT := by
      rw [hsplit]; omega
    have hb' := hb helig
    rw [hrec1] at hb'
    have := nested_cut_decreases _ hZ hg' hi hj hk hl he he' hb'
    rw [hrec1, hrec2]
    exact this

theorem C11_nested_cuts_decrease_witness :
    strides_set demo_parameter ∧
    hist_total demo_parameter (bin_at demo_parameter demo_bin) = 376 ∧
    ∃ s, (∀ fuel, create_qv_table_via_dynamic_programming fuel demo_bin demo_parameter 376
          (fun _ => ⟨0, 0⟩) (fun _ => ⟨0, 0⟩) demo_cut = some s ↔ s.extracted.length + 1 ≤ fuel) ∧
      ∀ n q q', s.extracted[n]? = some q → s.extracted[n + 1]? = some q' →
        q.index.i0 ≤ q'.index.i0 → q.index.i1 ≤ q'.index.i1 →
        q.index.i2 ≤ q'.index.i2 → q.index.i3 ≤ q'.index.i3 →
        q'.quality_value < q.quality_value :=
  ⟨by decide, by decide!,
    C11_nested_cuts_decrease demo_parameter (by decide) demo_bin 376 (fun _ => ⟨0, 0⟩)
      (fun _ => ⟨0, 0⟩) demo_cut (by decide!) (by decide)⟩

/-- C11 as stated fails on the 2x2x2x2 grid with the histogram `mono_bin` of
`200113` calls: the loop extracts three cuts, at `(1,0,1,1)`, `(0,1,1,1)` and
`(1,1,1,1)`, with the quality values `40`, `45` and `0`; the second cut has a
higher quality than the first. -/
theorem C11_quality_increases :
    strides_set demo_parameter ∧
    hist_total demo_parameter (bin_at demo_parameter mono_bin) = 200113 ∧
    (create_qv_table_via_dynamic_programming 4 mono_bin demo_parameter 200113
        (fun _ => ⟨0, 0⟩) (fun _ => ⟨0, 0⟩) demo_cut).map
      (fun s => s.extracted.map (fun q => (q.quality_value, q.index)))
      = some [(40, ⟨1, 0, 1, 1⟩), (45, ⟨0, 1, 1, 1⟩), (0, ⟨1, 1, 1, 1⟩)] :=
  ⟨by decide, by decide!, by decide!⟩

/-! ## The corner addresses of `number_in_cut` and its reference code -/

/-- C21: the sixteen corner addresses that `number_in_cut` computes by the
chain of stride additions and subtractions, followed by the overrides for
`i == 0`, `j == 0`, `k == 0` and `l == 0`, are the addresses that the
reference code in its comment obtains by one call of `get_cut` each, with the
decremented indices (in the current slice when `l` is kept, in the previous
slice when it is decremented); and `get_cut` gives the address of the
boundary cut when one of its indices is `-1`. -/
theorem C21_corners_are_reference_corners (parameter : ℕ → PARAMETER) (info : INFO)
    (hr : info_ready parameter info) (i j k l : ℕ) :
    number_in_cut_corners i j k l info = number_in_cut_corners_reference i j k l info ∧
    (∀ (a b c d : ℤ) (time : TIME), (a = -1 ∨ b = -1 ∨ c = -1 ∨ d = -1) →
      get_cut a b c d time info = ⟨CUTBASE.boundary_cut, 0⟩) ∧
    (∀ (a b c d : ℤ), ¬ (a = -1 ∨ b = -1 ∨ c = -1 ∨ d = -1) →
      (get_cut a b c d TIME.CURRENT info).base = CUTBASE.current_cube ∧
      (get_cut a b c d TIME.PREVIOUS info).base = CUTBASE.previous_cube ∧
      (get_cut a b c d TIME.PREVIOUS info).off = (get_cut a b c d TIME.CURRENT info).off) := by
  refine ⟨?_, ?_, ?_⟩
  · obtain ⟨h1, h2, h3, h4, h5, h6, h7, h8, h9, h10, h11, h12, h13, h14, h15, h16⟩ :=
      number_in_cut_corners_eq parameter info hr i j k l
    have e : ∀ c : CORNERS, c = ⟨c.c_0000, c.c_0001, c.c_0010, c.c_0011, c.c_0100, c.c_0101,
        c.c_0110, c.c_0111, c.c_1000, c.c_1001, c.c_1010, c.c_1011, c.c_1100, c.c_1101,
        c.c_1110, c.c_1111⟩ := fun c => rfl
    rw [e (number_in_cut_corners i j k l info), h1, h2, h3, h4, h5, h6, h7, h8, h9, h10, h11,
      h12, h13, h14, h15, h16]
    rfl
  · intro a b c d time h
    simp only [get_cut, h, if_true]
  · intro a b c d h
    simp only [get_cut, h, if_false, and_self]

theorem C21_corners_are_reference_corners_witness :
    info_ready demo_parameter demo_info ∧
    number_in_cut_corners 1 0 1 1 demo_info = number_in_cut_corners_reference 1 0 1 1 demo_info :=
  ⟨demo_info_ready,
    (C21_corners_are_reference_corners demo_parameter demo_info demo_info_ready 1 0 1 1).1⟩

/-! ## The corner addresses of `number_in_cut` may be dereferenced -/

theorem get_cut_valid {parameter : ℕ → PARAMETER} (hs : strides_set parameter) {info : INFO}
    (hr : info_ready parameter info) (a b c d : ℤ) (time : TIME)
    (ha : -1 ≤ a ∧ a < (parameter 0).threshold_count)
    (hb : -1 ≤ b ∧ b < (parameter 1).threshold_count)
    (hc : -1 ≤ c ∧ c < (parameter 2).threshold_count) (hd : -1 ≤ d) :
    valid_cut_address parameter (get_cut a b c d time info) := by
  by_cases h : a = -1 ∨ b = -1 ∨ c = -1 ∨ d = -1
  · left
    simp only [get_cut, h, if_true]
  · right
    have h0 : 0 ≤ a := by omega
    have h1 : 0 ≤ b := by omega
    have h2 : 0 ≤ c := by omega
    have h3 : 0 ≤ d := by omega
    lift a to ℕ using h0
    lift b to ℕ using h1
    lift c to ℕ using h2
    lift d to ℕ using h3
    rw [get_cut_nat hr]
    have hlt := @cell_off_lt parameter hs a b c (by omega) (by omega) (by omega)
    rw [dimension3_eq hs] at hlt
    refine ⟨?_, ?_, ?_⟩
    · cases time <;> simp
    · simp
    · simp only [Nat.cast_mul]
      exact_mod_cast hlt

theorem number_in_cut_pointer (i j k l : ℕ) (info : INFO) (p : INDEX) :
    (number_in_cut i j k l info p).1 = get_cut i j k l TIME.CURRENT info := rfl

/-- C22: at a cell of the grid, every one of the sixteen corner addresses that
`number_in_cut` reads, and the address `c_1111` that it writes and returns,
is the address of the boundary cut or of an element of a cube at an offset in
`[0, threshold_count[0] * threshold_count[1] * threshold_count[2])`; a corner
is the address that the chain of stride additions and subtractions gives, or
the address of the boundary cut, so that an address of the chain outside the
cube is replaced before it is used. -/
theorem C22_corners_in_range (parameter : ℕ → PARAMETER) (hs : strides_set parameter)
    (info : INFO) (hr : info_ready parameter info) (i j k l : ℕ)
    (hg : in_grid parameter i j k l) (p : INDEX) :
    (∀ q ∈ corner_list (number_in_cut_corners i j k l info), valid_cut_address parameter q) ∧
    valid_cut_address parameter (number_in_cut i j k l info p).1 ∧
    (number_in_cut i j k l info p).1 = (number_in_cut_corners i j k l info).c_1111 ∧
    (∀ n < 16,
      (corner_list (number_in_cut_corners i j k l info))[n]?
          = (corner_list (number_in_cut_chain i j k l info))[n]? ∨
        (corner_list (number_in_cut_corners i j k l info))[n]?
          = some ⟨CUTBASE.boundary_cut, 0⟩) := by
  obtain ⟨hi, hj, hk, hl⟩ := hg
  have hv : ∀ (di dj dk dl : ℕ) (time : TIME), di ≤ 1 → dj ≤ 1 → dk ≤ 1 → dl ≤ 1 →
      valid_cut_address parameter
        (get_cut ((i : ℤ) - di) ((j : ℤ) - dj) ((k : ℤ) - dk) ((l : ℤ) - dl) time info) :=
    fun di dj dk dl time h1 h2 h3 h4 =>
      get_cut_valid hs hr _ _ _ _ time (by omega) (by omega) (by omega) (by omega)
  have hv1 : ∀ (di dj dk dl : ℕ) (time : TIME), di ≤ 1 → dj ≤ 1 → dk ≤ 1 → dl ≤ 1 →
      ∀ a b c d : ℤ, a = (i : ℤ) - di → b = (j : ℤ) - dj → c = (k : ℤ) - dk →
        d = (l : ℤ) - dl → valid_cut_address parameter (get_cut a b c d time info) := by
    intro di dj dk dl time h1 h2 h3 h4 a b c d ea eb ec ed
    subst ea eb ec ed
    exact hv di dj dk dl time h1 h2 h3 h4
  refine ⟨?_, ?_, rfl, ?_⟩
  · obtain ⟨h1, h2, h3, h4, h5, h6, h7, h8, h9, h10, h11, h12, h13, h14, h15, h16⟩ :=
      number_in_cut_corners_eq parameter info hr i j k l
    intro q hq
    simp only [corner_list, List.mem_cons, List.mem_singleton, List.not_mem_nil, or_false,
      h1, h2, h3, h4, h5, h6, h7, h8, h9, h10, h11, h12, h13, h14, h15, h16] at hq
    rcases hq with h | h | h | h | h | h | h | h | h | h | h | h | h | h | h | h <;> subst h
    · exact hv1 1 1 1 1 _ (by omega) (by omega) (by omega) (by omega) _ _ _ _ (by simp) (by simp) (by simp) (by simp)
    · exact hv1 1 1 1 0 _ (by omega) (by omega) (by omega) (by omega) _ _ _ _ (by simp) (by simp) (by simp) (by simp)
    · exact hv1 1 1 0 1 _ (by omega) (by omega) (by omega) (by omega) _ _ _ _ (by simp) (by simp) (by simp) (by simp)
    · exact hv1 1 1 0 0 _ (by omega) (by omega) (by omega) (by omega) _ _ _ _ (by simp) (by simp) (by simp) (by simp)
    · exact hv1 1 0 1 1 _ (by omega) (by omega) (by omega) (by omega) _ _ _ _ (by simp) (by simp) (by simp) (by simp)
    · exact hv1 1 0 1 0 _ (by omega) (by omega) (by omega) (by omega) _ _ _ _ (by simp) (by simp) (by simp) (by simp)
    · exact hv1 1 0 0 1 _ (by omega) (by omega) (by omega) (by omega) _ _ _ _ (by simp) (by simp) (by simp) (by simp)
    · exact hv1 1 0 0 0 _ (by omega) (by omega) (by omega) (by omega) _ _ _ _ (by simp) (by simp) (by simp) (by simp)
    · exact hv1 0 1 1 1 _ (by omega) (by omega) (by omega) (by omega) _ _ _ _ (by simp) (by simp) (by simp) (by simp)
    · exact hv1 0 1 1 0 _ (by omega) (by omega) (by omega) (by omega) _ _ _ _ (by simp) (by simp) (by simp) (by simp)
    · exact hv1 0 1 0 1 _ (by omega) (by omega) (by omega) (by omega) _ _ _ _ (by simp) (by simp) (by simp) (by simp)
    · exact hv1 0 1 0 0 _ (by omega) (by omega) (by omega) (by omega) _ _ _ _ (by simp) (by simp) (by simp) (by simp)
    · exact hv1 0 0 1 1 _ (by omega) (by omega) (by omega) (by omega) _ _ _ _ (by simp) (by simp) (by simp) (by simp)
    · exact hv1 0 0 1 0 _ (by omega) (by omega) (by omega) (by omega) _ _ _ _ (by simp) (by simp) (by simp) (by simp)
    · exact hv1 0 0 0 1 _ (by omega) (by omega) (by omega) (by omega) _ _ _ _ (by simp) (by simp) (by simp) (by simp)
    · exact hv1 0 0 0 0 _ (by omega) (by omega) (by omega) (by omega) _ _ _ _ (by simp) (by simp) (by simp) (by simp)
  · rw [number_in_cut_pointer]
    exact hv1 0 0 0 0 _ (by omega) (by omega) (by omega) (by omega) _ _ _ _ (by simp) (by simp) (by simp) (by simp)
  · intro n hn
    simp only [corner_list, number_in_cut_corners, number_in_cut_chain]
    interval_cases n <;> simp only [List.getElem?_cons_zero, List.getElem?_cons_succ] <;>
      (try split_ifs) <;> simp

theorem C22_corners_in_range_witness :
    strides_set demo_parameter ∧ info_ready demo_parameter demo_info ∧
    in_grid demo_parameter 0 1 0 1 ∧
    (number_in_cut_chain 0 1 0 1 demo_info).c_0101 = ⟨CUTBASE.current_cube, -3⟩ ∧
    (number_in_cut_corners 0 1 0 1 demo_info).c_0101 = ⟨CUTBASE.boundary_cut, 0⟩ ∧
    (∀ q ∈ corner_list (number_in_cut_corners 0 1 0 1 demo_info),
      valid_cut_address demo_parameter q) :=
  ⟨by decide, demo_info_ready, by decide, by decide!, by decide!,
    (C22_corners_in_range demo_parameter (by decide) demo_info demo_info_ready 0 1 0 1
      (by decide) ⟨-1, -1, -1, -1⟩).1⟩

/-! ## The boundary cut is never written -/

theorem number_in_cut_frame (i j k l : ℕ) (info : INFO) (p : INDEX) :
    (number_in_cut i j k l info p).1
        = ⟨CUTBASE.current_cube, (i : ℤ) * (info.parameter 0).dimension
            + (j : ℤ) * (info.parameter 1).dimension + (k : ℤ) * (info.parameter 2).dimension⟩ ∧
    (number_in_cut i j k l info p).2.boundary_cut = info.boundary_cut ∧
    (number_in_cut i j k l info p).2.previous_cube = info.previous_cube ∧
    (∀ o, o ≠ (number_in_cut i j k l info p).1.off →
      (number_in_cut i j k l info p).2.current_cube o = info.current_cube o) := by
  have ni : ∀ n : ℕ, ¬ ((n : ℤ) = -1) := fun n => by omega
  have e : (number_in_cut_corners i j k l info).c_1111
      = ⟨CUTBASE.current_cube, (i : ℤ) * (info.parameter 0).dimension
            + (j : ℤ) * (info.parameter 1).dimension + (k : ℤ) * (info.parameter 2).dimension⟩ := by
    simp only [number_in_cut_corners, get_cut, ni, or_false, if_false]
  simp only [number_in_cut, e, INFO.store]
  refine ⟨trivial, ?_, ?_, ?_⟩
  · split_ifs <;> rfl
  · split_ifs <;> rfl
  · intro o ho
    split_ifs <;> first | rfl | exact absurd (by assumption) ho

theorem scan_cell_boundary (parameter : ℕ → PARAMETER) (p : INDEX) (i j k l : ℕ)
    (s : INFO × HIGHEST_QV_CUT) :
    (scan_cell parameter p i j k l s).1.boundary_cut = s.1.boundary_cut :=
  (number_in_cut_frame i j k l s.1 p).2.1

theorem sweep_before_boundary (parameter : ℕ → PARAMETER) (p : INDEX) (i j k l : ℕ)
    (s : INFO × HIGHEST_QV_CUT) (c : CUT) (hc : s.1.boundary_cut = c) :
    (sweep_before parameter p i j k l s).1.boundary_cut = c := by
  have hi : ∀ j k l (s : INFO × HIGHEST_QV_CUT) (L : List ℕ), s.1.boundary_cut = c →
      (L.foldl (fun s i => scan_cell parameter p i j k l s) s).1.boundary_cut = c :=
    fun j k l s L hs =>
      foldl_pred (fun s : INFO × HIGHEST_QV_CUT => s.1.boundary_cut = c) _
        (fun s i h => (scan_cell_boundary parameter p i j k l s).trans h) L s hs
  have hj : ∀ k l (s : INFO × HIGHEST_QV_CUT) (L : List ℕ), s.1.boundary_cut = c →
      (L.foldl (fun s j => scan_i parameter p j k l s) s).1.boundary_cut = c :=
    fun k l s L hs =>
      foldl_pred (fun s : INFO × HIGHEST_QV_CUT => s.1.boundary_cut = c) _
        (fun s j h => hi j k l s _ h) L s hs
  have hk : ∀ l (s : INFO × HIGHEST_QV_CUT) (L : List ℕ), s.1.boundary_cut = c →
      (L.foldl (fun s k => scan_j parameter p k l s) s).1.boundary_cut = c :=
    fun l s L hs =>
      foldl_pred (fun s : INFO × HIGHEST_QV_CUT => s.1.boundary_cut = c) _
        (fun s k h => hj k l s _ h) L s hs
  have hl : ∀ (s : INFO × HIGHEST_QV_CUT) (L : List ℕ), s.1.boundary_cut = c →
      (L.foldl (fun s l => scan_k parameter p l (swap_cubes s.1, s.2)) s).1.boundary_cut = c :=
    fun s L hs =>
      foldl_pred (fun s : INFO × HIGHEST_QV_CUT => s.1.boundary_cut = c) _
        (fun s l h => hk l (swap_cubes s.1, s.2) _ h) L s hs
  unfold sweep_before
  exact hi _ _ _ _ _ (hj _ _ _ _ (hk _ _ _ (hl s _ hc)))

theorem scan_l_boundary (parameter : ℕ → PARAMETER) (p : INDEX) (s : INFO × HIGHEST_QV_CUT) :
    (scan_l parameter p s).1.boundary_cut = s.1.boundary_cut := by
  unfold scan_l
  refine foldl_pred (fun x : INFO × HIGHEST_QV_CUT => x.1.boundary_cut = s.1.boundary_cut) _
    ?_ _ s rfl
  intro x l hx
  refine foldl_pred (fun x : INFO × HIGHEST_QV_CUT => x.1.boundary_cut = s.1.boundary_cut) _
    ?_ _ _ hx
  intro x k hx
  refine foldl_pred (fun x : INFO × HIGHEST_QV_CUT => x.1.boundary_cut = s.1.boundary_cut) _
    ?_ _ _ hx
  intro x j hx
  refine foldl_pred (fun x : INFO × HIGHEST_QV_CUT => x.1.boundary_cut = s.1.boundary_cut) _
    ?_ _ _ hx
  intro x i hx
  exact (scan_cell_boundary parameter p i j k l x).trans hx

theorem dp_passes_boundary (parameter : ℕ → PARAMETER) (n : ℕ) (s : DP_STATE) :
    ((dp_iteration parameter)^[n] s).info.boundary_cut = s.info.boundary_cut := by
  induction n generalizing s with
  | zero => rfl
  | succ n ih =>
    rw [Function.iterate_succ_apply, ih]
    exact scan_l_boundary parameter _ _

/-- C23: the boundary cut `info.boundary_cut` is `(0, 0)` when
`create_qv_table_via_dynamic_programming` enters its loop, and it is `(0, 0)`
after the call of `number_in_cut` at every cell `(i, j, k, l)` of the sweep of
every pass (the pass that follows `n` completed passes); in any state,
`number_in_cut` returns and writes the element of the current cube at the
offset of `(i, j, k)` and leaves the boundary cut, the previous cube and the
other elements of the current cube as they are. -/
theorem C23_boundary_cut_stays_zero (bin : ℕ → BIN) (parameter : ℕ → PARAMETER)
    (base_count : ℕ) (previous_cube current_cube : ℤ → CUT) (h : HIGHEST_QV_CUT) :
    (dp_start bin parameter base_count previous_cube current_cube h).info.boundary_cut
      = ⟨0, 0⟩ ∧
    (∀ n i j k l,
      (number_in_cut i j k l
        (sweep_before parameter
          ((dp_iteration parameter)^[n]
            (dp_start bin parameter base_count previous_cube current_cube
              h)).previous_highest_cut_parameter_index
          i j k l
          (((dp_iteration parameter)^[n]
            (dp_start bin parameter base_count previous_cube current_cube h)).info,
           initialize_highest_qv_cut ((dp_iteration parameter)^[n]
            (dp_start bin parameter base_count previous_cube current_cube
              h)).highest_qv_cut)).1
        ((dp_iteration parameter)^[n]
            (dp_start bin parameter base_count previous_cube current_cube
              h)).previous_highest_cut_parameter_index).2.boundary_cut = ⟨0, 0⟩) ∧
    (∀ (info : INFO) (p : INDEX) (i j k l : ℕ),
      (number_in_cut i j k l info p).1
        = ⟨CUTBASE.current_cube, (i : ℤ) * (info.parameter 0).dimension
            + (j : ℤ) * (info.parameter 1).dimension
            + (k : ℤ) * (info.parameter 2).dimension⟩ ∧
      (number_in_cut i j k l info p).2.boundary_cut = info.boundary_cut ∧
      (number_in_cut i j k l info p).2.previous_cube = info.previous_cube ∧
      (∀ o, o ≠ (number_in_cut i j k l info p).1.off →
        (number_in_cut i j k l info p).2.current_cube o = info.current_cube o)) := by
  have h0 : (dp_start bin parameter base_count previous_cube current_cube h).info.boundary_cut
      = ⟨0, 0⟩ :=
    (@zero_cubes_keeps parameter
      { parameter := parameter
        boundary_cut := ⟨0, 0⟩
        bin := bin
        previous_cube := previous_cube
        current_cube := current_cube
        dimension0 := (parameter 0).dimension
        dimension1 := (parameter 1).dimension
        dimension2 := (parameter 2).dimension
        dimension3 := (parameter 3).dimension } ⟨rfl, rfl, rfl, rfl, rfl, rfl⟩).1.2.1
  refine ⟨h0, ?_, fun info p i j k l => number_in_cut_frame i j k l info p⟩
  intro n i j k l
  rw [(number_in_cut_frame i j k l _ _).2.1]
  exact sweep_before_boundary parameter _ i j k l _ _
    ((dp_passes_boundary parameter n _).trans h0)

/-! ## The effect of a pass on the bins -/

theorem foldl_mem_pred {σ : Type} (Q : σ → Prop) (f : σ → ℕ → σ) (L : List ℕ)
    (hf : ∀ s i, i ∈ L → Q s → Q (f s i)) (s : σ) (hs : Q s) : Q (L.foldl f s) := by
  induction L generalizing s with
  | nil => exact hs
  | cons x xs ih =>
    exact ih (fun s i hi => hf s i (List.mem_cons_of_mem _ hi)) (f s x)
      (hf s x (List.mem_cons_self _ _) hs)

theorem foldl_range_pred {σ : Type} (Q : σ → Prop) (f : σ → ℕ → σ) (n : ℕ)
    (hf : ∀ s i, i < n → Q s → Q (f s i)) (s : σ) (hs : Q s) : Q ((List.range n).foldl f s) :=
  foldl_mem_pred Q f _ (fun s i hi => hf s i (List.mem_range.mp hi)) s hs

theorem number_in_cut_bin (i j k l : ℕ) (info : INFO) (p : INDEX) :
    (number_in_cut i j k l info p).2.parameter = info.parameter ∧
    (number_in_cut i j k l info p).2.bin
      = if dominated i j k l p then
          store_bin info.bin (get_bin info.parameter (index4 i j k l)) ⟨0, 0⟩
        else info.bin := by
  have ni : ∀ n : ℕ, ¬ ((n : ℤ) = -1) := fun n => by omega
  have e : (number_in_cut_corners i j k l info).c_1111
      = ⟨CUTBASE.current_cube, (i : ℤ) * (info.parameter 0).dimension
            + (j : ℤ) * (info.parameter 1).dimension + (k : ℤ) * (info.parameter 2).dimension⟩ := by
    simp only [number_in_cut_corners, get_cut, ni, or_false, if_false]
  simp only [number_in_cut, e, INFO.store, dominated]
  constructor <;> split_ifs <;> rfl

theorem scan_cell_bins_frame (parameter : ℕ → PARAMETER) (p : INDEX) (bin0 : ℕ → BIN)
    (i j k l : ℕ) (hg : in_grid parameter i j k l) (s : INFO × HIGHEST_QV_CUT)
    (h : bins_frame parameter p bin0 s) :
    bins_frame parameter p bin0 (scan_cell parameter p i j k l s) := by
  obtain ⟨hp, hb⟩ := h
  obtain ⟨e1, e2⟩ := number_in_cut_bin i j k l s.1 p
  refine ⟨e1.trans hp, ?_⟩
  intro o
  have e3 : (scan_cell parameter p i j k l s).1.bin = (number_in_cut i j k l s.1 p).2.bin := rfl
  rw [e3, e2, hp]
  by_cases hd : dominated i j k l p
  · rw [if_pos hd]
    by_cases ho : o = get_bin parameter (index4 i j k l)
    · right
      simp only [store_bin, if_pos ho]
      exact ⟨trivial, i, j, k, l, hg, hd, ho.symm⟩
    · simp only [store_bin, if_neg ho]
      exact hb o
  · rw [if_neg hd]
    exact hb o

theorem scan_l_bins_frame (parameter : ℕ → PARAMETER) (p : INDEX) (s : INFO × HIGHEST_QV_CUT)
    (hp : s.1.parameter = parameter) :
    bins_frame parameter p s.1.bin (scan_l parameter p s) := by
  unfold scan_l
  refine foldl_range_pred (bins_frame parameter p s.1.bin) _ _ ?_ s ⟨hp, fun o => Or.inl rfl⟩
  intro x l hl hx
  refine foldl_range_pred (bins_frame parameter p s.1.bin) _ _ ?_ _ hx
  intro x k hk hx
  refine foldl_range_pred (bins_frame parameter p s.1.bin) _ _ ?_ _ hx
  intro x j hj hx
  refine foldl_range_pred (bins_frame parameter p s.1.bin) _ _ ?_ _ hx
  intro x i hi hx
  exact scan_cell_bins_frame parameter p _ i j k l ⟨hi, hj, hk, hl⟩ x hx

/-- C24: one full sweep with the index vector `p` of the previous cut sets to
zero both counts of every bin of the grid whose index vector is
component-wise `≤ p`, and leaves every other element of the bin array as it
was; the sweep of the first pass, with `p = (-1, -1, -1, -1)`, leaves the bin
array as it was. -/
theorem C24_sweep_zeroes_dominated_bins (parameter : ℕ → PARAMETER)
    (hs : strides_set parameter) (p : INDEX) (info : INFO) (hr : info_ready parameter info)
    (h : HIGHEST_QV_CUT) :
    (∀ a b c d, in_grid parameter a b c d → dominated a b c d p →
      (scan_l parameter p (info, h)).1.bin (get_bin parameter (index4 a b c d)) = ⟨0, 0⟩) ∧
    (∀ o, (¬ ∃ a b c d, in_grid parameter a b c d ∧ dominated a b c d p ∧
        get_bin parameter (index4 a b c d) = o) →
      (scan_l parameter p (info, h)).1.bin o = info.bin o) ∧
    (scan_l parameter ⟨-1, -1, -1, -1⟩ (info, h)).1.bin = info.bin := by
  have hf : ∀ q : INDEX, ∀ o, (¬ ∃ a b c d, in_grid parameter a b c d ∧ dominated a b c d q ∧
        get_bin parameter (index4 a b c d) = o) →
      (scan_l parameter q (info, h)).1.bin o = info.bin o := by
    intro q o hn
    rcases (scan_l_bins_frame parameter q (info, h) hr.1).2 o with e | ⟨_, e⟩
    · exact e
    · exact absurd e hn
  refine ⟨?_, hf p, ?_⟩
  · intro a b c d hg hd
    have := (scan_l_result hs p hr h).2.2 a b c d hg
    simp only [bin_at, zero_below, if_pos hd] at this
    exact this
  · funext o
    apply hf
    rintro ⟨a, b, c, d, _, hd, _⟩
    simp only [dominated] at hd
    omega

theorem C24_sweep_zeroes_dominated_bins_witness :
    strides_set demo_parameter ∧ info_ready demo_parameter demo_info ∧
    (∀ a b c d, in_grid demo_parameter a b c d → dominated a b c d ⟨0, 1, 0, 1⟩ →
      (scan_l demo_parameter ⟨0, 1, 0, 1⟩ (demo_info, demo_cut)).1.bin
        (get_bin demo_parameter (index4 a b c d)) = ⟨0, 0⟩) :=
  ⟨by decide, demo_info_ready,
    (C24_sweep_zeroes_dominated_bins demo_parameter (by decide) ⟨0, 1, 0, 1⟩ demo_info
      demo_info_ready demo_cut).1⟩

/-! ## A pass does not depend on the contents of the cubes -/

theorem select_foldl_congr (parameter : ℕ → PARAMETER) (p : INDEX)
    (val val' : ℕ → ℕ → ℕ → ℕ → CUT) (L : List (ℕ × ℕ × ℕ × ℕ))
    (e : ∀ x ∈ L, val x.1 x.2.1 x.2.2.1 x.2.2.2 = val' x.1 x.2.1 x.2.2.1 x.2.2.2)
    (h : HIGHEST_QV_CUT) :
    L.foldl (fun h x => select_cell parameter p val x.1 x.2.1 x.2.2.1 x.2.2.2 h) h
      = L.foldl (fun h x => select_cell parameter p val' x.1 x.2.1 x.2.2.1 x.2.2.2 h) h := by
  induction L generalizing h with
  | nil => rfl
  | cons y ys ih =>
    simp only [List.foldl_cons]
    rw [ih (fun x hx => e x (List.mem_cons_of_mem _ hx))]
    simp only [select_cell, e y (List.mem_cons_self _ _)]

theorem select_foldl_start (parameter : ℕ → PARAMETER) (p : INDEX)
    (val : ℕ → ℕ → ℕ → ℕ → CUT) (L : List (ℕ × ℕ × ℕ × ℕ)) (h0 h1 : HIGHEST_QV_CUT)
    (eq : h0.quality_value = h1.quality_value)
    (et : h0.total_base_call_count = h1.total_base_call_count)
    (es : h0.sum_of_indices = h1.sum_of_indices) :
    L.foldl (fun h x => select_cell parameter p val x.1 x.2.1 x.2.2.1 x.2.2.2 h) h0
        = L.foldl (fun h x => select_cell parameter p val x.1 x.2.1 x.2.2.1 x.2.2.2 h) h1 ∨
      (L.foldl (fun h x => select_cell parameter p val x.1 x.2.1 x.2.2.1 x.2.2.2 h) h0 = h0 ∧
        L.foldl (fun h x => select_cell parameter p val x.1 x.2.1 x.2.2.1 x.2.2.2 h) h1 = h1) := by
  induction L generalizing h0 h1 with
  | nil => exact Or.inr ⟨rfl, rfl⟩
  | cons y ys ih =>
    simp only [List.foldl_cons]
    have e0 := update_highest_qv_cut_eq h0 parameter (val y.1 y.2.1 y.2.2.1 y.2.2.2).correct
      (val y.1 y.2.1 y.2.2.1 y.2.2.2).incorrect y.1 y.2.1 y.2.2.1 y.2.2.2 p
    have e1 := update_highest_qv_cut_eq h1 parameter (val y.1 y.2.1 y.2.2.1 y.2.2.2).correct
      (val y.1 y.2.1 y.2.2.1 y.2.2.2).incorrect y.1 y.2.1 y.2.2.1 y.2.2.2 p
    have hra : ∀ q t s, ranks_above q t s h0 ↔ ranks_above q t s h1 := by
      intro q t s
      simp only [ranks_above, eq, et, es]
    simp only [hra] at e0
    by_cases hc : (val y.1 y.2.1 y.2.2.1 y.2.2.2).incorrect ≥ MIN_INCORRECT_COUNT ∧
        ranks_above
          (quality_of (val y.1 y.2.1 y.2.2.1 y.2.2.2).correct
            (val y.1 y.2.1 y.2.2.1 y.2.2.2).incorrect)
          (total_of (val y.1 y.2.1 y.2.2.1 y.2.2.2).correct
            (val y.1 y.2.1 y.2.2.1 y.2.2.2).incorrect)
          ((y.1 : ℤ) + y.2.1 + y.2.2.1 + y.2.2.2) h1
    · rw [if_pos hc] at e0 e1
      left
      simp only [select_cell, e0, e1]
    · rw [if_neg hc] at e0 e1
      simp only [select_cell, e0, e1]
      exact ih h0 h1 eq et es

theorem zero_below_idem (p : INDEX) (H : ℕ → ℕ → ℕ → ℕ → BIN) :
    zero_below p (zero_below p H) = zero_below p H := by
  funext a b c d
  simp only [zero_below]
  split_ifs <;> rfl

theorem region_value_congr_grid {parameter : ℕ → PARAMETER} {H H' : ℕ → ℕ → ℕ → ℕ → BIN}
    (e : ∀ a b c d, in_grid parameter a b c d → H a b c d = H' a b c d)
    {i j k l : ℕ} (hg : in_grid parameter i j k l) :
    region_value H i j k l = region_value H' i j k l := by
  obtain ⟨e1, e2⟩ := box_congr_grid e hg
  simp only [region_value, e1, e2]

theorem zero_below_congr_grid {parameter : ℕ → PARAMETER} (p : INDEX)
    {H H' : ℕ → ℕ → ℕ → ℕ → BIN}
    (e : ∀ a b c d, in_grid parameter a b c d → H a b c d = H' a b c d) :
    ∀ a b c d, in_grid parameter a b c d → zero_below p H a b c d = zero_below p H' a b c d := by
  intro a b c d hg
  simp only [zero_below, e a b c d hg]

/-- C25: the outcome of a pass does not depend on what the two cubes hold when
it starts. Two states that agree on the bins (and on the fields set once
before the loops), with any contents of `previous_cube` and `current_cube`,
give the same region count at every cell of the grid and the same best cut;
and a second pass over the state that a pass leaves, with the same index
vector `p`, returns the same region counts and the same best cut again. -/
theorem C25_pass_independent_of_cubes (parameter : ℕ → PARAMETER)
    (hs : strides_set parameter) (p : INDEX) (info1 info2 : INFO)
    (hr1 : info_ready parameter info1) (hr2 : info_ready parameter info2)
    (hb : info2.bin = info1.bin) (h : HIGHEST_QV_CUT) :
    (∀ i j k l, in_grid parameter i j k l → ∀ h1 h2 : HIGHEST_QV_CUT,
      region_count parameter p (info1, h1) i j k l
        = region_count parameter p (info2, h2) i j k l) ∧
    best_of_pass parameter p info1 h = best_of_pass parameter p info2 h ∧
    (∀ i j k l, in_grid parameter i j k l →
      region_count parameter p
          (info_of_pass parameter p info1 h,
            initialize_highest_qv_cut (best_of_pass parameter p info1 h)) i j k l
        = region_count parameter p (info1, initialize_highest_qv_cut h) i j k l) ∧
    best_of_pass parameter p (info_of_pass parameter p info1 h)
        (best_of_pass parameter p info1 h)
      = best_of_pass parameter p info1 h := by
  obtain ⟨r1, r2', r3'⟩ := scan_l_result hs p hr1 (initialize_highest_qv_cut h)
  have r2 : info_ready parameter (info_of_pass parameter p info1 h) := r2'
  have r3 : ∀ a b c d, in_grid parameter a b c d →
      bin_at parameter (info_of_pass parameter p info1 h).bin a b c d
        = zero_below p (bin_at parameter info1.bin) a b c d := r3'
  have hz : ∀ a b c d, in_grid parameter a b c d →
      zero_below p (bin_at parameter (info_of_pass parameter p info1 h).bin) a b c d
        = zero_below p (bin_at parameter info1.bin) a b c d := by
    intro a b c d hg
    rw [zero_below_congr_grid p r3 a b c d hg, zero_below_idem]
  refine ⟨?_, ?_, ?_, ?_⟩
  · intro i j k l hg h1 h2
    rw [region_count_eq hs hr1 h1 hg, region_count_eq hs hr2 h2 hg, hb]
  · unfold best_of_pass
    rw [r1, (scan_l_result hs p hr2 (initialize_highest_qv_cut h)).1, hb]
  · intro i j k l hg
    rw [region_count_eq hs hr1 _ hg, @region_count_eq parameter p _ hs r2 _ _ _ _ _ hg]
    exact region_value_congr_grid hz hg
  · have r4 := (scan_l_result hs p r2
      (initialize_highest_qv_cut (best_of_pass parameter p info1 h))).1
    have e1 : best_of_pass parameter p info1 h
        = (grid_cells parameter).foldl
          (fun h x => select_cell parameter p
            (region_value (zero_below p (bin_at parameter info1.bin)))
            x.1 x.2.1 x.2.2.1 x.2.2.2 h) (initialize_highest_qv_cut h) := by
      unfold best_of_pass
      rw [r1, select_l_eq_foldl]
    have e2 : best_of_pass parameter p (info_of_pass parameter p info1 h)
          (best_of_pass parameter p info1 h)
        = (grid_cells parameter).foldl
          (fun h x => select_cell parameter p
            (region_value (zero_below p (bin_at parameter info1.bin)))
            x.1 x.2.1 x.2.2.1 x.2.2.2 h)
          (initialize_highest_qv_cut (best_of_pass parameter p info1 h)) := by
      have : best_of_pass parameter p (info_of_pass parameter p info1 h)
          (best_of_pass parameter p info1 h)
          = (scan_l parameter p (info_of_pass parameter p info1 h,
              initialize_highest_qv_cut (best_of_pass parameter p info1 h))).2 := rfl
      rw [this]
      have r5 : (scan_l parameter p (info_of_pass parameter p info1 h,
              initialize_highest_qv_cut (best_of_pass parameter p info1 h))).2
          = select_l parameter p
              (region_value (zero_below p
                (bin_at parameter (info_of_pass parameter p info1 h).bin)))
              (initialize_highest_qv_cut (best_of_pass parameter p info1 h)) := r4
      rw [r5, select_l_eq_foldl]
      apply select_foldl_congr
      intro x hx
      have hg : in_grid parameter x.1 x.2.1 x.2.2.1 x.2.2.2 :=
        (mem_grid_cells parameter x.1 x.2.1 x.2.2.1 x.2.2.2).mp hx
      exact region_value_congr_grid hz hg
    rcases select_foldl_start parameter p
        (region_value (zero_below p (bin_at parameter info1.bin))) (grid_cells parameter)
        (initialize_highest_qv_cut h)
        (initialize_highest_qv_cut (best_of_pass parameter p info1 h)) rfl rfl rfl with e | ⟨e3, e4⟩
    · rw [e2, ← e, ← e1]
    · rw [e2, e4]
      rw [← e1] at e3
      rw [e3]
      rfl

theorem C25_pass_independent_of_cubes_witness :
    strides_set demo_parameter ∧ info_ready demo_parameter demo_stale_info ∧
    info_ready demo_parameter (swap_cubes demo_stale_info) ∧
    (swap_cubes demo_stale_info).bin = demo_stale_info.bin ∧
    best_of_pass demo_parameter ⟨0, 1, 0, 1⟩ demo_stale_info demo_cut
      = best_of_pass demo_parameter ⟨0, 1, 0, 1⟩ (swap_cubes demo_stale_info) demo_cut :=
  ⟨by decide, ⟨rfl, rfl, rfl, rfl, rfl, rfl⟩, ⟨rfl, rfl, rfl, rfl, rfl, rfl⟩, rfl,
    (C25_pass_independent_of_cubes demo_parameter (by decide) ⟨0, 1, 0, 1⟩ demo_stale_info
      (swap_cubes demo_stale_info) ⟨rfl, rfl, rfl, rfl, rfl, rfl⟩ ⟨rfl, rfl, rfl, rfl, rfl, rfl⟩
      rfl demo_cut).2.1⟩

/-! ## The divisor of the error rate -/

theorem error_rate_of_operands (correct incorrect : ℕ) :
    error_rate_of correct incorrect
      = (error_rate_dividend correct incorrect : ℚ) / (error_rate_divisor correct incorrect : ℚ) := by
  unfold error_rate_of error_rate_dividend error_rate_divisor
  split_ifs <;> rfl

/-- C27, amended: for counts with `correct + incorrect + 1 < 2 ^ 64`, the
divisor of the division in `update_highest_qv_cut` is not zero: it is
`1 + total` when `incorrect = 0`, and it is the total, which is at least `1`,
when `incorrect ≠ 0`. For `correct = incorrect = 0` the error rate is `1` and
the quality is `0`, and this candidate replaces no best cut `h`, the record
that `initialize_highest_qv_cut` gives included. -/
theorem C27_divisor_not_zero (correct incorrect : ℕ)
    (hW : correct + incorrect + 1 < ULONG_MOD) :
    error_rate_of correct incorrect
      = (error_rate_dividend correct incorrect : ℚ)
          / (error_rate_divisor correct incorrect : ℚ) ∧
    error_rate_divisor correct incorrect ≠ 0 ∧
    (incorrect = 0 → error_rate_divisor correct incorrect = 1 + (correct + incorrect)) ∧
    (incorrect ≠ 0 → error_rate_divisor correct incorrect = correct + incorrect ∧
      1 ≤ error_rate_divisor correct incorrect) ∧
    error_rate_divisor 0 0 = 1 ∧ error_rate_of 0 0 = 1 ∧ quality_of 0 0 = 0 ∧
    (∀ (h : HIGHEST_QV_CUT) (parameter : ℕ → PARAMETER) (i j k l : ℕ) (p : INDEX),
      update_highest_qv_cut h parameter 0 0 i j k l p = h) ∧
    (∀ (h : HIGHEST_QV_CUT) (parameter : ℕ → PARAMETER) (i j k l : ℕ) (p : INDEX),
      update_highest_qv_cut (initialize_highest_qv_cut h) parameter 0 0 i j k l p
        = initialize_highest_qv_cut h) := by
  have ht : total_of correct incorrect = correct + incorrect :=
    Nat.mod_eq_of_lt (by omega)
  have hd : error_rate_divisor correct incorrect
      = if incorrect = 0 then 1 + (correct + incorrect) else correct + incorrect := by
    unfold error_rate_divisor
    rw [ht]
    split_ifs
    · exact Nat.mod_eq_of_lt (by omega)
    · rfl
  have hu : ∀ (h : HIGHEST_QV_CUT) (parameter : ℕ → PARAMETER) (i j k l : ℕ) (p : INDEX),
      update_highest_qv_cut h parameter 0 0 i j k l p = h := by
    intro h parameter i j k l p
    rw [update_highest_qv_cut_eq, if_neg]
    rintro ⟨h3, _⟩
    simp [MIN_INCORRECT_COUNT] at h3
  refine ⟨error_rate_of_operands correct incorrect, ?_, ?_, ?_, by decide, by decide!,
    by decide!, hu, fun h => hu _⟩
  · rw [hd]; split_ifs <;> omega
  · intro h0; rw [hd, if_pos h0]
  · intro h0; rw [hd, if_neg h0]; omega

theorem C27_divisor_not_zero_witness :
    5 + 3 + 1 < ULONG_MOD ∧ error_rate_divisor 5 3 ≠ 0 :=
  ⟨by decide, (C27_divisor_not_zero 5 3 (by decide)).2.1⟩

/-- C27 as stated fails for `correct = 2 ^ 64 - 1`, `incorrect = 0`, where the
divisor `1 + total` is the `unsigned long` value `0`, and for
`correct = 2 ^ 64 - 3`, `incorrect = 3`, where the divisor is the total, the
`unsigned long` sum `0`. -/
theorem C27_divisor_wraps_to_zero :
    2 ^ 64 - 1 < ULONG_MOD ∧ error_rate_divisor (2 ^ 64 - 1) 0 = 0 ∧
    2 ^ 64 - 3 < ULONG_MOD ∧ error_rate_divisor (2 ^ 64 - 3) 3 = 0 := by
  refine ⟨by decide, by decide, by decide, by decide⟩

/-! ## The error rate and the comment on the small-sample penalty -/

/-- C28: a region with `1` correct and `1` incorrect call. The comment in
`update_highest_qv_cut` assigns it the error rate `(1 + 1) / (1 + 2) = 2/3`;
the code adds `1` only when there is no incorrect call and computes `1/2`.
The same holds for a candidate that can be recorded: with `3` correct and `3`
incorrect calls the recorded error rate is `1/2`, not `4/7`. -/
theorem C28_error_rate_without_penalty :
    error_rate_of 1 1 = 1 / 2 ∧ error_rate_of_comment 1 1 = 2 / 3 ∧
    error_rate_of 1 1 ≠ error_rate_of_comment 1 1 ∧
    (update_highest_qv_cut low_cut demo_parameter 3 3 0 0 0 0 ⟨-1, -1, -1, -1⟩).error_rate
      = 1 / 2 ∧
    error_rate_of_comment 3 3 = 4 / 7 ∧
    (∀ correct incorrect, incorrect ≠ 0 → correct + incorrect < ULONG_MOD →
      error_rate_of correct incorrect = (incorrect : ℚ) / ((correct + incorrect : ℕ) : ℚ)) := by
  refine ⟨by decide!, by decide!, by decide!, by decide!, by decide!, ?_⟩
  intro correct incorrect h0 hW
  unfold error_rate_of total_of
  rw [if_neg h0, Nat.mod_eq_of_lt hW]

/-! ## Ties: the first cell of the sweep that attains the maximum -/

theorem grid_cells_sorted (parameter : ℕ → PARAMETER) :
    (grid_cells parameter).Pairwise sweep_lt := by
  unfold grid_cells
  simp only [List.pairwise_flatMap, List.pairwise_map, List.mem_flatMap, List.mem_map,
    List.mem_range]
  refine ⟨fun l _ => ⟨fun k _ => ⟨fun j _ => ?_, ?_⟩, ?_⟩, ?_⟩
  · exact List.Pairwise.imp (fun {a b} (hab : a < b) => by simp [sweep_lt, hab])
      (List.pairwise_lt_range _)
  · exact List.Pairwise.imp (fun {a b} (hab : a < b) => by
      rintro x ⟨i, _, rfl⟩ y ⟨i', _, rfl⟩
      simp [sweep_lt, hab]) (List.pairwise_lt_range _)
  · exact List.Pairwise.imp (fun {a b} (hab : a < b) => by
      rintro x ⟨j, _, i, _, rfl⟩ y ⟨j', _, i', _, rfl⟩
      simp [sweep_lt, hab]) (List.pairwise_lt_range _)
  · exact List.Pairwise.imp (fun {a b} (hab : a < b) => by
      rintro x ⟨k, _, j, _, i, _, rfl⟩ y ⟨k', _, j', _, i', _, rfl⟩
      simp [sweep_lt, hab]) (List.pairwise_lt_range _)

theorem sweep_lt_asymm {x y : ℕ × ℕ × ℕ × ℕ} (h : sweep_lt x y) : ¬ sweep_lt y x := by
  unfold sweep_lt at *
  omega

/-- The fold of the ranking rule over a list of cells: when the result is not
the start value, it is the record of an eligible cell of the list, and every
eligible cell that stands before it in the list ranks strictly below it. -/
theorem select_foldl_first (parameter : ℕ → PARAMETER) (p : INDEX)
    (val : ℕ → ℕ → ℕ → ℕ → CUT) (h0 : HIGHEST_QV_CUT) (L : List (ℕ × ℕ × ℕ × ℕ)) :
    L.foldl (fun h x => select_cell parameter p val x.1 x.2.1 x.2.2.1 x.2.2.2 h) h0 = h0 ∨
    ∃ A x B, L = A ++ x :: B ∧
      (val x.1 x.2.1 x.2.2.1 x.2.2.2).incorrect ≥ MIN_INCORRECT_COUNT ∧
      L.foldl (fun h x => select_cell parameter p val x.1 x.2.1 x.2.2.1 x.2.2.2 h) h0
        = cut_record parameter (val x.1 x.2.1 x.2.2.1 x.2.2.2).correct
            (val x.1 x.2.1 x.2.2.1 x.2.2.2).incorrect x.1 x.2.1 x.2.2.1 x.2.2.2 ∧
      ∀ y ∈ A, (val y.1 y.2.1 y.2.2.1 y.2.2.2).incorrect ≥ MIN_INCORRECT_COUNT →
        outranks
          (cut_record parameter (val x.1 x.2.1 x.2.2.1 x.2.2.2).correct
            (val x.1 x.2.1 x.2.2.1 x.2.2.2).incorrect x.1 x.2.1 x.2.2.1 x.2.2.2)
          (cut_record parameter (val y.1 y.2.1 y.2.2.1 y.2.2.2).correct
            (val y.1 y.2.1 y.2.2.1 y.2.2.2).incorrect y.1 y.2.1 y.2.2.1 y.2.2.2) := by
  induction L using List.reverseRecOn with
  | nil => exact Or.inl rfl
  | append_singleton L y ih =>
    simp only [List.foldl_append, List.foldl_cons, List.foldl_nil]
    have hstep := update_highest_qv_cut_eq
      (L.foldl (fun h x => select_cell parameter p val x.1 x.2.1 x.2.2.1 x.2.2.2 h) h0)
      parameter (val y.1 y.2.1 y.2.2.1 y.2.2.2).correct
      (val y.1 y.2.1 y.2.2.1 y.2.2.2).incorrect y.1 y.2.1 y.2.2.1 y.2.2.2 p
    have hmax := (select_foldl_spec parameter p val L h0).2.2
    simp only at hmax
    have hsel : select_cell parameter p val y.1 y.2.1 y.2.2.1 y.2.2.2
        (L.foldl (fun h x => select_cell parameter p val x.1 x.2.1 x.2.2.1 x.2.2.2 h) h0)
        = update_highest_qv_cut
          (L.foldl (fun h x => select_cell parameter p val x.1 x.2.1 x.2.2.1 x.2.2.2 h) h0)
          parameter (val y.1 y.2.1 y.2.2.1 y.2.2.2).correct
          (val y.1 y.2.1 y.2.2.1 y.2.2.2).incorrect y.1 y.2.1 y.2.2.1 y.2.2.2 p := rfl
    rw [hsel, hstep]
    split_ifs with hc
    · right
      refine ⟨L, y, [], rfl, hc.1, rfl, ?_⟩
      intro z hz he
      have h1 := hmax z hz he
      have h2 := hc.2
      simp only [outranks, ranks_above, cut_record] at h1 h2 ⊢
      omega
    · rcases ih with ih | ⟨A, x, B, hL, he, hr, hA⟩
      · exact Or.inl ih
      · right
        exact ⟨A, x, B ++ [y], by rw [hL]; simp, he, hr, hA⟩

/-- C26: a candidate that ties the best cut on quality, total count and index
sum does not replace it. Hence, when a pass ends with a cut, this cut is the
record of a cell of the grid with at least `MIN_INCORRECT_COUNT` incorrect
calls such that no such cell ranks above it in the lexicographic order of
(quality, total, index sum), and every such cell that the sweep visits
earlier (`l` outermost, then `k`, `j`, `i`, each ascending) ranks strictly
below it: among the cells that tie with the cut, the cut is the first of the
sweep. -/
theorem C26_first_cell_of_maximal_rank (parameter : ℕ → PARAMETER)
    (hs : strides_set parameter) (p : INDEX) (info : INFO) (hr : info_ready parameter info)
    (h : HIGHEST_QV_CUT)
    (hB : (best_of_pass parameter p info h).total_base_call_count ≠ 0) :
    (∀ (b : HIGHEST_QV_CUT) (correct incorrect i j k l : ℕ) (q : INDEX),
      same_rank (cut_record parameter correct incorrect i j k l) b →
        update_highest_qv_cut b parameter correct incorrect i j k l q = b) ∧
    ∃ i j k l, in_grid parameter i j k l ∧
      (pass_candidate parameter p info h i j k l).incorrect_base_call_count
        ≥ MIN_INCORRECT_COUNT ∧
      best_of_pass parameter p info h = pass_candidate parameter p info h i j k l ∧
      (∀ a b c d, in_grid parameter a b c d →
        (pass_candidate parameter p info h a b c d).incorrect_base_call_count
          ≥ MIN_INCORRECT_COUNT →
        ¬ outranks (pass_candidate parameter p info h a b c d)
            (best_of_pass parameter p info h)) ∧
      (∀ a b c d, in_grid parameter a b c d →
        (pass_candidate parameter p info h a b c d).incorrect_base_call_count
          ≥ MIN_INCORRECT_COUNT →
        sweep_lt (a, b, c, d) (i, j, k, l) →
        outranks (best_of_pass parameter p info h)
          (pass_candidate parameter p info h a b c d)) ∧
      (∀ a b c d, in_grid parameter a b c d →
        (pass_candidate parameter p info h a b c d).incorrect_base_call_count
          ≥ MIN_INCORRECT_COUNT →
        same_rank (pass_candidate parameter p info h a b c d)
          (best_of_pass parameter p info h) →
        (a, b, c, d) = (i, j, k, l) ∨ sweep_lt (i, j, k, l) (a, b, c, d)) := by
  constructor
  · intro b correct incorrect i j k l q hsame
    rw [update_highest_qv_cut_eq, if_neg]
    rintro ⟨_, hra⟩
    simp only [same_rank, cut_record] at hsame
    simp only [ranks_above] at hra
    omega
  have hsel := (scan_l_result hs p hr (initialize_highest_qv_cut h)).1
  rw [select_l_eq_foldl] at hsel
  have hcand : ∀ a b c d, in_grid parameter a b c d →
      pass_candidate parameter p info h a b c d
        = cut_record parameter
            (region_value (zero_below p (bin_at parameter info.bin)) a b c d).correct
            (region_value (zero_below p (bin_at parameter info.bin)) a b c d).incorrect
            a b c d := by
    intro a b c d hg
    unfold pass_candidate
    rw [region_count_eq hs hr _ hg]
  have hmax := (select_foldl_spec parameter p
    (region_value (zero_below p (bin_at parameter info.bin))) (grid_cells parameter)
    (initialize_highest_qv_cut h)).2.2
  simp only at hmax
  have hbest : best_of_pass parameter p info h
      = (grid_cells parameter).foldl
          (fun h x => select_cell parameter p
            (region_value (zero_below p (bin_at parameter info.bin)))
            x.1 x.2.1 x.2.2.1 x.2.2.2 h) (initialize_highest_qv_cut h) := hsel
  rcases select_foldl_first parameter p
      (region_value (zero_below p (bin_at parameter info.bin)))
      (initialize_highest_qv_cut h) (grid_cells parameter) with h0 | ⟨A, ⟨i, j, k, l⟩, B, hL, he, hrec, hA⟩
  · rw [← hbest] at h0
    rw [h0] at hB
    exact absurd rfl hB
  · rw [← hbest] at hrec hmax
    have hsorted := grid_cells_sorted parameter
    rw [hL, List.pairwise_append] at hsorted
    obtain ⟨_, hxB, hAx⟩ := hsorted
    rw [List.pairwise_cons] at hxB
    have hg : in_grid parameter i j k l := by
      rw [← mem_grid_cells, hL]
      simp
    have hfirst : ∀ a b c d, in_grid parameter a b c d →
        (pass_candidate parameter p info h a b c d).incorrect_base_call_count
          ≥ MIN_INCORRECT_COUNT →
        (a, b, c, d) ∈ A ∨ (a, b, c, d) = (i, j, k, l) ∨ sweep_lt (i, j, k, l) (a, b, c, d) := by
      intro a b c d hg' _
      have hm := (mem_grid_cells parameter a b c d).mpr hg'
      rw [hL, List.mem_append, List.mem_cons] at hm
      rcases hm with hm | hm | hm
      · exact Or.inl hm
      · exact Or.inr (Or.inl hm)
      · exact Or.inr (Or.inr (hxB.1 _ hm))
    have hbelow : ∀ a b c d, in_grid parameter a b c d →
        (pass_candidate parameter p info h a b c d).incorrect_base_call_count
          ≥ MIN_INCORRECT_COUNT → (a, b, c, d) ∈ A →
        outranks (best_of_pass parameter p info h)
          (pass_candidate parameter p info h a b c d) := by
      intro a b c d hg' he' hm
      rw [hcand a b c d hg'] at he' ⊢
      rw [hrec]
      exact hA (a, b, c, d) hm he'
    refine ⟨i, j, k, l, hg, ?_, ?_, ?_, ?_, ?_⟩
    · rw [hcand i j k l hg]; exact he
    · rw [hcand i j k l hg]; exact hrec
    · intro a b c d hg' he'
      rw [hcand a b c d hg'] at he' ⊢
      exact hmax (a, b, c, d) ((mem_grid_cells parameter a b c d).mpr hg') he'
    · intro a b c d hg' he' hlt
      rcases hfirst a b c d hg' he' with hm | hm | hm
      · exact hbelow a b c d hg' he' hm
      · rw [hm] at hlt
        exact absurd hlt (sweep_lt_asymm hlt)
      · exact absurd hlt (sweep_lt_asymm hm)
    · intro a b c d hg' he' hsame
      rcases hfirst a b c d hg' he' with hm | hm | hm
      · have := hbelow a b c d hg' he' hm
        simp only [outranks, ranks_above, same_rank] at this hsame
        omega
      · exact Or.inl hm
      · exact Or.inr hm

theorem C26_first_cell_of_maximal_rank_witness :
    strides_set demo_parameter ∧ info_ready demo_parameter tie_info ∧
    (best_of_pass demo_parameter ⟨-1, -1, -1, -1⟩ tie_info demo_cut).total_base_call_count ≠ 0 ∧
    (best_of_pass demo_parameter ⟨-1, -1, -1, -1⟩ tie_info demo_cut).index = ⟨1, 0, 0, 0⟩ ∧
    same_rank (pass_candidate demo_parameter ⟨-1, -1, -1, -1⟩ tie_info demo_cut 0 1 0 0)
      (best_of_pass demo_parameter ⟨-1, -1, -1, -1⟩ tie_info demo_cut) ∧
    sweep_lt (1, 0, 0, 0) (0, 1, 0, 0) ∧
    ∃ i j k l, in_grid demo_parameter i j k l ∧
      (pass_candidate demo_parameter ⟨-1, -1, -1, -1⟩ tie_info demo_cut i j k l).incorrect_base_call_count
        ≥ MIN_INCORRECT_COUNT ∧
      best_of_pass demo_parameter ⟨-1, -1, -1, -1⟩ tie_info demo_cut
        = pass_candidate demo_parameter ⟨-1, -1, -1, -1⟩ tie_info demo_cut i j k l ∧
      (∀ a b c d, in_grid demo_parameter a b c d →
        (pass_candidate demo_parameter ⟨-1, -1, -1, -1⟩ tie_info demo_cut a b c d).incorrect_base_call_count
          ≥ MIN_INCORRECT_COUNT →
        same_rank (pass_candidate demo_parameter ⟨-1, -1, -1, -1⟩ tie_info demo_cut a b c d)
          (best_of_pass demo_parameter ⟨-1, -1, -1, -1⟩ tie_info demo_cut) →
        (a, b, c, d) = (i, j, k, l) ∨ sweep_lt (i, j, k, l) (a, b, c, d)) := by
  obtain ⟨_, i, j, k, l, h1, h2, h3, _, _, h6⟩ :=
    C26_first_cell_of_maximal_rank demo_parameter (by decide) ⟨-1, -1, -1, -1⟩ tie_info
      ⟨rfl, rfl, rfl, rfl, rfl, rfl⟩ demo_cut (by decide!)
  exact ⟨by decide, ⟨rfl, rfl, rfl, rfl, rfl, rfl⟩, by decide!, by decide!, by decide!,
    by decide, i, j, k, l, h1, h2, h3, h6⟩

/-! ## `compress_params_array` -/

theorem int_wrap_of_range {x : ℤ} (h1 : -2 ^ 31 ≤ x) (h2 : x < 2 ^ 31) : int_wrap x = x := by
  unfold int_wrap
  omega

theorem run_index_succ (A : ℕ → ℚ) (n : ℕ) :
    run_index A (n + 1) = run_index A n + if gap_after A n then 1 else 0 := by
  unfold run_index
  rw [List.range_succ, List.filter_append, List.length_append]
  by_cases h : gap_after A n <;> simp [h]

theorem run_index_mono (A : ℕ → ℚ) {a b : ℕ} (h : a ≤ b) : run_index A a ≤ run_index A b := by
  induction b with
  | zero =>
    have : a = 0 := by omega
    subst this; exact le_rfl
  | succ b ih =>
    rcases Nat.eq_or_lt_of_le h with e | e
    · subst e; exact le_rfl
    · have := ih (by omega)
      rw [run_index_succ]
      omega

theorem run_index_le (A : ℕ → ℚ) (n : ℕ) : run_index A n ≤ n := by
  induction n with
  | zero => simp [run_index]
  | succ n ih =>
    rw [run_index_succ]
    split_ifs <;> omega

theorem run_weight_succ (A : ℕ → ℚ) (w : ℕ → ℤ) (n r : ℕ) :
    run_weight A w (n + 1) r
      = run_weight A w n r + if run_index A n = r then w n else 0 := by
  unfold run_weight
  rw [Finset.range_succ, Finset.filter_insert]
  split_ifs with h
  · rw [Finset.sum_insert (by simp)]
    ring
  · simp

/-- The invariant of the first loop of `compress_params_array` before the
iteration `n`. -/
theorem compress_loop_inv (A : ℕ → ℚ) (w : ℕ → ℤ) (len : ℕ) (hl : 0 < len) :
    ∀ n, n ≤ len →
      (compress_loop A w len n).j
          = (if n < len then run_index A n else run_index A (len - 1) + 1) ∧
      (∀ m, (compress_loop A w len n).j ≤ m → (compress_loop A w len n).A m = A m) ∧
      (n < len → ∃ a, a ≤ n ∧ (∀ i, i ≤ n → (run_index A i = run_index A n ↔ a ≤ i)) ∧
        (compress_loop A w len n).A_min = A a) ∧
      (∀ r, r < (compress_loop A w len n).j → ∃ a b, a ≤ b ∧ b < n ∧
        (∀ i, i < len → (run_index A i = r ↔ a ≤ i ∧ i ≤ b)) ∧
        (compress_loop A w len n).A r = (A a + A b) / 2) := by
  intro n
  induction n with
  | zero =>
    intro hn
    refine ⟨?_, ?_, ?_, ?_⟩
    · show 0 = _
      rw [if_pos hl]
      simp [run_index]
    · intro m _
      rfl
    · intro _
      refine ⟨0, le_rfl, ?_, rfl⟩
      intro i hi
      have : i = 0 := by omega
      subst this
      simp
    · intro r hr
      exact absurd hr (Nat.not_lt_zero r)
  | succ n ih =>
    intro hn
    have hnl : n < len := by omega
    obtain ⟨hj, hA, hmin, hdone⟩ := ih (by omega)
    rw [if_pos hnl] at hj
    obtain ⟨a, han, hrun, hAmin⟩ := hmin hnl
    have hjn : (compress_loop A w len n).j ≤ n := by rw [hj]; exact run_index_le A n
    have hloop : compress_loop A w len (n + 1)
        = compress_step w len (compress_loop A w len n) n := by
      unfold compress_loop
      rw [List.range_succ, List.foldl_append]
      rfl
    have hAn : (compress_loop A w len n).A n = A n := hA n hjn
    have hAn1 : (compress_loop A w len n).A (n + 1) = A (n + 1) := hA (n + 1) (by omega)
    by_cases hc1 : (n : ℤ) < (len : ℤ) - 1 ∧
        (compress_loop A w len n).A n < (compress_loop A w len n).A (n + 1) - MIN_DIST
    · -- a run ends at `n`, and another one follows
      have hgap : gap_after A n := by
        have := hc1.2
        rw [hAn, hAn1] at this
        exact this
      have hn1 : n + 1 < len := by omega
      have hri : run_index A (n + 1) = run_index A n + 1 := by
        rw [run_index_succ, if_pos hgap]
      have hstate : compress_loop A w len (n + 1)
          = { A := fun m => if m = (compress_loop A w len n).j
                then ((compress_loop A w len n).A_min + (compress_loop A w len n).A n) / 2
                else (compress_loop A w len n).A m
              wn := fun m => if m = (compress_loop A w len n).j
                then int_wrap ((compress_loop A w len n).wn (compress_loop A w len n).j + w n)
                else (compress_loop A w len n).wn m
              j := (compress_loop A w len n).j + 1
              A_min := if n + 1 = (compress_loop A w len n).j
                then ((compress_loop A w len n).A_min + (compress_loop A w len n).A n) / 2
                else (compress_loop A w len n).A (n + 1) } := by
        rw [hloop]
        simp only [compress_step, if_pos hc1]
      rw [hstate]
      refine ⟨?_, ?_, ?_, ?_⟩
      · simp only [if_pos hn1, hj, hri]
      · intro m hm
        simp only at hm ⊢
        rw [if_neg (by omega)]
        exact hA m (by omega)
      · intro _
        refine ⟨n + 1, le_rfl, ?_, ?_⟩
        · intro i hi
          rcases Nat.eq_or_lt_of_le hi with e | e
          · subst e; simp
          · have := run_index_mono A (show i ≤ n by omega)
            constructor
            · intro h; omega
            · intro h; omega
        · simp only
          rw [if_neg (by omega), hAn1]
      · intro r hr
        simp only at hr ⊢
        by_cases hrj : r = (compress_loop A w len n).j
        · refine ⟨a, n, han, by omega, ?_, ?_⟩
          · intro i hi
            rw [hrj, hj]
            by_cases hin : i ≤ n
            · rw [hrun i hin]
              constructor
              · intro h; exact ⟨h, hin⟩
              · intro h; exact h.1
            · have := run_index_mono A (show n + 1 ≤ i by omega)
              constructor
              · intro h; omega
              · intro h; omega
          · rw [if_pos hrj, hAmin, hAn]
        · obtain ⟨a', b', h1, h2, h3, h4⟩ := hdone r (by omega)
          refine ⟨a', b', h1, by omega, h3, ?_⟩
          rw [if_neg hrj, h4]
    · by_cases hc2 : (n : ℤ) = (len : ℤ) - 1
      · -- the last run ends at `n = len - 1`
        have hn1 : ¬ n + 1 < len := by omega
        have hstate : compress_loop A w len (n + 1)
            = { A := fun m => if m = (compress_loop A w len n).j
                  then ((compress_loop A w len n).A_min + (compress_loop A w len n).A n) / 2
                  else (compress_loop A w len n).A m
                wn := fun m => if m = (compress_loop A w len n).j
                  then int_wrap ((compress_loop A w len n).wn (compress_loop A w len n).j + w n)
                  else (compress_loop A w len n).wn m
                j := (compress_loop A w len n).j + 1
                A_min := (compress_loop A w len n).A_min } := by
          rw [hloop]
          simp only [compress_step, if_neg hc1, if_pos hc2]
        rw [hstate]
        refine ⟨?_, ?_, ?_, ?_⟩
        · have : len - 1 = n := by omega
          simp only [if_neg hn1, hj, this]
        · intro m hm
          simp only at hm ⊢
          rw [if_neg (by omega)]
          exact hA m (by omega)
        · intro h; exact absurd h hn1
        · intro r hr
          simp only at hr ⊢
          by_cases hrj : r = (compress_loop A w len n).j
          · refine ⟨a, n, han, by omega, ?_, ?_⟩
            · intro i hi
              rw [hrj, hj, hrun i (by omega)]
              constructor
              · intro h; exact ⟨h, by omega⟩
              · intro h; exact h.1
            · rw [if_pos hrj, hAmin, hAn]
          · obtain ⟨a', b', h1, h2, h3, h4⟩ := hdone r (by omega)
            refine ⟨a', b', h1, by omega, h3, ?_⟩
            rw [if_neg hrj, h4]
      · -- the run goes on
        have hn1 : n + 1 < len := by omega
        have hgap : ¬ gap_after A n := by
          intro hg
          apply hc1
          refine ⟨by omega, ?_⟩
          rw [hAn, hAn1]
          exact hg
        have hri : run_index A (n + 1) = run_index A n := by
          rw [run_index_succ, if_neg hgap]
          rfl
        have hstate : compress_loop A w len (n + 1)
            = { A := (compress_loop A w len n).A
                wn := fun m => if m = (compress_loop A w len n).j
                  then int_wrap ((compress_loop A w len n).wn (compress_loop A w len n).j + w n)
                  else (compress_loop A w len n).wn m
                j := (compress_loop A w len n).j
                A_min := (compress_loop A w len n).A_min } := by
          rw [hloop]
          simp only [compress_step, if_neg hc1, if_neg hc2]
        rw [hstate]
        refine ⟨?_, ?_, ?_, ?_⟩
        · simp only [if_pos hn1, hj, hri]
        · intro m hm
          exact hA m hm
        · intro _
          refine ⟨a, by omega, ?_, hAmin⟩
          intro i hi
          rw [hri]
          rcases Nat.eq_or_lt_of_le hi with e | e
          · subst e
            rw [hri]
            constructor
            · intro _; omega
            · intro _; rfl
          · exact hrun i (by omega)
        · intro r hr
          obtain ⟨a', b', h1, h2, h3, h4⟩ := hdone r hr
          exact ⟨a', b', h1, by omega, h3, h4⟩

theorem compress_step_wn (w : ℕ → ℤ) (len : ℕ) (s : COMPRESS_STATE) (i : ℕ) :
    (compress_step w len s i).wn
      = fun m => if m = s.j then int_wrap (s.wn s.j + w i) else s.wn m := by
  unfold compress_step
  split_ifs <;> rfl

theorem compress_loop_succ (A : ℕ → ℚ) (w : ℕ → ℤ) (len n : ℕ) :
    compress_loop A w len (n + 1) = compress_step w len (compress_loop A w len n) n := by
  unfold compress_loop
  rw [List.range_succ, List.foldl_append]
  rfl

/-- The array `wn` before the iteration `n` of the first loop. -/
theorem compress_loop_wn (A : ℕ → ℚ) (w : ℕ → ℤ) (len : ℕ) (hl : 0 < len)
    (hfit : weights_fit A w len) :
    ∀ n, n ≤ len → ∀ r, (compress_loop A w len n).wn r = run_weight A w n r := by
  intro n
  induction n with
  | zero =>
    intro _ r
    simp [compress_loop, compress_start, run_weight]
  | succ n ih =>
    intro hn r
    have hj := (compress_loop_inv A w len hl n (by omega)).1
    rw [if_pos (show n < len by omega)] at hj
    rw [compress_loop_succ, compress_step_wn, run_weight_succ, hj]
    by_cases hr : r = run_index A n
    · subst hr
      simp only [if_pos rfl]
      rw [ih (by omega)]
      have := hfit (n + 1) hn (run_index A n)
      rw [run_weight_succ, if_pos rfl] at this
      exact int_wrap_of_range this.1 this.2
    · simp only [if_neg hr, if_neg (Ne.symm hr)]
      rw [ih (by omega)]
      simp

theorem copy_weights (wn w : ℕ → ℤ) (k r : ℕ) :
    (List.range k).foldl (fun w i => fun m => if m = i then wn i else w m) w r
      = if r < k then wn r else w r := by
  induction k with
  | zero => simp
  | succ k ih =>
    rw [List.range_succ, List.foldl_append, List.foldl_cons, List.foldl_nil]
    by_cases h : r = k
    · subst h; simp
    · simp only [if_neg h, ih]
      clear ih
      by_cases h2 : r < k
      · have h3 : r < k + 1 := by omega
        rw [if_pos h2, if_pos h3]
      · have h3 : ¬ r < k + 1 := by omega
        rw [if_neg h2, if_neg h3]

/-- The elements of a run are consecutive, the gaps inside it do not exceed
`MIN_DIST`, and the gaps at its two ends do. -/
theorem run_is_maximal (A : ℕ → ℚ) (len r a b : ℕ) (hab : a ≤ b) (hb : b < len)
    (h : ∀ i, i < len → (run_index A i = r ↔ a ≤ i ∧ i ≤ b)) :
    (a = 0 ∨ gap_after A (a - 1)) ∧ (b + 1 = len ∨ gap_after A b) ∧
    (∀ i, a ≤ i → i < b → ¬ gap_after A i) := by
  refine ⟨?_, ?_, ?_⟩
  · rcases Nat.eq_zero_or_pos a with h0 | h0
    · exact Or.inl h0
    · right
      have h1 := (h a (by omega)).mpr ⟨le_rfl, hab⟩
      have h2 : ¬ run_index A (a - 1) = r := fun e => by
        have := (h (a - 1) (by omega)).mp e
        omega
      have h3 := run_index_succ A (a - 1)
      rw [show a - 1 + 1 = a by omega] at h3
      by_contra hg
      rw [if_neg hg] at h3
      exact h2 (by omega)
  · rcases Nat.eq_or_lt_of_le (show b + 1 ≤ len by omega) with h0 | h0
    · exact Or.inl h0
    · right
      have h1 := (h b hb).mpr ⟨hab, le_rfl⟩
      have h2 : ¬ run_index A (b + 1) = r := fun e => by
        have := (h (b + 1) h0).mp e
        omega
      have h3 := run_index_succ A b
      by_contra hg
      rw [if_neg hg] at h3
      exact h2 (by omega)
  · intro i hai hib hg
    have h1 := (h i (by omega)).mpr ⟨hai, by omega⟩
    have h2 := (h (i + 1) (by omega)).mpr ⟨by omega, by omega⟩
    have h3 := run_index_succ A i
    rw [if_pos hg] at h3
    omega

theorem run_weight_interval (A : ℕ → ℚ) (w : ℕ → ℤ) (len r a b : ℕ) (hb : b < len)
    (h : ∀ i, i < len → (run_index A i = r ↔ a ≤ i ∧ i ≤ b)) :
    run_weight A w len r = ∑ i ∈ Finset.Icc a b, w i := by
  unfold run_weight
  apply Finset.sum_congr _ (fun _ _ => rfl)
  ext i
  simp only [Finset.mem_filter, Finset.mem_range, Finset.mem_Icc]
  constructor
  · rintro ⟨h1, h2⟩
    exact (h i h1).mp h2
  · rintro ⟨h1, h2⟩
    exact ⟨by omega, (h i (by omega)).mpr ⟨h1, h2⟩⟩

theorem weights_fit_of_nonneg (A : ℕ → ℚ) (w : ℕ → ℤ) (len : ℕ)
    (h0 : ∀ i, i < len → 0 ≤ w i) (ht : ∑ i ∈ Finset.range len, w i < 2 ^ 31) :
    weights_fit A w len := by
  intro n hn r
  have hsub : (Finset.range n).filter (fun i => run_index A i = r) ⊆ Finset.range len := by
    intro i hi
    simp only [Finset.mem_filter, Finset.mem_range] at hi ⊢
    omega
  have h1 : 0 ≤ run_weight A w n r :=
    Finset.sum_nonneg fun i hi => h0 i (Finset.mem_range.mp (hsub hi))
  have h2 : run_weight A w n r ≤ ∑ i ∈ Finset.range len, w i :=
    Finset.sum_le_sum_of_subset_of_nonneg hsub
      fun i hi _ => h0 i (Finset.mem_range.mp hi)
  constructor
  · have : (-2 : ℤ) ^ 31 ≤ 0 := by norm_num
    omega
  · omega

theorem compress_params_array_len (A : ℕ → ℚ) (w : ℕ → ℤ) (len : ℕ) (hl : 0 < len) :
    (compress_params_array A w len).2.2 = run_index A (len - 1) + 1 := by
  have h := (compress_loop_inv A w len hl len le_rfl).1
  rw [if_neg (Nat.lt_irrefl len)] at h
  exact h

theorem compress_params_array_runs (A : ℕ → ℚ) (w : ℕ → ℤ) (len : ℕ) (hl : 0 < len) :
    ∀ r, r < (compress_params_array A w len).2.2 → ∃ a b, a ≤ b ∧ b < len ∧
      (∀ i, i < len → (run_index A i = r ↔ a ≤ i ∧ i ≤ b)) ∧
      (a = 0 ∨ MIN_DIST < A a - A (a - 1)) ∧ (b + 1 = len ∨ MIN_DIST < A (b + 1) - A b) ∧
      (∀ i, a ≤ i → i < b → A (i + 1) - A i ≤ MIN_DIST) ∧
      (compress_params_array A w len).1 r = (A a + A b) / 2 := by
  intro r hr
  obtain ⟨a, b, hab, hb, hiff, hA⟩ := (compress_loop_inv A w len hl len le_rfl).2.2.2 r hr
  obtain ⟨h1, h2, h3⟩ := run_is_maximal A len r a b hab hb hiff
  refine ⟨a, b, hab, hb, hiff, ?_, ?_, ?_, hA⟩
  · rcases Nat.eq_zero_or_pos a with h0 | h0
    · exact Or.inl h0
    · rcases h1 with h1 | h1
      · omega
      · right
        unfold gap_after at h1
        rw [show a - 1 + 1 = a by omega] at h1
        linarith
  · rcases h2 with h2 | h2
    · exact Or.inl h2
    · right
      unfold gap_after at h2
      linarith
  · intro i hai hib
    have := h3 i hai hib
    unfold gap_after at this
    linarith

/-- C29, amended: for an input of length `len ≥ 1` whose `int` sums do not
overflow (the sums of the weights of the leading elements of each run are
values of `int`),
`compress_params_array` returns a length `len'` with `1 ≤ len' ≤ len`; for
each `r < len'` the weight `w'[r]` is the sum of the input weights of the run
number `r`, a block `a .. b` of consecutive elements in which no value exceeds
the one before it by more than `MIN_DIST` and which is maximal: it starts at
`0` or after a gap of more than `MIN_DIST`, and it ends at `len - 1` or before
such a gap; and the sum of the `len'` output weights is the sum of the `len`
input weights. -/
theorem C29_compress_conserves_weight (A : ℕ → ℚ) (w : ℕ → ℤ) (len : ℕ) (hl : 1 ≤ len)
    (hfit : weights_fit A w len) :
    1 ≤ (compress_params_array A w len).2.2 ∧ (compress_params_array A w len).2.2 ≤ len ∧
    (∀ r, r < (compress_params_array A w len).2.2 → ∃ a b, a ≤ b ∧ b < len ∧
      (∀ i, i < len → (run_index A i = r ↔ a ≤ i ∧ i ≤ b)) ∧
      (a = 0 ∨ MIN_DIST < A a - A (a - 1)) ∧ (b + 1 = len ∨ MIN_DIST < A (b + 1) - A b) ∧
      (∀ i, a ≤ i → i < b → A (i + 1) - A i ≤ MIN_DIST) ∧
      (compress_params_array A w len).2.1 r = ∑ i ∈ Finset.Icc a b, w i) ∧
    ∑ r ∈ Finset.range (compress_params_array A w len).2.2,
        (compress_params_array A w len).2.1 r
      = ∑ i ∈ Finset.range len, w i := by
  have hlen := compress_params_array_len A w len hl
  have hw : ∀ r, r < (compress_params_array A w len).2.2 →
      (compress_params_array A w len).2.1 r = run_weight A w len r := by
    intro r hr
    have hr' : r < (compress_loop A w len len).j := hr
    have : (compress_params_array A w len).2.1 r
        = (List.range (compress_loop A w len len).j).foldl
            (fun v i => fun m => if m = i then (compress_loop A w len len).wn i else v m) w r :=
      rfl
    rw [this, copy_weights, if_pos hr', compress_loop_wn A w len hl hfit len le_rfl]
  refine ⟨by omega, ?_, ?_, ?_⟩
  · have := run_index_le A (len - 1)
    omega
  · intro r hr
    obtain ⟨a, b, hab, hb, hiff, h1, h2, h3, _⟩ := compress_params_array_runs A w len hl r hr
    exact ⟨a, b, hab, hb, hiff, h1, h2, h3,
      (hw r hr).trans (run_weight_interval A w len r a b hb hiff)⟩
  · rw [Finset.sum_congr rfl (fun r hr => hw r (Finset.mem_range.mp hr))]
    unfold run_weight
    apply Finset.sum_fiberwise_of_maps_to
    intro i hi
    rw [Finset.mem_range] at hi ⊢
    have := run_index_mono A (show i ≤ len - 1 by omega)
    omega

theorem C29_compress_conserves_weight_witness :
    1 ≤ 5 ∧ weights_fit demo_values demo_weights 5 ∧
    (compress_params_array demo_values demo_weights 5).2.2 = 3 ∧
    (compress_params_array demo_values demo_weights 5).2.1 0 = 3 ∧
    (compress_params_array demo_values demo_weights 5).2.1 1 = 3 ∧
    (compress_params_array demo_values demo_weights 5).2.1 2 = 9 ∧
    ∑ r ∈ Finset.range (compress_params_array demo_values demo_weights 5).2.2,
        (compress_params_array demo_values demo_weights 5).2.1 r
      = ∑ i ∈ Finset.range 5, demo_weights i :=
  ⟨by decide, weights_fit_of_nonneg _ _ _ (by decide) (by decide),
    by decide!, by decide!, by decide!, by decide!,
    (C29_compress_conserves_weight demo_values demo_weights 5 (by decide)
      (weights_fit_of_nonneg _ _ _ (by decide) (by decide))).2.2.2⟩

/-- C29 as stated fails for the two equal values `0, 0` with the weights
`2 ^ 31 - 1` and `1`: the sum `wn[0] += 1` overflows the type `int`; with the
wrapping of the conversion to `int` the single output weight is `- 2 ^ 31`,
and the sum of the input weights is `2 ^ 31`. -/
theorem C29_weight_sum_overflows :
    (compress_params_array (fun _ => 0) overflow_weights 2).2.2 = 1 ∧
    (compress_params_array (fun _ => 0) overflow_weights 2).2.1 0 = -2 ^ 31 ∧
    ∑ i ∈ Finset.range 2, overflow_weights i = 2 ^ 31 ∧
    (∀ i, -2 ^ 31 ≤ overflow_weights i ∧ overflow_weights i < 2 ^ 31) := by
  refine ⟨by decide!, by decide!, by decide!, ?_⟩
  intro i
  unfold overflow_weights
  split_ifs <;> norm_num

theorem ascending_le (A : ℕ → ℚ) (len : ℕ) (hasc : ∀ i, i + 1 < len → A i ≤ A (i + 1))
    {a b : ℕ} (hab : a ≤ b) (hb : b < len) : A a ≤ A b := by
  induction b with
  | zero =>
    have : a = 0 := by omega
    subst this; exact le_rfl
  | succ b ih =>
    rcases Nat.eq_or_lt_of_le hab with e | e
    · subst e; exact le_rfl
    · exact le_trans (ih (by omega) (by omega)) (hasc b hb)

/-- C30: for an ascending input of any length `len`,
`compress_params_array`, computed in exact arithmetic, stores in `A'[r]` the
midpoint `(A[a] + A[b]) / 2` of the first and the last element of the run
number `r`, a maximal block `a .. b` of consecutive elements without a gap of
more than `MIN_DIST`; before each iteration `n` the elements written so far
are those below `j ≤ n`, so that the elements `A[n]` and `A[n + 1]` that the
iteration reads hold their input values; and each output exceeds the one
before it by more than `MIN_DIST`. -/
theorem C30_compress_midpoints (A : ℕ → ℚ) (w : ℕ → ℤ) (len : ℕ)
    (hasc : ∀ i, i + 1 < len → A i ≤ A (i + 1)) :
    (∀ r, r < (compress_params_array A w len).2.2 → ∃ a b, a ≤ b ∧ b < len ∧
      (∀ i, i < len → (run_index A i = r ↔ a ≤ i ∧ i ≤ b)) ∧
      (a = 0 ∨ MIN_DIST < A a - A (a - 1)) ∧ (b + 1 = len ∨ MIN_DIST < A (b + 1) - A b) ∧
      (∀ i, a ≤ i → i < b → A (i + 1) - A i ≤ MIN_DIST) ∧
      (compress_params_array A w len).1 r = (A a + A b) / 2) ∧
    (∀ n, n < len → (compress_loop A w len n).j ≤ n ∧
      (∀ m, (compress_loop A w len n).j ≤ m → (compress_loop A w len n).A m = A m) ∧
      (compress_loop A w len n).A n = A n ∧
      (compress_loop A w len n).A (n + 1) = A (n + 1)) ∧
    (∀ r, r + 1 < (compress_params_array A w len).2.2 →
      (compress_params_array A w len).1 r + MIN_DIST
        < (compress_params_array A w len).1 (r + 1)) := by
  rcases Nat.eq_zero_or_pos len with h0 | hl
  · subst h0
    exact ⟨fun r hr => absurd hr (Nat.not_lt_zero r), fun n hn => absurd hn (Nat.not_lt_zero n),
      fun r hr => absurd hr (Nat.not_lt_zero _)⟩
  refine ⟨compress_params_array_runs A w len hl, ?_, ?_⟩
  · intro n hn
    obtain ⟨hj, hA, _, _⟩ := compress_loop_inv A w len hl n (by omega)
    rw [if_pos hn] at hj
    have hjn : (compress_loop A w len n).j ≤ n := by rw [hj]; exact run_index_le A n
    exact ⟨hjn, hA, hA n hjn, hA (n + 1) (by omega)⟩
  · intro r hr
    obtain ⟨a, b, hab, hb, hiff, _, h2, _, hA⟩ :=
      compress_params_array_runs A w len hl r (by omega)
    obtain ⟨a', b', hab', hb', hiff', _, _, _, hA'⟩ :=
      compress_params_array_runs A w len hl (r + 1) hr
    have e1 := (hiff b hb).mpr ⟨hab, le_rfl⟩
    have e2 := (hiff' a' (by omega)).mpr ⟨le_rfl, hab'⟩
    have hlt : b < a' := by
      by_contra hcon
      have := run_index_mono A (show a' ≤ b by omega)
      omega
    have hb1 : b + 1 < len := by omega
    have e3 : run_index A (b + 1) = r + 1 := by
      have m1 := run_index_mono A (show b ≤ b + 1 by omega)
      have m2 := run_index_mono A (show b + 1 ≤ a' by omega)
      have ne : ¬ run_index A (b + 1) = r := fun e => by
        have := (hiff (b + 1) hb1).mp e
        omega
      omega
    have ha' : a' = b + 1 := by
      have := (hiff' (b + 1) hb1).mp e3
      omega
    have hgap : MIN_DIST < A (b + 1) - A b := by
      rcases h2 with h2 | h2
      · omega
      · exact h2
    have o1 := ascending_le A len hasc hab hb
    have o2 := ascending_le A len hasc hab' hb'
    rw [hA, hA', ha'] at *
    linarith

theorem demo_values_ascending : ∀ i, i + 1 < 5 → demo_values i ≤ demo_values (i + 1) := by
  intro i hi
  have h4 : i < 4 := by omega
  interval_cases i <;> decide!

theorem C30_compress_midpoints_witness :
    (∀ i, i + 1 < 5 → demo_values i ≤ demo_values (i + 1)) ∧
    (compress_params_array demo_values demo_weights 5).1 0 = 1 + 1 / 40000000 ∧
    (compress_params_array demo_values demo_weights 5).1 1 = 2 ∧
    (compress_params_array demo_values demo_weights 5).1 2 = 3 ∧
    (∀ r, r + 1 < (compress_params_array demo_values demo_weights 5).2.2 →
      (compress_params_array demo_values demo_weights 5).1 r + MIN_DIST
        < (compress_params_array demo_values demo_weights 5).1 (r + 1)) :=
  ⟨demo_values_ascending, by decide!, by decide!, by decide!,
    (C30_compress_midpoints demo_values demo_weights 5 demo_values_ascending).2.2⟩

/-! ## `get_threshold_index` is monotone -/

theorem get_threshold_index_loop_mono (value1 value2 : ℚ) (threshold : ℕ → ℚ)
    (h : value1 ≤ value2) (m : ℕ) :
    get_threshold_index_loop value1 threshold m ≤ get_threshold_index_loop value2 threshold m := by
  induction m with
  | zero => simp [get_threshold_index_loop]
  | succ m ih =>
    by_cases h2 : value2 ≤ threshold m
    · have h1 : value1 ≤ threshold m := le_trans h h2
      simp only [get_threshold_index_loop, if_pos h1, if_pos h2]
      exact ih
    · have := get_threshold_index_loop_le value1 threshold (m + 1)
      simp only [get_threshold_index_loop, if_neg h2] at this ⊢
      exact this

/-- C31: for a threshold array of length `n ≥ 1` and values
`value1 ≤ value2 ≤ threshold[n-1]`, both calls of `get_threshold_index`
return an index, and the index of `value1` is not above the index of `value2`.
The array need not be ascending for this. -/
theorem C31_get_threshold_index_monotone (value1 value2 : ℚ) (threshold : ℕ → ℚ) (n : ℕ)
    (hn : 1 ≤ n) (h12 : value1 ≤ value2) (hv : value2 ≤ threshold (n - 1)) :
    ∃ i1 i2, get_threshold_index value1 threshold n = some i1 ∧
      get_threshold_index value2 threshold n = some i2 ∧ i1 ≤ i2 ∧ i2 < n :=
  ⟨get_threshold_index_loop value1 threshold (n - 1),
    get_threshold_index_loop value2 threshold (n - 1),
    get_threshold_index_eq_some value1 threshold n hn (le_trans h12 hv),
    get_threshold_index_eq_some value2 threshold n hn hv,
    get_threshold_index_loop_mono value1 value2 threshold h12 (n - 1),
    by have := get_threshold_index_loop_le value2 threshold (n - 1); omega⟩

theorem C31_get_threshold_index_monotone_witness :
    1 ≤ 4 ∧ (3 : ℚ) ≤ 5 ∧ (5 : ℚ) ≤ (fun m : ℕ => 2 * (m : ℚ)) (4 - 1) ∧
    get_threshold_index 3 (fun m => 2 * (m : ℚ)) 4 = some 2 ∧
    get_threshold_index 5 (fun m => 2 * (m : ℚ)) 4 = some 3 ∧
    ∃ i1 i2, get_threshold_index 3 (fun m => 2 * (m : ℚ)) 4 = some i1 ∧
      get_threshold_index 5 (fun m => 2 * (m : ℚ)) 4 = some i2 ∧ i1 ≤ i2 ∧ i2 < 4 :=
  ⟨by decide, by norm_num, by norm_num, by decide!, by decide!,
    C31_get_threshold_index_monotone 3 5 (fun m => 2 * (m : ℚ)) 4 (by decide) (by norm_num)
      (by norm_num)⟩

/-! ## The index vectors of the extracted cuts -/

theorem dominated_of_index_le {a b c d : ℕ} {x y : INDEX} (h : dominated a b c d x)
    (hxy : index_le x y) : dominated a b c d y := by
  unfold dominated index_le at *
  omega

/-- A cut that takes incorrect calls from the bins that remain dominates a
bin with incorrect calls that no earlier cut dominates. -/
theorem fresh_bin_of_decrease (parameter : ℕ → PARAMETER) (H0 : ℕ → ℕ → ℕ → ℕ → BIN)
    (L : List INDEX) (e : INDEX)
    (h : hist_incorrect parameter (zeroed (L ++ [e]) H0) + MIN_INCORRECT_COUNT
      ≤ hist_incorrect parameter (zeroed L H0)) :
    ∃ a b c d, in_grid parameter a b c d ∧ dominated a b c d e ∧
      (∀ q ∈ L, ¬ dominated a b c d q) ∧ (H0 a b c d).incorrect ≠ 0 := by
  by_contra hcon
  push_neg at hcon
  have heq : hist_incorrect parameter (zeroed (L ++ [e]) H0)
      = hist_incorrect parameter (zeroed L H0) := by
    unfold hist_incorrect box_incorrect
    apply box_sum_congr
    intro a b c d ha hb hc hd
    rw [zeroed_snoc]
    simp only [zero_below]
    by_cases he : dominated a b c d e
    · rw [if_pos he]
      by_cases hL : ∃ q ∈ L, dominated a b c d q
      · simp only [zeroed, if_pos hL]
      · simp only [zeroed, if_neg hL]
        have hL' : ∀ q ∈ L, ¬ dominated a b c d q := fun q hq hd' => hL ⟨q, hq, hd'⟩
        exact (hcon a b c d ⟨ha, hb, hc, hd⟩ he hL').symm
    · rw [if_neg he]
  rw [heq] at h
  simp only [MIN_INCORRECT_COUNT] at h
  omega

/-- C32: in the sequence of cuts that `create_qv_table_via_dynamic_programming`
extracts (the rows of the table, in the order in which it writes them), the
index vector of a cut is not component-wise `≤` the index vector of an earlier
cut; hence the index vectors of the rows are pairwise distinct; and every cut
dominates a bin of the grid that holds incorrect calls in the original
histogram and that no earlier cut dominates. -/
theorem C32_rows_not_dominated (parameter : ℕ → PARAMETER) (hs : strides_set parameter)
    (fuel : ℕ) (bin : ℕ → BIN) (base_count : ℕ) (previous_cube current_cube : ℤ → CUT)
    (h : HIGHEST_QV_CUT) (s : DP_STATE)
    (hrun : create_qv_table_via_dynamic_programming fuel bin parameter base_count
      previous_cube current_cube h = some s) :
    s.fout = s.extracted.map (fun q => (q.quality_value, q.index)) ∧
    (∀ (m n : ℕ) (qm qn : HIGHEST_QV_CUT), m < n → s.extracted[m]? = some qm → s.extracted[n]? = some qn →
      ¬ index_le qn.index qm.index) ∧
    (∀ (m n : ℕ) (qm qn : HIGHEST_QV_CUT), m < n → s.extracted[m]? = some qm → s.extracted[n]? = some qn →
      qn.index ≠ qm.index) ∧
    (∀ (n : ℕ) (qn : HIGHEST_QV_CUT), s.extracted[n]? = some qn →
      ∃ a b c d, in_grid parameter a b c d ∧ dominated a b c d qn.index ∧
        (∀ (m : ℕ) (qm : HIGHEST_QV_CUT), m < n → s.extracted[m]? = some qm → ¬ dominated a b c d qm.index) ∧
        (bin_at parameter bin a b c d).incorrect ≠ 0) := by
  obtain ⟨s0, hiff, _, _, _, hstep, _, _⟩ :=
    create_qv_table_terminates hs bin base_count previous_cube current_cube h
  have hs0 : s0 = s := by
    have h1 := (hiff (fuel + (s0.extracted.length + 1))).mpr (by omega)
    have h2 := dp_loop_mono parameter _ _ _ hrun (fuel + (s0.extracted.length + 1)) (by omega)
    simp only [create_qv_table_via_dynamic_programming] at h1
    rw [h2] at h1
    exact (Option.some.inj h1).symm
  subst hs0
  have hfresh : ∀ (n : ℕ) (qn : HIGHEST_QV_CUT), s0.extracted[n]? = some qn →
      ∃ a b c d, in_grid parameter a b c d ∧ dominated a b c d qn.index ∧
        (∀ (m : ℕ) (qm : HIGHEST_QV_CUT), m < n → s0.extracted[m]? = some qm → ¬ dominated a b c d qm.index) ∧
        (bin_at parameter bin a b c d).incorrect ≠ 0 := by
    intro n qn hn
    have hlen : n < s0.extracted.length := by
      rcases Nat.lt_or_ge n s0.extracted.length with hl | hl
      · exact hl
      · rw [List.getElem?_eq_none hl] at hn
        exact absurd hn (by simp)
    have hidx : (extracted_indices s0)[n]? = some qn.index := by
      simp only [extracted_indices, List.getElem?_map, hn, Option.map_some']
    have htake : (extracted_indices s0).take (n + 1)
        = (extracted_indices s0).take n ++ [qn.index] := by
      rw [List.take_succ, hidx]
      rfl
    have hd := hstep n hlen
    rw [htake] at hd
    obtain ⟨a, b, c, d, hg, hdom, hnot, hne⟩ :=
      fresh_bin_of_decrease parameter (bin_at parameter bin) _ _ hd
    refine ⟨a, b, c, d, hg, hdom, ?_, hne⟩
    intro m qm hmn hm
    apply hnot
    have hm' : ((extracted_indices s0).take n)[m]? = some qm.index := by
      rw [List.getElem?_take_of_lt hmn]
      simp only [extracted_indices, List.getElem?_map, hm, Option.map_some']
    exact List.getElem?_mem hm'
  have hnle : ∀ (m n : ℕ) (qm qn : HIGHEST_QV_CUT), m < n → s0.extracted[m]? = some qm → s0.extracted[n]? = some qn →
      ¬ index_le qn.index qm.index := by
    intro m n qm qn hmn hm hn hle
    obtain ⟨a, b, c, d, _, hdom, hnot, _⟩ := hfresh n qn hn
    exact hnot m qm hmn hm (dominated_of_index_le hdom hle)
  refine ⟨create_fout hrun, hnle, ?_, hfresh⟩
  intro m n qm qn hmn hm hn heq
  apply hnle m n qm qn hmn hm hn
  rw [heq]
  exact ⟨le_rfl, le_rfl, le_rfl, le_rfl⟩

theorem C32_rows_not_dominated_witness :
    strides_set demo_parameter ∧
    create_qv_table_via_dynamic_programming 20 demo_bin demo_parameter 376
      (fun _ => ⟨0, 0⟩) (fun _ => ⟨0, 0⟩) demo_cut = some demo_final ∧
    1 < demo_final.extracted.length ∧
    (∀ (m n : ℕ) (qm qn : HIGHEST_QV_CUT), m < n → demo_final.extracted[m]? = some qm →
      demo_final.extracted[n]? = some qn → ¬ index_le qn.index qm.index) :=
  ⟨by decide, demo_final_run, by decide!,
    (C32_rows_not_dominated demo_parameter (by decide) 20 demo_bin 376 (fun _ => ⟨0, 0⟩)
      (fun _ => ⟨0, 0⟩) demo_cut demo_final demo_final_run).2.1⟩

/-! ## A second sweep over the bins that a sweep leaves -/

/-- The bins of the grid after a pass, and the state after it. -/
theorem info_of_pass_facts {parameter : ℕ → PARAMETER} (hs : strides_set parameter) (p : INDEX)
    {info : INFO} (hr : info_ready parameter info) (h : HIGHEST_QV_CUT) :
    info_ready parameter (info_of_pass parameter p info h) ∧
    (∀ a b c d, in_grid parameter a b c d →
      bin_at parameter (info_of_pass parameter p info h).bin a b c d
        = zero_below p (bin_at parameter info.bin) a b c d) ∧
    (∀ a b c d, in_grid parameter a b c d →
      zero_below p (bin_at parameter (info_of_pass parameter p info h).bin) a b c d
        = zero_below p (bin_at parameter info.bin) a b c d) := by
  obtain ⟨_, r2, r3⟩ := scan_l_result hs p hr (initialize_highest_qv_cut h)
  refine ⟨r2, r3, ?_⟩
  intro a b c d hg
  have r3' : ∀ a b c d, in_grid parameter a b c d →
      bin_at parameter (info_of_pass parameter p info h).bin a b c d
        = zero_below p (bin_at parameter info.bin) a b c d := r3
  rw [zero_below_congr_grid p r3' a b c d hg, zero_below_idem]

/-- The best cut of a pass as the fold of the ranking rule over the cells of
the grid. -/
theorem best_of_pass_eq_foldl {parameter : ℕ → PARAMETER} (hs : strides_set parameter)
    (p : INDEX) {info : INFO} (hr : info_ready parameter info) (h : HIGHEST_QV_CUT) :
    best_of_pass parameter p info h
      = (grid_cells parameter).foldl
          (fun h x => select_cell parameter p
            (region_value (zero_below p (bin_at parameter info.bin)))
            x.1 x.2.1 x.2.2.1 x.2.2.2 h) (initialize_highest_qv_cut h) := by
  unfold best_of_pass
  rw [(scan_l_result hs p hr (initialize_highest_qv_cut h)).1, select_l_eq_foldl]

/-- The best cut of a pass over the state that a pass leaves, started with
any record `h'`, as a fold over the region counts of the first pass. -/
theorem best_of_second_pass {parameter : ℕ → PARAMETER} (hs : strides_set parameter)
    (p : INDEX) {info : INFO} (hr : info_ready parameter info) (h h' : HIGHEST_QV_CUT) :
    best_of_pass parameter p (info_of_pass parameter p info h) h'
      = (grid_cells parameter).foldl
          (fun h x => select_cell parameter p
            (region_value (zero_below p (bin_at parameter info.bin)))
            x.1 x.2.1 x.2.2.1 x.2.2.2 h) (initialize_highest_qv_cut h') := by
  obtain ⟨r2, _, hz⟩ := info_of_pass_facts hs p hr h
  rw [best_of_pass_eq_foldl hs p r2 h']
  apply select_foldl_congr
  intro x hx
  have hg : in_grid parameter x.1 x.2.1 x.2.2.1 x.2.2.2 :=
    (mem_grid_cells parameter x.1 x.2.1 x.2.2.1 x.2.2.2).mp hx
  exact region_value_congr_grid hz hg

/-- C33: a second sweep with the same index vector `p`, over the state that a
first sweep leaves, changes no element of the bin array, returns at every cell
of the grid the region count that the first sweep returned there, and ends
with the best cut of the first sweep, whether it starts from the record that
the first sweep left or from the record with which the first sweep started. -/
theorem C33_second_sweep_is_idempotent (parameter : ℕ → PARAMETER)
    (hs : strides_set parameter) (p : INDEX) (info : INFO) (hr : info_ready parameter info)
    (h : HIGHEST_QV_CUT) :
    (info_of_pass parameter p (info_of_pass parameter p info h)
        (best_of_pass parameter p info h)).bin
      = (info_of_pass parameter p info h).bin ∧
    (∀ i j k l, in_grid parameter i j k l →
      region_count parameter p
          (info_of_pass parameter p info h,
            initialize_highest_qv_cut (best_of_pass parameter p info h)) i j k l
        = region_count parameter p (info, initialize_highest_qv_cut h) i j k l) ∧
    best_of_pass parameter p (info_of_pass parameter p info h)
        (best_of_pass parameter p info h)
      = best_of_pass parameter p info h ∧
    best_of_pass parameter p (info_of_pass parameter p info h) h
      = best_of_pass parameter p info h := by
  obtain ⟨r2, r3, hz⟩ := info_of_pass_facts hs p hr h
  refine ⟨?_, ?_, ?_, ?_⟩
  · funext o
    rcases (scan_l_bins_frame parameter p
        (info_of_pass parameter p info h,
          initialize_highest_qv_cut (best_of_pass parameter p info h)) r2.1).2 o with e | ⟨e, a, b, c, d, hg, hd, ho⟩
    · exact e
    · have e1 := r3 a b c d hg
      simp only [bin_at, zero_below, if_pos hd, ho] at e1
      rw [e1]
      exact e
  · intro i j k l hg
    rw [region_count_eq hs hr _ hg, region_count_eq hs r2 _ hg]
    exact region_value_congr_grid hz hg
  · rw [best_of_second_pass hs p hr h, best_of_pass_eq_foldl hs p hr h]
    rcases select_foldl_start parameter p
        (region_value (zero_below p (bin_at parameter info.bin))) (grid_cells parameter)
        (initialize_highest_qv_cut h)
        (initialize_highest_qv_cut
          ((grid_cells parameter).foldl
            (fun h x => select_cell parameter p
              (region_value (zero_below p (bin_at parameter info.bin)))
              x.1 x.2.1 x.2.2.1 x.2.2.2 h) (initialize_highest_qv_cut h)))
        rfl rfl rfl with e | ⟨e3, e4⟩
    · exact e.symm
    · rw [e4, e3]
      rfl
  · rw [best_of_second_pass hs p hr h, best_of_pass_eq_foldl hs p hr h]

theorem C33_second_sweep_is_idempotent_witness :
    strides_set demo_parameter ∧ info_ready demo_parameter demo_stale_info ∧
    (info_of_pass demo_parameter ⟨0, 1, 0, 1⟩
        (info_of_pass demo_parameter ⟨0, 1, 0, 1⟩ demo_stale_info demo_cut)
        (best_of_pass demo_parameter ⟨0, 1, 0, 1⟩ demo_stale_info demo_cut)).bin
      = (info_of_pass demo_parameter ⟨0, 1, 0, 1⟩ demo_stale_info demo_cut).bin ∧
    best_of_pass demo_parameter ⟨0, 1, 0, 1⟩
        (info_of_pass demo_parameter ⟨0, 1, 0, 1⟩ demo_stale_info demo_cut)
        (best_of_pass demo_parameter ⟨0, 1, 0, 1⟩ demo_stale_info demo_cut)
      = best_of_pass demo_parameter ⟨0, 1, 0, 1⟩ demo_stale_info demo_cut ∧
    (best_of_pass demo_parameter ⟨0, 1, 0, 1⟩ demo_stale_info
      demo_cut).total_base_call_count ≠ 0 :=
  ⟨by decide, ⟨rfl, rfl, rfl, rfl, rfl, rfl⟩,
    (C33_second_sweep_is_idempotent demo_parameter (by decide) ⟨0, 1, 0, 1⟩ demo_stale_info
      ⟨rfl, rfl, rfl, rfl, rfl, rfl⟩ demo_cut).1,
    (C33_second_sweep_is_idempotent demo_parameter (by decide) ⟨0, 1, 0, 1⟩ demo_stale_info
      ⟨rfl, rfl, rfl, rfl, rfl, rfl⟩ demo_cut).2.2.1, by decide!⟩

/-! ## The range of the error rate -/

theorem error_rate_of_range {correct incorrect : ℕ} (hW : correct + incorrect < ULONG_MOD)
    (h1 : incorrect = 0 → correct + 1 < ULONG_MOD) :
    0 < error_rate_of correct incorrect ∧ error_rate_of correct incorrect ≤ 1 := by
  by_cases h0 : incorrect = 0
  · subst h0
    have hc := h1 rfl
    rw [error_rate_of_exact (by omega)]
    simp only [if_true, Nat.add_zero]
    have hpos : (0 : ℚ) < 1 + (correct : ℚ) := by positivity
    constructor
    · positivity
    · rw [div_le_one hpos]
      have : (0 : ℚ) ≤ (correct : ℚ) := Nat.cast_nonneg _
      linarith
  · have ht : total_of correct incorrect = correct + incorrect := Nat.mod_eq_of_lt hW
    simp only [error_rate_of, if_neg h0, ht]
    have hi : (0 : ℚ) < (incorrect : ℚ) := by exact_mod_cast Nat.pos_of_ne_zero h0
    have hpos : (0 : ℚ) < ((correct + incorrect : ℕ) : ℚ) := by
      exact_mod_cast (by omega : 0 < correct + incorrect)
    constructor
    · positivity
    · rw [div_le_one hpos]
      exact_mod_cast (by omega : incorrect ≤ correct + incorrect)

/-- C34, amended: for counts whose total `correct + incorrect` does not
overflow, and is below `2 ^ 64 - 1` when `incorrect = 0`, the error rate that
`update_highest_qv_cut` computes lies in `(0, 1]` and the quality is `≥ 0`;
a candidate with at least `MIN_INCORRECT_COUNT` incorrect calls whose total
does not overflow has a quality that is not below the quality `0` of the
record that `initialize_highest_qv_cut` gives. -/
theorem C34_error_rate_in_unit_interval (correct incorrect : ℕ)
    (hW : correct + incorrect < ULONG_MOD)
    (h1 : incorrect = 0 → correct + 1 < ULONG_MOD) :
    incorrect ≤ total_of correct incorrect ∧
    0 < error_rate_of correct incorrect ∧ error_rate_of correct incorrect ≤ 1 ∧
    0 ≤ quality_of correct incorrect ∧
    (∀ h : HIGHEST_QV_CUT, (initialize_highest_qv_cut h).quality_value = 0) ∧
    (∀ (h : HIGHEST_QV_CUT) (parameter : ℕ → PARAMETER) (i j k l : ℕ),
      (initialize_highest_qv_cut h).quality_value
        ≤ (cut_record parameter correct incorrect i j k l).quality_value) ∧
    (∀ c n : ℕ, MIN_INCORRECT_COUNT ≤ n → c + n < ULONG_MOD →
      0 < error_rate_of c n ∧ error_rate_of c n ≤ 1 ∧ 0 ≤ quality_of c n) := by
  obtain ⟨e1, e2⟩ := error_rate_of_range hW h1
  have hq : 0 ≤ quality_of correct incorrect := quality_of_error_rate_nonneg e2
  refine ⟨?_, e1, e2, hq, fun _ => rfl, fun _ _ _ _ _ _ => hq, ?_⟩
  · rw [total_of, Nat.mod_eq_of_lt hW]
    omega
  · intro c n hn hcn
    have hn0 : ¬ n = 0 := by
      simp only [MIN_INCORRECT_COUNT] at hn
      omega
    obtain ⟨e3, e4⟩ := error_rate_of_range hcn (fun e => absurd e hn0)
    exact ⟨e3, e4, quality_of_error_rate_nonneg e4⟩

theorem C34_error_rate_in_unit_interval_witness :
    5 + 3 < ULONG_MOD ∧ ((3 : ℕ) = 0 → 5 + 1 < ULONG_MOD) ∧
    error_rate_of 5 3 = 3 / 8 ∧ quality_of 5 3 = 4 ∧
    0 < error_rate_of 5 3 ∧ error_rate_of 5 3 ≤ 1 ∧ 0 ≤ quality_of 5 3 :=
  ⟨by decide, by decide, by decide!, by decide!,
    (C34_error_rate_in_unit_interval 5 3 (by decide) (by decide)).2.1,
    (C34_error_rate_in_unit_interval 5 3 (by decide) (by decide)).2.2.1,
    (C34_error_rate_in_unit_interval 5 3 (by decide) (by decide)).2.2.2.1⟩

/-- C34 as stated fails for `correct = 2 ^ 64 - 1`, `incorrect = 0`: the total
`correct + incorrect` does not overflow and `incorrect ≤ total`, but the
divisor `1 + total` is the `unsigned long` value `0`, so that the error rate is
the quotient `1 / 0`, which is no number of `(0, 1]` (in the embedding the
quotient by zero is `0`). -/
theorem C34_error_rate_divides_by_zero :
    2 ^ 64 - 1 + 0 < ULONG_MOD ∧ 0 ≤ total_of (2 ^ 64 - 1) 0 ∧
    total_of (2 ^ 64 - 1) 0 = 2 ^ 64 - 1 ∧
    error_rate_dividend (2 ^ 64 - 1) 0 = 1 ∧ error_rate_divisor (2 ^ 64 - 1) 0 = 0 ∧
    ¬ (0 < error_rate_of (2 ^ 64 - 1) 0 ∧ error_rate_of (2 ^ 64 - 1) 0 ≤ 1) := by
  refine ⟨by decide, by decide, by decide, by decide, by decide, by decide!⟩

/-! ## The sums of `number_in_cut`, operation by operation -/

theorem ulong_eval_congr (first : ℕ) (terms : List (Bool × ℕ)) :
    ((ulong_eval first terms : ℕ) : ℤ) % (ULONG_MOD : ℤ)
      = ((first : ℤ) + signed_sum terms) % (ULONG_MOD : ℤ) := by
  induction terms using List.reverseRecOn with
  | nil => simp [ulong_eval, signed_sum]
  | append_singleton ts t ih =>
    have e1 : ulong_eval first (ts ++ [t]) = ulong_step (ulong_eval first ts) t := by
      simp [ulong_eval, List.foldl_append]
    have e2 : signed_sum (ts ++ [t])
        = signed_sum ts + (if t.1 then (t.2 : ℤ) else -(t.2 : ℤ)) := by
      simp [signed_sum]
    rw [e1, e2]
    unfold ulong_step
    have hM : (0 : ℤ) < (ULONG_MOD : ℤ) := by norm_num [ULONG_MOD]
    rw [Int.toNat_of_nonneg (Int.emod_nonneg _ (ne_of_gt hM)), Int.emod_emod_of_dvd _ dvd_rfl,
      Int.add_emod, ih, ← Int.add_emod, add_assoc]

theorem ulong_eval_snoc (first : ℕ) (ts : List (Bool × ℕ)) (t : Bool × ℕ) :
    ulong_eval first (ts ++ [t])
      = (((first : ℤ) + signed_sum (ts ++ [t])) % (ULONG_MOD : ℤ)).toNat := by
  have h := ulong_eval_congr first (ts ++ [t])
  have hM : (0 : ℤ) < (ULONG_MOD : ℤ) := by norm_num [ULONG_MOD]
  have e1 : ulong_eval first (ts ++ [t]) = ulong_step (ulong_eval first ts) t := by
    simp [ulong_eval, List.foldl_append]
  have hlt : ((ulong_eval first (ts ++ [t]) : ℕ) : ℤ) < (ULONG_MOD : ℤ) := by
    rw [e1]
    unfold ulong_step
    rw [Int.toNat_of_nonneg (Int.emod_nonneg _ (ne_of_gt hM))]
    exact Int.emod_lt_of_pos _ hM
  rw [Int.emod_eq_of_lt (Int.natCast_nonneg _) hlt] at h
  rw [← h]
  simp

theorem number_in_cut_stepwise_eq (i j k l : ℕ) (info : INFO) (p : INDEX) :
    number_in_cut_stepwise i j k l info p = number_in_cut i j k l info p := by
  have hsnoc : ∀ (first : ℕ) (c : CORNERS) (count : CUTPTR → ℕ),
      ulong_eval first (number_in_cut_terms c count)
        = (((first : ℤ) + count c.c_0111 + count c.c_1011 - count c.c_0011
            + count c.c_1101 - count c.c_0101 - count c.c_1001 + count c.c_0001
            + count c.c_1110 - count c.c_0110 - count c.c_1010 + count c.c_0010
            - count c.c_1100 + count c.c_0100 + count c.c_1000 - count c.c_0000)
            % (ULONG_MOD : ℤ)).toNat := by
    intro first c count
    have e : number_in_cut_terms c count
        = [(true, count c.c_0111), (true, count c.c_1011), (false, count c.c_0011),
            (true, count c.c_1101), (false, count c.c_0101), (false, count c.c_1001),
            (true, count c.c_0001),
            (true, count c.c_1110), (false, count c.c_0110), (false, count c.c_1010),
            (true, count c.c_0010),
            (false, count c.c_1100), (true, count c.c_0100), (true, count c.c_1000)]
          ++ [(false, count c.c_0000)] := rfl
    rw [e, ulong_eval_snoc]
    congr 2
    simp [signed_sum]
    ring
  unfold number_in_cut_stepwise number_in_cut number_in_cut_zeroed
  simp only [hsnoc]

/-- C35: each of the two sums of `number_in_cut`, evaluated operation by
operation from left to right in `unsigned long` arithmetic (every
intermediate result reduced modulo `2 ^ 64`), is the value of the whole signed
sum modulo `2 ^ 64`; and when the total count of the histogram is below
`2 ^ 64`, the count that `number_in_cut` stores at a cell of the grid during
a sweep is the box sum itself, whether or not an intermediate result wraps
around. -/
theorem C35_stepwise_sum_is_box_sum (parameter : ℕ → PARAMETER) (hs : strides_set parameter)
    (info : INFO) (hr : info_ready parameter info) (p : INDEX) (h : HIGHEST_QV_CUT)
    (i j k l : ℕ) (hin : in_grid parameter i j k l)
    (hW : hist_total parameter (bin_at parameter info.bin) < ULONG_MOD) :
    (∀ (first : ℕ) (ts : List (Bool × ℕ)) (t : Bool × ℕ),
      ulong_eval first (ts ++ [t])
        = (((first : ℤ) + signed_sum (ts ++ [t])) % (ULONG_MOD : ℤ)).toNat) ∧
    (∀ (a b c d : ℕ) (info' : INFO) (q : INDEX),
      number_in_cut_stepwise a b c d info' q = number_in_cut a b c d info' q) ∧
    ((number_in_cut_stepwise i j k l (sweep_before parameter p i j k l (info, h)).1 p).2.load
        (number_in_cut_stepwise i j k l (sweep_before parameter p i j k l (info, h)).1 p).1).correct
      = box_correct (zero_below p (bin_at parameter info.bin)) (i + 1) (j + 1) (k + 1) (l + 1) ∧
    ((number_in_cut_stepwise i j k l (sweep_before parameter p i j k l (info, h)).1 p).2.load
        (number_in_cut_stepwise i j k l (sweep_before parameter p i j k l (info, h)).1 p).1).incorrect
      = box_incorrect (zero_below p (bin_at parameter info.bin))
          (i + 1) (j + 1) (k + 1) (l + 1) := by
  refine ⟨ulong_eval_snoc, number_in_cut_stepwise_eq, ?_⟩
  rw [number_in_cut_stepwise_eq]
  exact region_count_exact hs hr p h hin hW

theorem C35_stepwise_sum_is_box_sum_witness :
    strides_set demo_parameter ∧ info_ready demo_parameter big_info ∧
    in_grid demo_parameter 1 1 0 0 ∧
    hist_total demo_parameter (bin_at demo_parameter big_info.bin) < ULONG_MOD ∧
    ((2 : ℤ) ^ 64 ≤
      ((number_in_cut_zeroed 1 1 0 0
          (sweep_before demo_parameter ⟨-1, -1, -1, -1⟩ 1 1 0 0 (big_info, demo_cut)).1
          ⟨-1, -1, -1, -1⟩).bin (get_bin demo_parameter (index4 1 1 0 0))).correct
        + signed_sum ((number_in_cut_terms
            (number_in_cut_corners 1 1 0 0
              (sweep_before demo_parameter ⟨-1, -1, -1, -1⟩ 1 1 0 0 (big_info, demo_cut)).1)
            fun q => ((number_in_cut_zeroed 1 1 0 0
              (sweep_before demo_parameter ⟨-1, -1, -1, -1⟩ 1 1 0 0 (big_info, demo_cut)).1
              ⟨-1, -1, -1, -1⟩).load q).correct).take 2)) ∧
    ulong_eval
        ((number_in_cut_zeroed 1 1 0 0
          (sweep_before demo_parameter ⟨-1, -1, -1, -1⟩ 1 1 0 0 (big_info, demo_cut)).1
          ⟨-1, -1, -1, -1⟩).bin (get_bin demo_parameter (index4 1 1 0 0))).correct
        ((number_in_cut_terms
            (number_in_cut_corners 1 1 0 0
              (sweep_before demo_parameter ⟨-1, -1, -1, -1⟩ 1 1 0 0 (big_info, demo_cut)).1)
            fun q => ((number_in_cut_zeroed 1 1 0 0
              (sweep_before demo_parameter ⟨-1, -1, -1, -1⟩ 1 1 0 0 (big_info, demo_cut)).1
              ⟨-1, -1, -1, -1⟩).load q).correct).take 2) = 3 ∧
    box_correct (zero_below ⟨-1, -1, -1, -1⟩ (bin_at demo_parameter big_info.bin)) 2 2 1 1
      = 2 ^ 63 + 3 ∧
    ((number_in_cut_stepwise 1 1 0 0
          (sweep_before demo_parameter ⟨-1, -1, -1, -1⟩ 1 1 0 0 (big_info, demo_cut)).1
          ⟨-1, -1, -1, -1⟩).2.load
        (number_in_cut_stepwise 1 1 0 0
          (sweep_before demo_parameter ⟨-1, -1, -1, -1⟩ 1 1 0 0 (big_info, demo_cut)).1
          ⟨-1, -1, -1, -1⟩).1).correct
      = box_correct (zero_below ⟨-1, -1, -1, -1⟩ (bin_at demo_parameter big_info.bin))
          (1 + 1) (1 + 1) (0 + 1) (0 + 1) :=
  ⟨by decide, ⟨rfl, rfl, rfl, rfl, rfl, rfl⟩, by decide, by decide!, by decide!, by decide!,
    by decide!,
    (C35_stepwise_sum_is_box_sum demo_parameter (by decide) big_info
      ⟨rfl, rfl, rfl, rfl, rfl, rfl⟩ ⟨-1, -1, -1, -1⟩ demo_cut 1 1 0 0 (by decide)
      (by decide!)).2.2.1⟩

end Lut
